import Mathlib

/-!
# Pointer confinement: outline extraction, motion clamping, recovery

A shallow embedding of `src/backends/native/meta-pointer-constraint-native.c`.

Conventions of the embedding

* Numbers are rationals (`ℚ`) and integers (`ℤ`). The definitions that carry the name
  of a C function keep every `float` and `double` exact and reach an element of a
  `GArray` through its index. The definitions with `_c` appended to the name, in the
  last part of the definitions, follow the program where that differs: a value stored
  in a `float` is rounded to binary32, an `int` passed for a `float` parameter is
  converted, a squared distance can overflow, and a write through a pointer into an
  array that has been moved is lost.
* `int` values are unbounded integers; overflow of `int` arithmetic is not modelled.
* A `GArray` of borders is a `List MetaBorder`.
* A computation that stops in `g_assert`, reads outside an array or dereferences
  `NULL` yields `none`.
* `wl_fixed_to_double (1)` is `1 / 256`.
* The `while (directions)` loop of the constrain operation takes a fuel argument and
  reports how many times its body was entered.
-/

set_option autoImplicit false

namespace PointerConstraint

/-! ## Data model -/

/-- Two `float` coordinates, as in `MetaVector2`. -/
structure MetaVector2 where
  x : ℚ
  y : ℚ
  deriving DecidableEq

/-- Line segment from `a` to `b`, as in `MetaLine2`. -/
structure MetaLine2 where
  a : MetaVector2
  b : MetaVector2
  deriving DecidableEq

/-- Mask over the four `META_BORDER_MOTION_DIRECTION_*` flags. The numeric values of
the flags are declared in `core/meta-border.h`; the mask is kept as one bit per flag. -/
structure Directions where
  positive_x : Bool
  positive_y : Bool
  negative_x : Bool
  negative_y : Bool
  deriving DecidableEq

/-- The empty mask, `0`. -/
def Directions.none : Directions := ⟨false, false, false, false⟩

def META_BORDER_MOTION_DIRECTION_POSITIVE_X : Directions := ⟨true, false, false, false⟩

def META_BORDER_MOTION_DIRECTION_POSITIVE_Y : Directions := ⟨false, true, false, false⟩

def META_BORDER_MOTION_DIRECTION_NEGATIVE_X : Directions := ⟨false, false, true, false⟩

def META_BORDER_MOTION_DIRECTION_NEGATIVE_Y : Directions := ⟨false, false, false, true⟩

/-- Bitwise or of two masks, `d | e`. -/
def Directions.or (d e : Directions) : Directions :=
  ⟨d.positive_x || e.positive_x, d.positive_y || e.positive_y,
   d.negative_x || e.negative_x, d.negative_y || e.negative_y⟩

/-- Bitwise and of two masks, `d & e`. -/
def Directions.and (d e : Directions) : Directions :=
  ⟨d.positive_x && e.positive_x, d.positive_y && e.positive_y,
   d.negative_x && e.negative_x, d.negative_y && e.negative_y⟩

/-- Clearing the bits of `e` in `d`, `d & ~e`. -/
def Directions.clear (d e : Directions) : Directions :=
  ⟨d.positive_x && !e.positive_x, d.positive_y && !e.positive_y,
   d.negative_x && !e.negative_x, d.negative_y && !e.negative_y⟩

/-- Truth value of a mask in a C condition: some bit is set. -/
def Directions.nonzero (d : Directions) : Bool :=
  d.positive_x || d.positive_y || d.negative_x || d.negative_y

/-- Oriented segment with the directions it blocks, as in `MetaBorder`. -/
structure MetaBorder where
  line : MetaLine2
  blocking_directions : Directions
  deriving DecidableEq

/-- Integer box with corners `(x1, y1)` and `(x2, y2)`, as in `MetaBox`. -/
structure MetaBox where
  x1 : ℤ
  y1 : ℤ
  x2 : ℤ
  y2 : ℤ
  deriving DecidableEq

/-- Rectangle of a region: position and size, as in `MtkRectangle`. -/
structure MtkRectangle where
  x : ℤ
  y : ℤ
  width : ℤ
  height : ℤ
  deriving DecidableEq

/-- Fields of `MetaPointerConstraintImplNative` that the operations read; the region
is the sequence of its rectangles. -/
structure MetaPointerConstraintImplNative where
  region : List MtkRectangle
  origin : MetaVector2
  min_edge_distance : ℚ

/-- The constant `wl_fixed_to_double (1)`: one unit of a 24.8 fixed-point number. -/
def wl_fixed_unit : ℚ := 1 / 256

/-! ## Helpers declared outside the translated file -/

/-- Modelled from the spec: `meta_border_is_horizontal` of `core/meta-border.c` is not
among the sources; the spec calls a border horizontal when `a.y == b.y`. -/
def meta_border_is_horizontal (border : MetaBorder) : Bool :=
  decide (border.line.a.y = border.line.b.y)

/-- Modelled from the spec: `meta_border_is_blocking_directions` of
`core/meta-border.c` is not among the sources; the spec selects the borders "whose
blocking-direction set intersects the current direction set". -/
def meta_border_is_blocking_directions (border : MetaBorder) (directions : Directions) :
    Bool :=
  (border.blocking_directions.and directions).nonzero

/-- Modelled from the spec: `meta_vector2_subtract` of `core/meta-border.h` is not
among the sources; component-wise difference `a - b`. -/
def meta_vector2_subtract (a b : MetaVector2) : MetaVector2 :=
  ⟨a.x - b.x, a.y - b.y⟩

/-- Cross product `a.x * b.y - a.y * b.x` of two plane vectors. -/
def cross_product (a b : MetaVector2) : ℚ :=
  a.x * b.y - a.y * b.x

/-- Modelled from the spec: `meta_line2_intersects_with` of `core/meta-border.c` is not
among the sources; the spec asks whether the border's "segment geometrically intersects
the motion line" and uses "the intersection point". With `p + t r` on the first segment
and `q + u s` on the second, the segments meet in one point when `r × s ≠ 0` and both
parameters lie in `[0, 1]`; segments on parallel lines have no single intersection
point and give `none`. -/
def meta_line2_intersects_with (line1 line2 : MetaLine2) : Option MetaVector2 :=
  let p := line1.a
  let r := meta_vector2_subtract line1.b line1.a
  let q := line2.a
  let s := meta_vector2_subtract line2.b line2.a
  let rxs := cross_product r s
  if rxs = 0 then none
  else
    let t := cross_product (meta_vector2_subtract q p) s / rxs
    let u := cross_product (meta_vector2_subtract q p) r / rxs
    if 0 ≤ t ∧ t ≤ 1 ∧ 0 ≤ u ∧ u ≤ 1 then some ⟨p.x + t * r.x, p.y + t * r.y⟩
    else none

/-- Modelled from the spec: `mtk_region_is_empty` of the `mtk` library is not among the
sources; the empty region is the "region with zero rectangles". -/
def mtk_region_is_empty (region : List MtkRectangle) : Bool :=
  region.isEmpty

/-- Modelled from the spec: `mtk_region_contains_point` of the `mtk` library is not
among the sources; a point "lies inside the region" when one of the rectangles holds
it, where (comment of the constrain operation) top and left edges are within the
allowed area and bottom and right edges are outside. -/
def mtk_region_contains_point (region : List MtkRectangle) (x y : ℤ) : Bool :=
  region.any fun rect =>
    decide (rect.x ≤ x ∧ x < rect.x + rect.width ∧ rect.y ≤ y ∧ y < rect.y + rect.height)

/-- Conversion `(int) v` of a `float`: the fractional part is discarded (rounding
toward zero). -/
def float_to_int (v : ℚ) : ℤ :=
  Int.tdiv v.num v.den

/-- Stable sort of `g_array_sort` (GLib documents the sort as stable): `a` stays in
front of `b` unless the comparison function returns a positive value for `(a, b)`. -/
def g_array_sort (array : List MetaBorder) (compare_func : MetaBorder → MetaBorder → ℤ) :
    List MetaBorder :=
  array.insertionSort fun a b => compare_func a b ≤ 0

/-! ## Outline extraction -/

/-- Appends the border `(x1, y1)-(x2, y2)`; the new element is the last one. The
parameters are `float` values; the callers of the `_c` definitions convert their `int`
arguments with `int_to_float`, the other callers pass the integers as they are. -/
def add_border (borders : List MetaBorder) (x1 y1 x2 y2 : ℚ)
    (blocking_directions : Directions) : List MetaBorder :=
  borders ++ [⟨⟨⟨x1, y1⟩, ⟨x2, y2⟩⟩, blocking_directions⟩]

/-- Comparison function of the band merge; a C comparison yields `1` or `0`. -/
def compare_lines_x (border_a border_b : MetaBorder) : ℤ :=
  if border_a.line.a.x = border_b.line.a.x then
    (if border_a.line.b.x < border_b.line.b.x then 1 else 0)
  else
    (if border_a.line.a.x > border_b.line.a.x then 1 else 0)

/-- Boxes `boxes[first]` to `boxes[last - 1]`, the range of a `for` loop over boxes. -/
def box_range (boxes : List MetaBox) (first last : ℕ) : List MetaBox :=
  (boxes.drop first).take (last - first)

/-- Bottom edge of a box as a border blocking `+Y`. -/
def bottom_edge (box : MetaBox) : MetaBorder :=
  ⟨⟨⟨box.x1, box.y2⟩, ⟨box.x2, box.y2⟩⟩, META_BORDER_MOTION_DIRECTION_POSITIVE_Y⟩

/-- Top edge of a box as a border blocking `-Y`. -/
def top_edge (box : MetaBox) : MetaBorder :=
  ⟨⟨⟨box.x1, box.y1⟩, ⟨box.x2, box.y1⟩⟩, META_BORDER_MOTION_DIRECTION_NEGATIVE_Y⟩

/-- Left edge of a box as a border blocking `-X`. -/
def left_edge (box : MetaBox) : MetaBorder :=
  ⟨⟨⟨box.x1, box.y1⟩, ⟨box.x1, box.y2⟩⟩, META_BORDER_MOTION_DIRECTION_NEGATIVE_X⟩

/-- Right edge of a box as a border blocking `+X`. -/
def right_edge (box : MetaBox) : MetaBorder :=
  ⟨⟨⟨box.x2, box.y1⟩, ⟨box.x2, box.y2⟩⟩, META_BORDER_MOTION_DIRECTION_POSITIVE_X⟩

/-- Assignment `border->line.a.x = v`. -/
def set_a_x (border : MetaBorder) (v : ℚ) : MetaBorder :=
  { border with line := { border.line with a := { border.line.a with x := v } } }

/-- Assignment `border->line.b.x = v`. -/
def set_b_x (border : MetaBorder) (v : ℚ) : MetaBorder :=
  { border with line := { border.line with b := { border.line.b with x := v } } }

/-- One pass of the sweep loop of `add_non_overlapping_edges` over the merged edge
`border`. The state is the output array and `prev_border` as an index into it
(`none` for `NULL`). A failing `g_assert` gives `none`. In the branch that calls
`add_border`, the C code writes through `prev_border` after the append; here the write
reaches the element, as it does when the append has not moved the array. `merge_step_c`
is the step in which the write is lost when the array moves. -/
def merge_step (st : List MetaBorder × Option ℕ) (border : MetaBorder) :
    Option (List MetaBorder × Option ℕ) :=
  let borders := st.1
  if border.line.a.y ≠ border.line.b.y then none
  else
    match st.2 with
    | none => some (borders ++ [border], some borders.length)
    | some p =>
      match borders[p]? with
      | none => none
      | some prev_border =>
        if prev_border.line.a.y ≠ border.line.a.y then none
        else if prev_border.line.a.x = border.line.a.x ∧
            prev_border.line.b.x = border.line.b.x then none
        else if ¬ prev_border.line.a.x ≤ border.line.a.x then none
        else if prev_border.line.a.x = border.line.a.x then
          some (borders.set p (set_a_x prev_border border.line.b.x), some p)
        else if prev_border.line.b.x = border.line.b.x then
          some (borders.set p (set_b_x prev_border border.line.a.x), some p)
        else if prev_border.line.b.x = border.line.a.x then
          some (borders.set p (set_b_x prev_border border.line.b.x), some p)
        else if prev_border.line.b.x ≥ border.line.a.x then
          let new_border : MetaBorder :=
            ⟨⟨⟨border.line.b.x, border.line.b.y⟩,
              ⟨prev_border.line.b.x, prev_border.line.b.y⟩⟩,
             prev_border.blocking_directions⟩
          some ((borders ++ [new_border]).set p (set_b_x prev_border border.line.a.x),
            some borders.length)
        else if ¬ prev_border.line.b.x < border.line.a.x then none
        else some (borders ++ [border], some borders.length)

/-- Band merge: the bottom edges of the boxes `band_above_start .. band_below_start - 1`
and the top edges of the boxes `band_below_start .. band_below_end - 1` are sorted and
swept; what is left of them is appended to `borders`. -/
def add_non_overlapping_edges (boxes : List MetaBox)
    (band_above_start band_below_start band_below_end : ℕ) (borders : List MetaBorder) :
    Option (List MetaBorder) :=
  let band_merge :=
    (box_range boxes band_above_start band_below_start).map bottom_edge ++
      (box_range boxes band_below_start band_below_end).map top_edge
  let sorted := g_array_sort band_merge compare_lines_x
  (sorted.foldlM merge_step (borders, none)).map Prod.fst

/-- Appends the bottom edges of the boxes `band_start .. band_end - 1`. -/
def add_band_bottom_edges (boxes : List MetaBox) (band_start band_end : ℕ)
    (borders : List MetaBorder) : List MetaBorder :=
  borders ++ (box_range boxes band_start band_end).map bottom_edge

/-- Local variables of `region_to_outline` that live across loop iterations, with the
output array. -/
structure OutlineState where
  prev_top : ℤ
  current_roof : ℤ
  band_start : ℕ
  prev_band_start : ℕ
  borders : List MetaBorder

/-- First block of the loop body: on a vertical empty space above the box of index `i`
the roof moves to the box and the bottom edges of the band before it are added. -/
def gap_stage (boxes : List MetaBox) (st : OutlineState) (i : ℕ) (box : MetaBox) :
    Option OutlineState :=
  if 0 < i then
    match boxes[i - 1]? with
    | none => none
    | some above =>
      if box.y1 ≠ st.prev_top ∧ box.y1 ≠ above.y2 then
        some { st with
          current_roof := box.y1
          borders := add_band_bottom_edges boxes st.band_start i st.borders }
      else some st
  else some st

/-- Second block of the loop body: the special case of the last band. -/
def last_band_stage (boxes : List MetaBox) (st : OutlineState) (i : ℕ) (box : MetaBox) :
    Option OutlineState :=
  if box.y1 ≠ st.current_roof ∧ i = boxes.length - 1 then
    if box.y1 ≠ st.prev_top then
      (add_non_overlapping_edges boxes st.band_start i (i + 1) st.borders).map
        fun bs => { st with borders := bs }
    else
      (add_non_overlapping_edges boxes st.prev_band_start st.band_start (i + 1)
        st.borders).map fun bs => { st with borders := bs }
  else some st

/-- Third block of the loop body: when a band has been passed, its top edges are
combined with the bottom edges of the band before it. -/
def passed_band_stage (boxes : List MetaBox) (top_most : ℤ) (st : OutlineState) (i : ℕ)
    (box : MetaBox) : Option OutlineState :=
  if box.y1 ≠ top_most ∧ box.y1 ≠ st.prev_top then
    let merged : Option (List MetaBorder) :=
      if st.prev_top ≠ st.current_roof then
        add_non_overlapping_edges boxes st.prev_band_start st.band_start i st.borders
      else some st.borders
    merged.map fun bs =>
      { st with borders := bs, prev_band_start := st.band_start, band_start := i }
  else some st

/-- Last block of the loop body: the top edge of a box of the current roof, the bottom
edge of a box of the last band, then the left and the right edge; `prev_top` is set. -/
def edges_stage (bottom_most : ℤ) (st : OutlineState) (box : MetaBox) : OutlineState :=
  let b4 :=
    if box.y1 = st.current_roof then
      add_border st.borders box.x1 box.y1 box.x2 box.y1
        META_BORDER_MOTION_DIRECTION_NEGATIVE_Y
    else st.borders
  let b5 :=
    if box.y2 = bottom_most then
      add_border b4 box.x1 box.y2 box.x2 box.y2 META_BORDER_MOTION_DIRECTION_POSITIVE_Y
    else b4
  let b6 := add_border b5 box.x1 box.y1 box.x1 box.y2
    META_BORDER_MOTION_DIRECTION_NEGATIVE_X
  let b7 := add_border b6 box.x2 box.y1 box.x2 box.y2
    META_BORDER_MOTION_DIRECTION_POSITIVE_X
  { st with borders := b7, prev_top := box.y1 }

/-- Body of the main loop of `region_to_outline` for the box of index `i`. -/
def outline_step (boxes : List MetaBox) (top_most bottom_most : ℤ) (st : OutlineState)
    (i : ℕ) : Option OutlineState :=
  match boxes[i]? with
  | none => none
  | some box =>
    (gap_stage boxes st i box).bind fun st1 =>
    (last_band_stage boxes st1 i box).bind fun st2 =>
    (passed_band_stage boxes top_most st2 i box).bind fun st3 =>
    some (edges_stage bottom_most st3 box)

/-- Conversion of a region rectangle into a box, as at the start of
`region_to_outline`. -/
def box_of_rectangle (rect : MtkRectangle) : MetaBox :=
  ⟨rect.x, rect.y, rect.x + rect.width, rect.y + rect.height⟩

/-- The part of `region_to_outline` after the boxes have been filled in: the reads of
`boxes[0]` and `boxes[num_boxes - 1]`, then the main loop. -/
def outline_of_boxes (boxes : List MetaBox) (borders : List MetaBorder) :
    Option (List MetaBorder) :=
  match boxes[0]?, boxes[boxes.length - 1]? with
  | some first, some final =>
    ((List.range boxes.length).foldlM (outline_step boxes first.y1 final.y2)
      ⟨0, first.y1, 0, 0, borders⟩).map OutlineState.borders
  | _, _ => none

/-- Outline of a region, appended to `borders`, with the coordinates kept exact and
every write of the band merge reaching the array; `region_to_outline_c` is the outline
as the program builds it. -/
def region_to_outline (region : List MtkRectangle) (borders : List MetaBorder) :
    Option (List MetaBorder) :=
  outline_of_boxes (region.map box_of_rectangle) borders

/-! ## Motion confinement -/

/-- Test `distance_2 < closest_distance_2` in exact arithmetic, where `none` is the
initial value of `closest_distance_2` (`DBL_MAX` or `FLT_MAX`), taken to be above every
distance. `float_below` is the test on `float` values, where a distance can be infinite
or equal to `FLT_MAX`. -/
def below_closest (distance_2 : ℚ) (closest_distance_2 : Option ℚ) : Bool :=
  match closest_distance_2 with
  | none => true
  | some closest => decide (distance_2 < closest)

/-- Body of the loop of `get_closest_border`, with exact distances; the state is
`closest_border` with `closest_distance_2`. `closest_border_step_c` computes the
distances in `float`. -/
def closest_border_step (motion : MetaLine2) (directions : Directions)
    (acc : Option MetaBorder × Option ℚ) (border : MetaBorder) :
    Option MetaBorder × Option ℚ :=
  if !meta_border_is_blocking_directions border directions then acc
  else
    match meta_line2_intersects_with border.line motion with
    | none => acc
    | some intersection =>
      let delta := meta_vector2_subtract intersection motion.a
      let distance_2 := delta.x * delta.x + delta.y * delta.y
      if below_closest distance_2 acc.2 then (some border, some distance_2) else acc

/-- Blocking border whose intersection with the motion is closest to the motion's
start; `none` is `NULL`. -/
def get_closest_border (borders : List MetaBorder) (motion : MetaLine2)
    (directions : Directions) : Option MetaBorder :=
  (borders.foldl (closest_border_step motion directions) (none, none)).1

/-- Clamps the end of the motion onto the border and clears the clamped axis from the
directions; the pair is the new value of `*motion` and of `*motion_dir`. The difference
with `min_edge_distance` is exact here; `clamp_to_border_c` stores it in a `float`. -/
def clamp_to_border (border : MetaBorder) (motion : MetaLine2) (motion_dir : Directions)
    (min_edge_distance : ℚ) : MetaLine2 × Directions :=
  if meta_border_is_horizontal border then
    let y :=
      if (motion_dir.and META_BORDER_MOTION_DIRECTION_POSITIVE_Y).nonzero then
        border.line.a.y - min_edge_distance
      else border.line.a.y
    ({ motion with b := { motion.b with y := y } },
      motion_dir.clear (META_BORDER_MOTION_DIRECTION_POSITIVE_Y.or
        META_BORDER_MOTION_DIRECTION_NEGATIVE_Y))
  else
    let x :=
      if (motion_dir.and META_BORDER_MOTION_DIRECTION_POSITIVE_X).nonzero then
        border.line.a.x - min_edge_distance
      else border.line.a.x
    ({ motion with b := { motion.b with x := x } },
      motion_dir.clear (META_BORDER_MOTION_DIRECTION_POSITIVE_X.or
        META_BORDER_MOTION_DIRECTION_NEGATIVE_X))

/-- Directions in which the motion moves. -/
def get_motion_directions (motion : MetaLine2) : Directions :=
  let directions := Directions.none
  let directions :=
    if motion.a.x < motion.b.x then directions.or META_BORDER_MOTION_DIRECTION_POSITIVE_X
    else if motion.a.x > motion.b.x then
      directions.or META_BORDER_MOTION_DIRECTION_NEGATIVE_X
    else directions
  let directions :=
    if motion.a.y < motion.b.y then directions.or META_BORDER_MOTION_DIRECTION_POSITIVE_Y
    else if motion.a.y > motion.b.y then
      directions.or META_BORDER_MOTION_DIRECTION_NEGATIVE_Y
    else directions
  directions

/-- The loop `while (directions)` of the constrain operation. The result is the final
motion with the number of times the loop body was entered; `none` when `fuel` entries
were not enough to leave the loop. -/
def clamp_loop (borders : List MetaBorder) (min_edge_distance : ℚ) :
    ℕ → MetaLine2 → Directions → Option (MetaLine2 × ℕ)
  | 0, motion, directions => if directions.nonzero then none else some (motion, 0)
  | fuel + 1, motion, directions =>
    if directions.nonzero then
      match get_closest_border borders motion directions with
      | some closest_border =>
        let clamped := clamp_to_border closest_border motion directions min_edge_distance
        (clamp_loop borders min_edge_distance fuel clamped.1 clamped.2).map
          fun r => (r.1, r.2 + 1)
      | none => some (motion, 1)
    else some (motion, 0)

/-- What the constrain operation leaves behind: the values of `*x_inout` and
`*y_inout`, and how many times the body of the clamping loop was entered. -/
structure ConstrainResult where
  x : ℚ
  y : ℚ
  iterations : ℕ
  deriving DecidableEq

/-- The constrain operation: the motion from `(prev_x, prev_y)` to
`(x_inout, y_inout)` is clamped to the region. The nudge and the translation by the
origin are exact here; `meta_pointer_constraint_impl_native_constrain_c` rounds them to
`float` and uses the outline of `region_to_outline_c`. -/
def meta_pointer_constraint_impl_native_constrain (fuel : ℕ)
    (constraint_impl_native : MetaPointerConstraintImplNative)
    (prev_x prev_y x_inout y_inout : ℚ) : Option ConstrainResult :=
  let region := constraint_impl_native.region
  if mtk_region_is_empty region then
    some ⟨constraint_impl_native.origin.x, constraint_impl_native.origin.y, 0⟩
  else
    let x := x_inout
    let y := y_inout
    let x := if x > prev_x then x + wl_fixed_unit else x
    let y := if y > prev_y then y + wl_fixed_unit else y
    match region_to_outline region [] with
    | none => none
    | some borders =>
      let motion : MetaLine2 :=
        ⟨⟨prev_x - constraint_impl_native.origin.x,
          prev_y - constraint_impl_native.origin.y⟩,
         ⟨x - constraint_impl_native.origin.x, y - constraint_impl_native.origin.y⟩⟩
      let directions := get_motion_directions motion
      (clamp_loop borders constraint_impl_native.min_edge_distance fuel motion
        directions).map fun r =>
          ⟨r.1.b.x + constraint_impl_native.origin.x,
           r.1.b.y + constraint_impl_native.origin.y, r.2⟩

/-! ## Recovery -/

/-- Squared distance from `(x, y)` to the border, in exact arithmetic;
`point_to_border_distance_2_c` is the `float` computation. -/
def point_to_border_distance_2 (border : MetaBorder) (x y : ℚ) : ℚ :=
  let orig : ℚ × ℚ :=
    if meta_border_is_horizontal border then
      ((if x < border.line.a.x then border.line.a.x
        else if x > border.line.b.x then border.line.b.x
        else x), border.line.a.y)
    else
      (border.line.a.x,
       (if y < border.line.a.y then border.line.a.y
        else if y > border.line.b.y then border.line.b.y
        else y))
  let dx := |orig.1 - x|
  let dy := |orig.2 - y|
  dx * dx + dy * dy

/-- Moves `(sx, sy)` to the allowed side of the border; the pair is the new value of
`*sx` and `*sy`. A mask that is not one single direction matches no `case`. The offset
by `wl_fixed_to_double (1)` is exact here; `closest_point_behind_border_c` stores it in
a `float`. -/
def closest_point_behind_border (border : MetaBorder) (sx sy : ℚ) : ℚ × ℚ :=
  if border.blocking_directions = META_BORDER_MOTION_DIRECTION_POSITIVE_X ∨
      border.blocking_directions = META_BORDER_MOTION_DIRECTION_NEGATIVE_X then
    let sx :=
      if border.blocking_directions = META_BORDER_MOTION_DIRECTION_POSITIVE_X then
        border.line.a.x - wl_fixed_unit
      else border.line.a.x + wl_fixed_unit
    let sy :=
      if sy < border.line.a.y then border.line.a.y + wl_fixed_unit
      else if sy > border.line.b.y then border.line.b.y - wl_fixed_unit
      else sy
    (sx, sy)
  else if border.blocking_directions = META_BORDER_MOTION_DIRECTION_POSITIVE_Y ∨
      border.blocking_directions = META_BORDER_MOTION_DIRECTION_NEGATIVE_Y then
    let sy :=
      if border.blocking_directions = META_BORDER_MOTION_DIRECTION_POSITIVE_Y then
        border.line.a.y - wl_fixed_unit
      else border.line.a.y + wl_fixed_unit
    let sx :=
      if sx < border.line.a.x then border.line.a.x + wl_fixed_unit
      else if sx > border.line.b.x then border.line.b.x - wl_fixed_unit
      else sx
    (sx, sy)
  else (sx, sy)

/-- Body of the search loop of the ensure-constrained operation, with exact distances;
the state is `closest_border` with `closest_distance_2`. `nearest_border_step_c`
compares the `float` distances that the program computes. -/
def nearest_border_step (rel_x rel_y : ℚ) (acc : Option MetaBorder × Option ℚ)
    (border : MetaBorder) : Option MetaBorder × Option ℚ :=
  let distance_2 := point_to_border_distance_2 border rel_x rel_y
  if below_closest distance_2 acc.2 then (some border, some distance_2) else acc

/-- The ensure-constrained operation for a pointer that the seat reports at `point`,
in exact arithmetic. The result is the target of the `clutter_seat_warp_pointer` call,
or `none` inside when no warp is issued.
`meta_pointer_constraint_impl_native_ensure_constrained_c` is the operation on `float`
values. -/
def meta_pointer_constraint_impl_native_ensure_constrained
    (constraint_impl_native : MetaPointerConstraintImplNative) (point : MetaVector2) :
    Option (Option MetaVector2) :=
  let region := constraint_impl_native.region
  let x := point.x
  let y := point.y
  let rel_x := x - constraint_impl_native.origin.x
  let rel_y := y - constraint_impl_native.origin.y
  if mtk_region_is_empty region then
    if x ≠ constraint_impl_native.origin.x ∨ y ≠ constraint_impl_native.origin.y then
      some (some ⟨constraint_impl_native.origin.x, constraint_impl_native.origin.y⟩)
    else some none
  else if !mtk_region_contains_point region (float_to_int rel_x) (float_to_int rel_y) then
    match region_to_outline region [] with
    | none => none
    | some borders =>
      match (borders.foldl (nearest_border_step rel_x rel_y) (none, none)).1 with
      | none => none
      | some closest_border =>
        let rel := closest_point_behind_border closest_border rel_x rel_y
        some (some ⟨rel.1 + constraint_impl_native.origin.x,
          rel.2 + constraint_impl_native.origin.y⟩)
  else some none

/-- Position of the pointer after the ensure-constrained operation: the warp target
if a warp was issued, the reported position otherwise. -/
def pointer_after (point : MetaVector2) (warp : Option MetaVector2) : MetaVector2 :=
  warp.getD point

/-! ## Predicates used to state the properties -/

/-- Points within `tolerance` of the closure of the region; the closure of a region is
the union of its closed rectangles. -/
def within_closure (region : List MtkRectangle) (tolerance x y : ℚ) : Prop :=
  ∃ rect ∈ region, rect.x - tolerance ≤ x ∧ x ≤ rect.x + rect.width + tolerance ∧
    rect.y - tolerance ≤ y ∧ y ≤ rect.y + rect.height + tolerance

instance (region : List MtkRectangle) (tolerance x y : ℚ) :
    Decidable (within_closure region tolerance x y) := by
  unfold within_closure; infer_instance

/-- Points inside the region: a rectangle holds the point, its top and left edges
included, its bottom and right edges excluded. -/
def inside_region (region : List MtkRectangle) (x y : ℚ) : Prop :=
  ∃ rect ∈ region, rect.x ≤ x ∧ x < rect.x + rect.width ∧
    rect.y ≤ y ∧ y < rect.y + rect.height

instance (region : List MtkRectangle) (x y : ℚ) : Decidable (inside_region region x y) := by
  unfold inside_region; infer_instance

/-- A border blocks along its normal only: a horizontal border blocks no X direction,
any other border blocks no Y direction. -/
def blocks_along_normal (border : MetaBorder) : Prop :=
  if meta_border_is_horizontal border then
    border.blocking_directions.positive_x = false ∧
      border.blocking_directions.negative_x = false
  else
    border.blocking_directions.positive_y = false ∧
      border.blocking_directions.negative_y = false

instance (border : MetaBorder) : Decidable (blocks_along_normal border) := by
  unfold blocks_along_normal; infer_instance

/-- Number of axes on which the mask has a bit set. -/
def Directions.axes (d : Directions) : ℕ :=
  (if d.positive_x || d.negative_x then 1 else 0) +
    (if d.positive_y || d.negative_y then 1 else 0)

/-- The input constraint as the spec words it: every rectangle has `x1 < x2` and
`y1 < y2`, the rectangles come in row-major scan order (by `y1`, then by `x1`) and no
two of them overlap. -/
def meets_input_constraint (boxes : List MetaBox) : Prop :=
  (∀ b ∈ boxes, b.x1 < b.x2 ∧ b.y1 < b.y2) ∧
    boxes.Pairwise fun p q =>
      (p.y1 < q.y1 ∨ (p.y1 = q.y1 ∧ p.x1 < q.x1)) ∧
        ¬ (p.x1 < q.x2 ∧ q.x1 < p.x2 ∧ p.y1 < q.y2 ∧ q.y1 < p.y2)

instance (boxes : List MetaBox) : Decidable (meets_input_constraint boxes) := by
  unfold meets_input_constraint; infer_instance

/-- The banded form that the comment in `region_to_outline` assumes: rows of rectangles
of the same height that never touch or overlap within a row, the rows from top to
bottom without overlap. Of two boxes the earlier one is either in the same row and
ends strictly left of the later one, or lies in a row that ends above the later one. -/
def banded (boxes : List MetaBox) : Prop :=
  (∀ b ∈ boxes, b.x1 < b.x2 ∧ b.y1 < b.y2) ∧
    boxes.Pairwise fun p q => (p.y1 = q.y1 ∧ p.y2 = q.y2 ∧ p.x2 < q.x1) ∨ p.y2 ≤ q.y1

instance (boxes : List MetaBox) : Decidable (banded boxes) := by
  unfold banded; infer_instance

/-- The coordinate `v` lies strictly between `a` and `b`, given in any order. -/
def strictly_between (a b v : ℚ) : Prop :=
  min a b < v ∧ v < max a b

/-- The border covers part of a segment along which two boxes are adjacent: a vertical
border on the common line `p.x2 = q.x1` through a height that both boxes span, or a
horizontal border on the common line `p.y2 = q.y1` through an abscissa that both boxes
span. -/
def covers_shared_edge (boxes : List MetaBox) (border : MetaBorder) : Prop :=
  ∃ p ∈ boxes, ∃ q ∈ boxes,
    (border.line.a.x = border.line.b.x ∧ (p.x2 : ℚ) = border.line.a.x ∧ q.x1 = p.x2 ∧
      ∃ y : ℚ, strictly_between border.line.a.y border.line.b.y y ∧
        (p.y1 : ℚ) < y ∧ y < p.y2 ∧ (q.y1 : ℚ) < y ∧ y < q.y2) ∨
    (border.line.a.y = border.line.b.y ∧ (p.y2 : ℚ) = border.line.a.y ∧ q.y1 = p.y2 ∧
      ∃ x : ℚ, strictly_between border.line.a.x border.line.b.x x ∧
        (p.x1 : ℚ) < x ∧ x < p.x2 ∧ (q.x1 : ℚ) < x ∧ x < q.x2)

/-- Lower end of the extent of a border in `x`. -/
def x_low (border : MetaBorder) : ℚ :=
  min border.line.a.x border.line.b.x

/-- Upper end of the extent of a border in `x`. -/
def x_high (border : MetaBorder) : ℚ :=
  max border.line.a.x border.line.b.x

/-- The abscissa `x` lies in the extent of the border, lower end included, upper end
excluded. -/
def x_covered (x : ℚ) (border : MetaBorder) : Bool :=
  decide (x_low border ≤ x ∧ x < x_high border)

/-- Parity of the number of borders of the list whose extent holds the abscissa `x`. -/
def x_parity (x : ℚ) (borders : List MetaBorder) : Bool :=
  borders.foldr (fun c acc => xor (x_covered x c) acc) false

/-- What the sweep of a band merge has reached: the borders `app` appended so far all
lie on the line `y`, as do the merged edges `processed` that were swept; every abscissa
is held by an odd number of appended borders exactly when it is held by an odd number
of swept edges; the appended borders follow each other from left to right without
overlap; and every appended border blocks what one of the swept edges blocks. -/
def sweep_invariant (y : ℚ) (processed app : List MetaBorder) : Prop :=
  app ≠ [] ∧ (∀ c ∈ app, c.line.a.y = y ∧ c.line.b.y = y) ∧
    (∀ e ∈ processed, e.line.a.y = y ∧ e.line.b.y = y) ∧
    (∀ x, x_parity x app = x_parity x processed) ∧
    (app.Pairwise fun c d => x_high c ≤ x_low d) ∧
    ∀ c ∈ app, ∃ e ∈ processed, c.blocking_directions = e.blocking_directions

/-- What the sweep of the band merge does with the border `prev_border` that it last
appended when it meets the merged edge `border`: the borders that take the place of
`prev_border` at the end of the output array, the last of them being the new
`prev_border`; `none` when an assertion fails. -/
def merge_view (prev_border border : MetaBorder) : Option (List MetaBorder) :=
  if border.line.a.y ≠ border.line.b.y then none
  else if prev_border.line.a.y ≠ border.line.a.y then none
  else if prev_border.line.a.x = border.line.a.x ∧
      prev_border.line.b.x = border.line.b.x then none
  else if ¬ prev_border.line.a.x ≤ border.line.a.x then none
  else if prev_border.line.a.x = border.line.a.x then
    some [set_a_x prev_border border.line.b.x]
  else if prev_border.line.b.x = border.line.b.x then
    some [set_b_x prev_border border.line.a.x]
  else if prev_border.line.b.x = border.line.a.x then
    some [set_b_x prev_border border.line.b.x]
  else if prev_border.line.b.x ≥ border.line.a.x then
    some [set_b_x prev_border border.line.a.x,
      ⟨⟨⟨border.line.b.x, border.line.b.y⟩,
        ⟨prev_border.line.b.x, prev_border.line.b.y⟩⟩,
       prev_border.blocking_directions⟩]
  else if ¬ prev_border.line.b.x < border.line.a.x then none
  else some [prev_border, border]

/-- Invariant of the main loop of `region_to_outline` before the box of index `i` is
handled, for a banded region: no border made so far covers a shared edge; the roof is
the bottom of no box; and the boxes handled so far end with the row `C` of the boxes
whose `y1` is `prev_top`, which starts at `band_start`, preceded by the complete row
`Q`, which starts at `prev_band_start`. -/
def outline_invariant (boxes : List MetaBox) (i : ℕ) (st : OutlineState) : Prop :=
  (∀ b ∈ st.borders, ¬ covers_shared_edge boxes b) ∧
    (∀ p ∈ boxes, p.y2 ≠ st.current_roof) ∧
    ((i = 0 ∧ st.band_start = 0 ∧ st.prev_band_start = 0 ∧
        ∀ first, boxes[0]? = some first → st.current_roof = first.y1) ∨
      ∃ P Q C R, boxes = P ++ Q ++ C ++ R ∧ st.prev_band_start = P.length ∧
        st.band_start = P.length + Q.length ∧ i = P.length + Q.length + C.length ∧
        C ≠ [] ∧ (∀ c ∈ C, c.y1 = st.prev_top) ∧ (∀ p ∈ P ++ Q, p.y1 ≠ st.prev_top) ∧
        ((Q = [] ∧ P = []) ∨
          (Q ≠ [] ∧ ∃ yp, (∀ q ∈ Q, q.y1 = yp) ∧ ∀ p ∈ P, p.y1 ≠ yp)))

/-- Outline of the L-shaped region of the rectangles `(0,0)-(10,10)` and
`(10,0)-(20,5)`, in the order in which `region_to_outline` appends the borders. -/
def l_shape_outline : List MetaBorder :=
  [top_edge ⟨0, 0, 10, 10⟩, left_edge ⟨0, 0, 10, 10⟩, right_edge ⟨0, 0, 10, 10⟩,
    top_edge ⟨10, 0, 20, 5⟩, bottom_edge ⟨10, 0, 20, 5⟩, left_edge ⟨10, 0, 20, 5⟩,
    right_edge ⟨10, 0, 20, 5⟩]

/-- The motion that the constrain operation tests the borders with: from the previous
point to the candidate, in which a strictly increased component is larger by
`wl_fixed_unit`, both relative to the origin. -/
def tested_motion (origin : MetaVector2) (prev_x prev_y x y : ℚ) : MetaLine2 :=
  ⟨⟨prev_x - origin.x, prev_y - origin.y⟩,
   ⟨(if x > prev_x then x + wl_fixed_unit else x) - origin.x,
    (if y > prev_y then y + wl_fixed_unit else y) - origin.y⟩⟩

/-- The region lies immediately above the line `y` at the abscissa `x`: a box ends on
that line and spans `x`. -/
def region_above (boxes : List MetaBox) (x y : ℚ) : Prop :=
  ∃ b ∈ boxes, (b.y2 : ℚ) = y ∧ (b.x1 : ℚ) < x ∧ x < b.x2

/-- The region lies immediately below the line `y` at the abscissa `x`: a box starts on
that line and spans `x`. -/
def region_below (boxes : List MetaBox) (x y : ℚ) : Prop :=
  ∃ b ∈ boxes, (b.y1 : ℚ) = y ∧ (b.x1 : ℚ) < x ∧ x < b.x2

/-- The region lies immediately left of the line `x` at the height `y`. -/
def region_left (boxes : List MetaBox) (x y : ℚ) : Prop :=
  ∃ b ∈ boxes, (b.x2 : ℚ) = x ∧ (b.y1 : ℚ) < y ∧ y < b.y2

/-- The region lies immediately right of the line `x` at the height `y`. -/
def region_right (boxes : List MetaBox) (x y : ℚ) : Prop :=
  ∃ b ∈ boxes, (b.x1 : ℚ) = x ∧ (b.y1 : ℚ) < y ∧ y < b.y2

/-- The border blocks exactly the direction that leaves the region across it: where the
region lies immediately above a horizontal border it blocks `+Y` only, where the region
lies immediately below it `-Y` only; where the region lies immediately left of a
vertical border it blocks `+X` only, where the region lies immediately right of it `-X`
only. -/
def oriented_outward (boxes : List MetaBox) (border : MetaBorder) : Prop :=
  (border.line.a.y = border.line.b.y →
    ∀ x, strictly_between border.line.a.x border.line.b.x x →
      (region_above boxes x border.line.a.y →
        border.blocking_directions = META_BORDER_MOTION_DIRECTION_POSITIVE_Y) ∧
      (region_below boxes x border.line.a.y →
        border.blocking_directions = META_BORDER_MOTION_DIRECTION_NEGATIVE_Y)) ∧
  (border.line.a.x = border.line.b.x →
    ∀ y, strictly_between border.line.a.y border.line.b.y y →
      (region_left boxes border.line.a.x y →
        border.blocking_directions = META_BORDER_MOTION_DIRECTION_POSITIVE_X) ∧
      (region_right boxes border.line.a.x y →
        border.blocking_directions = META_BORDER_MOTION_DIRECTION_NEGATIVE_X))

/-- The abscissa `x` lies under a box of the band, left end included, right end
excluded. -/
def band_spans (band : List MetaBox) (x : ℚ) : Prop :=
  ∃ b ∈ band, (b.x1 : ℚ) ≤ x ∧ x < b.x2

instance (band : List MetaBox) (x : ℚ) : Decidable (band_spans band x) := by
  unfold band_spans; infer_instance

/-- Outline of the region of the rectangles `(0,0)-(10,10)` and `(10,10)-(20,20)`, two
rows that touch in one corner, in the order in which `region_to_outline` appends the
borders. -/
def corner_touching_outline : List MetaBorder :=
  [top_edge ⟨0, 0, 10, 10⟩, left_edge ⟨0, 0, 10, 10⟩, right_edge ⟨0, 0, 10, 10⟩,
    ⟨⟨⟨0, 10⟩, ⟨20, 10⟩⟩, META_BORDER_MOTION_DIRECTION_POSITIVE_Y⟩,
    bottom_edge ⟨10, 10, 20, 20⟩, left_edge ⟨10, 10, 20, 20⟩, right_edge ⟨10, 10, 20, 20⟩]

/-- Outline of the region of the rectangles `(0,0)-(10,10)` and `(0,20)-(10,30)`, two
rows with an empty space between them, in the order in which `region_to_outline`
appends the borders. -/
def separated_rows_outline : List MetaBorder :=
  [top_edge ⟨0, 0, 10, 10⟩, left_edge ⟨0, 0, 10, 10⟩, right_edge ⟨0, 0, 10, 10⟩,
    bottom_edge ⟨0, 0, 10, 10⟩, top_edge ⟨0, 0, 10, 10⟩, top_edge ⟨0, 20, 10, 30⟩,
    bottom_edge ⟨0, 20, 10, 30⟩, left_edge ⟨0, 20, 10, 30⟩, right_edge ⟨0, 20, 10, 30⟩]

/-- Shape of what a band merge has appended: every border has two different integer
abscissas as its ends, and the borders follow each other from left to right with an
empty space between any two of them. -/
def sweep_shape (app : List MetaBorder) : Prop :=
  (∀ c ∈ app, c.line.a.x ≠ c.line.b.x ∧ (∃ n : ℤ, c.line.a.x = n) ∧
      ∃ n : ℤ, c.line.b.x = n) ∧
    app.Pairwise fun c d => x_high c < x_low d

/-- The border is horizontal with two different abscissas, or vertical with two
different ordinates. -/
def axis_aligned (border : MetaBorder) : Prop :=
  (border.line.a.y = border.line.b.y ∧ border.line.a.x ≠ border.line.b.x) ∨
    (border.line.a.x = border.line.b.x ∧ border.line.a.y ≠ border.line.b.y)

instance (border : MetaBorder) : Decidable (axis_aligned border) := by
  unfold axis_aligned; infer_instance

/-- The abscissa `x` lies under exactly one of the two bands: under a box of the band
above and under no box of the band below, or the other way round. -/
def under_one_band (above below : List MetaBox) (x : ℚ) : Prop :=
  (band_spans above x ∧ ¬ band_spans below x) ∨ (¬ band_spans above x ∧ band_spans below x)

/-- A box of the region ends on the line `y` over the abscissa `x` (left end of the box
included, right end excluded). -/
def ends_above (boxes : List MetaBox) (x y : ℚ) : Prop :=
  ∃ b ∈ boxes, (b.y2 : ℚ) = y ∧ (b.x1 : ℚ) ≤ x ∧ x < b.x2

/-- A box of the region starts on the line `y` under the abscissa `x` (left end of the
box included, right end excluded). -/
def starts_below (boxes : List MetaBox) (x y : ℚ) : Prop :=
  ∃ b ∈ boxes, (b.y1 : ℚ) = y ∧ (b.x1 : ℚ) ≤ x ∧ x < b.x2

/-- The region lies on exactly one side of the line `y` at the abscissa `x`: a box
ends there and none starts there, or a box starts there and none ends there. -/
def one_sided (boxes : List MetaBox) (x y : ℚ) : Prop :=
  (ends_above boxes x y ∧ ¬ starts_below boxes x y) ∨
    (¬ ends_above boxes x y ∧ starts_below boxes x y)

/-- The abscissas from `lo` to `hi`, two integers, are a maximal run of the line `y` on
which the region lies on exactly one side: it does so at every abscissa from `lo` up to
`hi`, and neither at `hi` nor in the unit cell left of `lo`. -/
def horizontal_run (boxes : List MetaBox) (y lo hi : ℚ) : Prop :=
  (∃ n : ℤ, lo = n) ∧ (∃ n : ℤ, hi = n) ∧ lo < hi ∧
    (∀ x, lo ≤ x → x < hi → one_sided boxes x y) ∧
    ¬ one_sided boxes hi y ∧ ¬ one_sided boxes (lo - 1) y

/-- A horizontal border of the list lies on the line `y` and holds the abscissa `x`. -/
def horizontal_cover (borders : List MetaBorder) (x y : ℚ) : Prop :=
  ∃ c ∈ borders, c.line.a.y = c.line.b.y ∧ c.line.a.y = y ∧ x_covered x c = true

/-- What the main loop of `region_to_outline` has reached on a banded region before the
box of index `i` is handled, seen line by line. The vertical borders made so far are
the left and right edges of the boxes handled so far. Every horizontal border made so
far spans a maximal run of its line. After the first box: every line above `prev_top`
is complete, that is, each abscissa at which the region lies on exactly one side of it
is held by a border; the boxes handled so far that start on the roof have their top
edge made; once all boxes are handled, the line `prev_top` is complete also when it is
not the roof; and the boxes handled so far that end on `bottom_most` have their bottom
edge made. -/
def outline_lines (boxes : List MetaBox) (bottom_most : ℤ) (i : ℕ) (st : OutlineState) :
    Prop :=
  (∀ c ∈ st.borders, c.line.a.y ≠ c.line.b.y →
      ∃ b ∈ boxes.take i, c = left_edge b ∨ c = right_edge b) ∧
    (∀ b ∈ boxes.take i, left_edge b ∈ st.borders ∧ right_edge b ∈ st.borders) ∧
    (∀ c ∈ st.borders, c.line.a.y = c.line.b.y →
      horizontal_run boxes c.line.a.y (x_low c) (x_high c)) ∧
    (0 < i → ∀ x y, one_sided boxes x y → y < st.prev_top →
      horizontal_cover st.borders x y) ∧
    (st.prev_top = st.current_roof → ∀ b ∈ boxes.take i, b.y1 = st.prev_top →
      top_edge b ∈ st.borders) ∧
    (0 < i → st.prev_top ≠ st.current_roof → i = boxes.length →
      ∀ x, one_sided boxes x st.prev_top → horizontal_cover st.borders x st.prev_top) ∧
    ∀ b ∈ boxes.take i, b.y2 = bottom_most → bottom_edge b ∈ st.borders

/-- The point `(x, y)` lies in the union of the closed rectangles of the region. -/
def in_union (boxes : List MetaBox) (x y : ℚ) : Prop :=
  ∃ b ∈ boxes, (b.x1 : ℚ) ≤ x ∧ x ≤ b.x2 ∧ (b.y1 : ℚ) ≤ y ∧ y ≤ b.y2

instance (boxes : List MetaBox) (x y : ℚ) : Decidable (in_union boxes x y) := by
  unfold in_union; infer_instance

/-- The point `(x, y)` lies on the topological boundary of the union of the closed
rectangles of the region: it belongs to the union, which is a closed set, and not to
its interior, that is, every open square around the point holds a point outside the
union. Points have rational coordinates, as everywhere in this embedding. -/
def on_boundary (boxes : List MetaBox) (x y : ℚ) : Prop :=
  in_union boxes x y ∧
    ∀ ε : ℚ, 0 < ε → ∃ x' y', |x' - x| < ε ∧ |y' - y| < ε ∧ ¬ in_union boxes x' y'

/-- The point `(x, y)` lies on the segment of the border, ends included. -/
def on_segment (border : MetaBorder) (x y : ℚ) : Prop :=
  ∃ t : ℚ, 0 ≤ t ∧ t ≤ 1 ∧
    x = border.line.a.x + t * (border.line.b.x - border.line.a.x) ∧
    y = border.line.a.y + t * (border.line.b.y - border.line.a.y)

/-- The point `(x, y)` is covered by the outline: it lies on the segment of one of the
borders. -/
def covered_by (outline : List MetaBorder) (x y : ℚ) : Prop :=
  ∃ c ∈ outline, on_segment c x y

/-- The point `(x, y)` lies in the bounding box of the border. -/
def in_bounding_box (border : MetaBorder) (x y : ℚ) : Prop :=
  x_low border ≤ x ∧ x ≤ x_high border ∧
    min border.line.a.y border.line.b.y ≤ y ∧ y ≤ max border.line.a.y border.line.b.y

instance (border : MetaBorder) (x y : ℚ) : Decidable (in_bounding_box border x y) := by
  unfold in_bounding_box; infer_instance

/-- The points `(x, y)` with `y1 ≤ y ≤ y2` form a straight vertical run of the boundary
of the region. -/
def vertical_run (boxes : List MetaBox) (x y1 y2 : ℚ) : Prop :=
  ∀ y, y1 ≤ y → y ≤ y2 → on_boundary boxes x y

/-- Outline of the region of the rectangles `(0,0)-(10,5)` and `(0,5)-(20,10)`, a row
of width 10 on a row of width 20 with the same left end, in the order in which
`region_to_outline` appends the borders. -/
def stacked_rows_outline : List MetaBorder :=
  [top_edge ⟨0, 0, 10, 5⟩, left_edge ⟨0, 0, 10, 5⟩, right_edge ⟨0, 0, 10, 5⟩,
    ⟨⟨⟨10, 5⟩, ⟨20, 5⟩⟩, META_BORDER_MOTION_DIRECTION_NEGATIVE_Y⟩,
    bottom_edge ⟨0, 5, 20, 10⟩, left_edge ⟨0, 5, 20, 10⟩, right_edge ⟨0, 5, 20, 10⟩]

/-- Every two consecutive rows of the region have an empty space between them: of two
boxes the earlier one is either in the same row and ends strictly left of the later
one, or lies in a row that ends strictly above the later one. -/
def vertically_separated (boxes : List MetaBox) : Prop :=
  (∀ b ∈ boxes, b.x1 < b.x2 ∧ b.y1 < b.y2) ∧
    boxes.Pairwise fun p q => (p.y1 = q.y1 ∧ p.y2 = q.y2 ∧ p.x2 < q.x1) ∨ p.y2 < q.y1

instance (boxes : List MetaBox) : Decidable (vertically_separated boxes) := by
  unfold vertically_separated; infer_instance

/-- The four edges of every box of the list: top, bottom, left and right. -/
def four_edges (boxes : List MetaBox) : List MetaBorder :=
  boxes.flatMap fun b => [top_edge b, bottom_edge b, left_edge b, right_edge b]

/-- Outline of the region of the rectangles `(0,0)-(2,1)` and `(1,1)-(3,2)`, two rows
that overlap in `x` between 1 and 2, in the order in which `region_to_outline` appends
the borders. -/
def overlapping_rows_outline : List MetaBorder :=
  [top_edge ⟨0, 0, 2, 1⟩, left_edge ⟨0, 0, 2, 1⟩, right_edge ⟨0, 0, 2, 1⟩,
    ⟨⟨⟨0, 1⟩, ⟨1, 1⟩⟩, META_BORDER_MOTION_DIRECTION_POSITIVE_Y⟩,
    ⟨⟨⟨3, 1⟩, ⟨2, 1⟩⟩, META_BORDER_MOTION_DIRECTION_POSITIVE_Y⟩,
    bottom_edge ⟨1, 1, 3, 2⟩, left_edge ⟨1, 1, 3, 2⟩, right_edge ⟨1, 1, 3, 2⟩]

/-- Common form of the bodies of the two search loops, in `get_closest_border` and in
the ensure-constrained operation: a border with the distance `key border` takes the
place of `closest_border` when the distance is strictly below `closest_distance_2`; a
border without a distance is passed over. -/
def keep_nearest (key : MetaBorder → Option ℚ) (acc : Option MetaBorder × Option ℚ)
    (border : MetaBorder) : Option MetaBorder × Option ℚ :=
  match key border with
  | none => acc
  | some distance_2 =>
    if below_closest distance_2 acc.2 then (some border, some distance_2) else acc

/-- Squared Euclidean distance between the points `(px, py)` and `(qx, qy)`. -/
def squared_distance (px py qx qy : ℚ) : ℚ :=
  (px - qx) * (px - qx) + (py - qy) * (py - qy)

/-- The number `d` is the squared Euclidean distance from the point `(x, y)` to the
closest point of the segment of the border: a point of the segment lies at that
distance and none lies nearer. -/
def segment_distance_2 (border : MetaBorder) (x y d : ℚ) : Prop :=
  (∃ qx qy, on_segment border qx qy ∧ squared_distance x y qx qy = d) ∧
    ∀ qx qy, on_segment border qx qy → d ≤ squared_distance x y qx qy

/-- The order of the band merge as the spec words it: by `a.x` ascending, then by `b.x`
descending. The border `border_a` comes strictly after `border_b` when it starts right
of it, or starts at the same abscissa and ends left of it. -/
def sorts_after (border_a border_b : MetaBorder) : Prop :=
  border_a.line.a.x > border_b.line.a.x ∨
    (border_a.line.a.x = border_b.line.a.x ∧ border_a.line.b.x < border_b.line.b.x)

instance (border_a border_b : MetaBorder) : Decidable (sorts_after border_a border_b) := by
  unfold sorts_after; infer_instance

/-- The border is axis-aligned with its ends in the order that
`point_to_border_distance_2` relies on: horizontal with `a.x ≤ b.x`, or vertical with
`a.y < b.y`. -/
def ends_ordered (border : MetaBorder) : Prop :=
  (border.line.a.y = border.line.b.y ∧ border.line.a.x ≤ border.line.b.x) ∨
    (border.line.a.x = border.line.b.x ∧ border.line.a.y < border.line.b.y)

instance (border : MetaBorder) : Decidable (ends_ordered border) := by
  unfold ends_ordered; infer_instance

/-! ## The operations with binary32 values and an array that moves

The definitions above keep every `float` exact and reach an element of an array by its
index. The definitions of this part follow the C program also where that makes a
difference: a value stored in a `float` is rounded to binary32, an `int` passed for a
`float` parameter is converted, a squared distance can overflow to infinity, and
`g_array_append_val` moves the array when the allocation has to grow, so that a write
through a pointer taken before the call is lost. Each definition has the name of the
function it embeds with `_c` appended. -/

/-- Position of the highest set bit of `n`, found by halving at most `fuel` times;
`0` for `n < 2`. With `fuel = n` it is the integer part of the binary logarithm. -/
def bit_length_below : ℕ → ℕ → ℕ
  | 0, _ => 0
  | fuel + 1, n => if n < 2 then 0 else bit_length_below fuel (n / 2) + 1

/-- The exponent `e` with `2 ^ e ≤ |v| < 2 ^ (e + 1)`, for `v ≠ 0`: the difference of
the bit lengths of numerator and denominator, or one less. -/
def floor_log2 (v : ℚ) : ℤ :=
  if (2 : ℚ) ^ ((bit_length_below v.num.natAbs v.num.natAbs : ℤ) -
      (bit_length_below v.den v.den : ℤ)) ≤ |v| then
    (bit_length_below v.num.natAbs v.num.natAbs : ℤ) - (bit_length_below v.den v.den : ℤ)
  else
    (bit_length_below v.num.natAbs v.num.natAbs : ℤ) - (bit_length_below v.den v.den : ℤ) - 1

/-- The integer nearest to `s`; of two integers equally near, the even one. -/
def round_half_even (s : ℚ) : ℤ :=
  if s - ⌊s⌋ < 1 / 2 then ⌊s⌋
  else if 1 / 2 < s - ⌊s⌋ then ⌊s⌋ + 1
  else if ⌊s⌋ % 2 = 0 then ⌊s⌋
  else ⌊s⌋ + 1

/-- Rounding to the nearest value of a binary floating-point format, ties to even. The
format has `precision` bits in the significand, and `2 ^ emin` is its smallest
positive value; the values are the integer multiples `k * 2 ^ q` with
`|k| < 2 ^ precision` and `emin ≤ q`. The exponent is not bounded above: a result
beyond the largest finite value of the format stands for an infinity. -/
def round_to_format (precision : ℕ) (emin : ℤ) (v : ℚ) : ℚ :=
  if v = 0 then 0
  else
    round_half_even (v / 2 ^ max (floor_log2 v - (precision - 1)) emin) *
      2 ^ max (floor_log2 v - (precision - 1)) emin

/-- Rounding of an exact result to `float` (binary32). -/
def float_round (v : ℚ) : ℚ :=
  round_to_format 24 (-149) v

/-- Rounding of an exact result to `double` (binary64). -/
def double_round (v : ℚ) : ℚ :=
  round_to_format 53 (-1074) v

/-- The constant `FLT_MAX`, the largest finite `float`. -/
def FLT_MAX : ℚ :=
  (2 ^ 24 - 1) * 2 ^ 104

/-- The number is a finite `float`: rounding leaves it as it is and its magnitude is at
most `FLT_MAX`. -/
def is_float (v : ℚ) : Prop :=
  float_round v = v ∧ |v| ≤ FLT_MAX

instance (v : ℚ) : Decidable (is_float v) := by
  unfold is_float; infer_instance

/-- Conversion of an `int` argument to a `float` parameter. -/
def int_to_float (n : ℤ) : ℚ :=
  float_round n

/-- A `double` expression `a + b` with a `float` operand `a`, stored in a `float`: the
sum is rounded to `double`, the stored value to `float`. -/
def float_store_sum (a b : ℚ) : ℚ :=
  float_round (double_round (a + b))

/-- The `float` expression `dx*dx + dy*dy`: each product and the sum are rounded to
`float`, as they are when the compiler does not contract them into a fused
multiply-add; `none` is an infinity, which the expression yields when a product or the
sum is beyond `FLT_MAX`. -/
def float_sum_of_squares (dx dy : ℚ) : Option ℚ :=
  if FLT_MAX < float_round (dx * dx) ∨ FLT_MAX < float_round (dy * dy) ∨
      FLT_MAX < float_round (float_round (dx * dx) + float_round (dy * dy)) then none
  else some (float_round (float_round (dx * dx) + float_round (dy * dy)))

/-- Test `distance_2 < closest_distance_2` on `float` values, where `none` is
`+infinity`: an infinite distance is below nothing, a finite one is below infinity. -/
def float_below (distance_2 closest_distance_2 : Option ℚ) : Bool :=
  match distance_2, closest_distance_2 with
  | none, _ => false
  | some _, none => true
  | some d, some closest => decide (d < closest)

/-- The function `g_nearest_pow` of GLib, which `g_array_append_val` sizes the
allocation with: the smallest power of two that is at least `num`, found by doubling
at most `fuel` times. -/
def g_nearest_pow : ℕ → ℕ → ℕ → ℕ
  | 0, n, _ => n
  | fuel + 1, n, num => if n < num then g_nearest_pow fuel (2 * n) num else n

/-- Size in bytes of a `MetaBorder`: four `float` coordinates and the mask. -/
def sizeof_MetaBorder : ℕ := 20

/-- Number of borders that the allocation of a `GArray` holds once `len` borders have
been appended one at a time: GLib allocates the nearest power of two of the bytes
wanted, and at least 16 bytes. -/
def g_array_capacity (len : ℕ) : ℕ :=
  if len = 0 then 0
  else max 16 (g_nearest_pow (sizeof_MetaBorder * len) 1 (sizeof_MetaBorder * len)) /
    sizeof_MetaBorder

/-- Whether `g_array_append_val` on an array of `len` borders has to enlarge the
allocation. The enlarged array is taken to lie at a new address, as it does when the
allocation cannot be extended in place; pointers to its elements taken before are then
stale. -/
def g_array_append_moves (len : ℕ) : Bool :=
  decide (g_array_capacity len < len + 1)

/-- Bottom edge of a box, its `int` coordinates passed to `add_border`. -/
def bottom_edge_c (box : MetaBox) : MetaBorder :=
  ⟨⟨⟨int_to_float box.x1, int_to_float box.y2⟩, ⟨int_to_float box.x2, int_to_float box.y2⟩⟩,
    META_BORDER_MOTION_DIRECTION_POSITIVE_Y⟩

/-- Top edge of a box, its `int` coordinates passed to `add_border`. -/
def top_edge_c (box : MetaBox) : MetaBorder :=
  ⟨⟨⟨int_to_float box.x1, int_to_float box.y1⟩, ⟨int_to_float box.x2, int_to_float box.y1⟩⟩,
    META_BORDER_MOTION_DIRECTION_NEGATIVE_Y⟩

/-- Left edge of a box, its `int` coordinates passed to `add_border`. -/
def left_edge_c (box : MetaBox) : MetaBorder :=
  ⟨⟨⟨int_to_float box.x1, int_to_float box.y1⟩, ⟨int_to_float box.x1, int_to_float box.y2⟩⟩,
    META_BORDER_MOTION_DIRECTION_NEGATIVE_X⟩

/-- Right edge of a box, its `int` coordinates passed to `add_border`. -/
def right_edge_c (box : MetaBox) : MetaBorder :=
  ⟨⟨⟨int_to_float box.x2, int_to_float box.y1⟩, ⟨int_to_float box.x2, int_to_float box.y2⟩⟩,
    META_BORDER_MOTION_DIRECTION_POSITIVE_X⟩

/-- One pass of the sweep loop of `add_non_overlapping_edges` over the merged edge
`border`, as `merge_step`, except in the branch that calls `add_border` before it
writes `prev_border->line.b.x`: when the append moves the array, `prev_border` points
into the old allocation and the element of the array keeps its `b.x`. -/
def merge_step_c (st : List MetaBorder × Option ℕ) (border : MetaBorder) :
    Option (List MetaBorder × Option ℕ) :=
  let borders := st.1
  if border.line.a.y ≠ border.line.b.y then none
  else
    match st.2 with
    | none => some (borders ++ [border], some borders.length)
    | some p =>
      match borders[p]? with
      | none => none
      | some prev_border =>
        if prev_border.line.a.y ≠ border.line.a.y then none
        else if prev_border.line.a.x = border.line.a.x ∧
            prev_border.line.b.x = border.line.b.x then none
        else if ¬ prev_border.line.a.x ≤ border.line.a.x then none
        else if prev_border.line.a.x = border.line.a.x then
          some (borders.set p (set_a_x prev_border border.line.b.x), some p)
        else if prev_border.line.b.x = border.line.b.x then
          some (borders.set p (set_b_x prev_border border.line.a.x), some p)
        else if prev_border.line.b.x = border.line.a.x then
          some (borders.set p (set_b_x prev_border border.line.b.x), some p)
        else if prev_border.line.b.x ≥ border.line.a.x then
          let new_border : MetaBorder :=
            ⟨⟨⟨border.line.b.x, border.line.b.y⟩,
              ⟨prev_border.line.b.x, prev_border.line.b.y⟩⟩,
             prev_border.blocking_directions⟩
          if g_array_append_moves borders.length then
            some (borders ++ [new_border], some borders.length)
          else
            some ((borders ++ [new_border]).set p (set_b_x prev_border border.line.a.x),
              some borders.length)
        else if ¬ prev_border.line.b.x < border.line.a.x then none
        else some (borders ++ [border], some borders.length)

/-- Band merge, as `add_non_overlapping_edges`, with the edges converted to `float` and
the sweep of `merge_step_c`. -/
def add_non_overlapping_edges_c (boxes : List MetaBox)
    (band_above_start band_below_start band_below_end : ℕ) (borders : List MetaBorder) :
    Option (List MetaBorder) :=
  let band_merge :=
    (box_range boxes band_above_start band_below_start).map bottom_edge_c ++
      (box_range boxes band_below_start band_below_end).map top_edge_c
  let sorted := g_array_sort band_merge compare_lines_x
  (sorted.foldlM merge_step_c (borders, none)).map Prod.fst

/-- Appends the bottom edges of the boxes `band_start .. band_end - 1`, converted to
`float`. -/
def add_band_bottom_edges_c (boxes : List MetaBox) (band_start band_end : ℕ)
    (borders : List MetaBorder) : List MetaBorder :=
  borders ++ (box_range boxes band_start band_end).map bottom_edge_c

/-- First block of the loop body of `region_to_outline`, as `gap_stage`. -/
def gap_stage_c (boxes : List MetaBox) (st : OutlineState) (i : ℕ) (box : MetaBox) :
    Option OutlineState :=
  if 0 < i then
    match boxes[i - 1]? with
    | none => none
    | some above =>
      if box.y1 ≠ st.prev_top ∧ box.y1 ≠ above.y2 then
        some { st with
          current_roof := box.y1
          borders := add_band_bottom_edges_c boxes st.band_start i st.borders }
      else some st
  else some st

/-- Second block of the loop body of `region_to_outline`, as `last_band_stage`. -/
def last_band_stage_c (boxes : List MetaBox) (st : OutlineState) (i : ℕ) (box : MetaBox) :
    Option OutlineState :=
  if box.y1 ≠ st.current_roof ∧ i = boxes.length - 1 then
    if box.y1 ≠ st.prev_top then
      (add_non_overlapping_edges_c boxes st.band_start i (i + 1) st.borders).map
        fun bs => { st with borders := bs }
    else
      (add_non_overlapping_edges_c boxes st.prev_band_start st.band_start (i + 1)
        st.borders).map fun bs => { st with borders := bs }
  else some st

/-- Third block of the loop body of `region_to_outline`, as `passed_band_stage`. -/
def passed_band_stage_c (boxes : List MetaBox) (top_most : ℤ) (st : OutlineState) (i : ℕ)
    (box : MetaBox) : Option OutlineState :=
  if box.y1 ≠ top_most ∧ box.y1 ≠ st.prev_top then
    let merged : Option (List MetaBorder) :=
      if st.prev_top ≠ st.current_roof then
        add_non_overlapping_edges_c boxes st.prev_band_start st.band_start i st.borders
      else some st.borders
    merged.map fun bs =>
      { st with borders := bs, prev_band_start := st.band_start, band_start := i }
  else some st

/-- Last block of the loop body of `region_to_outline`, as `edges_stage`, the `int`
coordinates of the box converted to `float` by the calls of `add_border`. -/
def edges_stage_c (bottom_most : ℤ) (st : OutlineState) (box : MetaBox) : OutlineState :=
  let b4 :=
    if box.y1 = st.current_roof then
      add_border st.borders (int_to_float box.x1) (int_to_float box.y1)
        (int_to_float box.x2) (int_to_float box.y1) META_BORDER_MOTION_DIRECTION_NEGATIVE_Y
    else st.borders
  let b5 :=
    if box.y2 = bottom_most then
      add_border b4 (int_to_float box.x1) (int_to_float box.y2) (int_to_float box.x2)
        (int_to_float box.y2) META_BORDER_MOTION_DIRECTION_POSITIVE_Y
    else b4
  let b6 := add_border b5 (int_to_float box.x1) (int_to_float box.y1)
    (int_to_float box.x1) (int_to_float box.y2) META_BORDER_MOTION_DIRECTION_NEGATIVE_X
  let b7 := add_border b6 (int_to_float box.x2) (int_to_float box.y1)
    (int_to_float box.x2) (int_to_float box.y2) META_BORDER_MOTION_DIRECTION_POSITIVE_X
  { st with borders := b7, prev_top := box.y1 }

/-- Body of the main loop of `region_to_outline` for the box of index `i`. -/
def outline_step_c (boxes : List MetaBox) (top_most bottom_most : ℤ) (st : OutlineState)
    (i : ℕ) : Option OutlineState :=
  match boxes[i]? with
  | none => none
  | some box =>
    (gap_stage_c boxes st i box).bind fun st1 =>
    (last_band_stage_c boxes st1 i box).bind fun st2 =>
    (passed_band_stage_c boxes top_most st2 i box).bind fun st3 =>
    some (edges_stage_c bottom_most st3 box)

/-- The part of `region_to_outline` after the boxes have been filled in, as
`outline_of_boxes`. -/
def outline_of_boxes_c (boxes : List MetaBox) (borders : List MetaBorder) :
    Option (List MetaBorder) :=
  match boxes[0]?, boxes[boxes.length - 1]? with
  | some first, some final =>
    ((List.range boxes.length).foldlM (outline_step_c boxes first.y1 final.y2)
      ⟨0, first.y1, 0, 0, borders⟩).map OutlineState.borders
  | _, _ => none

/-- Outline of a region, appended to `borders`, as the C program builds it. -/
def region_to_outline_c (region : List MtkRectangle) (borders : List MetaBorder) :
    Option (List MetaBorder) :=
  outline_of_boxes_c (region.map box_of_rectangle) borders

/-- Body of the loop of `get_closest_border` on `float` values. The intersection point
is stored in `float` fields, `meta_vector2_subtract` yields `float` fields, and the
squared distance is a `float` expression; `closest_distance_2` starts at
`(float) DBL_MAX`, which is `+infinity`. -/
def closest_border_step_c (motion : MetaLine2) (directions : Directions)
    (acc : Option MetaBorder × Option ℚ) (border : MetaBorder) :
    Option MetaBorder × Option ℚ :=
  if !meta_border_is_blocking_directions border directions then acc
  else
    match meta_line2_intersects_with border.line motion with
    | none => acc
    | some intersection =>
      let delta : MetaVector2 :=
        ⟨float_round (float_round intersection.x - motion.a.x),
         float_round (float_round intersection.y - motion.a.y)⟩
      let distance_2 := float_sum_of_squares delta.x delta.y
      if float_below distance_2 acc.2 then (some border, distance_2) else acc

/-- Blocking border whose intersection with the motion is closest to the motion's
start, by `float` distances; `none` is `NULL`. -/
def get_closest_border_c (borders : List MetaBorder) (motion : MetaLine2)
    (directions : Directions) : Option MetaBorder :=
  (borders.foldl (closest_border_step_c motion directions) (none, none)).1

/-- Clamps the end of the motion onto the border, as `clamp_to_border`; the difference
`border->line.a.y - min_edge_distance` is a `double`, stored in the `float` field of
`motion->b`. -/
def clamp_to_border_c (border : MetaBorder) (motion : MetaLine2) (motion_dir : Directions)
    (min_edge_distance : ℚ) : MetaLine2 × Directions :=
  if meta_border_is_horizontal border then
    let y :=
      if (motion_dir.and META_BORDER_MOTION_DIRECTION_POSITIVE_Y).nonzero then
        float_store_sum border.line.a.y (-min_edge_distance)
      else border.line.a.y
    ({ motion with b := { motion.b with y := y } },
      motion_dir.clear (META_BORDER_MOTION_DIRECTION_POSITIVE_Y.or
        META_BORDER_MOTION_DIRECTION_NEGATIVE_Y))
  else
    let x :=
      if (motion_dir.and META_BORDER_MOTION_DIRECTION_POSITIVE_X).nonzero then
        float_store_sum border.line.a.x (-min_edge_distance)
      else border.line.a.x
    ({ motion with b := { motion.b with x := x } },
      motion_dir.clear (META_BORDER_MOTION_DIRECTION_POSITIVE_X.or
        META_BORDER_MOTION_DIRECTION_NEGATIVE_X))

/-- The loop `while (directions)` of the constrain operation, as `clamp_loop`, on
`float` values. -/
def clamp_loop_c (borders : List MetaBorder) (min_edge_distance : ℚ) :
    ℕ → MetaLine2 → Directions → Option (MetaLine2 × ℕ)
  | 0, motion, directions => if directions.nonzero then none else some (motion, 0)
  | fuel + 1, motion, directions =>
    if directions.nonzero then
      match get_closest_border_c borders motion directions with
      | some closest_border =>
        let clamped :=
          clamp_to_border_c closest_border motion directions min_edge_distance
        (clamp_loop_c borders min_edge_distance fuel clamped.1 clamped.2).map
          fun r => (r.1, r.2 + 1)
      | none => some (motion, 1)
    else some (motion, 0)

/-- The constrain operation on `float` values with the outline of
`region_to_outline_c`: the nudge `x += (float) wl_fixed_to_double(1)`, the differences
with the origin and the sums with the origin are `float` operations. -/
def meta_pointer_constraint_impl_native_constrain_c (fuel : ℕ)
    (constraint_impl_native : MetaPointerConstraintImplNative)
    (prev_x prev_y x_inout y_inout : ℚ) : Option ConstrainResult :=
  let region := constraint_impl_native.region
  if mtk_region_is_empty region then
    some ⟨constraint_impl_native.origin.x, constraint_impl_native.origin.y, 0⟩
  else
    let x := x_inout
    let y := y_inout
    let x := if x > prev_x then float_round (x + wl_fixed_unit) else x
    let y := if y > prev_y then float_round (y + wl_fixed_unit) else y
    match region_to_outline_c region [] with
    | none => none
    | some borders =>
      let motion : MetaLine2 :=
        ⟨⟨float_round (prev_x - constraint_impl_native.origin.x),
          float_round (prev_y - constraint_impl_native.origin.y)⟩,
         ⟨float_round (x - constraint_impl_native.origin.x),
          float_round (y - constraint_impl_native.origin.y)⟩⟩
      let directions := get_motion_directions motion
      (clamp_loop_c borders constraint_impl_native.min_edge_distance fuel motion
        directions).map fun r =>
          ⟨float_round (r.1.b.x + constraint_impl_native.origin.x),
           float_round (r.1.b.y + constraint_impl_native.origin.y), r.2⟩

/-- Squared distance from `(x, y)` to the border, as the `float` function computes it;
`none` is an infinity. -/
def point_to_border_distance_2_c (border : MetaBorder) (x y : ℚ) : Option ℚ :=
  let orig : ℚ × ℚ :=
    if meta_border_is_horizontal border then
      ((if x < border.line.a.x then border.line.a.x
        else if x > border.line.b.x then border.line.b.x
        else x), border.line.a.y)
    else
      (border.line.a.x,
       (if y < border.line.a.y then border.line.a.y
        else if y > border.line.b.y then border.line.b.y
        else y))
  let dx := |float_round (orig.1 - x)|
  let dy := |float_round (orig.2 - y)|
  float_sum_of_squares dx dy

/-- Moves `(sx, sy)` to the allowed side of the border, as
`closest_point_behind_border`; each sum with `wl_fixed_to_double (1)` is a `double`,
stored in the `float` that `sx` or `sy` points to. -/
def closest_point_behind_border_c (border : MetaBorder) (sx sy : ℚ) : ℚ × ℚ :=
  if border.blocking_directions = META_BORDER_MOTION_DIRECTION_POSITIVE_X ∨
      border.blocking_directions = META_BORDER_MOTION_DIRECTION_NEGATIVE_X then
    let sx :=
      if border.blocking_directions = META_BORDER_MOTION_DIRECTION_POSITIVE_X then
        float_store_sum border.line.a.x (-wl_fixed_unit)
      else float_store_sum border.line.a.x wl_fixed_unit
    let sy :=
      if sy < border.line.a.y then float_store_sum border.line.a.y wl_fixed_unit
      else if sy > border.line.b.y then float_store_sum border.line.b.y (-wl_fixed_unit)
      else sy
    (sx, sy)
  else if border.blocking_directions = META_BORDER_MOTION_DIRECTION_POSITIVE_Y ∨
      border.blocking_directions = META_BORDER_MOTION_DIRECTION_NEGATIVE_Y then
    let sy :=
      if border.blocking_directions = META_BORDER_MOTION_DIRECTION_POSITIVE_Y then
        float_store_sum border.line.a.y (-wl_fixed_unit)
      else float_store_sum border.line.a.y wl_fixed_unit
    let sx :=
      if sx < border.line.a.x then float_store_sum border.line.a.x wl_fixed_unit
      else if sx > border.line.b.x then float_store_sum border.line.b.x (-wl_fixed_unit)
      else sx
    (sx, sy)
  else (sx, sy)

/-- Body of the search loop of the ensure-constrained operation on `float` distances;
`closest_distance_2` starts at `FLT_MAX`. -/
def nearest_border_step_c (rel_x rel_y : ℚ) (acc : Option MetaBorder × Option ℚ)
    (border : MetaBorder) : Option MetaBorder × Option ℚ :=
  let distance_2 := point_to_border_distance_2_c border rel_x rel_y
  if float_below distance_2 acc.2 then (some border, distance_2) else acc

/-- Conversion `(int) v` of a `float` for a 32-bit `int`; `none` when the integer part
is not an `int`, where the conversion is undefined. -/
def float_to_int_c (v : ℚ) : Option ℤ :=
  if -2 ^ 31 ≤ float_to_int v ∧ float_to_int v < 2 ^ 31 then some (float_to_int v)
  else none

/-- The ensure-constrained operation on `float` values with the outline of
`region_to_outline_c`. The result is the target of the `clutter_seat_warp_pointer`
call, or `none` inside when no warp is issued; the outer `none` stands for a run that
stops or is undefined, as when `closest_border` is still `NULL` after the search. -/
def meta_pointer_constraint_impl_native_ensure_constrained_c
    (constraint_impl_native : MetaPointerConstraintImplNative) (point : MetaVector2) :
    Option (Option MetaVector2) :=
  let region := constraint_impl_native.region
  let x := point.x
  let y := point.y
  let rel_x := float_round (x - constraint_impl_native.origin.x)
  let rel_y := float_round (y - constraint_impl_native.origin.y)
  if mtk_region_is_empty region then
    if x ≠ constraint_impl_native.origin.x ∨ y ≠ constraint_impl_native.origin.y then
      some (some ⟨constraint_impl_native.origin.x, constraint_impl_native.origin.y⟩)
    else some none
  else
    match float_to_int_c rel_x, float_to_int_c rel_y with
    | some int_x, some int_y =>
      if !mtk_region_contains_point region int_x int_y then
        match region_to_outline_c region [] with
        | none => none
        | some borders =>
          match (borders.foldl (nearest_border_step_c rel_x rel_y)
              (none, some FLT_MAX)).1 with
          | none => none
          | some closest_border =>
            let rel := closest_point_behind_border_c closest_border rel_x rel_y
            some (some ⟨float_round (rel.1 + constraint_impl_native.origin.x),
              float_round (rel.2 + constraint_impl_native.origin.y)⟩)
      else some none
    | _, _ => none

/-- What the sweep of the band merge does, in the program, with the border
`prev_border` that it last appended when it meets the merged edge `border`, the output
array holding `len` borders: as `merge_view`, except that the border which the split
shortens keeps its `b.x` when the append moves the array. -/
def merge_view_c (len : ℕ) (prev_border border : MetaBorder) : Option (List MetaBorder) :=
  if border.line.a.y ≠ border.line.b.y then none
  else if prev_border.line.a.y ≠ border.line.a.y then none
  else if prev_border.line.a.x = border.line.a.x ∧
      prev_border.line.b.x = border.line.b.x then none
  else if ¬ prev_border.line.a.x ≤ border.line.a.x then none
  else if prev_border.line.a.x = border.line.a.x then
    some [set_a_x prev_border border.line.b.x]
  else if prev_border.line.b.x = border.line.b.x then
    some [set_b_x prev_border border.line.a.x]
  else if prev_border.line.b.x = border.line.a.x then
    some [set_b_x prev_border border.line.b.x]
  else if prev_border.line.b.x ≥ border.line.a.x then
    some [if g_array_append_moves len then prev_border
      else set_b_x prev_border border.line.a.x,
      ⟨⟨⟨border.line.b.x, border.line.b.y⟩,
        ⟨prev_border.line.b.x, prev_border.line.b.y⟩⟩,
       prev_border.blocking_directions⟩]
  else if ¬ prev_border.line.b.x < border.line.a.x then none
  else some [prev_border, border]

/-- The border is a horizontal segment of positive length that blocks `+Y` or `-Y`. -/
def horizontal_blocker (border : MetaBorder) : Prop :=
  border.line.a.y = border.line.b.y ∧ border.line.a.x ≠ border.line.b.x ∧
    (border.blocking_directions = META_BORDER_MOTION_DIRECTION_POSITIVE_Y ∨
      border.blocking_directions = META_BORDER_MOTION_DIRECTION_NEGATIVE_Y)

/-- The border is a vertical segment of positive length that blocks `+X` or `-X`. -/
def vertical_blocker (border : MetaBorder) : Prop :=
  border.line.a.x = border.line.b.x ∧ border.line.a.y ≠ border.line.b.y ∧
    (border.blocking_directions = META_BORDER_MOTION_DIRECTION_POSITIVE_X ∨
      border.blocking_directions = META_BORDER_MOTION_DIRECTION_NEGATIVE_X)

/-- The coordinates of the rectangle, and of its far corner, have magnitude at most
`2 ^ 24`, where every `int` is a `float`. -/
def within_float_integers (rect : MtkRectangle) : Prop :=
  |rect.x| ≤ 2 ^ 24 ∧ |rect.y| ≤ 2 ^ 24 ∧ |rect.x + rect.width| ≤ 2 ^ 24 ∧
    |rect.y + rect.height| ≤ 2 ^ 24

instance (rect : MtkRectangle) : Decidable (within_float_integers rect) := by
  unfold within_float_integers; infer_instance

/-- The candidate component `v` after `if (v > prev) v += (float) wl_fixed_to_double(1)`,
a `float` addition. -/
def nudged (prev v : ℚ) : ℚ :=
  if v > prev then float_round (v + wl_fixed_unit) else v

/-- The motion that the constrain operation tests the borders with, as the program
holds it: from the previous point to the nudged candidate, both relative to the origin,
every difference a `float`. -/
def tested_motion_c (origin : MetaVector2) (prev_x prev_y x y : ℚ) : MetaLine2 :=
  ⟨⟨float_round (prev_x - origin.x), float_round (prev_y - origin.y)⟩,
   ⟨float_round (nudged prev_x x - origin.x), float_round (nudged prev_y y - origin.y)⟩⟩

/-- The component `v` of the candidate comes back from the constrain operation as the
claimed value when it is left unclamped: origin, previous component and candidate
component are finite `float` values, the differences with the origin are finite, and the
nudge, the subtraction of the origin and the addition of the origin, each rounded to
`float`, give `v + 1/256` for a component that strictly increased and `v` otherwise. -/
def stored_exactly (origin prev v : ℚ) : Prop :=
  is_float origin ∧ is_float prev ∧ is_float v ∧
    |float_round (prev - origin)| ≤ FLT_MAX ∧
    |float_round (nudged prev v - origin)| ≤ FLT_MAX ∧
    float_round (float_round (nudged prev v - origin) + origin) =
      if v > prev then v + wl_fixed_unit else v

instance (origin prev v : ℚ) : Decidable (stored_exactly origin prev v) := by
  unfold stored_exactly; infer_instance

/-- The region of the rows `(0,0)-(10,1)`, `(2,1)-(8,2)` and `(3,2)-(5,3)`, each row
one rectangle, in banded form. -/
def lost_write_region : List MtkRectangle :=
  [⟨0, 0, 10, 1⟩, ⟨2, 1, 6, 1⟩, ⟨3, 2, 2, 1⟩]

/-- Outline that the program builds for `lost_write_region`, in the order in which the
borders are appended. The sixth border, the bottom edge `(2,2)-(8,2)` of the second
row, was to be shortened to `(2,2)-(3,2)` when the top edge of the third row split it;
the append of the right part `(5,2)-(8,2)`, the seventh border, moved the array, and
the write that shortens the sixth border was lost. -/
def lost_write_outline : List MetaBorder :=
  [⟨⟨⟨0, 0⟩, ⟨10, 0⟩⟩, META_BORDER_MOTION_DIRECTION_NEGATIVE_Y⟩,
    ⟨⟨⟨0, 0⟩, ⟨0, 1⟩⟩, META_BORDER_MOTION_DIRECTION_NEGATIVE_X⟩,
    ⟨⟨⟨10, 0⟩, ⟨10, 1⟩⟩, META_BORDER_MOTION_DIRECTION_POSITIVE_X⟩,
    ⟨⟨⟨2, 1⟩, ⟨2, 2⟩⟩, META_BORDER_MOTION_DIRECTION_NEGATIVE_X⟩,
    ⟨⟨⟨8, 1⟩, ⟨8, 2⟩⟩, META_BORDER_MOTION_DIRECTION_POSITIVE_X⟩,
    ⟨⟨⟨2, 2⟩, ⟨8, 2⟩⟩, META_BORDER_MOTION_DIRECTION_POSITIVE_Y⟩,
    ⟨⟨⟨5, 2⟩, ⟨8, 2⟩⟩, META_BORDER_MOTION_DIRECTION_POSITIVE_Y⟩,
    ⟨⟨⟨0, 1⟩, ⟨2, 1⟩⟩, META_BORDER_MOTION_DIRECTION_POSITIVE_Y⟩,
    ⟨⟨⟨8, 1⟩, ⟨10, 1⟩⟩, META_BORDER_MOTION_DIRECTION_POSITIVE_Y⟩,
    ⟨⟨⟨3, 3⟩, ⟨5, 3⟩⟩, META_BORDER_MOTION_DIRECTION_POSITIVE_Y⟩,
    ⟨⟨⟨3, 2⟩, ⟨3, 3⟩⟩, META_BORDER_MOTION_DIRECTION_NEGATIVE_X⟩,
    ⟨⟨⟨5, 2⟩, ⟨5, 3⟩⟩, META_BORDER_MOTION_DIRECTION_POSITIVE_X⟩]

/-- The directions have a bit on the axis that `clamp_to_border` clears for the border:
a Y direction for a horizontal border, an X direction for any other border. -/
def moves_across (border : MetaBorder) (directions : Directions) : Bool :=
  if meta_border_is_horizontal border then directions.positive_y || directions.negative_y
  else directions.positive_x || directions.negative_x

/-- Body of the loop of `get_closest_border`, as `closest_border_step_c`, with the
blocking test as a parameter: `meta_border_is_blocking_directions` is declared in
`core/meta-border.c`, which is not among the sources. -/
def closest_border_step_with (is_blocking : MetaBorder → Directions → Bool)
    (motion : MetaLine2) (directions : Directions)
    (acc : Option MetaBorder × Option ℚ) (border : MetaBorder) :
    Option MetaBorder × Option ℚ :=
  if !is_blocking border directions then acc
  else
    match meta_line2_intersects_with border.line motion with
    | none => acc
    | some intersection =>
      let delta : MetaVector2 :=
        ⟨float_round (float_round intersection.x - motion.a.x),
         float_round (float_round intersection.y - motion.a.y)⟩
      let distance_2 := float_sum_of_squares delta.x delta.y
      if float_below distance_2 acc.2 then (some border, distance_2) else acc

/-- The search `get_closest_border`, as `get_closest_border_c`, with the blocking test
as a parameter. -/
def get_closest_border_with (is_blocking : MetaBorder → Directions → Bool)
    (borders : List MetaBorder) (motion : MetaLine2) (directions : Directions) :
    Option MetaBorder :=
  (borders.foldl (closest_border_step_with is_blocking motion directions) (none, none)).1

/-- The loop `while (directions)` of the constrain operation, as `clamp_loop_c`, with
the blocking test as a parameter. -/
def clamp_loop_with (is_blocking : MetaBorder → Directions → Bool)
    (borders : List MetaBorder) (min_edge_distance : ℚ) :
    ℕ → MetaLine2 → Directions → Option (MetaLine2 × ℕ)
  | 0, motion, directions => if directions.nonzero then none else some (motion, 0)
  | fuel + 1, motion, directions =>
    if directions.nonzero then
      match get_closest_border_with is_blocking borders motion directions with
      | some closest_border =>
        let clamped :=
          clamp_to_border_c closest_border motion directions min_edge_distance
        (clamp_loop_with is_blocking borders min_edge_distance fuel clamped.1
          clamped.2).map fun r => (r.1, r.2 + 1)
      | none => some (motion, 1)
    else some (motion, 0)

/-! ## Theorems -/

/-! ## Evaluation lemmas -/

theorem box_of_corner_rectangle (x1 y1 x2 y2 : ℤ) :
    box_of_rectangle ⟨x1, y1, x2 - x1, y2 - y1⟩ = ⟨x1, y1, x2, y2⟩ := by
  simp [box_of_rectangle]

/-- C3: with an empty region the constrain operation returns exactly the origin, for every
previous point, candidate point, margin and fuel, and the clamping loop is not entered.
No outline is built on the way: building one for the empty region would stop at the
read of `boxes[0]`. -/
theorem constrain_empty_region_returns_origin (fuel : ℕ) (origin : MetaVector2)
    (min_edge_distance prev_x prev_y x y : ℚ) :
    meta_pointer_constraint_impl_native_constrain fuel ⟨[], origin, min_edge_distance⟩
        prev_x prev_y x y = some ⟨origin.x, origin.y, 0⟩ ∧
      region_to_outline [] [] = none := by
  constructor
  · simp [meta_pointer_constraint_impl_native_constrain, mtk_region_is_empty]
  · rfl

/-- C4: with an empty region the ensure-constrained operation warps to the origin exactly
when the reported position differs from the origin, so the pointer ends at the origin. -/
theorem ensure_constrained_empty_region_resolves_to_origin (origin point : MetaVector2)
    (min_edge_distance : ℚ) :
    meta_pointer_constraint_impl_native_ensure_constrained
        ⟨[], origin, min_edge_distance⟩ point =
        some (if point = origin then none else some origin) ∧
      pointer_after point (if point = origin then none else some origin) = origin := by
  obtain ⟨px, py⟩ := point
  obtain ⟨ox, oy⟩ := origin
  constructor
  · by_cases h : px = ox ∧ py = oy
    · obtain ⟨rfl, rfl⟩ := h
      simp [meta_pointer_constraint_impl_native_ensure_constrained, mtk_region_is_empty]
    · have h' : ¬ (MetaVector2.mk px py = MetaVector2.mk ox oy) := by
        intro e; injection e with e1 e2; exact h ⟨e1, e2⟩
      have h'' : px ≠ ox ∨ py ≠ oy := by
        by_contra hc; push_neg at hc; exact h hc
      simp [meta_pointer_constraint_impl_native_ensure_constrained, mtk_region_is_empty,
        h', h'']
  · by_cases h : MetaVector2.mk px py = MetaVector2.mk ox oy
    · simp [pointer_after, h]
    · simp [pointer_after, h]

theorem float_to_int_eq (v : ℚ) :
    float_to_int v = if 0 ≤ v then ⌊v⌋ else ⌈v⌉ := by
  unfold float_to_int
  split_ifs with h
  · rw [Rat.floor_def]
    have hn : 0 ≤ v.num := Rat.num_nonneg.mpr h
    exact Int.tdiv_eq_ediv hn (by exact_mod_cast Nat.zero_le _)
  · have hn : v.num < 0 := Rat.num_neg.mpr (not_le.mp h)
    have h1 : Int.tdiv v.num v.den = -Int.tdiv (-v.num) v.den := by
      rw [Int.neg_tdiv]; ring
    rw [h1, Int.tdiv_eq_ediv (by omega) (by exact_mod_cast Nat.zero_le _)]
    have h2 : ⌈v⌉ = -⌊-v⌋ := by rw [Int.floor_neg]; ring
    rw [h2, Rat.floor_def]
    simp

theorem lt_float_to_int (k : ℤ) (v : ℚ) (h : (k : ℚ) < v) : k ≤ float_to_int v := by
  rw [float_to_int_eq]
  split_ifs with h0
  · exact Int.le_floor.mpr h.le
  · have : (k : ℚ) < (⌈v⌉ : ℚ) := lt_of_lt_of_le h (Int.le_ceil v)
    exact_mod_cast this.le

/-- The search for the nearest border ends on the last border of the array when that
border is strictly nearer than every earlier one. -/
theorem nearest_border_fold_last (rel_x rel_y : ℚ) (l : List MetaBorder) (b : MetaBorder)
    (h : ∀ c ∈ l, point_to_border_distance_2 b rel_x rel_y <
      point_to_border_distance_2 c rel_x rel_y) :
    ((l ++ [b]).foldl (nearest_border_step rel_x rel_y) (none, none)).1 = some b := by
  have key : ∀ (l : List MetaBorder) (acc : Option MetaBorder × Option ℚ),
      (∀ c ∈ l, point_to_border_distance_2 b rel_x rel_y <
        point_to_border_distance_2 c rel_x rel_y) →
      (∀ d, acc.2 = some d → point_to_border_distance_2 b rel_x rel_y < d) →
      ∀ d, (l.foldl (nearest_border_step rel_x rel_y) acc).2 = some d →
        point_to_border_distance_2 b rel_x rel_y < d := by
    intro l
    induction l with
    | nil => intro acc _ hacc; simpa using hacc
    | cons c l ih =>
      intro acc hl hacc
      simp only [List.foldl_cons]
      apply ih
      · intro c' hc'; exact hl c' (List.mem_cons_of_mem _ hc')
      · intro d hd
        simp only [nearest_border_step] at hd
        split_ifs at hd
        · simp only [Option.some.injEq] at hd
          rw [← hd]; exact hl c (List.mem_cons_self _ _)
        · exact hacc d hd
  rw [List.foldl_append]
  simp only [List.foldl_cons, List.foldl_nil]
  have hk := key l (none, none) h (by simp)
  generalize l.foldl (nearest_border_step rel_x rel_y) (none, none) = acc at hk
  have : below_closest (point_to_border_distance_2 b rel_x rel_y) acc.2 = true := by
    unfold below_closest
    cases hq : acc.2 with
    | none => rfl
    | some d => simpa using hk d hq
  simp only [nearest_border_step, this, if_true]

/-- C1 at the failing input: the region of the two rectangles `(0,0)-(10,10)` and
`(10,10)-(20,20)` is in banded form, two rows that touch in one corner. The previous
point `(15, 15)` lies inside it; the motion to `(15, 5)` is returned unclamped, and
`(15, 5)` is not within `1/256` of the closure of the region. The outline has the single
border `(0,10)-(20,10)` on the line `y = 10`, blocking `+Y` only. -/
theorem constrain_escapes_corner_touching_bands :
    banded ([⟨0, 0, 10, 10⟩, ⟨10, 10, 10, 10⟩].map box_of_rectangle) ∧
      inside_region [⟨0, 0, 10, 10⟩, ⟨10, 10, 10, 10⟩] 15 15 ∧
      region_to_outline [⟨0, 0, 10, 10⟩, ⟨10, 10, 10, 10⟩] [] =
        some [top_edge ⟨0, 0, 10, 10⟩, left_edge ⟨0, 0, 10, 10⟩, right_edge ⟨0, 0, 10, 10⟩,
          ⟨⟨⟨0, 10⟩, ⟨20, 10⟩⟩, META_BORDER_MOTION_DIRECTION_POSITIVE_Y⟩,
          bottom_edge ⟨10, 10, 20, 20⟩, left_edge ⟨10, 10, 20, 20⟩,
          right_edge ⟨10, 10, 20, 20⟩] ∧
      meta_pointer_constraint_impl_native_constrain 2
        ⟨[⟨0, 0, 10, 10⟩, ⟨10, 10, 10, 10⟩], ⟨0, 0⟩, 0⟩ 15 15 15 5 = some ⟨15, 5, 1⟩ ∧
      ¬ within_closure [⟨0, 0, 10, 10⟩, ⟨10, 10, 10, 10⟩] (1 / 256) 15 5 := by
  refine ⟨by decide, by decide!, by decide!, by decide!, by decide!⟩

/-- C5 at the failing input: for the region of the rectangles `(0,0)-(10,10)`,
`(20,0)-(30,10)` and `(0,10)-(10,20)` the outline is not built, because the band merge
stops in the assertion that two merged edges never have both ends equal; so the
constrain operation returns nothing for the degenerate motion from `(5, 5)` to `(5, 5)`,
whatever the fuel. -/
theorem constrain_degenerate_motion_stops_in_assertion :
    banded ([⟨0, 0, 10, 10⟩, ⟨20, 0, 10, 10⟩, ⟨0, 10, 10, 10⟩].map box_of_rectangle) ∧
      region_to_outline [⟨0, 0, 10, 10⟩, ⟨20, 0, 10, 10⟩, ⟨0, 10, 10, 10⟩] [] = none ∧
      ¬ ∃ fuel, (meta_pointer_constraint_impl_native_constrain fuel
        ⟨[⟨0, 0, 10, 10⟩, ⟨20, 0, 10, 10⟩, ⟨0, 10, 10, 10⟩], ⟨0, 0⟩, 0⟩ 5 5 5 5).isSome := by
  have h : region_to_outline [⟨0, 0, 10, 10⟩, ⟨20, 0, 10, 10⟩, ⟨0, 10, 10, 10⟩] [] = none := by
    decide!
  refine ⟨by decide, h, ?_⟩
  rintro ⟨fuel, hf⟩
  simp [meta_pointer_constraint_impl_native_constrain, mtk_region_is_empty, h] at hf

/-- Degenerate motion on a non-empty region whose outline is built: the direction set is
empty, the loop body is not entered and the point is returned unchanged. -/
theorem constrain_degenerate_motion_of_outline (fuel : ℕ)
    (impl : MetaPointerConstraintImplNative) (borders : List MetaBorder) (px py : ℚ)
    (hne : impl.region ≠ [])
    (hout : region_to_outline impl.region [] = some borders) :
    get_motion_directions
        ⟨⟨px - impl.origin.x, py - impl.origin.y⟩, ⟨px - impl.origin.x, py - impl.origin.y⟩⟩ =
        Directions.none ∧
      meta_pointer_constraint_impl_native_constrain fuel impl px py px py =
        some ⟨px, py, 0⟩ := by
  have hd : get_motion_directions
        ⟨⟨px - impl.origin.x, py - impl.origin.y⟩, ⟨px - impl.origin.x, py - impl.origin.y⟩⟩ =
        Directions.none := by
    simp [get_motion_directions]
  refine ⟨hd, ?_⟩
  have he : mtk_region_is_empty impl.region = false := by
    cases hr : impl.region with
    | nil => exact absurd hr hne
    | cons a l => rfl
  simp only [meta_pointer_constraint_impl_native_constrain, he, hout, hd, lt_irrefl,
    gt_iff_lt, if_false, Bool.false_eq_true]
  cases fuel <;> simp [clamp_loop, Directions.none, Directions.nonzero]

/-- C7 at the failing input: the point `(-1/2, 5)` lies inside the region of the one
rectangle `(-10,0)-(0,10)`, yet the ensure-constrained operation warps the pointer, to
`(-1/256, 5)`: the conversion to `int` turns `-1/2` into `0`, which the rectangle does
not hold. -/
theorem ensure_constrained_warps_point_inside :
    inside_region [⟨-10, 0, 10, 10⟩] (-1 / 2) 5 ∧
      meta_pointer_constraint_impl_native_ensure_constrained
        ⟨[⟨-10, 0, 10, 10⟩], ⟨0, 0⟩, 0⟩ ⟨-1 / 2, 5⟩ = some (some ⟨-1 / 256, 5⟩) := by
  decide!

/-- C8 at the failing input: the point `(-1/2, 5)` lies outside the region of the one
rectangle `(0,0)-(10,10)`, yet the ensure-constrained operation issues no warp: the
conversion to `int` turns `-1/2` into `0`, which the rectangle holds. And for the banded
region of the rectangles `(0,0)-(10,10)` and `(10,10)-(20,20)` the pointer at `(15, 9)`,
outside the region, is warped to `(15, 10 - 1/256)`, which is outside the region too:
the nearest border is `(0,10)-(20,10)`, which blocks `+Y` over its whole length. -/
theorem ensure_constrained_leaves_point_outside :
    (¬ inside_region [⟨0, 0, 10, 10⟩] (-1 / 2) 5 ∧
      meta_pointer_constraint_impl_native_ensure_constrained
        ⟨[⟨0, 0, 10, 10⟩], ⟨0, 0⟩, 0⟩ ⟨-1 / 2, 5⟩ = some none) ∧
    (¬ inside_region [⟨0, 0, 10, 10⟩, ⟨10, 10, 10, 10⟩] 15 9 ∧
      meta_pointer_constraint_impl_native_ensure_constrained
        ⟨[⟨0, 0, 10, 10⟩, ⟨10, 10, 10, 10⟩], ⟨0, 0⟩, 0⟩ ⟨15, 9⟩ =
        some (some ⟨15, 10 - 1 / 256⟩) ∧
      ¬ inside_region [⟨0, 0, 10, 10⟩, ⟨10, 10, 10, 10⟩] 15 (10 - 1 / 256)) := by
  refine ⟨⟨by decide!, by decide!⟩, by decide!, by decide!, by decide!⟩

theorem Directions.axes_le_two (d : Directions) : d.axes ≤ 2 := by
  unfold Directions.axes; split_ifs <;> omega

theorem Directions.axes_eq_zero_of_not_nonzero (d : Directions) (h : d.nonzero = false) :
    d.axes = 0 := by
  obtain ⟨a, b, c, e⟩ := d
  cases a <;> cases b <;> cases c <;> cases e <;> simp_all [Directions.nonzero, Directions.axes]

/-- The border that `get_closest_border` returns is one of the array and blocks one of
the directions. -/
theorem get_closest_border_some (borders : List MetaBorder) (motion : MetaLine2)
    (directions : Directions) (border : MetaBorder)
    (h : get_closest_border borders motion directions = some border) :
    border ∈ borders ∧ meta_border_is_blocking_directions border directions = true := by
  have key : ∀ (l : List MetaBorder) (acc : Option MetaBorder × Option ℚ),
      (∀ b, acc.1 = some b →
        b ∈ borders ∧ meta_border_is_blocking_directions b directions = true) →
      (∀ c ∈ l, c ∈ borders) →
      ∀ b, (l.foldl (closest_border_step motion directions) acc).1 = some b →
        b ∈ borders ∧ meta_border_is_blocking_directions b directions = true := by
    intro l
    induction l with
    | nil => intro acc hacc _ b hb; exact hacc b hb
    | cons c l ih =>
      intro acc hacc hl
      simp only [List.foldl_cons]
      apply ih
      · intro b hb
        unfold closest_border_step at hb
        split_ifs at hb with hblk
        · exact hacc b hb
        · split at hb
          · exact hacc b hb
          · simp only at hb
            split_ifs at hb
            · simp only [Option.some.injEq] at hb
              subst hb
              exact ⟨hl c (List.mem_cons_self _ _), by simpa using hblk⟩
            · exact hacc b hb
      · intro c' hc'; exact hl c' (List.mem_cons_of_mem _ hc')
  exact key borders (none, none) (by simp) (fun c hc => hc) border h

/-- Clamping onto a border that blocks along its normal removes one axis from the
directions. -/
theorem clamp_to_border_axes (border : MetaBorder) (motion : MetaLine2)
    (directions : Directions) (m : ℚ) (hn : blocks_along_normal border)
    (hb : meta_border_is_blocking_directions border directions = true) :
    (clamp_to_border border motion directions m).2.axes + 1 = directions.axes := by
  obtain ⟨line, ⟨bpx, bpy, bnx, bny⟩⟩ := border
  obtain ⟨dpx, dpy, dnx, dny⟩ := directions
  unfold blocks_along_normal at hn
  unfold clamp_to_border
  by_cases hh : meta_border_is_horizontal ⟨line, ⟨bpx, bpy, bnx, bny⟩⟩ = true
  · simp only [hh, if_true] at hn ⊢
    obtain ⟨h1, h2⟩ := hn
    subst h1 h2
    cases dpx <;> cases dpy <;> cases dnx <;> cases dny <;> cases bpy <;> cases bny <;>
      simp_all [meta_border_is_blocking_directions, Directions.and, Directions.nonzero,
        Directions.axes, Directions.clear, Directions.or,
        META_BORDER_MOTION_DIRECTION_POSITIVE_Y, META_BORDER_MOTION_DIRECTION_NEGATIVE_Y]
  · simp only [hh, if_false, Bool.false_eq_true] at hn ⊢
    obtain ⟨h1, h2⟩ := hn
    subst h1 h2
    cases dpx <;> cases dpy <;> cases dnx <;> cases dny <;> cases bpx <;> cases bnx <;>
      simp_all [meta_border_is_blocking_directions, Directions.and, Directions.nonzero,
        Directions.axes, Directions.clear, Directions.or,
        META_BORDER_MOTION_DIRECTION_POSITIVE_X, META_BORDER_MOTION_DIRECTION_NEGATIVE_X]

/-- More fuel does not change a finished run of the clamping loop. -/
theorem clamp_loop_fuel_mono (borders : List MetaBorder) (m : ℚ) (fuel : ℕ) :
    ∀ (motion : MetaLine2) (directions : Directions) (r : MetaLine2 × ℕ),
      clamp_loop borders m fuel motion directions = some r →
      clamp_loop borders m (fuel + 1) motion directions = some r := by
  induction fuel with
  | zero =>
    intro motion directions r h
    unfold clamp_loop at h
    split_ifs at h with hd
    simp only [clamp_loop, hd, if_false, Bool.false_eq_true]
    exact h
  | succ fuel ih =>
    intro motion directions r h
    rw [clamp_loop] at h ⊢
    split_ifs at h ⊢ with hd
    · split at h
      · rename_i closest_border hc
        simp only [Option.map_eq_some'] at h
        obtain ⟨r', hr', rfl⟩ := h
        simp only [ih _ _ _ hr', Option.map_some']
      · exact h
    · exact h

theorem clamp_loop_fuel_le (borders : List MetaBorder) (m : ℚ) (fuel fuel' : ℕ)
    (hle : fuel ≤ fuel') (motion : MetaLine2) (directions : Directions) (r : MetaLine2 × ℕ)
    (h : clamp_loop borders m fuel motion directions = some r) :
    clamp_loop borders m fuel' motion directions = some r := by
  induction hle with
  | refl => exact h
  | step _ ih => exact clamp_loop_fuel_mono borders m _ motion directions r ih

/-- With borders that block along their normal, the loop is left after at most as many
entries of its body as the directions have axes. -/
theorem clamp_loop_axes (borders : List MetaBorder) (m : ℚ)
    (hb : ∀ b ∈ borders, blocks_along_normal b) (fuel : ℕ) :
    ∀ (motion : MetaLine2) (directions : Directions), directions.axes ≤ fuel →
      ∃ r, clamp_loop borders m fuel motion directions = some r ∧ r.2 ≤ directions.axes := by
  induction fuel with
  | zero =>
    intro motion directions h
    have hz : directions.nonzero = false := by
      obtain ⟨a, b, c, e⟩ := directions
      cases a <;> cases b <;> cases c <;> cases e <;>
        simp_all [Directions.nonzero, Directions.axes]
    exact ⟨(motion, 0), by simp [clamp_loop, hz], Nat.zero_le _⟩
  | succ fuel ih =>
    intro motion directions h
    rw [clamp_loop]
    by_cases hd : directions.nonzero = true
    · simp only [hd, if_true]
      have hpos : 1 ≤ directions.axes := by
        obtain ⟨a, b, c, e⟩ := directions
        cases a <;> cases b <;> cases c <;> cases e <;>
          simp_all [Directions.nonzero, Directions.axes]
      cases hc : get_closest_border borders motion directions with
      | none => exact ⟨(motion, 1), rfl, hpos⟩
      | some closest_border =>
        obtain ⟨hmem, hblk⟩ := get_closest_border_some borders motion directions _ hc
        have hax := clamp_to_border_axes closest_border motion directions m
          (hb _ hmem) hblk
        obtain ⟨r, hr, hle⟩ := ih (clamp_to_border closest_border motion directions m).1
          (clamp_to_border closest_border motion directions m).2 (by omega)
        refine ⟨(r.1, r.2 + 1), ?_, ?_⟩
        · simp only [hr, Option.map_some']
        · simp only; omega
    · simp only [hd, if_false, Bool.false_eq_true]
      exact ⟨(motion, 0), rfl, Nat.zero_le _⟩

/-! ## The sweep of the band merge -/

theorem merge_step_view (l : List MetaBorder) (prev_border border : MetaBorder) :
    merge_step (l ++ [prev_border], some l.length) border =
      (merge_view prev_border border).map
        fun r => (l ++ r, some (l.length + r.length - 1)) := by
  have hget : (l ++ [prev_border])[l.length]? = some prev_border := by
    simp
  have hset : ∀ v, (l ++ [prev_border]).set l.length v = l ++ [v] := by
    intro v; simp
  have hset2 : ∀ v w, (l ++ [prev_border] ++ [w]).set l.length v = l ++ [v, w] := by
    intro v w; simp
  unfold merge_step merge_view
  simp only [hget, hset, hset2, List.length_append, List.length_singleton]
  by_cases h1 : border.line.a.y ≠ border.line.b.y
  · simp only [if_pos h1, Option.map_none']
  simp only [if_neg h1]
  by_cases h2 : prev_border.line.a.y ≠ border.line.a.y
  · simp only [if_pos h2, Option.map_none']
  simp only [if_neg h2]
  by_cases h3 : prev_border.line.a.x = border.line.a.x ∧
      prev_border.line.b.x = border.line.b.x
  · simp only [if_pos h3, Option.map_none']
  simp only [if_neg h3]
  by_cases h4 : ¬ prev_border.line.a.x ≤ border.line.a.x
  · simp only [if_pos h4, Option.map_none']
  simp only [if_neg h4]
  by_cases h5 : prev_border.line.a.x = border.line.a.x
  · simp only [if_pos h5, Option.map_some', List.length_singleton]
    rfl
  simp only [if_neg h5]
  by_cases h6 : prev_border.line.b.x = border.line.b.x
  · simp only [if_pos h6, Option.map_some', List.length_singleton]
    rfl
  simp only [if_neg h6]
  by_cases h7 : prev_border.line.b.x = border.line.a.x
  · simp only [if_pos h7, Option.map_some', List.length_singleton]
    rfl
  simp only [if_neg h7]
  by_cases h8 : prev_border.line.b.x ≥ border.line.a.x
  · simp only [if_pos h8, Option.map_some', List.length_cons, List.length_singleton,
      List.length_nil]
    rfl
  simp only [if_neg h8]
  by_cases h9 : ¬ prev_border.line.b.x < border.line.a.x
  · simp only [if_pos h9, Option.map_none']
  simp only [if_neg h9, Option.map_some', List.length_cons, List.length_singleton,
      List.length_nil, List.append_assoc, List.singleton_append]
  rfl


theorem x_covered_eq_xor (x : ℚ) (c : MetaBorder) :
    x_covered x c = xor (decide (c.line.a.x ≤ x)) (decide (c.line.b.x ≤ x)) := by
  unfold x_covered x_low x_high
  rcases le_total c.line.a.x c.line.b.x with h | h
  · rw [min_eq_left h, max_eq_right h]
    by_cases h1 : c.line.a.x ≤ x <;> by_cases h2 : c.line.b.x ≤ x
    · simp [h1, h2]
    · simp [h1, h2, not_le.mp h2]
    · exact absurd (le_trans h h2) h1
    · simp [h1, h2]
  · rw [min_eq_right h, max_eq_left h]
    by_cases h1 : c.line.a.x ≤ x <;> by_cases h2 : c.line.b.x ≤ x
    · simp [h1, h2]
    · exact absurd (le_trans h h1) h2
    · simp [h1, h2, not_le.mp h1]
    · simp [h1, h2]

theorem x_parity_nil (x : ℚ) : x_parity x [] = false := rfl

theorem x_parity_cons (x : ℚ) (c : MetaBorder) (l : List MetaBorder) :
    x_parity x (c :: l) = xor (x_covered x c) (x_parity x l) := rfl

theorem x_parity_append (x : ℚ) (l₁ l₂ : List MetaBorder) :
    x_parity x (l₁ ++ l₂) = xor (x_parity x l₁) (x_parity x l₂) := by
  induction l₁ with
  | nil => simp [x_parity_nil]
  | cons c l ih => simp [x_parity_cons, ih, Bool.xor_assoc]

theorem x_parity_perm (x : ℚ) (l₁ l₂ : List MetaBorder) (h : l₁.Perm l₂) :
    x_parity x l₁ = x_parity x l₂ := by
  induction h with
  | nil => rfl
  | cons c _ ih => simp [x_parity_cons, ih]
  | swap c d l =>
    simp only [x_parity_cons]
    rw [← Bool.xor_assoc, ← Bool.xor_assoc, Bool.xor_comm (x_covered x d)]
  | trans _ _ ih1 ih2 => exact ih1.trans ih2

/-- No border of the list holds `x`: the parity is even. -/
theorem x_parity_of_none (x : ℚ) (l : List MetaBorder)
    (h : ∀ c ∈ l, x_covered x c = false) : x_parity x l = false := by
  induction l with
  | nil => rfl
  | cons c l ih =>
    rw [x_parity_cons, h c (List.mem_cons_self _ _),
      ih fun d hd => h d (List.mem_cons_of_mem _ hd)]
    rfl

/-- In a list of borders that follow each other without overlap, an abscissa held by one
of them is held by exactly one: the parity is odd. -/
theorem x_parity_of_ordered (x : ℚ) (l : List MetaBorder)
    (hp : l.Pairwise fun c d => x_high c ≤ x_low d) (c : MetaBorder) (hc : c ∈ l)
    (hx : x_covered x c = true) : x_parity x l = true := by
  induction l with
  | nil => cases hc
  | cons d l ih =>
    rw [List.pairwise_cons] at hp
    rw [x_parity_cons]
    rcases List.mem_cons.mp hc with rfl | hmem
    · have hnone : x_parity x l = false := by
        apply x_parity_of_none
        intro e he
        have hle := hp.1 e he
        unfold x_covered at hx ⊢
        simp only [decide_eq_true_eq, decide_eq_false_iff_not, not_and, not_lt] at hx ⊢
        intro h1
        linarith [hx.2]
      rw [hx, hnone]; rfl
    · have hrest := ih hp.2 hmem
      have hd : x_covered x d = false := by
        have hle := hp.1 c hmem
        unfold x_covered at hx ⊢
        simp only [decide_eq_true_eq, decide_eq_false_iff_not, not_and, not_lt] at hx ⊢
        intro h1
        linarith [hx.1]
      rw [hd, hrest]; rfl

/-- One step of the sweep, seen on the border appended last: the borders that replace it
lie on the same line, keep the parity of held abscissas, and stay in order to the right
of the lower end of the replaced border. -/
theorem merge_view_spec (prev_border border : MetaBorder) (r : List MetaBorder) (y : ℚ)
    (h : merge_view prev_border border = some r)
    (hab : border.line.a.x < border.line.b.x)
    (hy1 : prev_border.line.a.y = y) (hy2 : prev_border.line.b.y = y) :
    r ≠ [] ∧ (border.line.a.y = y ∧ border.line.b.y = y) ∧
      (∀ c ∈ r, c.line.a.y = y ∧ c.line.b.y = y) ∧
      (∀ x, x_parity x r = xor (x_covered x prev_border) (x_covered x border)) ∧
      (∀ c ∈ r, x_low prev_border ≤ x_low c) ∧
      (r.Pairwise fun c d => x_high c ≤ x_low d) ∧
      ∀ c ∈ r, c.blocking_directions = prev_border.blocking_directions ∨
        c.blocking_directions = border.blocking_directions := by
  unfold merge_view at h
  by_cases h1 : border.line.a.y ≠ border.line.b.y
  · simp only [if_pos h1] at h; cases h
  simp only [if_neg h1] at h
  by_cases h2 : prev_border.line.a.y ≠ border.line.a.y
  · simp only [if_pos h2] at h; cases h
  simp only [if_neg h2] at h
  by_cases h3 : prev_border.line.a.x = border.line.a.x ∧
      prev_border.line.b.x = border.line.b.x
  · simp only [if_pos h3] at h; cases h
  simp only [if_neg h3] at h
  by_cases h4 : ¬ prev_border.line.a.x ≤ border.line.a.x
  · simp only [if_pos h4] at h; cases h
  simp only [if_neg h4] at h
  push_neg at h1 h2 h4
  have hby : border.line.a.y = y ∧ border.line.b.y = y := ⟨by rw [← h2, hy1], by rw [← h1, ← h2, hy1]⟩
  obtain ⟨pl, pd⟩ := prev_border
  obtain ⟨⟨pax, pay⟩, ⟨pbx, pby⟩⟩ := pl
  obtain ⟨bl, bd⟩ := border
  obtain ⟨⟨ax, ay⟩, ⟨bx, bby⟩⟩ := bl
  simp only at h1 h2 h3 h4 hab hy1 hy2 hby h
  subst hy1
  by_cases h5 : pax = ax
  · simp only [if_pos h5, Option.some.injEq] at h
    subst h
    refine ⟨by simp, hby, ?_, ?_, ?_, by simp, by simp [set_a_x, set_b_x]⟩
    · intro c hc
      simp only [List.mem_singleton] at hc
      subst hc
      exact ⟨rfl, hy2⟩
    · intro x
      simp only [x_parity_cons, x_parity_nil, x_covered_eq_xor, set_a_x, h5]
      cases decide (ax ≤ x) <;> cases decide (bx ≤ x) <;> cases decide (pbx ≤ x) <;> rfl
    · intro c hc
      simp only [List.mem_singleton] at hc
      subst hc
      simp only [x_low, set_a_x]
      exact min_le_min (by rw [h5]; exact hab.le) le_rfl
  simp only [if_neg h5] at h
  have hlt : pax < ax := lt_of_le_of_ne h4 h5
  by_cases h6 : pbx = bx
  · simp only [if_pos h6, Option.some.injEq] at h
    subst h
    refine ⟨by simp, hby, ?_, ?_, ?_, by simp, by simp [set_a_x, set_b_x]⟩
    · intro c hc
      simp only [List.mem_singleton] at hc
      subst hc
      exact ⟨rfl, hy2⟩
    · intro x
      simp only [x_parity_cons, x_parity_nil, x_covered_eq_xor, set_b_x, h6]
      cases decide (ax ≤ x) <;> cases decide (bx ≤ x) <;> cases decide (pax ≤ x) <;> rfl
    · intro c hc
      simp only [List.mem_singleton] at hc
      subst hc
      simp only [x_low, set_b_x]
      rw [min_eq_left hlt.le]
      exact min_le_left _ _
  simp only [if_neg h6] at h
  by_cases h7 : pbx = ax
  · simp only [if_pos h7, Option.some.injEq] at h
    subst h
    refine ⟨by simp, hby, ?_, ?_, ?_, by simp, by simp [set_a_x, set_b_x]⟩
    · intro c hc
      simp only [List.mem_singleton] at hc
      subst hc
      exact ⟨rfl, hy2⟩
    · intro x
      simp only [x_parity_cons, x_parity_nil, x_covered_eq_xor, set_b_x, h7]
      cases decide (ax ≤ x) <;> cases decide (bx ≤ x) <;> cases decide (pax ≤ x) <;> rfl
    · intro c hc
      simp only [List.mem_singleton] at hc
      subst hc
      simp only [x_low, set_b_x]
      rw [min_eq_left (by linarith : pax ≤ bx)]
      exact min_le_left _ _
  simp only [if_neg h7] at h
  by_cases h8 : pbx ≥ ax
  · simp only [if_pos h8, Option.some.injEq] at h
    subst h
    have hgt : ax < pbx := lt_of_le_of_ne h8 (Ne.symm h7)
    refine ⟨by simp, hby, ?_, ?_, ?_, ?_, by simp [set_b_x]⟩
    · intro c hc
      simp only [List.mem_cons, List.mem_singleton, List.not_mem_nil, or_false] at hc
      rcases hc with rfl | rfl
      · exact ⟨rfl, hy2⟩
      · exact ⟨hby.2, hy2⟩
    · intro x
      simp only [x_parity_cons, x_parity_nil, x_covered_eq_xor, set_b_x]
      cases decide (ax ≤ x) <;> cases decide (bx ≤ x) <;> cases decide (pax ≤ x) <;>
        cases decide (pbx ≤ x) <;> rfl
    · intro c hc
      simp only [List.mem_cons, List.mem_singleton, List.not_mem_nil, or_false] at hc
      rcases hc with rfl | rfl
      · simp only [x_low, set_b_x]
        rw [min_eq_left hlt.le]
        exact min_le_left _ _
      · simp only [x_low]
        exact le_min (le_trans (min_le_left _ _) (by linarith))
          (min_le_right _ _)
    · simp only [List.pairwise_cons, List.mem_singleton, forall_eq, List.not_mem_nil,
        IsEmpty.forall_iff, implies_true, List.Pairwise.nil, and_self, and_true]
      simp only [x_high, x_low, set_b_x]
      rw [max_eq_right hlt.le]
      exact le_min hab.le hgt.le
  simp only [if_neg h8] at h
  by_cases h9 : ¬ pbx < ax
  · simp only [if_pos h9] at h; cases h
  simp only [if_neg h9, Option.some.injEq] at h
  subst h
  push_neg at h9
  refine ⟨by simp, hby, ?_, ?_, ?_, ?_, by simp⟩
  · intro c hc
    simp only [List.mem_cons, List.mem_singleton, List.not_mem_nil, or_false] at hc
    rcases hc with rfl | rfl
    · exact ⟨rfl, hy2⟩
    · exact hby
  · intro x
    simp only [x_parity_cons, x_parity_nil, Bool.xor_false]
  · intro c hc
    simp only [List.mem_cons, List.mem_singleton, List.not_mem_nil, or_false] at hc
    rcases hc with rfl | rfl
    · exact le_rfl
    · simp only [x_low]
      exact le_min (le_trans (min_le_left _ _) hlt.le) (le_trans (min_le_left _ _) (by linarith))
  · simp only [List.pairwise_cons, List.mem_singleton, forall_eq, List.not_mem_nil,
      IsEmpty.forall_iff, implies_true, List.Pairwise.nil, and_self, and_true]
    simp only [x_high, x_low]
    rw [min_eq_left hab.le]
    exact max_le hlt.le h9.le

/-- The sweep keeps its invariant over the merged edges that are still to come. -/
theorem sweep_fold (borders0 : List MetaBorder) (y : ℚ) :
    ∀ (rest processed app : List MetaBorder) (st : List MetaBorder × Option ℕ),
      (∀ e ∈ rest, e.line.a.x < e.line.b.x) →
      sweep_invariant y processed app →
      rest.foldlM merge_step (borders0 ++ app, some (borders0.length + app.length - 1)) =
        some st →
      ∃ app', st.1 = borders0 ++ app' ∧ sweep_invariant y (processed ++ rest) app' := by
  intro rest
  induction rest with
  | nil =>
    intro processed app st _ hinv h
    simp only [List.foldlM_nil, Option.pure_def, Option.some.injEq] at h
    subst h
    exact ⟨app, rfl, by simpa using hinv⟩
  | cons e rest ih =>
    intro processed app st hrest hinv h
    obtain ⟨hne, hyc, hyp, hpar, hord, hdir⟩ := hinv
    obtain ⟨init, prev, happ⟩ := (List.eq_nil_or_concat app).resolve_left hne
    rw [List.concat_eq_append] at happ
    subst happ
    have hidx : borders0.length + (init ++ [prev]).length - 1 = (borders0 ++ init).length := by
      simp
    rw [List.foldlM_cons, hidx, ← List.append_assoc, merge_step_view] at h
    cases hv : merge_view prev e with
    | none => rw [hv] at h; simp at h
    | some r =>
      rw [hv] at h
      simp only [Option.map_some', Option.bind_eq_bind, Option.some_bind] at h
      have hprev := hyc prev (by simp)
      obtain ⟨hr1, hey, hry, hrpar, hrlow, hrord, hrdir⟩ :=
        merge_view_spec prev e r y hv (hrest e (List.mem_cons_self _ _)) hprev.1 hprev.2
      have hidx2 : (borders0 ++ init).length + r.length - 1 =
          borders0.length + (init ++ r).length - 1 := by
        simp [Nat.add_assoc]
      rw [hidx2, List.append_assoc] at h
      have hinv' : sweep_invariant y (processed ++ [e]) (init ++ r) := by
        refine ⟨by simp [hr1], ?_, ?_, ?_, ?_, ?_⟩
        · intro c hc
          rcases List.mem_append.mp hc with hc | hc
          · exact hyc c (List.mem_append_left _ hc)
          · exact hry c hc
        · intro c hc
          rcases List.mem_append.mp hc with hc | hc
          · exact hyp c hc
          · simp only [List.mem_singleton] at hc
            subst hc; exact hey
        · intro x
          have h1 := hpar x
          rw [x_parity_append] at h1
          rw [x_parity_append, x_parity_append, hrpar x, ← h1]
          simp only [x_parity_cons, x_parity_nil, Bool.xor_false]
          cases x_parity x init <;> cases x_covered x prev <;> cases x_covered x e <;> rfl
        · rw [List.pairwise_append] at hord ⊢
          refine ⟨hord.1, hrord, ?_⟩
          intro c hc d hd
          exact le_trans (hord.2.2 c hc prev (by simp)) (hrlow d hd)
        · intro c hc
          rcases List.mem_append.mp hc with hc | hc
          · obtain ⟨e', he', heq⟩ := hdir c (List.mem_append_left _ hc)
            exact ⟨e', List.mem_append_left _ he', heq⟩
          · rcases hrdir c hc with h1 | h1
            · obtain ⟨e', he', heq⟩ := hdir prev (by simp)
              exact ⟨e', List.mem_append_left _ he', h1.trans heq⟩
            · exact ⟨e, by simp, h1⟩
      obtain ⟨app', h1, h2⟩ := ih (processed ++ [e]) (init ++ r) st
        (fun e' he' => hrest e' (List.mem_cons_of_mem _ he')) hinv' h
      exact ⟨app', h1, by simpa using h2⟩

/-- The whole sweep, from the empty state. -/
theorem sweep_from_start (borders0 edges : List MetaBorder)
    (st : List MetaBorder × Option ℕ) (hedges : ∀ e ∈ edges, e.line.a.x < e.line.b.x)
    (hne : edges ≠ []) (h : edges.foldlM merge_step (borders0, none) = some st) :
    ∃ y app, st.1 = borders0 ++ app ∧ sweep_invariant y edges app := by
  cases edges with
  | nil => exact absurd rfl hne
  | cons e rest =>
    rw [List.foldlM_cons] at h
    have hstep : merge_step (borders0, none) e =
        if e.line.a.y ≠ e.line.b.y then none
        else some (borders0 ++ [e], some borders0.length) := rfl
    rw [hstep] at h
    by_cases hy : e.line.a.y ≠ e.line.b.y
    · simp [hy] at h
    · rw [if_neg hy] at h
      simp only [Option.bind_eq_bind, Option.some_bind] at h
      push_neg at hy
      have hinv : sweep_invariant e.line.a.y [e] [e] := by
        refine ⟨by simp, ?_, ?_, fun _ => rfl, by simp, by simp⟩
        · intro c hc
          simp only [List.mem_singleton] at hc
          subst hc; exact ⟨rfl, hy.symm⟩
        · intro c hc
          simp only [List.mem_singleton] at hc
          subst hc; exact ⟨rfl, hy.symm⟩
      have hidx : borders0.length = borders0.length + [e].length - 1 := by simp
      rw [hidx] at h
      obtain ⟨app', h1, h2⟩ := sweep_fold borders0 e.line.a.y rest [e] [e] st
        (fun e' he' => hedges e' (List.mem_cons_of_mem _ he')) hinv h
      exact ⟨e.line.a.y, app', h1, by simpa using h2⟩

theorem x_covered_bottom_edge (x : ℚ) (p : MetaBox) (hp : p.x1 < p.x2) :
    x_covered x (bottom_edge p) = decide ((p.x1 : ℚ) ≤ x ∧ x < p.x2) := by
  have : (p.x1 : ℚ) ≤ p.x2 := by exact_mod_cast hp.le
  simp only [x_covered, x_low, x_high, bottom_edge, min_eq_left this, max_eq_right this]

theorem x_covered_top_edge (x : ℚ) (p : MetaBox) (hp : p.x1 < p.x2) :
    x_covered x (top_edge p) = decide ((p.x1 : ℚ) ≤ x ∧ x < p.x2) := by
  have : (p.x1 : ℚ) ≤ p.x2 := by exact_mod_cast hp.le
  simp only [x_covered, x_low, x_high, top_edge, min_eq_left this, max_eq_right this]

/-- A band merge appends to the output array, and what it appends satisfies the
invariant of the sweep over the sorted merged edges. -/
theorem add_non_overlapping_edges_sweep (boxes : List MetaBox) (s0 s1 s2 : ℕ)
    (borders out : List MetaBorder)
    (h : add_non_overlapping_edges boxes s0 s1 s2 borders = some out)
    (hva : ∀ p ∈ box_range boxes s0 s1, p.x1 < p.x2)
    (hvb : ∀ p ∈ box_range boxes s1 s2, p.x1 < p.x2) :
    ∃ app, out = borders ++ app ∧ (app = [] ∨ ∃ y, sweep_invariant y
      (g_array_sort ((box_range boxes s0 s1).map bottom_edge ++
        (box_range boxes s1 s2).map top_edge) compare_lines_x) app) := by
  unfold add_non_overlapping_edges at h
  simp only [Option.map_eq_some'] at h
  obtain ⟨st, hst, rfl⟩ := h
  set band_merge := (box_range boxes s0 s1).map bottom_edge ++
    (box_range boxes s1 s2).map top_edge with hbm
  have hperm : (g_array_sort band_merge compare_lines_x).Perm band_merge :=
    List.perm_insertionSort _ _
  have hedges : ∀ e ∈ g_array_sort band_merge compare_lines_x, e.line.a.x < e.line.b.x := by
    intro e he
    have he' : e ∈ band_merge := hperm.mem_iff.mp he
    rcases List.mem_append.mp he' with he' | he'
    · obtain ⟨p, hp, rfl⟩ := List.mem_map.mp he'
      simp only [bottom_edge]
      exact_mod_cast hva p hp
    · obtain ⟨p, hp, rfl⟩ := List.mem_map.mp he'
      simp only [top_edge]
      exact_mod_cast hvb p hp
  by_cases hnil : g_array_sort band_merge compare_lines_x = []
  · rw [hnil] at hst
    simp only [List.foldlM_nil, Option.pure_def, Option.some.injEq] at hst
    subst hst
    exact ⟨[], by simp, Or.inl rfl⟩
  · obtain ⟨y, app, happ, hinv⟩ := sweep_from_start borders _ st hedges hnil hst
    exact ⟨app, happ, Or.inr ⟨y, hinv⟩⟩

/-- What a band merge appends are horizontal borders that block `+Y` or `-Y`. -/
theorem add_non_overlapping_edges_normal (boxes : List MetaBox) (s0 s1 s2 : ℕ)
    (borders out : List MetaBorder)
    (h : add_non_overlapping_edges boxes s0 s1 s2 borders = some out)
    (hva : ∀ p ∈ box_range boxes s0 s1, p.x1 < p.x2)
    (hvb : ∀ p ∈ box_range boxes s1 s2, p.x1 < p.x2) :
    ∀ c ∈ out, c ∈ borders ∨ (c.line.a.y = c.line.b.y ∧
      (c.blocking_directions = META_BORDER_MOTION_DIRECTION_POSITIVE_Y ∨
        c.blocking_directions = META_BORDER_MOTION_DIRECTION_NEGATIVE_Y)) := by
  obtain ⟨app, rfl, happ⟩ := add_non_overlapping_edges_sweep boxes s0 s1 s2 borders out h
    hva hvb
  intro c hc
  rcases List.mem_append.mp hc with hc | hc
  · exact Or.inl hc
  right
  rcases happ with rfl | ⟨y, _, hyc, _, _, _, hdir⟩
  · cases hc
  refine ⟨by rw [(hyc c hc).1, (hyc c hc).2], ?_⟩
  obtain ⟨e, he, heq⟩ := hdir c hc
  have he' := (List.perm_insertionSort _ _).mem_iff.mp he
  rw [heq]
  rcases List.mem_append.mp he' with he' | he'
  · obtain ⟨p, _, rfl⟩ := List.mem_map.mp he'
    exact Or.inl rfl
  · obtain ⟨p, _, rfl⟩ := List.mem_map.mp he'
    exact Or.inr rfl

/-- What a band merge appends: borders on the common line of the merged edges that hold
no abscissa lying under a box of the band above and over a box of the band below. -/
theorem add_non_overlapping_edges_spec (boxes : List MetaBox) (s0 s1 s2 : ℕ)
    (borders out : List MetaBorder)
    (h : add_non_overlapping_edges boxes s0 s1 s2 borders = some out)
    (hva : ∀ p ∈ box_range boxes s0 s1, p.x1 < p.x2)
    (hvb : ∀ p ∈ box_range boxes s1 s2, p.x1 < p.x2)
    (hpa : (box_range boxes s0 s1).Pairwise fun p q => p.x2 ≤ q.x1)
    (hpb : (box_range boxes s1 s2).Pairwise fun p q => p.x2 ≤ q.x1) :
    ∃ app, out = borders ++ app ∧ ∀ c ∈ app,
      c.line.a.y = c.line.b.y ∧
      (∀ p ∈ box_range boxes s0 s1, (p.y2 : ℚ) = c.line.a.y) ∧
      (∀ q ∈ box_range boxes s1 s2, (q.y1 : ℚ) = c.line.a.y) ∧
      ∀ x, x_covered x c = true →
        ¬ ∃ p ∈ box_range boxes s0 s1, ∃ q ∈ box_range boxes s1 s2,
          ((p.x1 : ℚ) ≤ x ∧ x < p.x2) ∧ ((q.x1 : ℚ) ≤ x ∧ x < q.x2) := by
  obtain ⟨app, happ, hsweep⟩ := add_non_overlapping_edges_sweep boxes s0 s1 s2 borders out h
    hva hvb
  refine ⟨app, happ, ?_⟩
  intro c hc
  rcases hsweep with rfl | ⟨y, _, hyc, hyp, hpar, hord, _⟩
  · cases hc
  set above := box_range boxes s0 s1 with habove
  set below := box_range boxes s1 s2 with hbelow
  have hperm : (g_array_sort (above.map bottom_edge ++ below.map top_edge)
      compare_lines_x).Perm (above.map bottom_edge ++ below.map top_edge) :=
    List.perm_insertionSort _ _
  refine ⟨by rw [(hyc c hc).1, (hyc c hc).2], ?_, ?_, ?_⟩
  · intro p hp
    have hmem : bottom_edge p ∈ g_array_sort (above.map bottom_edge ++ below.map top_edge)
        compare_lines_x :=
      hperm.mem_iff.mpr (List.mem_append_left _ (List.mem_map_of_mem _ hp))
    have := (hyp _ hmem).1
    simp only [bottom_edge] at this
    rw [(hyc c hc).1]; exact this
  · intro q hq
    have hmem : top_edge q ∈ g_array_sort (above.map bottom_edge ++ below.map top_edge)
        compare_lines_x :=
      hperm.mem_iff.mpr (List.mem_append_right _ (List.mem_map_of_mem _ hq))
    have := (hyp _ hmem).1
    simp only [top_edge] at this
    rw [(hyc c hc).1]; exact this
  · intro x hx
    rintro ⟨p, hp, q, hq, hpx, hqx⟩
    have h1 : x_parity x app = true := x_parity_of_ordered x app hord c hc hx
    have h2 : x_parity x (above.map bottom_edge) = true := by
      apply x_parity_of_ordered x _ _ (bottom_edge p) (List.mem_map_of_mem _ hp)
      · rw [x_covered_bottom_edge x p (hva p hp)]
        exact decide_eq_true hpx
      · rw [List.pairwise_map]
        refine List.Pairwise.imp_of_mem ?_ hpa
        intro a b ha hb hab
        have h1 : (a.x1 : ℚ) ≤ a.x2 := by exact_mod_cast (hva a ha).le
        have h2 : (b.x1 : ℚ) ≤ b.x2 := by exact_mod_cast (hva b hb).le
        simp only [x_high, x_low, bottom_edge, max_eq_right h1, min_eq_left h2]
        exact_mod_cast hab
    have h3 : x_parity x (below.map top_edge) = true := by
      apply x_parity_of_ordered x _ _ (top_edge q) (List.mem_map_of_mem _ hq)
      · rw [x_covered_top_edge x q (hvb q hq)]
        exact decide_eq_true hqx
      · rw [List.pairwise_map]
        refine List.Pairwise.imp_of_mem ?_ hpb
        intro a b ha hb hab
        have h1 : (a.x1 : ℚ) ≤ a.x2 := by exact_mod_cast (hvb a ha).le
        have h2 : (b.x1 : ℚ) ≤ b.x2 := by exact_mod_cast (hvb b hb).le
        simp only [x_high, x_low, top_edge, max_eq_right h1, min_eq_left h2]
        exact_mod_cast hab
    have h4 := hpar x
    rw [x_parity_perm x _ _ hperm, x_parity_append, h1, h2, h3] at h4
    exact absurd h4 (by decide)

/-! ## Regions in banded form -/

theorem banded_valid {boxes : List MetaBox} (hb : banded boxes) {p : MetaBox}
    (hp : p ∈ boxes) : p.x1 < p.x2 ∧ p.y1 < p.y2 :=
  hb.1 p hp

/-- Of two boxes of a banded region, an earlier and a later one. -/
theorem banded_rel {boxes l m : List MetaBox} (hb : banded boxes) (h : boxes = l ++ m)
    {p q : MetaBox} (hp : p ∈ l) (hq : q ∈ m) :
    (p.y1 = q.y1 ∧ p.y2 = q.y2 ∧ p.x2 < q.x1) ∨ p.y2 ≤ q.y1 := by
  have := hb.2
  rw [h, List.pairwise_append] at this
  exact this.2.2 p hp q hq

/-- Two boxes of a banded region lie in the same row or in rows one above the other. -/
theorem banded_rows {boxes : List MetaBox} (hb : banded boxes) {p q : MetaBox}
    (hp : p ∈ boxes) (hq : q ∈ boxes) :
    (p.y1 = q.y1 ∧ p.y2 = q.y2) ∨ p.y2 ≤ q.y1 ∨ q.y2 ≤ p.y1 := by
  have h := hb.2.imp (S := fun p q => (p.y1 = q.y1 ∧ p.y2 = q.y2) ∨ p.y2 ≤ q.y1 ∨ q.y2 ≤ p.y1)
    (fun {a b} hab => by rcases hab with ⟨h1, h2, _⟩ | h1
                         · exact Or.inl ⟨h1, h2⟩
                         · exact Or.inr (Or.inl h1))
  refine h.forall_of_forall ?_ ?_ hp hq
  · intro a b hab
    rcases hab with ⟨h1, h2⟩ | h1 | h1
    · exact Or.inl ⟨h1.symm, h2.symm⟩
    · exact Or.inr (Or.inr h1)
    · exact Or.inr (Or.inl h1)
  · intro a _; exact Or.inl ⟨rfl, rfl⟩

/-- Two boxes of one row of a banded region are the same box or lie apart. -/
theorem banded_row_apart {boxes : List MetaBox} (hb : banded boxes) {p q : MetaBox}
    (hp : p ∈ boxes) (hq : q ∈ boxes) (hy : p.y1 = q.y1) :
    p = q ∨ p.x2 < q.x1 ∨ q.x2 < p.x1 := by
  have h := hb.2.imp_of_mem
    (S := fun p q => p.y1 = q.y1 → p = q ∨ p.x2 < q.x1 ∨ q.x2 < p.x1)
    (fun {a b} ha hb' hab => by
      intro hy
      rcases hab with ⟨_, _, h3⟩ | h1
      · exact Or.inr (Or.inl h3)
      · have := (hb.1 a ha).2
        omega)
  have h2 : p.y1 = q.y1 → p = q ∨ p.x2 < q.x1 ∨ q.x2 < p.x1 :=
    h.forall_of_forall ?_ ?_ hp hq
  · exact h2 hy
  · intro a b hab hy'
    rcases hab hy'.symm with h1 | h1 | h1
    · exact Or.inl h1.symm
    · exact Or.inr (Or.inr h1)
    · exact Or.inr (Or.inl h1)
  · intro a _ _; exact Or.inl rfl

/-- Boxes of a sublist that share `y1` follow each other from left to right. -/
theorem banded_row_ordered {boxes l : List MetaBox} (hb : banded boxes)
    (hl : l.Sublist boxes) (y : ℤ) (hy : ∀ p ∈ l, p.y1 = y) :
    l.Pairwise fun p q => p.x2 ≤ q.x1 := by
  have h := hb.2.sublist hl
  refine h.imp_of_mem ?_
  intro a b ha hb' hab
  rcases hab with ⟨_, _, h3⟩ | h1
  · exact h3.le
  · have := (hb.1 a (hl.subset ha)).2
    have := hy a ha
    have := hy b hb'
    omega

theorem strictly_between_self (a v : ℚ) : ¬ strictly_between a a v := by
  unfold strictly_between
  simp only [min_self, max_self]
  intro h
  exact lt_irrefl _ (lt_trans h.1 h.2)

/-- The left and the right edge of a box of a banded region cover no shared edge. -/
theorem good_vertical {boxes : List MetaBox} (hb : banded boxes) {box : MetaBox}
    (hbox : box ∈ boxes) :
    ¬ covers_shared_edge boxes (left_edge box) ∧
      ¬ covers_shared_edge boxes (right_edge box) := by
  have hv := banded_valid hb hbox
  have key : ∀ (x : ℚ) (border : MetaBorder), border.line.a.x = x → border.line.b.x = x →
      border.line.a.y = box.y1 → border.line.b.y = box.y2 →
      ¬ covers_shared_edge boxes border := by
    intro x border hax hbx hay hby
    rintro ⟨p, hp, q, hq, h | h⟩
    · obtain ⟨_, _, hqp, y, _, h1, h2, h3, h4⟩ := h
      have hp' := banded_valid hb hp
      have hq' := banded_valid hb hq
      have hlt : p.y1 < q.y2 := by exact_mod_cast lt_trans h1 h4
      have hlt' : q.y1 < p.y2 := by exact_mod_cast lt_trans h3 h2
      rcases banded_rows hb hp hq with ⟨e1, _⟩ | e | e
      · rcases banded_row_apart hb hp hq e1 with rfl | e | e
        · omega
        · omega
        · omega
      · omega
      · omega
    · obtain ⟨hh, _, _, v, hv', _⟩ := h
      rw [hax, hbx] at hv'
      exact strictly_between_self _ _ hv'
  exact ⟨key box.x1 _ rfl rfl rfl rfl, key box.x2 _ rfl rfl rfl rfl⟩

/-- A horizontal border on a line that is the bottom of no box, or the top of no box,
covers no shared edge. -/
theorem good_horizontal {boxes : List MetaBox} (border : MetaBorder) (y : ℤ)
    (hay : border.line.a.y = y) (hby : border.line.b.y = y)
    (h : (∀ p ∈ boxes, p.y2 ≠ y) ∨ (∀ q ∈ boxes, q.y1 ≠ y)) :
    ¬ covers_shared_edge boxes border := by
  rintro ⟨p, hp, q, hq, hc | hc⟩
  · obtain ⟨_, _, _, v, hv, _⟩ := hc
    rw [hay, hby] at hv
    exact strictly_between_self _ _ hv
  · obtain ⟨_, hpy, hqy, _⟩ := hc
    rw [hay] at hpy
    have h1 : p.y2 = y := by exact_mod_cast hpy
    rcases h with h | h
    · exact h p hp h1
    · exact h q hq (by omega)

/-! ## The main loop of the outline extraction -/

theorem box_range_mid (boxes l m r : List MetaBox) (first last : ℕ)
    (h : boxes = l ++ m ++ r) (hf : first = l.length) (hl : last = l.length + m.length) :
    box_range boxes first last = m := by
  subst h hf hl
  unfold box_range
  rw [List.append_assoc, List.drop_left, Nat.add_sub_cancel_left, List.take_left]

/-- A band merge of two complete rows of a banded region appends no border that covers
a shared edge. -/
theorem good_merge {boxes : List MetaBox} (hb : banded boxes) (s0 s1 s2 : ℕ)
    (borders out : List MetaBorder)
    (h : add_non_overlapping_edges boxes s0 s1 s2 borders = some out)
    (hgood : ∀ b ∈ borders, ¬ covers_shared_edge boxes b)
    (above below : List MetaBox) (habove : box_range boxes s0 s1 = above)
    (hbelow : box_range boxes s1 s2 = below)
    (hsa : above.Sublist boxes) (hsb : below.Sublist boxes)
    (yb : ℤ) (hne : below ≠ []) (hby : ∀ c ∈ below, c.y1 = yb)
    (hbc : ∀ q ∈ boxes, q.y1 = yb → q ∈ below)
    (hac : (above = [] ∧ ∀ p ∈ boxes, p.y2 ≠ yb) ∨
      (above ≠ [] ∧ ∃ ya, (∀ q ∈ above, q.y1 = ya) ∧ ∀ p ∈ boxes, p.y1 = ya → p ∈ above)) :
    ∀ b ∈ out, ¬ covers_shared_edge boxes b := by
  have hpb : below.Pairwise fun p q => p.x2 ≤ q.x1 := banded_row_ordered hb hsb yb hby
  have hpa : above.Pairwise fun p q => p.x2 ≤ q.x1 := by
    rcases hac with ⟨h1, _⟩ | ⟨_, ya, h1, _⟩
    · rw [h1]; exact List.Pairwise.nil
    · exact banded_row_ordered hb hsa ya h1
  obtain ⟨app, rfl, happ⟩ := add_non_overlapping_edges_spec boxes s0 s1 s2 borders out h
    (by rw [habove]; intro p hp; exact (banded_valid hb (hsa.subset hp)).1)
    (by rw [hbelow]; intro p hp; exact (banded_valid hb (hsb.subset hp)).1)
    (by rw [habove]; exact hpa) (by rw [hbelow]; exact hpb)
  intro b hbm
  rcases List.mem_append.mp hbm with hbm | hbm
  · exact hgood b hbm
  obtain ⟨hh, hay, hby', hcov⟩ := happ b hbm
  rw [habove] at hay hcov
  rw [hbelow] at hby' hcov
  obtain ⟨c0, hc0⟩ := List.exists_mem_of_ne_nil below hne
  have hyb : b.line.a.y = yb := by rw [← hby' c0 hc0, hby c0 hc0]
  rintro ⟨p, hp, q, hq, hc | hc⟩
  · obtain ⟨_, _, _, v, hv, _⟩ := hc
    rw [hh] at hv
    exact strictly_between_self _ _ hv
  · obtain ⟨_, hpy, hqy, x, hx, hx1, hx2, hx3, hx4⟩ := hc
    have hpy' : p.y2 = yb := by
      have : (p.y2 : ℚ) = (yb : ℚ) := by rw [hpy, hyb]
      exact_mod_cast this
    have hqb : q ∈ below := hbc q hq (by omega)
    have hpa' : p ∈ above := by
      rcases hac with ⟨_, h2⟩ | ⟨h1, ya, h2, h3⟩
      · exact absurd hpy' (h2 p hp)
      · obtain ⟨a0, ha0⟩ := List.exists_mem_of_ne_nil above h1
        have ha0y : a0.y2 = yb := by
          have : (a0.y2 : ℚ) = (yb : ℚ) := by rw [hay a0 ha0, hyb]
          exact_mod_cast this
        have hva := banded_valid hb (hsa.subset ha0)
        have hvp := banded_valid hb hp
        apply h3 p hp
        rw [← h2 a0 ha0]
        rcases banded_rows hb hp (hsa.subset ha0) with ⟨e, _⟩ | e | e
        · exact e
        · omega
        · omega
    apply hcov x _ ⟨p, hpa', q, hqb, ⟨hx1.le, hx2⟩, ⟨hx3.le, hx4⟩⟩
    unfold strictly_between at hx
    simp only [x_covered, x_low, x_high, decide_eq_true_eq]
    exact ⟨hx.1.le, hx.2⟩

theorem gap_stage_cases (boxes : List MetaBox) (st st1 : OutlineState) (i : ℕ)
    (box : MetaBox) (h : gap_stage boxes st i box = some st1) :
    st1 = st ∨ ∃ above, 0 < i ∧ boxes[i - 1]? = some above ∧ box.y1 ≠ st.prev_top ∧
      box.y1 ≠ above.y2 ∧
      st1 = { st with
        current_roof := box.y1
        borders := add_band_bottom_edges boxes st.band_start i st.borders } := by
  unfold gap_stage at h
  split_ifs at h with h0
  · split at h
    · cases h
    · rename_i above habove
      split_ifs at h with hc
      · right
        exact ⟨above, h0, habove, hc.1, hc.2, (Option.some.inj h).symm⟩
      · left; exact (Option.some.inj h).symm
  · left; exact (Option.some.inj h).symm

theorem last_band_stage_cases (boxes : List MetaBox) (st st2 : OutlineState) (i : ℕ)
    (box : MetaBox) (h : last_band_stage boxes st i box = some st2) :
    st2 = st ∨ (box.y1 ≠ st.current_roof ∧ i = boxes.length - 1 ∧
      ∃ out, st2 = { st with borders := out } ∧
        ((box.y1 ≠ st.prev_top ∧
          add_non_overlapping_edges boxes st.band_start i (i + 1) st.borders = some out) ∨
         (box.y1 = st.prev_top ∧
          add_non_overlapping_edges boxes st.prev_band_start st.band_start (i + 1)
            st.borders = some out))) := by
  unfold last_band_stage at h
  split_ifs at h with h0 h1
  · right
    simp only [Option.map_eq_some'] at h
    obtain ⟨out, hout, rfl⟩ := h
    exact ⟨h0.1, h0.2, out, rfl, Or.inl ⟨h1, hout⟩⟩
  · right
    simp only [Option.map_eq_some'] at h
    obtain ⟨out, hout, rfl⟩ := h
    exact ⟨h0.1, h0.2, out, rfl, Or.inr ⟨not_not.mp h1, hout⟩⟩
  · left; exact (Option.some.inj h).symm

theorem passed_band_stage_cases (boxes : List MetaBox) (top_most : ℤ)
    (st st3 : OutlineState) (i : ℕ) (box : MetaBox)
    (h : passed_band_stage boxes top_most st i box = some st3) :
    (¬ (box.y1 ≠ top_most ∧ box.y1 ≠ st.prev_top) ∧ st3 = st) ∨
      (box.y1 ≠ top_most ∧ box.y1 ≠ st.prev_top ∧
        ∃ out, st3 = { st with
            borders := out, prev_band_start := st.band_start, band_start := i } ∧
          (add_non_overlapping_edges boxes st.prev_band_start st.band_start i st.borders =
            some out ∨ out = st.borders)) := by
  unfold passed_band_stage at h
  split_ifs at h with h0 h1
  · right
    simp only [Option.map_eq_some'] at h
    obtain ⟨out, hout, rfl⟩ := h
    exact ⟨h0.1, h0.2, out, rfl, Or.inl hout⟩
  · right
    simp only [Option.map_some', Option.some.injEq] at h
    exact ⟨h0.1, h0.2, st.borders, h.symm, Or.inr rfl⟩
  · left; exact ⟨h0, (Option.some.inj h).symm⟩

/-- The last block of the loop body adds only edges that cover no shared edge, when the
roof is the bottom of no box and `bottom_most` is the top of no box. -/
theorem edges_stage_good {boxes : List MetaBox} (hb : banded boxes) (bottom_most : ℤ)
    (st : OutlineState) (box : MetaBox) (hbox : box ∈ boxes)
    (hgood : ∀ b ∈ st.borders, ¬ covers_shared_edge boxes b)
    (hroof : ∀ p ∈ boxes, p.y2 ≠ st.current_roof)
    (hbot : ∀ q ∈ boxes, q.y1 ≠ bottom_most) :
    ∀ b ∈ (edges_stage bottom_most st box).borders, ¬ covers_shared_edge boxes b := by
  intro b hbm
  have htop : box.y1 = st.current_roof → ¬ covers_shared_edge boxes
      ⟨⟨⟨box.x1, box.y1⟩, ⟨box.x2, box.y1⟩⟩, META_BORDER_MOTION_DIRECTION_NEGATIVE_Y⟩ :=
    fun h1 => good_horizontal _ box.y1 rfl rfl (Or.inl (by rw [h1]; exact hroof))
  have hbottom : box.y2 = bottom_most → ¬ covers_shared_edge boxes
      ⟨⟨⟨box.x1, box.y2⟩, ⟨box.x2, box.y2⟩⟩, META_BORDER_MOTION_DIRECTION_POSITIVE_Y⟩ :=
    fun h2 => good_horizontal _ box.y2 rfl rfl (Or.inr (by rw [h2]; exact hbot))
  unfold edges_stage add_border at hbm
  simp only [List.mem_append, List.mem_singleton] at hbm
  rcases hbm with (hbm | rfl) | rfl
  · by_cases h1 : box.y1 = st.current_roof <;> by_cases h2 : box.y2 = bottom_most
    · simp only [if_pos h1, if_pos h2, List.mem_append, List.mem_singleton] at hbm
      rcases hbm with (hbm | rfl) | rfl
      · exact hgood b hbm
      · exact htop h1
      · exact hbottom h2
    · simp only [if_pos h1, if_neg h2, List.mem_append, List.mem_singleton] at hbm
      rcases hbm with hbm | rfl
      · exact hgood b hbm
      · exact htop h1
    · simp only [if_neg h1, if_pos h2, List.mem_append, List.mem_singleton] at hbm
      rcases hbm with hbm | rfl
      · exact hgood b hbm
      · exact hbottom h2
    · simp only [if_neg h1, if_neg h2] at hbm
      exact hgood b hbm
  · exact (good_vertical hb hbox).1
  · exact (good_vertical hb hbox).2

theorem getElem?_mid (l r : List MetaBox) (x : MetaBox) :
    (l ++ x :: r)[l.length]? = some x := by
  rw [List.getElem?_append_right (le_refl _)]
  simp

theorem mem_of_getElem?_pred (A C R : List MetaBox) (i : ℕ) (above : MetaBox)
    (hC : C ≠ []) (hi : i = A.length + C.length)
    (h : (A ++ C ++ R)[i - 1]? = some above) : above ∈ C := by
  obtain ⟨C0, l, hc⟩ := (List.eq_nil_or_concat C).resolve_left hC
  rw [List.concat_eq_append] at hc
  subst hc
  have hidx : i - 1 = (A ++ C0).length := by
    simp only [List.length_append, List.length_singleton] at hi ⊢
    omega
  have heq : A ++ (C0 ++ [l]) ++ R = (A ++ C0) ++ l :: R := by simp
  rw [hidx, heq, getElem?_mid] at h
  cases h
  simp

/-- In a banded region every box starts below the top of the first box. -/
theorem top_most_le {boxes : List MetaBox} (hb : banded boxes) (first : MetaBox)
    (hfirst : boxes[0]? = some first) : ∀ p ∈ boxes, first.y1 ≤ p.y1 := by
  cases boxes with
  | nil => simp at hfirst
  | cons a l =>
    simp only [List.getElem?_cons_zero, Option.some.injEq] at hfirst
    subst hfirst
    intro p hp
    rcases List.mem_cons.mp hp with rfl | hp
    · exact le_rfl
    · have h1 := banded_rel hb (l := [a]) (m := l) rfl (List.mem_singleton_self a) hp
      have h2 := banded_valid hb (List.mem_cons_self a l)
      omega

/-- In a banded region every box starts above the bottom of the last box. -/
theorem lt_bottom_most {boxes : List MetaBox} (hb : banded boxes) (final : MetaBox)
    (hfinal : boxes[boxes.length - 1]? = some final) : ∀ q ∈ boxes, q.y1 < final.y2 := by
  rcases List.eq_nil_or_concat boxes with h | ⟨init, l, h⟩
  · subst h; simp at hfinal
  · rw [List.concat_eq_append] at h
    subst h
    have hidx : (init ++ [l]).length - 1 = init.length := by simp
    rw [hidx, getElem?_mid] at hfinal
    cases hfinal
    intro q hq
    have hvl := banded_valid hb (p := final) (by simp)
    rcases List.mem_append.mp hq with hq' | hq'
    · have h1 := banded_rel hb (l := init) (m := [final]) rfl hq' (List.mem_singleton_self _)
      have h2 := banded_valid hb hq
      omega
    · simp only [List.mem_singleton] at hq'
      subst hq'
      exact hvl.2

/-- The body of the main loop keeps the invariant, on a banded region. -/
theorem outline_step_invariant {boxes : List MetaBox} (hb : banded boxes)
    (first final : MetaBox) (hfirst : boxes[0]? = some first)
    (hfinal : boxes[boxes.length - 1]? = some final) (i : ℕ) (st st' : OutlineState)
    (hinv : outline_invariant boxes i st)
    (hstep : outline_step boxes first.y1 final.y2 st i = some st') :
    outline_invariant boxes (i + 1) st' := by
  unfold outline_step at hstep
  cases hbox : boxes[i]? with
  | none => rw [hbox] at hstep; cases hstep
  | some box =>
  rw [hbox] at hstep
  simp only [Option.bind_eq_some] at hstep
  obtain ⟨st1, hgap, st2, hlast, st3, hpassed, hedges⟩ := hstep
  simp only [Option.some.injEq] at hedges
  have hboxmem : box ∈ boxes := List.getElem?_mem hbox
  have hbot : ∀ q ∈ boxes, q.y1 ≠ final.y2 :=
    fun q hq => ne_of_lt (lt_bottom_most hb final hfinal q hq)
  have htop := top_most_le hb first hfirst
  obtain ⟨hgood, hroof, hpos⟩ := hinv
  rcases hpos with ⟨hi0, hbs0, hpbs0, hr0⟩ | ⟨P, Q, C, R, hdec, hpbs, hbs, hi, hCne, hCy, hPQy, hQ⟩
  · -- the first box
    subst hi0
    have hbf : box = first := by
      rw [hbox] at hfirst; exact Option.some.inj hfirst
    subst hbf
    have hr := hr0 box hfirst
    have h1 : st1 = st := by
      rcases gap_stage_cases boxes st st1 0 box hgap with h | ⟨_, h, _⟩
      · exact h
      · exact absurd h (lt_irrefl 0)
    subst h1
    have h2 : st2 = st1 := by
      rcases last_band_stage_cases boxes st1 st2 0 box hlast with h | ⟨h, _⟩
      · exact h
      · exact absurd hr.symm h
    subst h2
    have h3 : st3 = st2 := by
      rcases passed_band_stage_cases boxes box.y1 st2 st3 0 box hpassed with ⟨_, h⟩ | ⟨h, _⟩
      · exact h
      · exact absurd rfl h
    subst h3
    subst hedges
    refine ⟨edges_stage_good hb final.y2 st3 box hboxmem hgood hroof hbot, hroof, Or.inr ?_⟩
    obtain ⟨tail, htail⟩ : ∃ tail, boxes = box :: tail := by
      cases boxes with
      | nil => simp at hfirst
      | cons a l =>
        simp only [List.getElem?_cons_zero, Option.some.injEq] at hfirst
        exact ⟨l, by rw [hfirst]⟩
    refine ⟨[], [], [box], tail, by simpa using htail, hpbs0, hbs0, rfl, by simp, ?_,
      by simp, Or.inl ⟨rfl, rfl⟩⟩
    intro c hc
    simp only [List.mem_singleton] at hc
    subst hc
    rfl
  · -- a later box
    have hR : ∃ R', R = box :: R' := by
      have hlen : i = (P ++ Q ++ C).length := by
        simp only [List.length_append, hi]
      rw [hdec, hlen, List.getElem?_append_right (le_refl _), Nat.sub_self] at hbox
      cases R with
      | nil => simp at hbox
      | cons a l =>
        simp only [List.getElem?_cons_zero, Option.some.injEq] at hbox
        exact ⟨l, by rw [hbox]⟩
    obtain ⟨R', rfl⟩ := hR
    obtain ⟨c0, hc0⟩ := List.exists_mem_of_ne_nil C hCne
    have hc0mem : c0 ∈ boxes := by rw [hdec]; simp [hc0]
    have hc0v := banded_valid hb hc0mem
    have hc0y := hCy c0 hc0
    -- order facts
    have hPQ_lt : ∀ p ∈ P ++ Q, p.y2 ≤ st.prev_top := by
      intro p hp
      have h1 := banded_rel hb (l := P ++ Q) (m := C ++ box :: R')
        (by rw [hdec]; simp) hp (List.mem_append_left _ hc0)
      have h2 := hPQy p hp
      omega
    have hC_y2 : ∀ c ∈ C, c.y2 = c0.y2 := by
      intro c hc
      have hcm : c ∈ boxes := by rw [hdec]; simp [hc]
      have h1 := banded_rows hb hcm hc0mem
      have h2 := hCy c hc
      have h3 := banded_valid hb hcm
      omega
    have hC_box : c0.y1 = box.y1 ∨ c0.y2 ≤ box.y1 := by
      have h1 := banded_rel hb (l := P ++ Q ++ C) (m := box :: R')
        (by rw [hdec]) (List.mem_append_right _ hc0) (List.mem_cons_self _ _)
      omega
    have hboxv := banded_valid hb hboxmem
    have hR_ge : ∀ r ∈ R', box.y1 ≤ r.y1 := by
      intro r hr
      have h1 := banded_rel hb (l := P ++ Q ++ C ++ [box]) (m := R') (p := box)
        (by rw [hdec]; simp) (by simp) hr
      omega
    have hfirst_le : first.y1 ≤ st.prev_top := by
      have := htop c0 hc0mem
      omega
    have hmemPQ : ∀ p ∈ P ++ Q, p ∈ boxes := by
      intro p hp; rw [hdec]
      simp only [List.mem_append] at hp ⊢
      tauto
    have hmemC : ∀ p ∈ C, p ∈ boxes := by
      intro p hp; rw [hdec]
      simp only [List.mem_append]
      tauto
    have hmemR : ∀ p ∈ R', p ∈ boxes := by
      intro p hp; rw [hdec]
      simp only [List.mem_append, List.mem_cons]
      tauto
    have hsplit : ∀ p ∈ boxes, p ∈ P ++ Q ∨ p ∈ C ∨ p = box ∨ p ∈ R' := by
      intro p hp
      rw [hdec] at hp
      simp only [List.mem_append, List.mem_cons] at hp ⊢
      tauto
    -- ranges
    have hrange_C : box_range boxes st.band_start i = C :=
      box_range_mid boxes (P ++ Q) C (box :: R') _ _ (by rw [hdec])
        (by
          simp only [List.length_append, List.length_singleton, List.length_cons,
            List.length_nil, hi, hbs, hpbs]) (by
          simp only [List.length_append, List.length_singleton, List.length_cons,
            List.length_nil, hi, hbs, hpbs])
    have hrange_Q : box_range boxes st.prev_band_start st.band_start = Q :=
      box_range_mid boxes P Q (C ++ box :: R') _ _ (by rw [hdec]; simp)
        hpbs (by
          simp only [List.length_append, List.length_singleton, List.length_cons,
            List.length_nil, hi, hbs, hpbs])
    have hrange_Cb : box_range boxes st.band_start (i + 1) = C ++ [box] :=
      box_range_mid boxes (P ++ Q) (C ++ [box]) R' _ _ (by rw [hdec]; simp)
        (by
          simp only [List.length_append, List.length_singleton, List.length_cons,
            List.length_nil, hi, hbs, hpbs]) (by
          simp only [List.length_append, List.length_singleton, List.length_cons,
            List.length_nil, hi, hbs, hpbs]
          omega)
    have hrange_b : box_range boxes i (i + 1) = [box] :=
      box_range_mid boxes (P ++ Q ++ C) [box] R' _ _ (by rw [hdec]; simp)
        (by
          simp only [List.length_append, List.length_singleton, List.length_cons,
            List.length_nil, hi, hbs, hpbs]) (by
          simp only [List.length_append, List.length_singleton, List.length_cons,
            List.length_nil, hi, hbs, hpbs])
    have hsub_Q : Q.Sublist boxes := by
      rw [hdec]
      exact ((List.sublist_append_right P Q).trans (List.sublist_append_left _ _)).trans
        (List.sublist_append_left _ _)
    have hsub_C : C.Sublist boxes := by
      rw [hdec]
      exact (List.sublist_append_right (P ++ Q) C).trans (List.sublist_append_left _ _)
    have hsub_Cb : (C ++ [box]).Sublist boxes := by
      rw [hdec]
      have : P ++ Q ++ C ++ box :: R' = (P ++ Q) ++ ((C ++ [box]) ++ R') := by simp
      rw [this]
      exact (List.sublist_append_left _ _).trans (List.sublist_append_right _ _)
    have hsub_b : [box].Sublist boxes := List.singleton_sublist.mpr hboxmem
    -- the row before the current one, as the band above in a merge
    have hQ_above : ∀ yb, yb = st.prev_top →
        (∀ r ∈ R', r.y1 ≠ st.prev_top → True) →
        (∀ r ∈ box :: R', ∀ q ∈ Q, r.y1 ≠ q.y1) →
        ((Q = [] ∧ ∀ p ∈ boxes, p.y2 ≠ yb) ∨
          (Q ≠ [] ∧ ∃ ya, (∀ q ∈ Q, q.y1 = ya) ∧ ∀ p ∈ boxes, p.y1 = ya → p ∈ Q)) := by
      intro yb hyb _ hRQ
      rcases hQ with ⟨hQ1, hP1⟩ | ⟨hQ1, yp, hQ2, hP2⟩
      · left
        refine ⟨hQ1, ?_⟩
        intro p hp
        have h1 := htop p hp
        have h2 := banded_valid hb hp
        have h3 : first ∈ C := by
          subst hQ1 hP1
          simp only [List.nil_append] at hdec
          rw [hdec] at hfirst
          cases C with
          | nil => exact absurd rfl hCne
          | cons a l =>
            simp only [List.cons_append, List.getElem?_cons_zero, Option.some.injEq] at hfirst
            rw [← hfirst]; exact List.mem_cons_self _ _
        have h4 := hCy first h3
        omega
      · right
        refine ⟨hQ1, yp, hQ2, ?_⟩
        obtain ⟨q0, hq0⟩ := List.exists_mem_of_ne_nil Q hQ1
        have hq0y := hQ2 q0 hq0
        have hq0n := hPQy q0 (List.mem_append_right _ hq0)
        intro p hp hpy
        rcases hsplit p hp with h | h | h | h
        · rcases List.mem_append.mp h with h | h
          · exact absurd hpy (hP2 p h)
          · exact h
        · have := hCy p h
          omega
        · subst h
          exact absurd (hpy.trans hq0y.symm) (hRQ p (List.mem_cons_self _ _) q0 hq0)
        · exact absurd (hpy.trans hq0y.symm) (hRQ p (List.mem_cons_of_mem _ h) q0 hq0)
    by_cases hsame : box.y1 = st.prev_top
    · -- the box continues the current row
      have h1 : st1 = st := by
        rcases gap_stage_cases boxes st st1 i box hgap with h | ⟨_, _, _, h, _⟩
        · exact h
        · exact absurd hsame h
      subst h1
      have h2good : (∀ b ∈ st2.borders, ¬ covers_shared_edge boxes b) ∧
          st2.current_roof = st1.current_roof ∧ st2.prev_top = st1.prev_top ∧
          st2.band_start = st1.band_start ∧
          st2.prev_band_start = st1.prev_band_start := by
        rcases last_band_stage_cases boxes st1 st2 i box hlast with h |
          ⟨_, hlasti, out, h, ⟨hne, _⟩ | ⟨_, hout⟩⟩
        · subst h; exact ⟨hgood, rfl, rfl, rfl, rfl⟩
        · exact absurd hsame hne
        · subst h
          refine ⟨?_, rfl, rfl, rfl, rfl⟩
          have hRnil : R' = [] := by
            have hlen : boxes.length = P.length + Q.length + C.length + (R'.length + 1) := by
              rw [hdec]; simp only [List.length_append, List.length_cons]
            have : R'.length = 0 := by omega
            exact List.length_eq_zero.mp this
          subst hRnil
          refine good_merge hb _ _ _ _ _ hout hgood Q (C ++ [box]) hrange_Q hrange_Cb
            hsub_Q hsub_Cb st1.prev_top (by simp) ?_ ?_ ?_
          · intro c hc
            rcases List.mem_append.mp hc with hc | hc
            · exact hCy c hc
            · simp only [List.mem_singleton] at hc
              subst hc; exact hsame
          · intro q hq hqy
            rcases hsplit q hq with h | h | h | h
            · exact absurd hqy (hPQy q h)
            · exact List.mem_append_left _ h
            · subst h; simp
            · cases h
          · apply hQ_above st1.prev_top rfl (fun _ _ _ => trivial)
            intro r hr q hq
            simp only [List.mem_singleton] at hr
            subst hr
            have := hPQy q (List.mem_append_right _ hq)
            omega
      obtain ⟨hgood2, hroof2, hpt2, hbs2, hpbs2⟩ := h2good
      have h3 : st3 = st2 := by
        rcases passed_band_stage_cases boxes first.y1 st2 st3 i box hpassed with
          ⟨_, h⟩ | ⟨_, h, _⟩
        · exact h
        · rw [hpt2] at h; exact absurd hsame h
      subst h3
      subst hedges
      refine ⟨edges_stage_good hb final.y2 st3 box hboxmem hgood2
        (by rw [hroof2]; exact hroof) hbot, by
          show ∀ p ∈ boxes, p.y2 ≠ st3.current_roof
          rw [hroof2]; exact hroof, Or.inr ?_⟩
      refine ⟨P, Q, C ++ [box], R', by rw [hdec]; simp, ?_, ?_, ?_, by simp, ?_, ?_, hQ⟩
      · show st3.prev_band_start = P.length
        rw [hpbs2, hpbs]
      · show st3.band_start = P.length + Q.length
        rw [hbs2, hbs]
      · simp only [List.length_append, List.length_singleton, hi]; omega
      · intro c hc
        show c.y1 = box.y1
        rcases List.mem_append.mp hc with hc | hc
        · rw [hCy c hc, hsame]
        · simp only [List.mem_singleton] at hc
          rw [hc]
      · intro p hp
        show p.y1 ≠ box.y1
        rw [hsame]; exact hPQy p hp
    · -- the box starts a new row
      have hY : c0.y2 ≤ box.y1 := by
        rcases hC_box with h | h
        · exact absurd (h.symm.trans hc0y) hsame
        · exact h
      have hbox_gt : st.prev_top < box.y1 := by omega
      have hC_complete : ∀ q ∈ boxes, q.y1 = st.prev_top → q ∈ C := by
        intro q hq hqy
        rcases hsplit q hq with h | h | h | h
        · exact absurd hqy (hPQy q h)
        · exact h
        · subst h; exact absurd hqy hsame
        · have := hR_ge q h
          omega
      have hQ_ab := hQ_above st.prev_top rfl (fun _ _ _ => trivial) (by
        intro r hr q hq
        have h1 := hPQ_lt q (List.mem_append_right _ hq)
        have h2 := banded_valid hb (hmemPQ q (List.mem_append_right _ hq))
        rcases List.mem_cons.mp hr with h | h
        · subst h; omega
        · have := hR_ge r h
          omega)
      -- first block
      have h1good : (∀ b ∈ st1.borders, ¬ covers_shared_edge boxes b) ∧
          (∀ p ∈ boxes, p.y2 ≠ st1.current_roof) ∧ st1.prev_top = st.prev_top ∧
          st1.band_start = st.band_start ∧ st1.prev_band_start = st.prev_band_start := by
        rcases gap_stage_cases boxes st st1 i box hgap with h |
          ⟨above, _, habove, _, hne2, h⟩
        · subst h; exact ⟨hgood, hroof, rfl, rfl, rfl⟩
        · subst h
          have hab : above ∈ C := by
            rw [hdec] at habove
            exact mem_of_getElem?_pred (P ++ Q) C (box :: R') i above hCne
              (by
          simp only [List.length_append, List.length_singleton, List.length_cons,
            List.length_nil, hi, hbs, hpbs]) habove
          have haby := hC_y2 above hab
          have hgap_lt : c0.y2 < box.y1 := by omega
          refine ⟨?_, ?_, rfl, rfl, rfl⟩
          · intro b hbm
            simp only [add_band_bottom_edges, hrange_C, List.mem_append, List.mem_map] at hbm
            rcases hbm with hbm | ⟨c, hc, rfl⟩
            · exact hgood b hbm
            · refine good_horizontal _ c0.y2 (by simp [bottom_edge, hC_y2 c hc])
                (by simp [bottom_edge, hC_y2 c hc]) (Or.inr ?_)
              intro q hq
              rcases hsplit q hq with h | h | h | h
              · have := hPQ_lt q h
                have := banded_valid hb hq
                omega
              · have := hCy q h
                omega
              · subst h; omega
              · have := hR_ge q h
                omega
          · intro p hp
            show p.y2 ≠ box.y1
            rcases hsplit p hp with h | h | h | h
            · have := hPQ_lt p h
              omega
            · have := hC_y2 p h
              omega
            · subst h; omega
            · have := hR_ge p h
              have := banded_valid hb hp
              omega
      obtain ⟨hgood1, hroof1, hpt1, hbs1, hpbs1⟩ := h1good
      -- second block
      have h2good : (∀ b ∈ st2.borders, ¬ covers_shared_edge boxes b) ∧
          st2.current_roof = st1.current_roof ∧ st2.prev_top = st1.prev_top ∧
          st2.band_start = st1.band_start ∧
          st2.prev_band_start = st1.prev_band_start := by
        rcases last_band_stage_cases boxes st1 st2 i box hlast with h |
          ⟨_, hlasti, out, h, ⟨_, hout⟩ | ⟨heq, _⟩⟩
        · subst h; exact ⟨hgood1, rfl, rfl, rfl, rfl⟩
        · subst h
          refine ⟨?_, rfl, rfl, rfl, rfl⟩
          have hRnil : R' = [] := by
            have hlen : boxes.length = P.length + Q.length + C.length + (R'.length + 1) := by
              rw [hdec]; simp only [List.length_append, List.length_cons]
            have : R'.length = 0 := by omega
            exact List.length_eq_zero.mp this
          subst hRnil
          rw [hbs1] at hout
          refine good_merge hb _ _ _ _ _ hout hgood1 C [box] hrange_C hrange_b
            hsub_C hsub_b box.y1 (by simp) ?_ ?_ ?_
          · intro c hc
            simp only [List.mem_singleton] at hc
            rw [hc]
          · intro q hq hqy
            rcases hsplit q hq with h | h | h | h
            · have := hPQ_lt q h
              have := banded_valid hb hq
              omega
            · have := hCy q h
              omega
            · subst h; simp
            · cases h
          · right
            exact ⟨hCne, st.prev_top, hCy, hC_complete⟩
        · rw [hpt1] at heq; exact absurd heq hsame
      obtain ⟨hgood2, hroof2, hpt2, hbs2, hpbs2⟩ := h2good
      -- third block
      have h3good : (∀ b ∈ st3.borders, ¬ covers_shared_edge boxes b) ∧
          st3.current_roof = st2.current_roof ∧
          st3.band_start = i ∧ st3.prev_band_start = st2.band_start := by
        rcases passed_band_stage_cases boxes first.y1 st2 st3 i box hpassed with
          ⟨hn, _⟩ | ⟨_, _, out, h, hout | hout⟩
        · exfalso
          apply hn
          rw [hpt2, hpt1]
          constructor <;> omega
        · subst h
          refine ⟨?_, rfl, rfl, rfl⟩
          rw [hpbs2, hpbs1, hbs2, hbs1] at hout
          exact good_merge hb _ _ _ _ _ hout hgood2 Q C hrange_Q hrange_C
            hsub_Q hsub_C st.prev_top hCne hCy hC_complete hQ_ab
        · subst h
          refine ⟨?_, rfl, rfl, rfl⟩
          show ∀ b ∈ out, ¬ covers_shared_edge boxes b
          rw [hout]; exact hgood2
      obtain ⟨hgood3, hroof3, hbs3, hpbs3⟩ := h3good
      subst hedges
      have hroof3' : ∀ p ∈ boxes, p.y2 ≠ st3.current_roof := by
        rw [hroof3, hroof2]; exact hroof1
      refine ⟨edges_stage_good hb final.y2 st3 box hboxmem hgood3 hroof3' hbot, hroof3',
        Or.inr ?_⟩
      refine ⟨P ++ Q, C, [box], R', by rw [hdec]; simp, ?_, ?_, ?_, by simp, ?_, ?_,
        Or.inr ⟨hCne, st.prev_top, hCy, ?_⟩⟩
      · show st3.prev_band_start = (P ++ Q).length
        rw [hpbs3, hbs2, hbs1, hbs]; simp
      · show st3.band_start = (P ++ Q).length + C.length
        rw [hbs3, hi]; simp
      · simp only [List.length_append, List.length_singleton, hi]
      · intro c hc
        show c.y1 = box.y1
        simp only [List.mem_singleton] at hc
        rw [hc]
      · intro p hp
        show p.y1 ≠ box.y1
        rcases List.mem_append.mp hp with h | h
        · have := hPQ_lt p h
          have := banded_valid hb (hmemPQ p h)
          omega
        · have := hCy p h
          omega
      · intro p hp
        exact hPQy p hp

/-- The invariant holds after every number of passes of the main loop. -/
theorem outline_loop_invariant {boxes : List MetaBox} (hb : banded boxes)
    (first final : MetaBox) (hfirst : boxes[0]? = some first)
    (hfinal : boxes[boxes.length - 1]? = some final) (k : ℕ) :
    ∀ st, (List.range k).foldlM (outline_step boxes first.y1 final.y2)
        ⟨0, first.y1, 0, 0, []⟩ = some st →
      outline_invariant boxes k st := by
  induction k with
  | zero =>
    intro st h
    simp only [List.range_zero, List.foldlM_nil, Option.pure_def, Option.some.injEq] at h
    subst h
    refine ⟨by simp, ?_, Or.inl ⟨rfl, rfl, rfl, ?_⟩⟩
    · intro p hp
      have h1 := top_most_le hb first hfirst p hp
      have h2 := banded_valid hb hp
      show p.y2 ≠ first.y1
      omega
    · intro f hf
      rw [hfirst] at hf
      cases hf
      rfl
  | succ k ih =>
    intro st h
    rw [List.range_succ, List.foldlM_append] at h
    simp only [List.foldlM_cons, List.foldlM_nil, Option.bind_eq_bind,
      Option.bind_eq_some] at h
    obtain ⟨st0, h0, st1, h1, h2⟩ := h
    simp only [Option.pure_def, Option.some.injEq] at h2
    subst h2
    exact outline_step_invariant hb first final hfirst hfinal k st0 st1 (ih st0 h0) h1

/-- Along the run in which every write through `prev_border` reaches the array and no
coordinate is rounded: for a region in banded form, no border of the outline covers a
segment along which two rectangles of the region are adjacent. -/
theorem outline_of_banded_no_shared_edge (region : List MtkRectangle)
    (outline : List MetaBorder) (hb : banded (region.map box_of_rectangle))
    (h : region_to_outline region [] = some outline) :
    ∀ b ∈ outline, ¬ covers_shared_edge (region.map box_of_rectangle) b := by
  unfold region_to_outline outline_of_boxes at h
  split at h
  · rename_i first final hfirst hfinal
    simp only [Option.map_eq_some'] at h
    obtain ⟨st, hst, rfl⟩ := h
    exact (outline_loop_invariant hb first final hfirst hfinal _ st hst).1
  · cases h

/-! ## Every border of an outline blocks along its normal -/

theorem box_range_subset (boxes : List MetaBox) (first last : ℕ) :
    ∀ p ∈ box_range boxes first last, p ∈ boxes := by
  intro p hp
  unfold box_range at hp
  exact List.mem_of_mem_drop (List.mem_of_mem_take hp)

theorem normal_of_horizontal (c : MetaBorder) (h : c.line.a.y = c.line.b.y)
    (hd : c.blocking_directions = META_BORDER_MOTION_DIRECTION_POSITIVE_Y ∨
      c.blocking_directions = META_BORDER_MOTION_DIRECTION_NEGATIVE_Y) :
    blocks_along_normal c := by
  unfold blocks_along_normal meta_border_is_horizontal
  simp only [h, decide_True, if_true]
  rcases hd with hd | hd <;> rw [hd] <;> exact ⟨rfl, rfl⟩

theorem normal_of_vertical (c : MetaBorder) (h : c.line.a.y ≠ c.line.b.y)
    (hd : c.blocking_directions = META_BORDER_MOTION_DIRECTION_POSITIVE_X ∨
      c.blocking_directions = META_BORDER_MOTION_DIRECTION_NEGATIVE_X) :
    blocks_along_normal c := by
  unfold blocks_along_normal meta_border_is_horizontal
  simp only [h, decide_False, if_false, Bool.false_eq_true]
  rcases hd with hd | hd <;> rw [hd] <;> exact ⟨rfl, rfl⟩

/-- The body of the main loop adds only borders that block along their normal. -/
theorem outline_step_normal {boxes : List MetaBox}
    (hv : ∀ b ∈ boxes, b.x1 < b.x2 ∧ b.y1 < b.y2) (top_most bottom_most : ℤ) (i : ℕ)
    (st st' : OutlineState) (hinv : ∀ c ∈ st.borders, blocks_along_normal c)
    (hstep : outline_step boxes top_most bottom_most st i = some st') :
    ∀ c ∈ st'.borders, blocks_along_normal c := by
  unfold outline_step at hstep
  cases hbox : boxes[i]? with
  | none => rw [hbox] at hstep; cases hstep
  | some box =>
  rw [hbox] at hstep
  simp only [Option.bind_eq_some] at hstep
  obtain ⟨st1, hgap, st2, hlast, st3, hpassed, hedges⟩ := hstep
  simp only [Option.some.injEq] at hedges
  have hboxv := hv box (List.getElem?_mem hbox)
  have hmerge : ∀ (s0 s1 s2 : ℕ) (borders out : List MetaBorder),
      (∀ c ∈ borders, blocks_along_normal c) →
      add_non_overlapping_edges boxes s0 s1 s2 borders = some out →
      ∀ c ∈ out, blocks_along_normal c := by
    intro s0 s1 s2 borders out hb hout c hc
    rcases add_non_overlapping_edges_normal boxes s0 s1 s2 borders out hout
      (fun p hp => (hv p (box_range_subset _ _ _ p hp)).1)
      (fun p hp => (hv p (box_range_subset _ _ _ p hp)).1) c hc with h | ⟨h1, h2⟩
    · exact hb c h
    · exact normal_of_horizontal c h1 h2
  have h1 : ∀ c ∈ st1.borders, blocks_along_normal c := by
    rcases gap_stage_cases boxes st st1 i box hgap with h | ⟨_, _, _, _, _, h⟩
    · subst h; exact hinv
    · subst h
      intro c hc
      simp only [add_band_bottom_edges, List.mem_append, List.mem_map] at hc
      rcases hc with hc | ⟨p, _, rfl⟩
      · exact hinv c hc
      · exact normal_of_horizontal _ rfl (Or.inl rfl)
  have h2 : ∀ c ∈ st2.borders, blocks_along_normal c := by
    rcases last_band_stage_cases boxes st1 st2 i box hlast with h |
      ⟨_, _, out, h, ⟨_, hout⟩ | ⟨_, hout⟩⟩
    · subst h; exact h1
    · subst h; exact hmerge _ _ _ _ _ h1 hout
    · subst h; exact hmerge _ _ _ _ _ h1 hout
  have h3 : ∀ c ∈ st3.borders, blocks_along_normal c := by
    rcases passed_band_stage_cases boxes top_most st2 st3 i box hpassed with
      ⟨_, h⟩ | ⟨_, _, out, h, hout | hout⟩
    · subst h; exact h2
    · subst h; exact hmerge _ _ _ _ _ h2 hout
    · subst h
      show ∀ c ∈ out, blocks_along_normal c
      rw [hout]; exact h2
  subst hedges
  intro c hc
  have hyne : ((box.y1 : ℤ) : ℚ) ≠ ((box.y2 : ℤ) : ℚ) := by
    exact_mod_cast ne_of_lt hboxv.2
  unfold edges_stage add_border at hc
  simp only [List.mem_append, List.mem_singleton] at hc
  rcases hc with (hc | rfl) | rfl
  · by_cases c1 : box.y1 = st3.current_roof <;> by_cases c2 : box.y2 = bottom_most
    · simp only [if_pos c1, if_pos c2, List.mem_append, List.mem_singleton] at hc
      rcases hc with (hc | rfl) | rfl
      · exact h3 c hc
      · exact normal_of_horizontal _ rfl (Or.inr rfl)
      · exact normal_of_horizontal _ rfl (Or.inl rfl)
    · simp only [if_pos c1, if_neg c2, List.mem_append, List.mem_singleton] at hc
      rcases hc with hc | rfl
      · exact h3 c hc
      · exact normal_of_horizontal _ rfl (Or.inr rfl)
    · simp only [if_neg c1, if_pos c2, List.mem_append, List.mem_singleton] at hc
      rcases hc with hc | rfl
      · exact h3 c hc
      · exact normal_of_horizontal _ rfl (Or.inl rfl)
    · simp only [if_neg c1, if_neg c2] at hc
      exact h3 c hc
  · exact normal_of_vertical _ hyne (Or.inr rfl)
  · exact normal_of_vertical _ hyne (Or.inl rfl)

/-- Every border of the outline of a region whose rectangles have positive width and
height blocks along its normal only. -/
theorem outline_blocks_along_normal (region : List MtkRectangle)
    (outline : List MetaBorder) (hv : ∀ r ∈ region, 0 < r.width ∧ 0 < r.height)
    (h : region_to_outline region [] = some outline) :
    ∀ c ∈ outline, blocks_along_normal c := by
  have hvb : ∀ b ∈ region.map box_of_rectangle, b.x1 < b.x2 ∧ b.y1 < b.y2 := by
    intro b hb
    obtain ⟨r, hr, rfl⟩ := List.mem_map.mp hb
    have := hv r hr
    simp only [box_of_rectangle]
    omega
  unfold region_to_outline outline_of_boxes at h
  split at h
  · rename_i first final _ _
    simp only [Option.map_eq_some'] at h
    obtain ⟨st, hst, rfl⟩ := h
    have key : ∀ k st, (List.range k).foldlM
        (outline_step (region.map box_of_rectangle) first.y1 final.y2)
        ⟨0, first.y1, 0, 0, []⟩ = some st → ∀ c ∈ st.borders, blocks_along_normal c := by
      intro k
      induction k with
      | zero =>
        intro st h
        simp only [List.range_zero, List.foldlM_nil, Option.pure_def,
          Option.some.injEq] at h
        subst h
        simp
      | succ k ih =>
        intro st h
        rw [List.range_succ, List.foldlM_append] at h
        simp only [List.foldlM_cons, List.foldlM_nil, Option.bind_eq_bind,
          Option.bind_eq_some] at h
        obtain ⟨st0, h0, st1, h1, h2⟩ := h
        simp only [Option.pure_def, Option.some.injEq] at h2
        subst h2
        exact outline_step_normal hvb first.y1 final.y2 k st0 st1 (ih st0 h0) h1
    exact key _ st hst
  · cases h

/-- On a non-empty region of rectangles of positive width and height whose outline is
built, the constrain operation returns, after at most two entries of the loop body and
with the same result for every fuel of at least two. -/
theorem constrain_returns_of_outline (impl : MetaPointerConstraintImplNative)
    (borders : List MetaBorder) (prev_x prev_y x y : ℚ)
    (hv : ∀ r ∈ impl.region, 0 < r.width ∧ 0 < r.height)
    (hout : region_to_outline impl.region [] = some borders) :
    ∃ r : ConstrainResult, r.iterations ≤ 2 ∧
      ∀ fuel, 2 ≤ fuel →
        meta_pointer_constraint_impl_native_constrain fuel impl prev_x prev_y x y =
          some r := by
  by_cases he : mtk_region_is_empty impl.region = true
  · exact ⟨⟨impl.origin.x, impl.origin.y, 0⟩, Nat.zero_le _, fun fuel _ => by
      simp only [meta_pointer_constraint_impl_native_constrain, he, if_true]⟩
  · have hn := outline_blocks_along_normal impl.region borders hv hout
    let xn := if x > prev_x then x + wl_fixed_unit else x
    let yn := if y > prev_y then y + wl_fixed_unit else y
    let motion : MetaLine2 :=
      ⟨⟨prev_x - impl.origin.x, prev_y - impl.origin.y⟩,
       ⟨xn - impl.origin.x, yn - impl.origin.y⟩⟩
    obtain ⟨r, hr, hle⟩ := clamp_loop_axes borders impl.min_edge_distance hn 2 motion
      (get_motion_directions motion) (Directions.axes_le_two _)
    refine ⟨⟨r.1.b.x + impl.origin.x, r.1.b.y + impl.origin.y, r.2⟩,
      le_trans hle (Directions.axes_le_two _), ?_⟩
    intro fuel hf
    have h2 := clamp_loop_fuel_le borders impl.min_edge_distance 2 fuel hf motion _ r hr
    simp only [meta_pointer_constraint_impl_native_constrain, he, hout,
      Bool.false_eq_true, if_false]
    simp only [motion, xn, yn] at h2
    rw [h2]
    rfl

/-- A pointer inside a non-empty region is left where it is when its coordinates
relative to the origin are not negative: the conversion to `int` then rounds down and
stays in the rectangle that holds the point. -/
theorem ensure_constrained_inside_of_nonneg (impl : MetaPointerConstraintImplNative)
    (point : MetaVector2) (hne : impl.region ≠ [])
    (hx : 0 ≤ point.x - impl.origin.x) (hy : 0 ≤ point.y - impl.origin.y)
    (hin : inside_region impl.region (point.x - impl.origin.x) (point.y - impl.origin.y)) :
    meta_pointer_constraint_impl_native_ensure_constrained impl point = some none := by
  have he : mtk_region_is_empty impl.region = false := by
    cases hr : impl.region with
    | nil => exact absurd hr hne
    | cons a l => rfl
  have hc : mtk_region_contains_point impl.region (float_to_int (point.x - impl.origin.x))
      (float_to_int (point.y - impl.origin.y)) = true := by
    obtain ⟨rect, hrect, h1, h2, h3, h4⟩ := hin
    unfold mtk_region_contains_point
    rw [List.any_eq_true]
    refine ⟨rect, hrect, ?_⟩
    rw [float_to_int_eq, float_to_int_eq, if_pos hx, if_pos hy]
    simp only [decide_eq_true_eq]
    refine ⟨Int.le_floor.mpr h1, ?_, Int.le_floor.mpr h3, ?_⟩
    · have : (⌊point.x - impl.origin.x⌋ : ℚ) < ((rect.x + rect.width : ℤ) : ℚ) := by
        push_cast
        exact lt_of_le_of_lt (Int.floor_le _) h2
      exact_mod_cast this
    · have : (⌊point.y - impl.origin.y⌋ : ℚ) < ((rect.y + rect.height : ℤ) : ℚ) := by
        push_cast
        exact lt_of_le_of_lt (Int.floor_le _) h4
      exact_mod_cast this
  simp only [meta_pointer_constraint_impl_native_ensure_constrained, he, hc,
    Bool.false_eq_true, if_false, Bool.not_true]

/-- C16 as stated does not hold of `region_to_outline` taken alone: applied to the
region with zero rectangles it does not complete, because `boxes[0]` is read from an
array that has no element. -/
theorem region_to_outline_of_no_rectangle_stops :
    region_to_outline [] [] = none := by
  rfl

/-- C16, amended: the region with zero rectangles never reaches `region_to_outline`.
Applied to it, `region_to_outline` stops at the read of `boxes[0]` whatever the array
holds; the constrain operation and the ensure-constrained operation test for the empty
region first and resolve to the origin although no outline can be built. -/
theorem empty_region_is_handled_before_the_outline (origin : MetaVector2)
    (min_edge_distance : ℚ) :
    (∀ borders, region_to_outline [] borders = none) ∧
      (∀ fuel prev_x prev_y x y,
        meta_pointer_constraint_impl_native_constrain fuel ⟨[], origin, min_edge_distance⟩
          prev_x prev_y x y = some ⟨origin.x, origin.y, 0⟩) ∧
      ∀ point,
        (meta_pointer_constraint_impl_native_ensure_constrained
          ⟨[], origin, min_edge_distance⟩ point).map (pointer_after point) =
            some origin := by
  refine ⟨fun _ => rfl, fun _ _ _ _ _ => rfl, ?_⟩
  intro point
  by_cases h : point.x ≠ origin.x ∨ point.y ≠ origin.y
  · simp [meta_pointer_constraint_impl_native_ensure_constrained, mtk_region_is_empty, h,
      pointer_after]
  · have h1 : point.x = origin.x := by
      by_contra hc; exact h (Or.inl hc)
    have h2 : point.y = origin.y := by
      by_contra hc; exact h (Or.inr hc)
    have hp : point = origin := by
      cases point; cases origin; simp_all
    simp [meta_pointer_constraint_impl_native_ensure_constrained, mtk_region_is_empty,
      pointer_after, hp]

/-- The outline that `region_to_outline` builds for the two rows `(0,0)-(10,10)` and
`(10,10)-(20,20)` that touch in one corner. -/
theorem region_to_outline_corner_touching :
    region_to_outline [⟨0, 0, 10, 10⟩, ⟨10, 10, 10, 10⟩] [] =
      some corner_touching_outline := by
  decide!

/-- The outline that `region_to_outline` builds for the two rows `(0,0)-(10,10)` and
`(0,20)-(10,30)` with an empty space between them. -/
theorem region_to_outline_separated_rows :
    region_to_outline [⟨0, 0, 10, 10⟩, ⟨0, 20, 10, 10⟩] [] =
      some separated_rows_outline := by
  decide!

/-- C11 at the failing input: the region of the two rectangles `(0,0)-(10,10)` and
`(10,10)-(20,20)` is in banded form and meets the input constraint. Its outline holds
the border `(0,10)-(20,10)` that blocks `+Y` only, although for `10 < x < 20` the
region lies immediately below the line `y = 10` and not above it, where the direction
that leaves the region is `-Y`: the border is not oriented outward. -/
theorem outline_border_not_oriented_outward :
    banded ([⟨0, 0, 10, 10⟩, ⟨10, 10, 10, 10⟩].map box_of_rectangle) ∧
      meets_input_constraint ([⟨0, 0, 10, 10⟩, ⟨10, 10, 10, 10⟩].map box_of_rectangle) ∧
      ∃ outline, region_to_outline [⟨0, 0, 10, 10⟩, ⟨10, 10, 10, 10⟩] [] = some outline ∧
        (⟨⟨⟨0, 10⟩, ⟨20, 10⟩⟩, META_BORDER_MOTION_DIRECTION_POSITIVE_Y⟩ : MetaBorder) ∈
          outline ∧
        region_below ([⟨0, 0, 10, 10⟩, ⟨10, 10, 10, 10⟩].map box_of_rectangle) 15 10 ∧
        ¬ region_above ([⟨0, 0, 10, 10⟩, ⟨10, 10, 10, 10⟩].map box_of_rectangle) 15 10 ∧
        ¬ oriented_outward ([⟨0, 0, 10, 10⟩, ⟨10, 10, 10, 10⟩].map box_of_rectangle)
          ⟨⟨⟨0, 10⟩, ⟨20, 10⟩⟩, META_BORDER_MOTION_DIRECTION_POSITIVE_Y⟩ := by
  have hb : region_below ([⟨0, 0, 10, 10⟩, ⟨10, 10, 10, 10⟩].map box_of_rectangle) 15 10 :=
    ⟨⟨10, 10, 20, 20⟩, by decide, by norm_num, by norm_num, by norm_num⟩
  refine ⟨by decide, by decide, _, region_to_outline_corner_touching, ?_, hb, ?_, ?_⟩
  · decide
  · rintro ⟨b, hm, h1, h2, h3⟩
    simp only [List.map, box_of_rectangle, List.mem_cons, List.mem_singleton,
      List.not_mem_nil, or_false] at hm
    rcases hm with rfl | rfl
    · norm_num at h3
    · norm_num at h1
  · intro h
    have h2 := (h.1 rfl 15 ⟨by norm_num, by norm_num⟩).2 hb
    exact absurd h2 (by decide)

/-- C12 at the failing input: the region of the two rectangles `(0,0)-(10,10)` and
`(0,20)-(10,30)` is in banded form and meets the input constraint. Its outline has nine
borders, and the top edge `(0,0)-(10,0)` of the first rectangle, blocking `-Y`, stands
at the positions 0 and 4: once from the roof rule, once from the band merge that the
empty space after the first row sets off. -/
theorem outline_repeats_top_edge_of_first_row :
    banded ([⟨0, 0, 10, 10⟩, ⟨0, 20, 10, 10⟩].map box_of_rectangle) ∧
      meets_input_constraint ([⟨0, 0, 10, 10⟩, ⟨0, 20, 10, 10⟩].map box_of_rectangle) ∧
      ∃ outline, region_to_outline [⟨0, 0, 10, 10⟩, ⟨0, 20, 10, 10⟩] [] = some outline ∧
        outline.length = 9 ∧
        outline[0]? = some (top_edge ⟨0, 0, 10, 10⟩) ∧
        outline[4]? = some (top_edge ⟨0, 0, 10, 10⟩) ∧ ¬ outline.Nodup := by
  refine ⟨by decide, by decide, _, region_to_outline_separated_rows, rfl, rfl, rfl, ?_⟩
  decide

/-- C20 at the failing input: the upper band is the box `(0,0)-(10,10)`, the lower band
the box `(10,10)-(20,20)`; they are adjacent on the line `y = 10` and share no
abscissa. `add_non_overlapping_edges` appends the single border `(0,10)-(20,10)` with
`+Y`. The abscissa `15` lies under the lower band only, so the piece there comes from
the top edge of the lower band, and it carries `+Y`, not `-Y`. -/
theorem band_merge_keeps_direction_of_first_edge :
    add_non_overlapping_edges [⟨0, 0, 10, 10⟩, ⟨10, 10, 20, 20⟩] 0 1 2 [] =
        some [⟨⟨⟨0, 10⟩, ⟨20, 10⟩⟩, META_BORDER_MOTION_DIRECTION_POSITIVE_Y⟩] ∧
      x_covered 15 ⟨⟨⟨0, 10⟩, ⟨20, 10⟩⟩, META_BORDER_MOTION_DIRECTION_POSITIVE_Y⟩ = true ∧
      band_spans (box_range [⟨0, 0, 10, 10⟩, ⟨10, 10, 20, 20⟩] 1 2) 15 ∧
      ¬ band_spans (box_range [⟨0, 0, 10, 10⟩, ⟨10, 10, 20, 20⟩] 0 1) 15 ∧
      META_BORDER_MOTION_DIRECTION_POSITIVE_Y ≠ META_BORDER_MOTION_DIRECTION_NEGATIVE_Y := by
  refine ⟨by decide!, by decide!, by decide!, by decide!, by decide⟩

/-! ## More on the sweep of the band merge -/

/-- The five ways in which a step of the sweep goes on, with the tests that lead
there. -/
theorem merge_view_cases (prev_border border : MetaBorder) (r : List MetaBorder)
    (h : merge_view prev_border border = some r) :
    border.line.a.y = border.line.b.y ∧ prev_border.line.a.y = border.line.a.y ∧
      prev_border.line.a.x ≤ border.line.a.x ∧
      ((prev_border.line.a.x = border.line.a.x ∧
          prev_border.line.b.x ≠ border.line.b.x ∧
          r = [set_a_x prev_border border.line.b.x]) ∨
        (prev_border.line.a.x < border.line.a.x ∧
          prev_border.line.b.x = border.line.b.x ∧
          r = [set_b_x prev_border border.line.a.x]) ∨
        (prev_border.line.a.x < border.line.a.x ∧
          prev_border.line.b.x ≠ border.line.b.x ∧
          prev_border.line.b.x = border.line.a.x ∧
          r = [set_b_x prev_border border.line.b.x]) ∨
        (prev_border.line.a.x < border.line.a.x ∧
          prev_border.line.b.x ≠ border.line.b.x ∧
          border.line.a.x < prev_border.line.b.x ∧
          r = [set_b_x prev_border border.line.a.x,
            ⟨⟨⟨border.line.b.x, border.line.b.y⟩,
              ⟨prev_border.line.b.x, prev_border.line.b.y⟩⟩,
             prev_border.blocking_directions⟩]) ∨
        (prev_border.line.a.x < border.line.a.x ∧
          prev_border.line.b.x < border.line.a.x ∧ r = [prev_border, border])) := by
  unfold merge_view at h
  by_cases h1 : border.line.a.y ≠ border.line.b.y
  · simp only [if_pos h1] at h; cases h
  simp only [if_neg h1] at h
  by_cases h2 : prev_border.line.a.y ≠ border.line.a.y
  · simp only [if_pos h2] at h; cases h
  simp only [if_neg h2] at h
  by_cases h3 : prev_border.line.a.x = border.line.a.x ∧
      prev_border.line.b.x = border.line.b.x
  · simp only [if_pos h3] at h; cases h
  simp only [if_neg h3] at h
  by_cases h4 : ¬ prev_border.line.a.x ≤ border.line.a.x
  · simp only [if_pos h4] at h; cases h
  simp only [if_neg h4] at h
  push_neg at h1 h2 h4
  refine ⟨h1, h2, h4, ?_⟩
  by_cases h5 : prev_border.line.a.x = border.line.a.x
  · simp only [if_pos h5, Option.some.injEq] at h
    exact Or.inl ⟨h5, fun hb => h3 ⟨h5, hb⟩, h.symm⟩
  simp only [if_neg h5] at h
  have hlt : prev_border.line.a.x < border.line.a.x := lt_of_le_of_ne h4 h5
  by_cases h6 : prev_border.line.b.x = border.line.b.x
  · simp only [if_pos h6, Option.some.injEq] at h
    exact Or.inr (Or.inl ⟨hlt, h6, h.symm⟩)
  simp only [if_neg h6] at h
  by_cases h7 : prev_border.line.b.x = border.line.a.x
  · simp only [if_pos h7, Option.some.injEq] at h
    exact Or.inr (Or.inr (Or.inl ⟨hlt, h6, h7, h.symm⟩))
  simp only [if_neg h7] at h
  by_cases h8 : prev_border.line.b.x ≥ border.line.a.x
  · simp only [if_pos h8, Option.some.injEq] at h
    exact Or.inr (Or.inr (Or.inr (Or.inl
      ⟨hlt, h6, lt_of_le_of_ne h8 (Ne.symm h7), h.symm⟩)))
  simp only [if_neg h8] at h
  by_cases h9 : ¬ prev_border.line.b.x < border.line.a.x
  · simp only [if_pos h9] at h; cases h
  simp only [if_neg h9, Option.some.injEq] at h
  push_neg at h9
  exact Or.inr (Or.inr (Or.inr (Or.inr ⟨hlt, h9, h.symm⟩)))

/-- A property of the merged edges swept so far and of the borders appended so far that
holds after the first edge and is kept by every step of the sweep holds at the end of
the sweep. -/
theorem sweep_generic (I : List MetaBorder → List MetaBorder → Prop)
    (edges borders0 : List MetaBorder)
    (hstart : ∀ e rest, edges = e :: rest → e.line.a.y = e.line.b.y → I [e] [e])
    (hstep : ∀ processed e rest init prev_border r, edges = processed ++ e :: rest →
      I processed (init ++ [prev_border]) → merge_view prev_border e = some r →
      I (processed ++ [e]) (init ++ r))
    (st : List MetaBorder × Option ℕ) (hne : edges ≠ [])
    (h : edges.foldlM merge_step (borders0, none) = some st) :
    ∃ app, st.1 = borders0 ++ app ∧ I edges app := by
  have key : ∀ (rest processed app : List MetaBorder) (st : List MetaBorder × Option ℕ),
      edges = processed ++ rest → app ≠ [] → I processed app →
      rest.foldlM merge_step (borders0 ++ app, some (borders0.length + app.length - 1)) =
        some st →
      ∃ app', st.1 = borders0 ++ app' ∧ I edges app' := by
    intro rest
    induction rest with
    | nil =>
      intro processed app st he _ hI h
      simp only [List.foldlM_nil, Option.pure_def, Option.some.injEq] at h
      subst h
      rw [List.append_nil] at he
      subst he
      exact ⟨app, rfl, hI⟩
    | cons e rest ih =>
      intro processed app st he hne hI h
      obtain ⟨init, prev, happ⟩ := (List.eq_nil_or_concat app).resolve_left hne
      rw [List.concat_eq_append] at happ
      subst happ
      have hidx : borders0.length + (init ++ [prev]).length - 1 =
          (borders0 ++ init).length := by
        simp
      rw [List.foldlM_cons, hidx, ← List.append_assoc, merge_step_view] at h
      cases hv : merge_view prev e with
      | none => rw [hv] at h; simp at h
      | some r =>
        rw [hv] at h
        simp only [Option.map_some', Option.bind_eq_bind, Option.some_bind] at h
        have hr : r ≠ [] := by
          obtain ⟨_, _, _, hc⟩ := merge_view_cases prev e r hv
          rcases hc with ⟨_, _, rfl⟩ | ⟨_, _, rfl⟩ | ⟨_, _, _, rfl⟩ | ⟨_, _, _, rfl⟩ |
            ⟨_, _, rfl⟩ <;> simp
        have hidx2 : (borders0 ++ init).length + r.length - 1 =
            borders0.length + (init ++ r).length - 1 := by
          simp [Nat.add_assoc]
        rw [hidx2, List.append_assoc] at h
        exact ih (processed ++ [e]) (init ++ r) st (by simp [he]) (by simp [hr])
          (hstep processed e rest init prev r he hI hv) h
  cases hedges : edges with
  | nil => exact absurd hedges hne
  | cons e rest =>
    rw [hedges, List.foldlM_cons] at h
    have hs : merge_step (borders0, none) e =
        if e.line.a.y ≠ e.line.b.y then none
        else some (borders0 ++ [e], some borders0.length) := rfl
    rw [hs] at h
    by_cases hy : e.line.a.y ≠ e.line.b.y
    · simp [hy] at h
    · rw [if_neg hy] at h
      simp only [Option.bind_eq_bind, Option.some_bind] at h
      push_neg at hy
      have hidx : borders0.length = borders0.length + [e].length - 1 := by simp
      rw [hidx] at h
      rw [← hedges]
      exact key rest [e] [e] st (by simp [hedges]) (by simp) (hstart e rest hedges hy) h

/-- One step of the sweep keeps the shape of the appended borders. -/
theorem merge_view_shape (prev_border border : MetaBorder) (r : List MetaBorder)
    (h : merge_view prev_border border = some r)
    (hab : border.line.a.x < border.line.b.x)
    (hint : (∃ n : ℤ, border.line.a.x = n) ∧ ∃ n : ℤ, border.line.b.x = n)
    (hprev : prev_border.line.a.x ≠ prev_border.line.b.x ∧
      (∃ n : ℤ, prev_border.line.a.x = n) ∧ ∃ n : ℤ, prev_border.line.b.x = n) :
    sweep_shape r ∧ ∀ c ∈ r, x_low prev_border ≤ x_low c := by
  obtain ⟨_, _, _, hc⟩ := merge_view_cases prev_border border r h
  obtain ⟨pl, pd⟩ := prev_border
  obtain ⟨⟨pax, pay⟩, ⟨pbx, pby⟩⟩ := pl
  obtain ⟨bl, bd⟩ := border
  obtain ⟨⟨ax, ay⟩, ⟨bx, bby⟩⟩ := bl
  simp only at hc hab hint hprev
  obtain ⟨hnd, hpa, hpb⟩ := hprev
  obtain ⟨hia, hib⟩ := hint
  have hmin : ∀ u v w : ℚ, u ≤ v → u ≤ w → u ≤ min v w := fun u v w => le_min
  rcases hc with ⟨h1, h2, rfl⟩ | ⟨h1, h2, rfl⟩ | ⟨h1, h2, h3, rfl⟩ | ⟨h1, h2, h3, rfl⟩ |
    ⟨h1, h2, rfl⟩
  · refine ⟨⟨?_, by simp⟩, ?_⟩
    · intro c hc
      simp only [List.mem_singleton] at hc
      subst hc
      exact ⟨fun hh => h2 hh.symm, hib, hpb⟩
    · intro c hc
      simp only [List.mem_singleton] at hc
      subst hc
      simp only [x_low, set_a_x]
      exact le_min (le_trans (min_le_left _ _) (by rw [h1]; exact hab.le)) (min_le_right _ _)
  · refine ⟨⟨?_, by simp⟩, ?_⟩
    · intro c hc
      simp only [List.mem_singleton] at hc
      subst hc
      exact ⟨ne_of_lt h1, hpa, hia⟩
    · intro c hc
      simp only [List.mem_singleton] at hc
      subst hc
      simp only [x_low, set_b_x]
      exact le_min (min_le_left _ _) (le_trans (min_le_left _ _) h1.le)
  · refine ⟨⟨?_, by simp⟩, ?_⟩
    · intro c hc
      simp only [List.mem_singleton] at hc
      subst hc
      exact ⟨ne_of_lt (lt_trans h1 hab), hpa, hib⟩
    · intro c hc
      simp only [List.mem_singleton] at hc
      subst hc
      simp only [x_low, set_b_x]
      exact le_min (min_le_left _ _) (le_trans (min_le_left _ _) (lt_trans h1 hab).le)
  · refine ⟨⟨?_, ?_⟩, ?_⟩
    · intro c hc
      simp only [List.mem_cons, List.mem_singleton, List.not_mem_nil, or_false] at hc
      rcases hc with rfl | rfl
      · exact ⟨ne_of_lt h1, hpa, hia⟩
      · exact ⟨fun hh => h2 hh.symm, hib, hpb⟩
    · simp only [List.pairwise_cons, List.mem_singleton, forall_eq, List.not_mem_nil,
        false_implies, implies_true, List.Pairwise.nil, and_true, x_high, x_low, set_b_x]
      rw [max_eq_right h1.le]
      exact lt_min hab h3
    · intro c hc
      simp only [List.mem_cons, List.mem_singleton, List.not_mem_nil, or_false] at hc
      rcases hc with rfl | rfl
      · simp only [x_low, set_b_x]
        exact le_min (min_le_left _ _) (le_trans (min_le_left _ _) h1.le)
      · simp only [x_low]
        exact le_min (le_trans (min_le_left _ _) (lt_trans h1 hab).le) (min_le_right _ _)
  · refine ⟨⟨?_, ?_⟩, ?_⟩
    · intro c hc
      simp only [List.mem_cons, List.mem_singleton, List.not_mem_nil, or_false] at hc
      rcases hc with rfl | rfl
      · exact ⟨hnd, hpa, hpb⟩
      · exact ⟨ne_of_lt hab, hia, hib⟩
    · simp only [List.pairwise_cons, List.mem_singleton, forall_eq, List.not_mem_nil,
        false_implies, implies_true, List.Pairwise.nil, and_true, x_high, x_low]
      exact lt_min (max_lt h1 h2) (lt_trans (max_lt h1 h2) hab)
    · intro c hc
      simp only [List.mem_cons, List.mem_singleton, List.not_mem_nil, or_false] at hc
      rcases hc with rfl | rfl
      · exact le_rfl
      · simp only [x_low]
        exact le_min (le_trans (min_le_left _ _) h1.le)
          (le_trans (min_le_left _ _) (lt_trans h1 hab).le)

/-- The sweep over edges with integer ends `a.x < b.x` appends borders of the shape
`sweep_shape`. -/
theorem sweep_shape_of_fold (edges borders0 : List MetaBorder)
    (st : List MetaBorder × Option ℕ)
    (hedges : ∀ e ∈ edges, e.line.a.x < e.line.b.x ∧ (∃ n : ℤ, e.line.a.x = n) ∧
      ∃ n : ℤ, e.line.b.x = n)
    (hne : edges ≠ []) (h : edges.foldlM merge_step (borders0, none) = some st) :
    ∃ app, st.1 = borders0 ++ app ∧ sweep_shape app := by
  refine sweep_generic (fun _ app => sweep_shape app) edges borders0 ?_ ?_ st hne h
  · intro e rest he _
    have := hedges e (by rw [he]; exact List.mem_cons_self _ _)
    refine ⟨?_, by simp⟩
    intro c hc
    simp only [List.mem_singleton] at hc
    subst hc
    exact ⟨ne_of_lt this.1, this.2⟩
  · intro processed e rest init prev r he hI hv
    have hE := hedges e (by rw [he]; simp)
    obtain ⟨hall, hord⟩ := hI
    obtain ⟨⟨hrall, hrord⟩, hrlow⟩ := merge_view_shape prev e r hv hE.1 hE.2
      (hall prev (by simp))
    refine ⟨?_, ?_⟩
    · intro c hc
      rcases List.mem_append.mp hc with hc | hc
      · exact hall c (List.mem_append_left _ hc)
      · exact hrall c hc
    · rw [List.pairwise_append] at hord ⊢
      refine ⟨hord.1, hrord, ?_⟩
      intro c hc d hd
      exact lt_of_lt_of_le (hord.2.2 c hc prev (by simp)) (hrlow d hd)

/-- What a band merge appends has the shape `sweep_shape`. -/
theorem add_non_overlapping_edges_shape (boxes : List MetaBox) (s0 s1 s2 : ℕ)
    (borders out : List MetaBorder)
    (h : add_non_overlapping_edges boxes s0 s1 s2 borders = some out)
    (hva : ∀ p ∈ box_range boxes s0 s1, p.x1 < p.x2)
    (hvb : ∀ p ∈ box_range boxes s1 s2, p.x1 < p.x2) :
    ∃ app, out = borders ++ app ∧ sweep_shape app := by
  unfold add_non_overlapping_edges at h
  simp only [Option.map_eq_some'] at h
  obtain ⟨st, hst, rfl⟩ := h
  set band_merge := (box_range boxes s0 s1).map bottom_edge ++
    (box_range boxes s1 s2).map top_edge with hbm
  have hperm : (g_array_sort band_merge compare_lines_x).Perm band_merge :=
    List.perm_insertionSort _ _
  have hedges : ∀ e ∈ g_array_sort band_merge compare_lines_x,
      e.line.a.x < e.line.b.x ∧ (∃ n : ℤ, e.line.a.x = n) ∧ ∃ n : ℤ, e.line.b.x = n := by
    intro e he
    have he' : e ∈ band_merge := hperm.mem_iff.mp he
    rcases List.mem_append.mp he' with he' | he'
    · obtain ⟨p, hp, rfl⟩ := List.mem_map.mp he'
      simp only [bottom_edge]
      exact ⟨by exact_mod_cast hva p hp, ⟨p.x1, rfl⟩, ⟨p.x2, rfl⟩⟩
    · obtain ⟨p, hp, rfl⟩ := List.mem_map.mp he'
      simp only [top_edge]
      exact ⟨by exact_mod_cast hvb p hp, ⟨p.x1, rfl⟩, ⟨p.x2, rfl⟩⟩
  by_cases hnil : g_array_sort band_merge compare_lines_x = []
  · rw [hnil] at hst
    simp only [List.foldlM_nil, Option.pure_def, Option.some.injEq] at hst
    subst hst
    exact ⟨[], by simp, by simp [sweep_shape]⟩
  · exact sweep_shape_of_fold _ borders st hedges hnil hst

/-! ## Properties of every border of an outline -/

/-- The body of the main loop adds the four edges of boxes and what band merges append,
nothing else: a property that these borders have is kept. -/
theorem outline_step_forall (P : MetaBorder → Prop) {boxes : List MetaBox}
    (hedge : ∀ b ∈ boxes, P (top_edge b) ∧ P (bottom_edge b) ∧ P (left_edge b) ∧
      P (right_edge b))
    (hmerge : ∀ (s0 s1 s2 : ℕ) (borders out : List MetaBorder),
      add_non_overlapping_edges boxes s0 s1 s2 borders = some out →
      ∀ c ∈ out, c ∈ borders ∨ P c)
    (top_most bottom_most : ℤ) (i : ℕ) (st st' : OutlineState)
    (hinv : ∀ c ∈ st.borders, P c)
    (hstep : outline_step boxes top_most bottom_most st i = some st') :
    ∀ c ∈ st'.borders, P c := by
  unfold outline_step at hstep
  cases hbox : boxes[i]? with
  | none => rw [hbox] at hstep; cases hstep
  | some box =>
  rw [hbox] at hstep
  simp only [Option.bind_eq_some] at hstep
  obtain ⟨st1, hgap, st2, hlast, st3, hpassed, hedges⟩ := hstep
  simp only [Option.some.injEq] at hedges
  have hboxe := hedge box (List.getElem?_mem hbox)
  have hm : ∀ (s0 s1 s2 : ℕ) (borders out : List MetaBorder),
      (∀ c ∈ borders, P c) →
      add_non_overlapping_edges boxes s0 s1 s2 borders = some out →
      ∀ c ∈ out, P c := by
    intro s0 s1 s2 borders out hb hout c hc
    rcases hmerge s0 s1 s2 borders out hout c hc with h | h
    · exact hb c h
    · exact h
  have h1 : ∀ c ∈ st1.borders, P c := by
    rcases gap_stage_cases boxes st st1 i box hgap with h | ⟨_, _, _, _, _, h⟩
    · subst h; exact hinv
    · subst h
      intro c hc
      simp only [add_band_bottom_edges, List.mem_append, List.mem_map] at hc
      rcases hc with hc | ⟨p, hp, rfl⟩
      · exact hinv c hc
      · exact (hedge p (box_range_subset _ _ _ p hp)).2.1
  have h2 : ∀ c ∈ st2.borders, P c := by
    rcases last_band_stage_cases boxes st1 st2 i box hlast with h |
      ⟨_, _, out, h, ⟨_, hout⟩ | ⟨_, hout⟩⟩
    · subst h; exact h1
    · subst h; exact hm _ _ _ _ _ h1 hout
    · subst h; exact hm _ _ _ _ _ h1 hout
  have h3 : ∀ c ∈ st3.borders, P c := by
    rcases passed_band_stage_cases boxes top_most st2 st3 i box hpassed with
      ⟨_, h⟩ | ⟨_, _, out, h, hout | hout⟩
    · subst h; exact h2
    · subst h; exact hm _ _ _ _ _ h2 hout
    · subst h
      show ∀ c ∈ out, P c
      rw [hout]; exact h2
  subst hedges
  intro c hc
  unfold edges_stage add_border at hc
  simp only [List.mem_append, List.mem_singleton] at hc
  rcases hc with (hc | rfl) | rfl
  · by_cases c1 : box.y1 = st3.current_roof <;> by_cases c2 : box.y2 = bottom_most
    · simp only [if_pos c1, if_pos c2, List.mem_append, List.mem_singleton] at hc
      rcases hc with (hc | rfl) | rfl
      · exact h3 c hc
      · exact hboxe.1
      · exact hboxe.2.1
    · simp only [if_pos c1, if_neg c2, List.mem_append, List.mem_singleton] at hc
      rcases hc with hc | rfl
      · exact h3 c hc
      · exact hboxe.1
    · simp only [if_neg c1, if_pos c2, List.mem_append, List.mem_singleton] at hc
      rcases hc with hc | rfl
      · exact h3 c hc
      · exact hboxe.2.1
    · simp only [if_neg c1, if_neg c2] at hc
      exact h3 c hc
  · exact hboxe.2.2.1
  · exact hboxe.2.2.2

/-- A property that the four edges of every box have, and that every border appended
by a band merge has, is a property of every border of the outline. -/
theorem outline_forall (P : MetaBorder → Prop) (boxes : List MetaBox)
    (hedge : ∀ b ∈ boxes, P (top_edge b) ∧ P (bottom_edge b) ∧ P (left_edge b) ∧
      P (right_edge b))
    (hmerge : ∀ (s0 s1 s2 : ℕ) (borders out : List MetaBorder),
      add_non_overlapping_edges boxes s0 s1 s2 borders = some out →
      ∀ c ∈ out, c ∈ borders ∨ P c)
    (outline : List MetaBorder) (h : outline_of_boxes boxes [] = some outline) :
    ∀ c ∈ outline, P c := by
  unfold outline_of_boxes at h
  split at h
  · rename_i first final _ _
    simp only [Option.map_eq_some'] at h
    obtain ⟨st, hst, rfl⟩ := h
    have key : ∀ k st, (List.range k).foldlM (outline_step boxes first.y1 final.y2)
        ⟨0, first.y1, 0, 0, []⟩ = some st → ∀ c ∈ st.borders, P c := by
      intro k
      induction k with
      | zero =>
        intro st h
        simp only [List.range_zero, List.foldlM_nil, Option.pure_def,
          Option.some.injEq] at h
        subst h
        simp
      | succ k ih =>
        intro st h
        rw [List.range_succ, List.foldlM_append] at h
        simp only [List.foldlM_cons, List.foldlM_nil, Option.bind_eq_bind,
          Option.bind_eq_some] at h
        obtain ⟨st0, h0, st1, h1, h2⟩ := h
        simp only [Option.pure_def, Option.some.injEq] at h2
        subst h2
        exact outline_step_forall P hedge hmerge first.y1 final.y2 k st0 st1 (ih st0 h0) h1
    exact key _ st hst
  · cases h

/-! ## What a band merge covers -/

/-- In a list of borders that follow each other without overlap, the parity at an
abscissa is odd exactly when one of the borders holds it. -/
theorem x_parity_iff_covered (x : ℚ) (l : List MetaBorder)
    (hp : l.Pairwise fun c d => x_high c ≤ x_low d) :
    x_parity x l = true ↔ ∃ c ∈ l, x_covered x c = true := by
  constructor
  · intro h
    by_contra hn
    push_neg at hn
    have := x_parity_of_none x l fun c hc => by
      have := hn c hc
      simpa using this
    rw [this] at h
    cases h
  · rintro ⟨c, hc, hx⟩
    exact x_parity_of_ordered x l hp c hc hx

/-- The parity of the bottom edges of a row at an abscissa is odd exactly when the
abscissa lies under a box of the row. -/
theorem x_parity_bottom_edges (x : ℚ) (band : List MetaBox)
    (hv : ∀ p ∈ band, p.x1 < p.x2) (hp : band.Pairwise fun p q => p.x2 ≤ q.x1) :
    x_parity x (band.map bottom_edge) = true ↔ band_spans band x := by
  have hord : (band.map bottom_edge).Pairwise fun c d => x_high c ≤ x_low d := by
    rw [List.pairwise_map]
    refine List.Pairwise.imp_of_mem ?_ hp
    intro a b ha hb hab
    have h1 : (a.x1 : ℚ) ≤ a.x2 := by exact_mod_cast (hv a ha).le
    have h2 : (b.x1 : ℚ) ≤ b.x2 := by exact_mod_cast (hv b hb).le
    simp only [x_high, x_low, bottom_edge, max_eq_right h1, min_eq_left h2]
    exact_mod_cast hab
  rw [x_parity_iff_covered x _ hord]
  constructor
  · rintro ⟨c, hc, hx⟩
    obtain ⟨p, hp', rfl⟩ := List.mem_map.mp hc
    rw [x_covered_bottom_edge x p (hv p hp')] at hx
    exact ⟨p, hp', of_decide_eq_true hx⟩
  · rintro ⟨p, hp', hx⟩
    refine ⟨bottom_edge p, List.mem_map_of_mem _ hp', ?_⟩
    rw [x_covered_bottom_edge x p (hv p hp')]
    exact decide_eq_true hx

/-- The parity of the top edges of a row at an abscissa is odd exactly when the
abscissa lies under a box of the row. -/
theorem x_parity_top_edges (x : ℚ) (band : List MetaBox)
    (hv : ∀ p ∈ band, p.x1 < p.x2) (hp : band.Pairwise fun p q => p.x2 ≤ q.x1) :
    x_parity x (band.map top_edge) = true ↔ band_spans band x := by
  have hord : (band.map top_edge).Pairwise fun c d => x_high c ≤ x_low d := by
    rw [List.pairwise_map]
    refine List.Pairwise.imp_of_mem ?_ hp
    intro a b ha hb hab
    have h1 : (a.x1 : ℚ) ≤ a.x2 := by exact_mod_cast (hv a ha).le
    have h2 : (b.x1 : ℚ) ≤ b.x2 := by exact_mod_cast (hv b hb).le
    simp only [x_high, x_low, top_edge, max_eq_right h1, min_eq_left h2]
    exact_mod_cast hab
  rw [x_parity_iff_covered x _ hord]
  constructor
  · rintro ⟨c, hc, hx⟩
    obtain ⟨p, hp', rfl⟩ := List.mem_map.mp hc
    rw [x_covered_top_edge x p (hv p hp')] at hx
    exact ⟨p, hp', of_decide_eq_true hx⟩
  · rintro ⟨p, hp', hx⟩
    refine ⟨top_edge p, List.mem_map_of_mem _ hp', ?_⟩
    rw [x_covered_top_edge x p (hv p hp')]
    exact decide_eq_true hx

/-- Two borders of a list whose borders are separated by empty spaces are the same
border or lie apart. -/
theorem sweep_shape_apart (app : List MetaBorder) (h : sweep_shape app)
    (c d : MetaBorder) (hc : c ∈ app) (hd : d ∈ app) :
    c = d ∨ x_high c < x_low d ∨ x_high d < x_low c := by
  have h1 := h.2.imp (S := fun c d => c = d ∨ x_high c < x_low d ∨ x_high d < x_low c)
    (fun {a b} hab => Or.inr (Or.inl hab))
  have h2 : c = d ∨ x_high c < x_low d ∨ x_high d < x_low c :=
    h1.forall_of_forall ?_ ?_ hc hd
  · exact h2
  · intro a b hab
    rcases hab with h | h | h
    · exact Or.inl h.symm
    · exact Or.inr (Or.inr h)
    · exact Or.inr (Or.inl h)
  · intro a _; exact Or.inl rfl

/-- The ends of the extent of a border with integer abscissas are integers. -/
theorem x_low_high_int (c : MetaBorder) (ha : ∃ n : ℤ, c.line.a.x = n)
    (hb : ∃ n : ℤ, c.line.b.x = n) :
    (∃ n : ℤ, x_low c = n) ∧ ∃ n : ℤ, x_high c = n := by
  unfold x_low x_high
  constructor
  · rcases min_choice c.line.a.x c.line.b.x with h | h <;> rw [h]
    · exact ha
    · exact hb
  · rcases max_choice c.line.a.x c.line.b.x with h | h <;> rw [h]
    · exact ha
    · exact hb

/-- What a band merge of two rows appends: horizontal borders on the common line of the
merged edges with integer ends, each of which spans a maximal run of abscissas that
lie under exactly one of the two bands; and every such abscissa is held by one of the
appended borders. -/
theorem add_non_overlapping_edges_runs (boxes : List MetaBox) (s0 s1 s2 : ℕ)
    (borders out : List MetaBorder)
    (h : add_non_overlapping_edges boxes s0 s1 s2 borders = some out)
    (hva : ∀ p ∈ box_range boxes s0 s1, p.x1 < p.x2)
    (hvb : ∀ p ∈ box_range boxes s1 s2, p.x1 < p.x2)
    (hpa : (box_range boxes s0 s1).Pairwise fun p q => p.x2 ≤ q.x1)
    (hpb : (box_range boxes s1 s2).Pairwise fun p q => p.x2 ≤ q.x1) :
    ∃ app, out = borders ++ app ∧
      (∀ c ∈ app, c.line.a.y = c.line.b.y ∧
        (∀ p ∈ box_range boxes s0 s1, (p.y2 : ℚ) = c.line.a.y) ∧
        (∀ q ∈ box_range boxes s1 s2, (q.y1 : ℚ) = c.line.a.y) ∧
        (∃ n : ℤ, x_low c = n) ∧ (∃ n : ℤ, x_high c = n) ∧ x_low c < x_high c ∧
        (∀ x, x_low c ≤ x → x < x_high c →
          under_one_band (box_range boxes s0 s1) (box_range boxes s1 s2) x) ∧
        ¬ under_one_band (box_range boxes s0 s1) (box_range boxes s1 s2) (x_high c) ∧
        ¬ under_one_band (box_range boxes s0 s1) (box_range boxes s1 s2) (x_low c - 1)) ∧
      (∀ x, under_one_band (box_range boxes s0 s1) (box_range boxes s1 s2) x →
        ∃ c ∈ app, x_covered x c = true) ∧
      (box_range boxes s0 s1 ≠ [] ∨ box_range boxes s1 s2 ≠ [] → app ≠ []) := by
  obtain ⟨app, happ, hsweep⟩ := add_non_overlapping_edges_sweep boxes s0 s1 s2 borders out h
    hva hvb
  obtain ⟨app', happ', hshape⟩ := add_non_overlapping_edges_shape boxes s0 s1 s2 borders out
    h hva hvb
  have heq : app' = app := by
    rw [happ] at happ'
    exact (List.append_cancel_left happ').symm
  subst heq
  refine ⟨app', happ, ?_⟩
  set above := box_range boxes s0 s1 with habove
  set below := box_range boxes s1 s2 with hbelow
  have hperm : (g_array_sort (above.map bottom_edge ++ below.map top_edge)
      compare_lines_x).Perm (above.map bottom_edge ++ below.map top_edge) :=
    List.perm_insertionSort _ _
  rcases hsweep with rfl | ⟨y, happne, hyc, hyp, hpar, hord, _⟩
  · -- nothing was merged: both bands are empty
    refine ⟨fun c hc => absurd hc (List.not_mem_nil c), ?_⟩
    have hnil : above.map bottom_edge ++ below.map top_edge = [] := by
      by_contra hne
      have hne' : g_array_sort (above.map bottom_edge ++ below.map top_edge)
          compare_lines_x ≠ [] := by
        intro h0
        rw [h0] at hperm
        exact hne hperm.symm.eq_nil
      unfold add_non_overlapping_edges at h
      simp only [Option.map_eq_some'] at h
      obtain ⟨st, hst, hst2⟩ := h
      have hedges : ∀ e ∈ g_array_sort (above.map bottom_edge ++ below.map top_edge)
          compare_lines_x, e.line.a.x < e.line.b.x := by
        intro e he
        have he' := hperm.mem_iff.mp he
        rcases List.mem_append.mp he' with he' | he'
        · obtain ⟨p, hp, rfl⟩ := List.mem_map.mp he'
          simp only [bottom_edge]
          exact_mod_cast hva p hp
        · obtain ⟨p, hp, rfl⟩ := List.mem_map.mp he'
          simp only [top_edge]
          exact_mod_cast hvb p hp
      obtain ⟨y, app2, h1, h2⟩ := sweep_from_start borders _ st hedges hne' hst
      rw [h1] at hst2
      have : app2 = [] := by
        have h3 : borders ++ app2 = borders ++ [] := by rw [hst2, happ]
        exact List.append_cancel_left h3
      exact h2.1 this
    simp only [List.append_eq_nil, List.map_eq_nil_iff] at hnil
    refine ⟨?_, ?_⟩
    · intro x hx
      rcases hx with ⟨⟨p, hp, _⟩, _⟩ | ⟨_, ⟨q, hq, _⟩⟩
      · rw [hnil.1] at hp; cases hp
      · rw [hnil.2] at hq; cases hq
    · rintro (h1 | h1)
      · exact absurd hnil.1 h1
      · exact absurd hnil.2 h1
  · -- the cover of the appended borders
    have hcover : ∀ x, (∃ c ∈ app', x_covered x c = true) ↔ under_one_band above below x := by
      intro x
      rw [← x_parity_iff_covered x app' hord, hpar x, x_parity_perm x _ _ hperm,
        x_parity_append]
      have h1 := x_parity_bottom_edges x above hva hpa
      have h2 := x_parity_top_edges x below hvb hpb
      unfold under_one_band
      rw [← h1, ← h2]
      cases x_parity x (above.map bottom_edge) <;> cases x_parity x (below.map top_edge) <;>
        simp
    refine ⟨?_, fun x hx => (hcover x).mpr hx, fun _ => happne⟩
    intro c hc
    obtain ⟨hnd, hia, hib⟩ := hshape.1 c hc
    obtain ⟨hlo, hhi⟩ := x_low_high_int c hia hib
    have hlt : x_low c < x_high c := by
      unfold x_low x_high
      rcases lt_or_gt_of_ne hnd with h1 | h1
      · rw [min_eq_left h1.le, max_eq_right h1.le]; exact h1
      · rw [min_eq_right h1.le, max_eq_left h1.le]; exact h1
    refine ⟨by rw [(hyc c hc).1, (hyc c hc).2], ?_, ?_, hlo, hhi, hlt, ?_, ?_, ?_⟩
    · intro p hp
      have hmem : bottom_edge p ∈ g_array_sort (above.map bottom_edge ++ below.map top_edge)
          compare_lines_x :=
        hperm.mem_iff.mpr (List.mem_append_left _ (List.mem_map_of_mem _ hp))
      have := (hyp _ hmem).1
      simp only [bottom_edge] at this
      rw [(hyc c hc).1]; exact this
    · intro q hq
      have hmem : top_edge q ∈ g_array_sort (above.map bottom_edge ++ below.map top_edge)
          compare_lines_x :=
        hperm.mem_iff.mpr (List.mem_append_right _ (List.mem_map_of_mem _ hq))
      have := (hyp _ hmem).1
      simp only [top_edge] at this
      rw [(hyc c hc).1]; exact this
    · intro x hx1 hx2
      exact (hcover x).mp ⟨c, hc, by
        simp only [x_covered, decide_eq_true_eq]; exact ⟨hx1, hx2⟩⟩
    · intro hx
      obtain ⟨d, hd, hdx⟩ := (hcover _).mpr hx
      simp only [x_covered, decide_eq_true_eq] at hdx
      rcases sweep_shape_apart app' hshape c d hc hd with rfl | h1 | h1
      · exact lt_irrefl _ hdx.2
      · exact absurd hdx.1 (not_le.mpr h1)
      · exact absurd (lt_trans h1 (lt_trans hlt hdx.2)) (lt_irrefl _)
    · intro hx
      obtain ⟨d, hd, hdx⟩ := (hcover _).mpr hx
      simp only [x_covered, decide_eq_true_eq] at hdx
      rcases sweep_shape_apart app' hshape c d hc hd with rfl | h1 | h1
      · linarith [hdx.1]
      · have hd' := hshape.1 d hd
        have hlt' : x_low d ≤ x_high d := by
          unfold x_low x_high; exact le_trans (min_le_left _ _) (le_max_left _ _)
        linarith [hdx.1]
      · obtain ⟨_, hia', hib'⟩ := hshape.1 d hd
        obtain ⟨_, ⟨m, hm⟩⟩ := x_low_high_int d hia' hib'
        obtain ⟨n, hn⟩ := hlo
        rw [hm, hn] at h1
        rw [hm, hn] at hdx
        have h2 : m < n := by exact_mod_cast h1
        have h3 : (n : ℚ) - 1 < m := hdx.2
        have h4 : n - 1 < m := by exact_mod_cast h3
        omega

/-! ## Horizontal borders of a banded region span maximal runs -/

theorem x_low_high_top_edge (box : MetaBox) (h : box.x1 < box.x2) :
    x_low (top_edge box) = box.x1 ∧ x_high (top_edge box) = box.x2 := by
  have : (box.x1 : ℚ) ≤ box.x2 := by exact_mod_cast h.le
  simp only [x_low, x_high, top_edge, min_eq_left this, max_eq_right this, and_self]

theorem x_low_high_bottom_edge (box : MetaBox) (h : box.x1 < box.x2) :
    x_low (bottom_edge box) = box.x1 ∧ x_high (bottom_edge box) = box.x2 := by
  have : (box.x1 : ℚ) ≤ box.x2 := by exact_mod_cast h.le
  simp only [x_low, x_high, bottom_edge, min_eq_left this, max_eq_right this, and_self]

/-- No box of a row of a banded region spans the right end of another box of the row,
or the unit cell left of its left end. -/
theorem row_ends_free {boxes : List MetaBox} (hb : banded boxes) {box q : MetaBox}
    (hbox : box ∈ boxes) (hq : q ∈ boxes) (hy : box.y1 = q.y1) :
    ¬ ((q.x1 : ℚ) ≤ box.x2 ∧ (box.x2 : ℚ) < q.x2) ∧
      ¬ ((q.x1 : ℚ) ≤ (box.x1 : ℚ) - 1 ∧ (box.x1 : ℚ) - 1 < q.x2) := by
  have hv := banded_valid hb hbox
  have hvq := banded_valid hb hq
  constructor
  · rintro ⟨h1, h2⟩
    have h1' : q.x1 ≤ box.x2 := by exact_mod_cast h1
    have h2' : box.x2 < q.x2 := by exact_mod_cast h2
    rcases banded_row_apart hb hbox hq hy with rfl | h | h <;> omega
  · rintro ⟨h1, h2⟩
    have h1' : q.x1 ≤ box.x1 - 1 := by exact_mod_cast h1
    have h2' : box.x1 - 1 < q.x2 := by exact_mod_cast h2
    rcases banded_row_apart hb hbox hq hy with rfl | h | h <;> omega

/-- The top edge of a box on whose top line no box ends spans a maximal run. -/
theorem top_edge_run {boxes : List MetaBox} (hb : banded boxes) {box : MetaBox}
    (hbox : box ∈ boxes) (hno : ∀ p ∈ boxes, p.y2 ≠ box.y1) :
    horizontal_run boxes box.y1 box.x1 box.x2 := by
  have hv := banded_valid hb hbox
  have hne : ∀ x, ¬ ends_above boxes x box.y1 := by
    rintro x ⟨p, hp, hy, _⟩
    exact hno p hp (by exact_mod_cast hy)
  have hst : ∀ x, starts_below boxes x box.y1 →
      ∃ q ∈ boxes, box.y1 = q.y1 ∧ (q.x1 : ℚ) ≤ x ∧ x < q.x2 := by
    rintro x ⟨q, hq, hy, hx⟩
    exact ⟨q, hq, by exact_mod_cast hy.symm, hx⟩
  refine ⟨⟨box.x1, rfl⟩, ⟨box.x2, rfl⟩, by exact_mod_cast hv.1, ?_, ?_, ?_⟩
  · intro x h1 h2
    exact Or.inr ⟨hne x, box, hbox, rfl, h1, h2⟩
  · rintro (⟨h, _⟩ | ⟨_, h⟩)
    · exact hne _ h
    · obtain ⟨q, hq, hy, hx⟩ := hst _ h
      exact (row_ends_free hb hbox hq hy).1 hx
  · rintro (⟨h, _⟩ | ⟨_, h⟩)
    · exact hne _ h
    · obtain ⟨q, hq, hy, hx⟩ := hst _ h
      exact (row_ends_free hb hbox hq hy).2 hx

/-- The bottom edge of a box on whose bottom line no box starts spans a maximal run. -/
theorem bottom_edge_run {boxes : List MetaBox} (hb : banded boxes) {box : MetaBox}
    (hbox : box ∈ boxes) (hno : ∀ q ∈ boxes, q.y1 ≠ box.y2) :
    horizontal_run boxes box.y2 box.x1 box.x2 := by
  have hv := banded_valid hb hbox
  have hne : ∀ x, ¬ starts_below boxes x box.y2 := by
    rintro x ⟨p, hp, hy, _⟩
    exact hno p hp (by exact_mod_cast hy)
  have hst : ∀ x, ends_above boxes x box.y2 →
      ∃ q ∈ boxes, box.y1 = q.y1 ∧ (q.x1 : ℚ) ≤ x ∧ x < q.x2 := by
    rintro x ⟨q, hq, hy, hx⟩
    have hy' : q.y2 = box.y2 := by exact_mod_cast hy
    have hvq := banded_valid hb hq
    refine ⟨q, hq, ?_, hx⟩
    rcases banded_rows hb hbox hq with ⟨e, _⟩ | e | e <;> omega
  refine ⟨⟨box.x1, rfl⟩, ⟨box.x2, rfl⟩, by exact_mod_cast hv.1, ?_, ?_, ?_⟩
  · intro x h1 h2
    exact Or.inl ⟨⟨box, hbox, rfl, h1, h2⟩, hne x⟩
  · rintro (⟨h, _⟩ | ⟨_, h⟩)
    · obtain ⟨q, hq, hy, hx⟩ := hst _ h
      exact (row_ends_free hb hbox hq hy).1 hx
    · exact hne _ h
  · rintro (⟨h, _⟩ | ⟨_, h⟩)
    · obtain ⟨q, hq, hy, hx⟩ := hst _ h
      exact (row_ends_free hb hbox hq hy).2 hx
    · exact hne _ h

/-- A band merge of two complete rows of a banded region appends horizontal borders on
the top line of the row below, each spanning a maximal run of that line, and every
abscissa at which the region lies on exactly one side of that line is held by one of
them. -/
theorem merge_lines {boxes : List MetaBox} (hb : banded boxes) (s0 s1 s2 : ℕ)
    (borders out : List MetaBorder)
    (h : add_non_overlapping_edges boxes s0 s1 s2 borders = some out)
    (above below : List MetaBox) (habove : box_range boxes s0 s1 = above)
    (hbelow : box_range boxes s1 s2 = below)
    (hsa : above.Sublist boxes) (hsb : below.Sublist boxes)
    (yb : ℤ) (hne : below ≠ []) (hby : ∀ c ∈ below, c.y1 = yb)
    (hbc : ∀ q ∈ boxes, q.y1 = yb → q ∈ below)
    (hac : (above = [] ∧ ∀ p ∈ boxes, p.y2 ≠ yb) ∨
      (above ≠ [] ∧ ∃ ya, (∀ q ∈ above, q.y1 = ya) ∧ ∀ p ∈ boxes, p.y1 = ya → p ∈ above)) :
    ∃ app, out = borders ++ app ∧
      (∀ c ∈ app, c.line.a.y = c.line.b.y ∧ c.line.a.y = yb ∧
        horizontal_run boxes yb (x_low c) (x_high c)) ∧
      ∀ x, one_sided boxes x yb →
        ∃ c ∈ app, c.line.a.y = c.line.b.y ∧ c.line.a.y = yb ∧ x_covered x c = true := by
  have hpb : below.Pairwise fun p q => p.x2 ≤ q.x1 := banded_row_ordered hb hsb yb hby
  have hpa : above.Pairwise fun p q => p.x2 ≤ q.x1 := by
    rcases hac with ⟨h1, _⟩ | ⟨_, ya, h1, _⟩
    · rw [h1]; exact List.Pairwise.nil
    · exact banded_row_ordered hb hsa ya h1
  obtain ⟨app, happ, hall, hcov, hne'⟩ := add_non_overlapping_edges_runs boxes s0 s1 s2
    borders out h
    (by rw [habove]; intro p hp; exact (banded_valid hb (hsa.subset hp)).1)
    (by rw [hbelow]; intro p hp; exact (banded_valid hb (hsb.subset hp)).1)
    (by rw [habove]; exact hpa) (by rw [hbelow]; exact hpb)
  rw [habove, hbelow] at hall hcov hne'
  obtain ⟨c0, hc0⟩ := List.exists_mem_of_ne_nil below hne
  have hline : ∀ c ∈ app, c.line.a.y = yb := by
    intro c hc
    rw [← (hall c hc).2.2.1 c0 hc0, hby c0 hc0]
  obtain ⟨c1, hc1⟩ := List.exists_mem_of_ne_nil app (hne' (Or.inr hne))
  have hay : ∀ p ∈ above, p.y2 = yb := by
    intro p hp
    have h1 := (hall c1 hc1).2.1 p hp
    rw [hline c1 hc1] at h1
    exact_mod_cast h1
  have hE : ∀ x, ends_above boxes x yb ↔ band_spans above x := by
    intro x
    constructor
    · rintro ⟨p, hp, hy, hx⟩
      have hy' : p.y2 = yb := by exact_mod_cast hy
      refine ⟨p, ?_, hx⟩
      rcases hac with ⟨_, h2⟩ | ⟨h1, ya, h2, h3⟩
      · exact absurd hy' (h2 p hp)
      · obtain ⟨a0, ha0⟩ := List.exists_mem_of_ne_nil above h1
        have ha0y := hay a0 ha0
        have hva := banded_valid hb (hsa.subset ha0)
        have hvp := banded_valid hb hp
        apply h3 p hp
        rw [← h2 a0 ha0]
        rcases banded_rows hb hp (hsa.subset ha0) with ⟨e, _⟩ | e | e <;> omega
    · rintro ⟨p, hp, hx⟩
      exact ⟨p, hsa.subset hp, by exact_mod_cast hay p hp, hx⟩
  have hB : ∀ x, starts_below boxes x yb ↔ band_spans below x := by
    intro x
    constructor
    · rintro ⟨q, hq, hy, hx⟩
      exact ⟨q, hbc q hq (by exact_mod_cast hy), hx⟩
    · rintro ⟨q, hq, hx⟩
      exact ⟨q, hsb.subset hq, by exact_mod_cast hby q hq, hx⟩
  have hS : ∀ x, one_sided boxes x yb ↔ under_one_band above below x := by
    intro x
    unfold one_sided under_one_band
    rw [hE x, hB x]
  refine ⟨app, happ, ?_, ?_⟩
  · intro c hc
    obtain ⟨h1, _, _, h4, h5, h6, h7, h8, h9⟩ := hall c hc
    refine ⟨h1, hline c hc, h4, h5, h6, ?_, ?_, ?_⟩
    · intro x hx1 hx2
      exact (hS x).mpr (h7 x hx1 hx2)
    · intro hx
      exact h8 ((hS _).mp hx)
    · intro hx
      exact h9 ((hS _).mp hx)
  · intro x hx
    obtain ⟨c, hc, hcx⟩ := hcov x ((hS x).mp hx)
    exact ⟨c, hc, (hall c hc).1, hline c hc, hcx⟩

/-! ## The blocks of the loop body, case by case -/

/-- The first block either leaves the state as it is, when the box continues the row or
follows the row before it without an empty space, or moves the roof and adds the bottom
edges of the row before the box. -/
theorem gap_stage_sharp (boxes : List MetaBox) (st st1 : OutlineState) (i : ℕ)
    (box : MetaBox) (h : gap_stage boxes st i box = some st1) :
    (st1 = st ∧ (i = 0 ∨ ∃ above, boxes[i - 1]? = some above ∧
        (box.y1 = st.prev_top ∨ box.y1 = above.y2))) ∨
      ∃ above, 0 < i ∧ boxes[i - 1]? = some above ∧ box.y1 ≠ st.prev_top ∧
        box.y1 ≠ above.y2 ∧
        st1 = { st with
          current_roof := box.y1
          borders := add_band_bottom_edges boxes st.band_start i st.borders } := by
  unfold gap_stage at h
  split_ifs at h with h0
  · split at h
    · cases h
    · rename_i above habove
      split_ifs at h with hc
      · right
        exact ⟨above, h0, habove, hc.1, hc.2, (Option.some.inj h).symm⟩
      · left
        refine ⟨(Option.some.inj h).symm, Or.inr ⟨above, habove, ?_⟩⟩
        by_cases h1 : box.y1 = st.prev_top
        · exact Or.inl h1
        · right
          by_contra h2
          exact hc ⟨h1, h2⟩
  · left; exact ⟨(Option.some.inj h).symm, Or.inl (by omega)⟩

/-- The second block leaves the state as it is unless the box is the last one and does
not start on the roof; then it merges the last row with the row before it. -/
theorem last_band_stage_sharp (boxes : List MetaBox) (st st2 : OutlineState) (i : ℕ)
    (box : MetaBox) (h : last_band_stage boxes st i box = some st2) :
    (st2 = st ∧ (box.y1 = st.current_roof ∨ i ≠ boxes.length - 1)) ∨
      (box.y1 ≠ st.current_roof ∧ i = boxes.length - 1 ∧
        ∃ out, st2 = { st with borders := out } ∧
          ((box.y1 ≠ st.prev_top ∧
            add_non_overlapping_edges boxes st.band_start i (i + 1) st.borders =
              some out) ∨
           (box.y1 = st.prev_top ∧
            add_non_overlapping_edges boxes st.prev_band_start st.band_start (i + 1)
              st.borders = some out))) := by
  rcases last_band_stage_cases boxes st st2 i box h with h1 | h1
  · by_cases hc : box.y1 ≠ st.current_roof ∧ i = boxes.length - 1
    · right
      unfold last_band_stage at h
      rw [if_pos hc] at h
      split_ifs at h with h2
      · simp only [Option.map_eq_some'] at h
        obtain ⟨out, hout, rfl⟩ := h
        exact ⟨hc.1, hc.2, out, rfl, Or.inl ⟨h2, hout⟩⟩
      · simp only [Option.map_eq_some'] at h
        obtain ⟨out, hout, rfl⟩ := h
        exact ⟨hc.1, hc.2, out, rfl, Or.inr ⟨not_not.mp h2, hout⟩⟩
    · left
      refine ⟨h1, ?_⟩
      by_cases h3 : box.y1 = st.current_roof
      · exact Or.inl h3
      · exact Or.inr fun h4 => hc ⟨h3, h4⟩
  · exact Or.inr h1

/-- The third block leaves the state as it is when the box continues the row; when the
box starts a new row it moves the band indices, after merging the row just passed with
the row before it unless the row just passed started on the roof. -/
theorem passed_band_stage_sharp (boxes : List MetaBox) (top_most : ℤ)
    (st st3 : OutlineState) (i : ℕ) (box : MetaBox)
    (h : passed_band_stage boxes top_most st i box = some st3) :
    (¬ (box.y1 ≠ top_most ∧ box.y1 ≠ st.prev_top) ∧ st3 = st) ∨
      (box.y1 ≠ top_most ∧ box.y1 ≠ st.prev_top ∧
        ∃ out, st3 = { st with
            borders := out, prev_band_start := st.band_start, band_start := i } ∧
          ((st.prev_top ≠ st.current_roof ∧
            add_non_overlapping_edges boxes st.prev_band_start st.band_start i
              st.borders = some out) ∨
           (st.prev_top = st.current_roof ∧ out = st.borders))) := by
  unfold passed_band_stage at h
  split_ifs at h with h0 h1
  · right
    simp only [Option.map_eq_some'] at h
    obtain ⟨out, hout, rfl⟩ := h
    exact ⟨h0.1, h0.2, out, rfl, Or.inl ⟨h1, hout⟩⟩
  · right
    simp only [Option.map_some', Option.some.injEq] at h
    exact ⟨h0.1, h0.2, st.borders, h.symm, Or.inr ⟨not_not.mp h1, rfl⟩⟩
  · left; exact ⟨h0, (Option.some.inj h).symm⟩

/-- The borders after the last block: those before it, the top edge of a box on the
roof, the bottom edge of a box of the last row, and the left and right edge. -/
theorem mem_edges_stage (bottom_most : ℤ) (st : OutlineState) (box : MetaBox)
    (c : MetaBorder) :
    c ∈ (edges_stage bottom_most st box).borders ↔
      c ∈ st.borders ∨ (box.y1 = st.current_roof ∧ c = top_edge box) ∨
        (box.y2 = bottom_most ∧ c = bottom_edge box) ∨ c = left_edge box ∨
        c = right_edge box := by
  unfold edges_stage add_border
  simp only [List.mem_append, List.mem_singleton]
  have e1 : (⟨⟨⟨box.x1, box.y1⟩, ⟨box.x2, box.y1⟩⟩,
      META_BORDER_MOTION_DIRECTION_NEGATIVE_Y⟩ : MetaBorder) = top_edge box := rfl
  have e2 : (⟨⟨⟨box.x1, box.y2⟩, ⟨box.x2, box.y2⟩⟩,
      META_BORDER_MOTION_DIRECTION_POSITIVE_Y⟩ : MetaBorder) = bottom_edge box := rfl
  have e3 : (⟨⟨⟨box.x1, box.y1⟩, ⟨box.x1, box.y2⟩⟩,
      META_BORDER_MOTION_DIRECTION_NEGATIVE_X⟩ : MetaBorder) = left_edge box := rfl
  have e4 : (⟨⟨⟨box.x2, box.y1⟩, ⟨box.x2, box.y2⟩⟩,
      META_BORDER_MOTION_DIRECTION_POSITIVE_X⟩ : MetaBorder) = right_edge box := rfl
  rw [e1, e2, e3, e4]
  by_cases c1 : box.y1 = st.current_roof <;> by_cases c2 : box.y2 = bottom_most
  · simp only [if_pos c1, if_pos c2, List.mem_append, List.mem_singleton]
    tauto
  · simp only [if_pos c1, if_neg c2, List.mem_append, List.mem_singleton]
    tauto
  · simp only [if_neg c1, if_pos c2, List.mem_append, List.mem_singleton]
    tauto
  · simp only [if_neg c1, if_neg c2]
    tauto

theorem edges_stage_fields (bottom_most : ℤ) (st : OutlineState) (box : MetaBox) :
    (edges_stage bottom_most st box).prev_top = box.y1 ∧
      (edges_stage bottom_most st box).current_roof = st.current_roof ∧
      (edges_stage bottom_most st box).band_start = st.band_start ∧
      (edges_stage bottom_most st box).prev_band_start = st.prev_band_start :=
  ⟨rfl, rfl, rfl, rfl⟩

/-! ## The main loop, line by line -/

theorem horizontal_cover_mono {l₁ l₂ : List MetaBorder} (h : ∀ c ∈ l₁, c ∈ l₂) (x y : ℚ)
    (hc : horizontal_cover l₁ x y) : horizontal_cover l₂ x y := by
  obtain ⟨c, hc, h1⟩ := hc
  exact ⟨c, h c hc, h1⟩

/-- A box whose top edge is among the borders covers what it spans of its top line. -/
theorem horizontal_cover_top_edge {l : List MetaBorder} {b : MetaBox} (hv : b.x1 < b.x2)
    (h : top_edge b ∈ l) (x : ℚ) (h1 : (b.x1 : ℚ) ≤ x) (h2 : x < b.x2) :
    horizontal_cover l x b.y1 := by
  refine ⟨top_edge b, h, rfl, rfl, ?_⟩
  rw [x_covered_top_edge x b hv]
  exact decide_eq_true ⟨h1, h2⟩

/-- A box whose bottom edge is among the borders covers what it spans of its bottom
line. -/
theorem horizontal_cover_bottom_edge {l : List MetaBorder} {b : MetaBox}
    (hv : b.x1 < b.x2) (h : bottom_edge b ∈ l) (x : ℚ) (h1 : (b.x1 : ℚ) ≤ x)
    (h2 : x < b.x2) : horizontal_cover l x b.y2 := by
  refine ⟨bottom_edge b, h, rfl, rfl, ?_⟩
  rw [x_covered_bottom_edge x b hv]
  exact decide_eq_true ⟨h1, h2⟩

/-- The last block of the loop body completes the line-by-line account of the outline,
given what the blocks before it have added. -/
theorem lines_after_edges_stage {boxes : List MetaBox} (hb : banded boxes)
    (bottom_most : ℤ) (hbot : ∀ q ∈ boxes, q.y1 ≠ bottom_most) (i : ℕ)
    (st st3 : OutlineState) (box : MetaBox) (hbox : boxes[i]? = some box)
    (hlines : outline_lines boxes bottom_most i st)
    (hroof3 : ∀ p ∈ boxes, p.y2 ≠ st3.current_roof)
    (hsub : ∀ c ∈ st.borders, c ∈ st3.borders)
    (hnew : ∀ c ∈ st3.borders, c ∈ st.borders ∨
      (c.line.a.y = c.line.b.y ∧ horizontal_run boxes c.line.a.y (x_low c) (x_high c)))
    (hlt : ∀ x y, one_sided boxes x y → y < box.y1 → horizontal_cover st3.borders x y)
    (htops : box.y1 = st3.current_roof → ∀ b ∈ boxes.take i, b.y1 = box.y1 →
      top_edge b ∈ st3.borders)
    (hline : box.y1 ≠ st3.current_roof → i + 1 = boxes.length →
      ∀ x, one_sided boxes x box.y1 → horizontal_cover st3.borders x box.y1) :
    outline_lines boxes bottom_most (i + 1) (edges_stage bottom_most st3 box) := by
  obtain ⟨hV1, hV2, hM, _, _, _, hH3⟩ := hlines
  have hboxmem : box ∈ boxes := List.getElem?_mem hbox
  have hboxv := banded_valid hb hboxmem
  have htake : ∀ b, b ∈ boxes.take (i + 1) ↔ b ∈ boxes.take i ∨ b = box := by
    intro b
    rw [List.take_succ, hbox]
    simp
  have hyne : ((box.y1 : ℤ) : ℚ) ≠ ((box.y2 : ℤ) : ℚ) := by
    exact_mod_cast ne_of_lt hboxv.2
  have hmono : ∀ c ∈ st3.borders, c ∈ (edges_stage bottom_most st3 box).borders :=
    fun c hc => (mem_edges_stage bottom_most st3 box c).mpr (Or.inl hc)
  refine ⟨?_, ?_, ?_, ?_, ?_, ?_, ?_⟩
  · intro c hc hnh
    rcases (mem_edges_stage bottom_most st3 box c).mp hc with h | ⟨_, rfl⟩ | ⟨_, rfl⟩ |
      rfl | rfl
    · rcases hnew c h with h1 | ⟨h1, _⟩
      · obtain ⟨b, hbm, hb'⟩ := hV1 c h1 hnh
        exact ⟨b, (htake b).mpr (Or.inl hbm), hb'⟩
      · exact absurd h1 hnh
    · exact absurd rfl hnh
    · exact absurd rfl hnh
    · exact ⟨box, (htake box).mpr (Or.inr rfl), Or.inl rfl⟩
    · exact ⟨box, (htake box).mpr (Or.inr rfl), Or.inr rfl⟩
  · intro b hbm
    rcases (htake b).mp hbm with h | rfl
    · exact ⟨hmono _ (hsub _ (hV2 b h).1), hmono _ (hsub _ (hV2 b h).2)⟩
    · exact ⟨(mem_edges_stage bottom_most st3 b _).mpr (Or.inr (Or.inr (Or.inr (Or.inl rfl)))),
        (mem_edges_stage bottom_most st3 b _).mpr (Or.inr (Or.inr (Or.inr (Or.inr rfl))))⟩
  · intro c hc hh
    rcases (mem_edges_stage bottom_most st3 box c).mp hc with h | ⟨h1, rfl⟩ | ⟨h1, rfl⟩ |
      rfl | rfl
    · rcases hnew c h with h1 | ⟨_, h1⟩
      · exact hM c h1 hh
      · exact h1
    · rw [(x_low_high_top_edge box hboxv.1).1, (x_low_high_top_edge box hboxv.1).2]
      exact top_edge_run hb hboxmem (by rw [h1]; exact hroof3)
    · rw [(x_low_high_bottom_edge box hboxv.1).1, (x_low_high_bottom_edge box hboxv.1).2]
      exact bottom_edge_run hb hboxmem (by rw [h1]; exact hbot)
    · exact absurd hh hyne
    · exact absurd hh hyne
  · intro _ x y hxy hy
    exact horizontal_cover_mono hmono x y (hlt x y hxy hy)
  · intro hr b hbm hby
    rcases (htake b).mp hbm with h | rfl
    · exact hmono _ (htops hr b h hby)
    · exact (mem_edges_stage bottom_most st3 b _).mpr (Or.inr (Or.inl ⟨hr, rfl⟩))
  · intro _ hr hn x hx
    exact horizontal_cover_mono hmono x _ (hline hr hn x hx)
  · intro b hbm hby
    rcases (htake b).mp hbm with h | rfl
    · exact hmono _ (hsub _ (hH3 b h hby))
    · exact (mem_edges_stage bottom_most st3 b _).mpr (Or.inr (Or.inr (Or.inl ⟨hby, rfl⟩)))

/-- The body of the main loop keeps the line-by-line account, on a banded region. -/
theorem outline_step_lines {boxes : List MetaBox} (hb : banded boxes)
    (first final : MetaBox) (hfirst : boxes[0]? = some first)
    (hfinal : boxes[boxes.length - 1]? = some final) (i : ℕ) (st st' : OutlineState)
    (hinv : outline_invariant boxes i st) (hlines : outline_lines boxes final.y2 i st)
    (hstep : outline_step boxes first.y1 final.y2 st i = some st') :
    outline_lines boxes final.y2 (i + 1) st' := by
  have hinv' := outline_step_invariant hb first final hfirst hfinal i st st' hinv hstep
  have hroof' := hinv'.2.1
  unfold outline_step at hstep
  cases hbox : boxes[i]? with
  | none => rw [hbox] at hstep; cases hstep
  | some box =>
  rw [hbox] at hstep
  simp only [Option.bind_eq_some] at hstep
  obtain ⟨st1, hgap, st2, hlast, st3, hpassed, hedges⟩ := hstep
  simp only [Option.some.injEq] at hedges
  subst hedges
  have hroof3 : ∀ p ∈ boxes, p.y2 ≠ st3.current_roof := hroof'
  have hboxmem : box ∈ boxes := List.getElem?_mem hbox
  have hboxv := banded_valid hb hboxmem
  have hbot : ∀ q ∈ boxes, q.y1 ≠ final.y2 :=
    fun q hq => ne_of_lt (lt_bottom_most hb final hfinal q hq)
  have htop := top_most_le hb first hfirst
  have hlines0 := hlines
  obtain ⟨hV1, hV2, hM, hH1, hH2, hH2', hH3⟩ := hlines
  obtain ⟨hgood, hroof, hpos⟩ := hinv
  have key : (∀ c ∈ st.borders, c ∈ st3.borders) ∧
      (∀ c ∈ st3.borders, c ∈ st.borders ∨
        (c.line.a.y = c.line.b.y ∧
          horizontal_run boxes c.line.a.y (x_low c) (x_high c))) ∧
      (∀ x y, one_sided boxes x y → y < box.y1 → horizontal_cover st3.borders x y) ∧
      (box.y1 = st3.current_roof → ∀ b ∈ boxes.take i, b.y1 = box.y1 →
        top_edge b ∈ st3.borders) ∧
      (box.y1 ≠ st3.current_roof → i + 1 = boxes.length →
        ∀ x, one_sided boxes x box.y1 → horizontal_cover st3.borders x box.y1) := by
    rcases hpos with ⟨hi0, hbs0, hpbs0, hr0⟩ |
      ⟨P, Q, C, R, hdec, hpbs, hbs, hi, hCne, hCy, hPQy, hQ⟩
    · -- the first box
      subst hi0
      have hbf : box = first := by
        rw [hbox] at hfirst; exact Option.some.inj hfirst
      subst hbf
      have hr := hr0 box hfirst
      have h1 : st1 = st := by
        rcases gap_stage_cases boxes st st1 0 box hgap with h | ⟨_, h, _⟩
        · exact h
        · exact absurd h (lt_irrefl 0)
      subst h1
      have h2 : st2 = st1 := by
        rcases last_band_stage_cases boxes st1 st2 0 box hlast with h | ⟨h, _⟩
        · exact h
        · exact absurd hr.symm h
      subst h2
      have h3 : st3 = st2 := by
        rcases passed_band_stage_cases boxes box.y1 st2 st3 0 box hpassed with
          ⟨_, h⟩ | ⟨h, _⟩
        · exact h
        · exact absurd rfl h
      subst h3
      refine ⟨fun c hc => hc, fun c hc => Or.inl hc, ?_, ?_, ?_⟩
      · intro x y hxy hy
        exfalso
        rcases hxy with ⟨⟨p, hp, h1, _⟩, _⟩ | ⟨_, ⟨p, hp, h1, _⟩⟩
        · have h2 := htop p hp
          have h3 := banded_valid hb hp
          have h4 : (p.y2 : ℚ) < box.y1 := by rw [h1]; exact hy
          have h5 : p.y2 < box.y1 := by exact_mod_cast h4
          omega
        · have h2 := htop p hp
          have h4 : (p.y1 : ℚ) < box.y1 := by rw [h1]; exact hy
          have h5 : p.y1 < box.y1 := by exact_mod_cast h4
          omega
      · intro _ b hbm
        simp at hbm
      · intro h
        exact absurd hr.symm h
    · -- a later box
      have hR : ∃ R', R = box :: R' := by
        have hlen : i = (P ++ Q ++ C).length := by
          simp only [List.length_append, hi]
        rw [hdec, hlen, List.getElem?_append_right (le_refl _), Nat.sub_self] at hbox
        cases R with
        | nil => simp at hbox
        | cons a l =>
          simp only [List.getElem?_cons_zero, Option.some.injEq] at hbox
          exact ⟨l, by rw [hbox]⟩
      obtain ⟨R', rfl⟩ := hR
      obtain ⟨c0, hc0⟩ := List.exists_mem_of_ne_nil C hCne
      have hc0mem : c0 ∈ boxes := by rw [hdec]; simp [hc0]
      have hc0v := banded_valid hb hc0mem
      have hc0y := hCy c0 hc0
      have hipos : 0 < i := by
        have := List.length_pos.mpr hCne
        omega
      have htakei : boxes.take i = P ++ Q ++ C := by
        have hlen : i = (P ++ Q ++ C).length := by
          simp only [List.length_append, hi]
        rw [hdec, hlen, List.take_left]
      have hPQ_lt : ∀ p ∈ P ++ Q, p.y2 ≤ st.prev_top := by
        intro p hp
        have h1 := banded_rel hb (l := P ++ Q) (m := C ++ box :: R')
          (by rw [hdec]; simp) hp (List.mem_append_left _ hc0)
        have h2 := hPQy p hp
        omega
      have hC_y2 : ∀ c ∈ C, c.y2 = c0.y2 := by
        intro c hc
        have hcm : c ∈ boxes := by rw [hdec]; simp [hc]
        have h1 := banded_rows hb hcm hc0mem
        have h2 := hCy c hc
        have h3 := banded_valid hb hcm
        omega
      have hC_box : c0.y1 = box.y1 ∨ c0.y2 ≤ box.y1 := by
        have h1 := banded_rel hb (l := P ++ Q ++ C) (m := box :: R')
          (by rw [hdec]) (List.mem_append_right _ hc0) (List.mem_cons_self _ _)
        omega
      have hR_ge : ∀ r ∈ R', box.y1 ≤ r.y1 := by
        intro r hr
        have h1 := banded_rel hb (l := P ++ Q ++ C ++ [box]) (m := R') (p := box)
          (by rw [hdec]; simp) (by simp) hr
        omega
      have hmemPQ : ∀ p ∈ P ++ Q, p ∈ boxes := by
        intro p hp; rw [hdec]
        exact List.mem_append_left _ (List.mem_append_left _ hp)
      have hmemC : ∀ p ∈ C, p ∈ boxes := by
        intro p hp; rw [hdec]
        exact List.mem_append_left _ (List.mem_append_right _ hp)
      have hsplit : ∀ p ∈ boxes, p ∈ P ++ Q ∨ p ∈ C ∨ p = box ∨ p ∈ R' := by
        intro p hp
        rw [hdec] at hp
        rcases List.mem_append.mp hp with h | h
        · rcases List.mem_append.mp h with h | h
          · exact Or.inl h
          · exact Or.inr (Or.inl h)
        · rcases List.mem_cons.mp h with h | h
          · exact Or.inr (Or.inr (Or.inl h))
          · exact Or.inr (Or.inr (Or.inr h))
      have hlenR : i + 1 = boxes.length → R' = [] := by
        intro hn
        have hlen : boxes.length = P.length + Q.length + C.length + (R'.length + 1) := by
          rw [hdec]; simp only [List.length_append, List.length_cons]
        have : R'.length = 0 := by omega
        exact List.length_eq_zero.mp this
      have hrange_C : box_range boxes st.band_start i = C :=
        box_range_mid boxes (P ++ Q) C (box :: R') _ _ (by rw [hdec])
          (by
            simp only [List.length_append, List.length_singleton, List.length_cons,
              List.length_nil, hi, hbs, hpbs]) (by
            simp only [List.length_append, List.length_singleton, List.length_cons,
              List.length_nil, hi, hbs, hpbs])
      have hrange_Q : box_range boxes st.prev_band_start st.band_start = Q :=
        box_range_mid boxes P Q (C ++ box :: R') _ _ (by rw [hdec]; simp)
          hpbs (by
            simp only [List.length_append, List.length_singleton, List.length_cons,
              List.length_nil, hi, hbs, hpbs])
      have hrange_Cb : box_range boxes st.band_start (i + 1) = C ++ [box] :=
        box_range_mid boxes (P ++ Q) (C ++ [box]) R' _ _ (by rw [hdec]; simp)
          (by
            simp only [List.length_append, List.length_singleton, List.length_cons,
              List.length_nil, hi, hbs, hpbs]) (by
            simp only [List.length_append, List.length_singleton, List.length_cons,
              List.length_nil, hi, hbs, hpbs]
            omega)
      have hrange_b : box_range boxes i (i + 1) = [box] :=
        box_range_mid boxes (P ++ Q ++ C) [box] R' _ _ (by rw [hdec]; simp)
          (by
            simp only [List.length_append, List.length_singleton, List.length_cons,
              List.length_nil, hi, hbs, hpbs]) (by
            simp only [List.length_append, List.length_singleton, List.length_cons,
              List.length_nil, hi, hbs, hpbs])
      have hsub_Q : Q.Sublist boxes := by
        rw [hdec]
        exact ((List.sublist_append_right P Q).trans (List.sublist_append_left _ _)).trans
          (List.sublist_append_left _ _)
      have hsub_C : C.Sublist boxes := by
        rw [hdec]
        exact (List.sublist_append_right (P ++ Q) C).trans (List.sublist_append_left _ _)
      have hsub_Cb : (C ++ [box]).Sublist boxes := by
        rw [hdec]
        have : P ++ Q ++ C ++ box :: R' = (P ++ Q) ++ ((C ++ [box]) ++ R') := by simp
        rw [this]
        exact (List.sublist_append_left _ _).trans (List.sublist_append_right _ _)
      have hsub_b : [box].Sublist boxes := List.singleton_sublist.mpr hboxmem
      -- the row before the current one, as the band above in a merge
      have hQ_above : (∀ r ∈ box :: R', ∀ q ∈ Q, r.y1 ≠ q.y1) →
          ((Q = [] ∧ ∀ p ∈ boxes, p.y2 ≠ st.prev_top) ∨
            (Q ≠ [] ∧ ∃ ya, (∀ q ∈ Q, q.y1 = ya) ∧ ∀ p ∈ boxes, p.y1 = ya → p ∈ Q)) := by
        intro hRQ
        rcases hQ with ⟨hQ1, hP1⟩ | ⟨hQ1, yp, hQ2, hP2⟩
        · left
          refine ⟨hQ1, ?_⟩
          intro p hp
          have h1 := htop p hp
          have h2 := banded_valid hb hp
          have h3 : first ∈ C := by
            subst hQ1 hP1
            simp only [List.nil_append] at hdec
            rw [hdec] at hfirst
            cases C with
            | nil => exact absurd rfl hCne
            | cons a l =>
              simp only [List.cons_append, List.getElem?_cons_zero,
                Option.some.injEq] at hfirst
              rw [← hfirst]; exact List.mem_cons_self _ _
          have h4 := hCy first h3
          omega
        · right
          refine ⟨hQ1, yp, hQ2, ?_⟩
          obtain ⟨q0, hq0⟩ := List.exists_mem_of_ne_nil Q hQ1
          have hq0y := hQ2 q0 hq0
          have hq0n := hPQy q0 (List.mem_append_right _ hq0)
          intro p hp hpy
          rcases hsplit p hp with h | h | h | h
          · rcases List.mem_append.mp h with h | h
            · exact absurd hpy (hP2 p h)
            · exact h
          · have := hCy p h
            omega
          · subst h
            exact absurd (hpy.trans hq0y.symm) (hRQ p (List.mem_cons_self _ _) q0 hq0)
          · exact absurd (hpy.trans hq0y.symm) (hRQ p (List.mem_cons_of_mem _ h) q0 hq0)
      by_cases hsame : box.y1 = st.prev_top
      · -- the box continues the current row
        have h1 : st1 = st := by
          rcases gap_stage_cases boxes st st1 i box hgap with h | ⟨_, _, _, h, _⟩
          · exact h
          · exact absurd hsame h
        subst h1
        have hsameq : ((box.y1 : ℤ) : ℚ) = ((st1.prev_top : ℤ) : ℚ) := by rw [hsame]
        rcases last_band_stage_sharp boxes st1 st2 i box hlast with ⟨h2, hno⟩ |
          ⟨hnr, hlasti, out, h2, ⟨hne, _⟩ | ⟨_, hout⟩⟩
        · -- no merge
          subst h2
          have h3 : st3 = st2 := by
            rcases passed_band_stage_cases boxes first.y1 st2 st3 i box hpassed with
              ⟨_, h⟩ | ⟨_, h, _⟩
            · exact h
            · exact absurd hsame h
          subst h3
          refine ⟨fun c hc => hc, fun c hc => Or.inl hc, ?_, ?_, ?_⟩
          · intro x y hxy hy
            exact hH1 hipos x y hxy (by rw [← hsameq]; exact hy)
          · intro hr b hbm hby
            exact hH2 (by rw [← hsame]; exact hr) b hbm (by rw [← hsame]; exact hby)
          · intro hr hn x hx
            rcases hno with h | h
            · exact absurd h hr
            · omega
        · exact absurd hsame hne
        · -- the last row is merged with the row before it
          subst h2
          have h3 : st3 = { st1 with borders := out } := by
            rcases passed_band_stage_cases boxes first.y1 _ st3 i box hpassed with
              ⟨_, h⟩ | ⟨_, h, _⟩
            · exact h
            · exact absurd hsame h
          subst h3
          have hlen1 : i + 1 = boxes.length := by
            have := (List.getElem?_eq_some_iff.mp hbox).1
            omega
          have hRnil := hlenR hlen1
          subst hRnil
          have hby : ∀ c ∈ C ++ [box], c.y1 = st1.prev_top := by
            intro c hc
            rcases List.mem_append.mp hc with hc | hc
            · exact hCy c hc
            · simp only [List.mem_singleton] at hc
              subst hc; exact hsame
          have hbc : ∀ q ∈ boxes, q.y1 = st1.prev_top → q ∈ C ++ [box] := by
            intro q hq hqy
            rcases hsplit q hq with h | h | h | h
            · exact absurd hqy (hPQy q h)
            · exact List.mem_append_left _ h
            · subst h; simp
            · cases h
          have hac := hQ_above (by
            intro r hr q hq
            simp only [List.mem_singleton] at hr
            subst hr
            have := hPQy q (List.mem_append_right _ hq)
            omega)
          obtain ⟨app, happ, hruns, hcov⟩ := merge_lines hb _ _ _ _ _ hout Q (C ++ [box])
            hrange_Q hrange_Cb hsub_Q hsub_Cb st1.prev_top (by simp) hby hbc hac
          have hmono : ∀ c ∈ st1.borders, c ∈ out := by
            intro c hc; rw [happ]; exact List.mem_append_left _ hc
          refine ⟨hmono, ?_, ?_, ?_, ?_⟩
          · intro c hc
            rw [happ] at hc
            rcases List.mem_append.mp hc with hc | hc
            · exact Or.inl hc
            · obtain ⟨e1, e2, e3⟩ := hruns c hc
              exact Or.inr ⟨e1, by rw [e2]; exact e3⟩
          · intro x y hxy hy
            exact horizontal_cover_mono hmono x y
              (hH1 hipos x y hxy (by rw [← hsameq]; exact hy))
          · intro hr b hbm hby'
            exact hmono _ (hH2 (by rw [← hsame]; exact hr) b hbm (by rw [← hsame]; exact hby'))
          · intro _ _ x hx
            rw [hsameq] at hx ⊢
            obtain ⟨c, hc, e1, e2, e3⟩ := hcov x hx
            exact ⟨c, by rw [happ]; exact List.mem_append_right _ hc, e1, e2, e3⟩
      · -- the box starts a new row
        have hY : c0.y2 ≤ box.y1 := by
          rcases hC_box with h | h
          · exact absurd (h.symm.trans hc0y) hsame
          · exact h
        have hbox_gt : st.prev_top < box.y1 := by omega
        have hC_complete : ∀ q ∈ boxes, q.y1 = st.prev_top → q ∈ C := by
          intro q hq hqy
          rcases hsplit q hq with h | h | h | h
          · exact absurd hqy (hPQy q h)
          · exact h
          · subst h; exact absurd hqy hsame
          · have := hR_ge q h
            omega
        have hQ_ab := hQ_above (by
          intro r hr q hq
          have h1 := hPQ_lt q (List.mem_append_right _ hq)
          have h2 := banded_valid hb (hmemPQ q (List.mem_append_right _ hq))
          rcases List.mem_cons.mp hr with h | h
          · subst h; omega
          · have := hR_ge r h
            omega)
        have habove : ∀ above, boxes[i - 1]? = some above → above ∈ C := by
          intro above habv
          rw [hdec] at habv
          exact mem_of_getElem?_pred (P ++ Q) C (box :: R') i above hCne
            (by simp only [List.length_append, hi]) habv
        -- first block
        have hG : st1.prev_top = st.prev_top ∧ st1.band_start = st.band_start ∧
            st1.prev_band_start = st.prev_band_start ∧
            (∀ c ∈ st.borders, c ∈ st1.borders) ∧
            (∀ c ∈ st1.borders, c ∈ st.borders ∨
              (c.line.a.y = c.line.b.y ∧
                horizontal_run boxes c.line.a.y (x_low c) (x_high c))) ∧
            (c0.y2 < box.y1 → ∀ b ∈ C, bottom_edge b ∈ st1.borders) ∧
            (st1.current_roof = st.current_roof ∨ st1.current_roof = box.y1) := by
          rcases gap_stage_sharp boxes st st1 i box hgap with ⟨h, hc⟩ |
            ⟨above, _, habv, _, hne2, h⟩
          · subst h
            refine ⟨rfl, rfl, rfl, fun c hc => hc, fun c hc => Or.inl hc, ?_, Or.inl rfl⟩
            intro hlt
            rcases hc with h0 | ⟨above, habv, h1 | h1⟩
            · omega
            · exact absurd h1 hsame
            · have := hC_y2 above (habove above habv)
              omega
          · subst h
            have hab := habove above habv
            have hgap_lt : c0.y2 < box.y1 := by
              have := hC_y2 above hab
              omega
            refine ⟨rfl, rfl, rfl, ?_, ?_, ?_, Or.inr rfl⟩
            · intro c hc
              simp only [add_band_bottom_edges]
              exact List.mem_append_left _ hc
            · intro c hc
              simp only [add_band_bottom_edges, hrange_C, List.mem_append,
                List.mem_map] at hc
              rcases hc with hc | ⟨b, hbC, rfl⟩
              · exact Or.inl hc
              · right
                have hbv := banded_valid hb (hmemC b hbC)
                refine ⟨rfl, ?_⟩
                rw [(x_low_high_bottom_edge b hbv.1).1, (x_low_high_bottom_edge b hbv.1).2]
                refine bottom_edge_run hb (hmemC b hbC) ?_
                intro q hq
                have hb2 := hC_y2 b hbC
                rcases hsplit q hq with h | h | h | h
                · have := hPQ_lt q h
                  have := banded_valid hb hq
                  omega
                · have := hCy q h
                  omega
                · subst h; omega
                · have := hR_ge q h
                  omega
            · intro _ b hbC
              simp only [add_band_bottom_edges, hrange_C, List.mem_append, List.mem_map]
              exact Or.inr ⟨b, hbC, rfl⟩
        obtain ⟨hpt1, hbs1, hpbs1, hG2, hG3, hG4, hG5⟩ := hG
        -- second block
        have hL : st2.prev_top = st1.prev_top ∧ st2.band_start = st1.band_start ∧
            st2.prev_band_start = st1.prev_band_start ∧
            st2.current_roof = st1.current_roof ∧
            (∀ c ∈ st1.borders, c ∈ st2.borders) ∧
            (∀ c ∈ st2.borders, c ∈ st1.borders ∨
              (c.line.a.y = c.line.b.y ∧
                horizontal_run boxes c.line.a.y (x_low c) (x_high c))) ∧
            (box.y1 ≠ st1.current_roof → i + 1 = boxes.length →
              ∀ x, one_sided boxes x box.y1 →
                horizontal_cover st2.borders x box.y1) := by
          rcases last_band_stage_sharp boxes st1 st2 i box hlast with ⟨h2, hno⟩ |
            ⟨hnr, hlasti, out, h2, ⟨_, hout⟩ | ⟨heq, _⟩⟩
          · subst h2
            refine ⟨rfl, rfl, rfl, rfl, fun c hc => hc, fun c hc => Or.inl hc, ?_⟩
            intro hr hn
            rcases hno with h | h
            · exact absurd h hr
            · omega
          · subst h2
            have hlen1 : i + 1 = boxes.length := by
              have := (List.getElem?_eq_some_iff.mp hbox).1
              omega
            have hRnil := hlenR hlen1
            subst hRnil
            rw [hbs1] at hout
            have hby : ∀ c ∈ [box], c.y1 = box.y1 := by
              intro c hc
              simp only [List.mem_singleton] at hc
              rw [hc]
            have hbc : ∀ q ∈ boxes, q.y1 = box.y1 → q ∈ [box] := by
              intro q hq hqy
              rcases hsplit q hq with h | h | h | h
              · have := hPQ_lt q h
                have := banded_valid hb hq
                omega
              · have := hCy q h
                omega
              · subst h; simp
              · cases h
            obtain ⟨app, happ, hruns, hcov⟩ := merge_lines hb _ _ _ _ _ hout C [box]
              hrange_C hrange_b hsub_C hsub_b box.y1 (by simp) hby hbc
              (Or.inr ⟨hCne, st.prev_top, hCy, hC_complete⟩)
            refine ⟨rfl, rfl, rfl, rfl, ?_, ?_, ?_⟩
            · intro c hc
              show c ∈ out
              rw [happ]; exact List.mem_append_left _ hc
            · intro c hc
              have hc' : c ∈ out := hc
              rw [happ] at hc'
              rcases List.mem_append.mp hc' with hc' | hc'
              · exact Or.inl hc'
              · obtain ⟨e1, e2, e3⟩ := hruns c hc'
                exact Or.inr ⟨e1, by rw [e2]; exact e3⟩
            · intro _ _ x hx
              obtain ⟨c, hc, e1, e2, e3⟩ := hcov x hx
              exact ⟨c, by
                show c ∈ out
                rw [happ]; exact List.mem_append_right _ hc, e1, e2, e3⟩
          · rw [hpt1] at heq; exact absurd heq hsame
        obtain ⟨hpt2, hbs2, hpbs2, hroof2, hL2, hL3, hL4⟩ := hL
        -- third block
        have hP : st3.current_roof = st2.current_roof ∧
            (∀ c ∈ st2.borders, c ∈ st3.borders) ∧
            (∀ c ∈ st3.borders, c ∈ st2.borders ∨
              (c.line.a.y = c.line.b.y ∧
                horizontal_run boxes c.line.a.y (x_low c) (x_high c))) ∧
            (st.prev_top ≠ st2.current_roof →
              ∀ x, one_sided boxes x st.prev_top →
                horizontal_cover st3.borders x st.prev_top) := by
          rcases passed_band_stage_sharp boxes first.y1 st2 st3 i box hpassed with
            ⟨hn, _⟩ | ⟨_, _, out, h, ⟨_, hout⟩ | ⟨heq, hout⟩⟩
          · exfalso
            apply hn
            rw [hpt2, hpt1]
            have := htop c0 hc0mem
            constructor <;> omega
          · subst h
            rw [hpbs2, hpbs1, hbs2, hbs1] at hout
            obtain ⟨app, happ, hruns, hcov⟩ := merge_lines hb _ _ _ _ _ hout Q C
              hrange_Q hrange_C hsub_Q hsub_C st.prev_top hCne hCy hC_complete hQ_ab
            refine ⟨rfl, ?_, ?_, ?_⟩
            · intro c hc
              show c ∈ out
              rw [happ]; exact List.mem_append_left _ hc
            · intro c hc
              have hc' : c ∈ out := hc
              rw [happ] at hc'
              rcases List.mem_append.mp hc' with hc' | hc'
              · exact Or.inl hc'
              · obtain ⟨e1, e2, e3⟩ := hruns c hc'
                exact Or.inr ⟨e1, by rw [e2]; exact e3⟩
            · intro _ x hx
              obtain ⟨c, hc, e1, e2, e3⟩ := hcov x hx
              exact ⟨c, by
                show c ∈ out
                rw [happ]; exact List.mem_append_right _ hc, e1, e2, e3⟩
          · subst h
            subst hout
            refine ⟨rfl, fun c hc => hc, fun c hc => Or.inl hc, ?_⟩
            intro hne
            rw [hpt2, hpt1] at heq
            exact absurd heq hne
        obtain ⟨hroof3e, hP2, hP3, hP4⟩ := hP
        have hmono : ∀ c ∈ st.borders, c ∈ st3.borders :=
          fun c hc => hP2 c (hL2 c (hG2 c hc))
        refine ⟨hmono, ?_, ?_, ?_, ?_⟩
        · intro c hc
          rcases hP3 c hc with h | h
          · rcases hL3 c h with h | h
            · exact hG3 c h
            · exact Or.inr h
          · exact Or.inr h
        · intro x y hxy hy
          have hyq : ((st.prev_top : ℤ) : ℚ) < box.y1 := by exact_mod_cast hbox_gt
          rcases lt_trichotomy y (st.prev_top : ℚ) with hlt | heq | hgt
          · exact horizontal_cover_mono hmono x y (hH1 hipos x y hxy hlt)
          · subst heq
            by_cases hr : st.prev_top = st.current_roof
            · have hst : starts_below boxes x st.prev_top := by
                rcases hxy with ⟨⟨p, hp, h1, _⟩, _⟩ | ⟨_, h⟩
                · exfalso
                  have h2 : p.y2 = st.prev_top := by exact_mod_cast h1
                  rw [hr] at h2
                  exact hroof p hp h2
                · exact h
              obtain ⟨q, hq, h1, h2, h3⟩ := hst
              have hqy : q.y1 = st.prev_top := by exact_mod_cast h1
              have hqC := hC_complete q hq hqy
              have hqt : q ∈ boxes.take i := by
                rw [htakei]; exact List.mem_append_right _ hqC
              have := horizontal_cover_top_edge (banded_valid hb hq).1
                (hH2 hr q hqt hqy) x h2 h3
              rw [hqy] at this
              exact horizontal_cover_mono hmono x _ this
            · apply hP4 _ x hxy
              rw [hroof2]
              rcases hG5 with h | h
              · rw [h]; exact hr
              · rw [h]; omega
          · -- a line between the two rows: the bottom line of the row before the box
            have hcase : ∃ p ∈ C, (p.y2 : ℚ) = y ∧ (p.x1 : ℚ) ≤ x ∧ x < p.x2 := by
              have hno : ¬ starts_below boxes x y := by
                rintro ⟨q, hq, h1, _⟩
                have h2 : (st.prev_top : ℚ) < q.y1 := by rw [h1]; exact hgt
                have h3 : (q.y1 : ℚ) < box.y1 := by rw [h1]; exact hy
                have h2' : st.prev_top < q.y1 := by exact_mod_cast h2
                have h3' : q.y1 < box.y1 := by exact_mod_cast h3
                rcases hsplit q hq with h | h | h | h
                · have := hPQ_lt q h
                  have := banded_valid hb hq
                  omega
                · have := hCy q h
                  omega
                · subst h; omega
                · have := hR_ge q h
                  omega
              rcases hxy with ⟨⟨p, hp, h1, hx⟩, _⟩ | ⟨_, h⟩
              · refine ⟨p, ?_, h1, hx⟩
                have h2 : (st.prev_top : ℚ) < p.y2 := by rw [h1]; exact hgt
                have h3 : (p.y2 : ℚ) < box.y1 := by rw [h1]; exact hy
                have h2' : st.prev_top < p.y2 := by exact_mod_cast h2
                have h3' : p.y2 < box.y1 := by exact_mod_cast h3
                have hpv := banded_valid hb hp
                rcases hsplit p hp with h | h | h | h
                · have := hPQ_lt p h
                  omega
                · exact h
                · subst h; omega
                · have := hR_ge p h
                  omega
              · exact absurd h hno
            obtain ⟨p, hpC, h1, h2, h3⟩ := hcase
            have hgap : c0.y2 < box.y1 := by
              have h4 : (p.y2 : ℚ) < box.y1 := by rw [h1]; exact hy
              have h5 : p.y2 < box.y1 := by exact_mod_cast h4
              have := hC_y2 p hpC
              omega
            have := horizontal_cover_bottom_edge (banded_valid hb (hmemC p hpC)).1
              (hG4 hgap p hpC) x h2 h3
            rw [h1] at this
            exact horizontal_cover_mono (fun c hc => hP2 c (hL2 c hc)) x y this
        · intro _ b hbm hby
          exfalso
          rw [htakei] at hbm
          rcases List.mem_append.mp hbm with h | h
          · have := hPQ_lt b h
            have := banded_valid hb (hmemPQ b h)
            omega
          · have := hCy b h
            omega
        · intro hr hn x hx
          exact horizontal_cover_mono hP2 x _
            (hL4 (by rw [← hroof2, ← hroof3e]; exact hr) hn x hx)
  obtain ⟨a1, a2, a3, a4, a5⟩ := key
  exact lines_after_edges_stage hb final.y2 hbot i st st3 box hbox hlines0 hroof3 a1 a2 a3
    a4 a5

/-- The line-by-line account holds after every number of passes of the main loop. -/
theorem outline_loop_lines {boxes : List MetaBox} (hb : banded boxes)
    (first final : MetaBox) (hfirst : boxes[0]? = some first)
    (hfinal : boxes[boxes.length - 1]? = some final) (k : ℕ) :
    ∀ st, (List.range k).foldlM (outline_step boxes first.y1 final.y2)
        ⟨0, first.y1, 0, 0, []⟩ = some st →
      outline_lines boxes final.y2 k st := by
  induction k with
  | zero =>
    intro st h
    simp only [List.range_zero, List.foldlM_nil, Option.pure_def, Option.some.injEq] at h
    subst h
    refine ⟨?_, ?_, ?_, ?_, ?_, ?_, ?_⟩
    · intro c hc; cases hc
    · intro b hbm; simp at hbm
    · intro c hc; cases hc
    · intro h; exact absurd h (lt_irrefl 0)
    · intro _ b hbm; simp at hbm
    · intro h; exact absurd h (lt_irrefl 0)
    · intro b hbm; simp at hbm
  | succ k ih =>
    intro st h
    rw [List.range_succ, List.foldlM_append] at h
    simp only [List.foldlM_cons, List.foldlM_nil, Option.bind_eq_bind,
      Option.bind_eq_some] at h
    obtain ⟨st0, h0, st1, h1, h2⟩ := h
    simp only [Option.pure_def, Option.some.injEq] at h2
    subst h2
    exact outline_step_lines hb first final hfirst hfinal k st0 st1
      (outline_loop_invariant hb first final hfirst hfinal k st0 h0) (ih st0 h0) h1

/-- The outline of a banded region, line by line: its vertical borders are the left and
right edges of the boxes, one of each for every box; every horizontal border spans a
maximal run of its line on which the region lies on exactly one side; and every
abscissa of a line at which the region lies on exactly one side is held by a horizontal
border on that line. -/
theorem outline_lines_final {boxes : List MetaBox} (hb : banded boxes)
    (outline : List MetaBorder) (h : outline_of_boxes boxes [] = some outline) :
    (∀ c ∈ outline, c.line.a.y ≠ c.line.b.y →
        ∃ b ∈ boxes, c = left_edge b ∨ c = right_edge b) ∧
      (∀ b ∈ boxes, left_edge b ∈ outline ∧ right_edge b ∈ outline) ∧
      (∀ c ∈ outline, c.line.a.y = c.line.b.y →
        horizontal_run boxes c.line.a.y (x_low c) (x_high c)) ∧
      ∀ x y, one_sided boxes x y → horizontal_cover outline x y := by
  unfold outline_of_boxes at h
  split at h
  · rename_i first final hfirst hfinal
    simp only [Option.map_eq_some'] at h
    obtain ⟨st, hst, rfl⟩ := h
    obtain ⟨hV1, hV2, hM, hH1, hH2, hH2', hH3⟩ :=
      outline_loop_lines hb first final hfirst hfinal _ st hst
    obtain ⟨_, hroof, hpos⟩ := outline_loop_invariant hb first final hfirst hfinal _ st hst
    have hlen : 0 < boxes.length := (List.getElem?_eq_some_iff.mp hfirst).1
    rw [List.take_length] at hV1 hV2 hH2 hH3
    refine ⟨hV1, hV2, hM, ?_⟩
    rcases hpos with ⟨h0, _⟩ | ⟨P, Q, C, R, hdec, _, _, hi, hCne, hCy, hPQy, _⟩
    · omega
    · have hR : R = [] := by
        have hl : boxes.length = P.length + Q.length + C.length + R.length := by
          rw [hdec]; simp only [List.length_append]
        have : R.length = 0 := by omega
        exact List.length_eq_zero.mp this
      subst hR
      rw [List.append_nil] at hdec
      obtain ⟨c0, hc0⟩ := List.exists_mem_of_ne_nil C hCne
      have hc0mem : c0 ∈ boxes := by rw [hdec]; exact List.mem_append_right _ hc0
      have hsplit : ∀ p ∈ boxes, p ∈ P ++ Q ∨ p ∈ C := by
        intro p hp
        rw [hdec] at hp
        exact List.mem_append.mp hp
      have hPQ_lt : ∀ p ∈ P ++ Q, p.y2 ≤ st.prev_top := by
        intro p hp
        have h1 := banded_rel hb (l := P ++ Q) (m := C) hdec hp hc0
        have h2 := hPQy p hp
        have h3 := hCy c0 hc0
        omega
      have hfinalC : final ∈ C := by
        obtain ⟨C0, l, hc⟩ := (List.eq_nil_or_concat C).resolve_left hCne
        rw [List.concat_eq_append] at hc
        subst hc
        have hidx : boxes.length - 1 = (P ++ Q ++ C0).length := by
          rw [hdec]
          simp only [List.length_append, List.length_singleton]
          omega
        have heq : boxes = (P ++ Q ++ C0) ++ l :: [] := by
          rw [hdec]; simp
        rw [hidx] at hfinal
        rw [heq, getElem?_mid] at hfinal
        cases hfinal
        simp
      have hfinalmem : final ∈ boxes := List.getElem?_mem hfinal
      intro x y hxy
      rcases lt_trichotomy y (st.prev_top : ℚ) with hlt | heq | hgt
      · exact hH1 hlen x y hxy hlt
      · subst heq
        by_cases hr : st.prev_top = st.current_roof
        · have hst : starts_below boxes x st.prev_top := by
            rcases hxy with ⟨⟨p, hp, h1, _⟩, _⟩ | ⟨_, h⟩
            · exfalso
              have h2 : p.y2 = st.prev_top := by exact_mod_cast h1
              rw [hr] at h2
              exact hroof p hp h2
            · exact h
          obtain ⟨q, hq, h1, h2, h3⟩ := hst
          have hqy : q.y1 = st.prev_top := by exact_mod_cast h1
          have := horizontal_cover_top_edge (banded_valid hb hq).1
            (hH2 hr q hq hqy) x h2 h3
          rw [hqy] at this
          exact this
        · exact hH2' hlen hr rfl x hxy
      · have hno : ¬ starts_below boxes x y := by
          rintro ⟨q, hq, h1, _⟩
          have h2 : (st.prev_top : ℚ) < q.y1 := by rw [h1]; exact hgt
          have h2' : st.prev_top < q.y1 := by exact_mod_cast h2
          rcases hsplit q hq with h | h
          · have := hPQ_lt q h
            have := banded_valid hb hq
            omega
          · have := hCy q h
            omega
        rcases hxy with ⟨⟨p, hp, h1, h2, h3⟩, _⟩ | ⟨_, h⟩
        · have h4 : (st.prev_top : ℚ) < p.y2 := by rw [h1]; exact hgt
          have h4' : st.prev_top < p.y2 := by exact_mod_cast h4
          have hpC : p ∈ C := by
            rcases hsplit p hp with h | h
            · have := hPQ_lt p h
              omega
            · exact h
          have hpy : p.y2 = final.y2 := by
            have e1 := hCy p hpC
            have e2 := hCy final hfinalC
            have v1 := banded_valid hb hp
            have v2 := banded_valid hb hfinalmem
            rcases banded_rows hb hp hfinalmem with ⟨_, e⟩ | e | e <;> omega
          have := horizontal_cover_bottom_edge (banded_valid hb hp).1 (hH3 p hp hpy) x h2 h3
          rw [h1] at this
          exact this
        · exact absurd h hno
  · cases h

/-! ## The outline of a banded region and the boundary of the region -/

/-- The values `a + t (b - a)` with `0 ≤ t ≤ 1` are the values between `a` and `b`. -/
theorem between_iff (a b v : ℚ) (hne : a ≠ b) :
    (∃ t : ℚ, 0 ≤ t ∧ t ≤ 1 ∧ v = a + t * (b - a)) ↔ min a b ≤ v ∧ v ≤ max a b := by
  constructor
  · rintro ⟨t, h0, h1, rfl⟩
    rcases le_total a b with h | h
    · rw [min_eq_left h, max_eq_right h]
      have hd : 0 ≤ b - a := by linarith
      constructor
      · nlinarith [mul_nonneg h0 hd]
      · nlinarith [mul_nonneg (by linarith : (0:ℚ) ≤ 1 - t) hd]
    · rw [min_eq_right h, max_eq_left h]
      have hd : 0 ≤ a - b := by linarith
      constructor
      · nlinarith [mul_nonneg (by linarith : (0:ℚ) ≤ 1 - t) hd]
      · nlinarith [mul_nonneg h0 hd]
  · rintro ⟨h1, h2⟩
    have hd : b - a ≠ 0 := fun h => hne (by linarith)
    refine ⟨(v - a) / (b - a), ?_, ?_, ?_⟩
    · rcases le_total a b with h | h
      · rw [min_eq_left h] at h1
        exact div_nonneg (by linarith) (by linarith)
      · rw [max_eq_left h] at h2
        exact div_nonneg_of_nonpos (by linarith) (by linarith)
    · rcases lt_or_gt_of_ne hne with h | h
      · rw [max_eq_right h.le] at h2
        rw [div_le_one (by linarith)]
        linarith
      · rw [min_eq_right h.le] at h1
        rw [div_le_one_of_neg (by linarith)]
        linarith
    · field_simp

/-- The points of a horizontal border of positive length. -/
theorem on_segment_horizontal (c : MetaBorder) (h : c.line.a.y = c.line.b.y)
    (hne : c.line.a.x ≠ c.line.b.x) (x y : ℚ) :
    on_segment c x y ↔ y = c.line.a.y ∧ x_low c ≤ x ∧ x ≤ x_high c := by
  unfold on_segment x_low x_high
  rw [← between_iff _ _ x hne]
  constructor
  · rintro ⟨t, h0, h1, hx, hy⟩
    refine ⟨?_, t, h0, h1, hx⟩
    rw [hy, h]; ring
  · rintro ⟨hy, t, h0, h1, hx⟩
    refine ⟨t, h0, h1, hx, ?_⟩
    rw [hy, h]; ring

/-- The points of a vertical border of positive length. -/
theorem on_segment_vertical (c : MetaBorder) (h : c.line.a.x = c.line.b.x)
    (hne : c.line.a.y ≠ c.line.b.y) (x y : ℚ) :
    on_segment c x y ↔
      x = c.line.a.x ∧ min c.line.a.y c.line.b.y ≤ y ∧ y ≤ max c.line.a.y c.line.b.y := by
  unfold on_segment
  rw [← between_iff _ _ y hne]
  constructor
  · rintro ⟨t, h0, h1, hx, hy⟩
    refine ⟨?_, t, h0, h1, hy⟩
    rw [hx, h]; ring
  · rintro ⟨hx, t, h0, h1, hy⟩
    refine ⟨t, h0, h1, ?_, hy⟩
    rw [hx, h]; ring

/-- The points of the left edge of a box. -/
theorem on_segment_left_edge (b : MetaBox) (hv : b.y1 < b.y2) (x y : ℚ) :
    on_segment (left_edge b) x y ↔ x = b.x1 ∧ (b.y1 : ℚ) ≤ y ∧ y ≤ b.y2 := by
  have h1 : ((b.y1 : ℤ) : ℚ) < b.y2 := by exact_mod_cast hv
  rw [on_segment_vertical (left_edge b) rfl (ne_of_lt h1)]
  simp only [left_edge, min_eq_left h1.le, max_eq_right h1.le]

/-- The points of the right edge of a box. -/
theorem on_segment_right_edge (b : MetaBox) (hv : b.y1 < b.y2) (x y : ℚ) :
    on_segment (right_edge b) x y ↔ x = b.x2 ∧ (b.y1 : ℚ) ≤ y ∧ y ≤ b.y2 := by
  have h1 : ((b.y1 : ℤ) : ℚ) < b.y2 := by exact_mod_cast hv
  rw [on_segment_vertical (right_edge b) rfl (ne_of_lt h1)]
  simp only [right_edge, min_eq_left h1.le, max_eq_right h1.le]

theorem exists_small (ε : ℚ) (h : 0 < ε) : ∃ δ : ℚ, 0 < δ ∧ δ < ε ∧ δ ≤ 1 / 4 :=
  ⟨min (ε / 2) (1 / 4), lt_min (by linarith) (by norm_num),
    lt_of_le_of_lt (min_le_left _ _) (by linarith), min_le_right _ _⟩

/-- Of the abscissas `x` and `x + δ`, one lies in the closed span of no box of a row
whose boxes lie apart, when `x` lies in the half-open span of none. -/
theorem row_escape (row : MetaBox → Prop)
    (hrow : ∀ p q, row p → row q → p = q ∨ p.x2 < q.x1 ∨ q.x2 < p.x1) (x δ : ℚ)
    (h0 : 0 < δ) (h1 : δ < 1) (hno : ¬ ∃ q, row q ∧ (q.x1 : ℚ) ≤ x ∧ x < q.x2) :
    (¬ ∃ q, row q ∧ (q.x1 : ℚ) ≤ x ∧ x ≤ q.x2) ∨
      ¬ ∃ q, row q ∧ (q.x1 : ℚ) ≤ x + δ ∧ x + δ ≤ q.x2 := by
  by_cases h : ∃ q, row q ∧ (q.x1 : ℚ) ≤ x ∧ x ≤ q.x2
  · right
    obtain ⟨q', hq', h2, h3⟩ := h
    have hx : x = q'.x2 := by
      by_contra hne
      exact hno ⟨q', hq', h2, lt_of_le_of_ne h3 hne⟩
    rintro ⟨q, hq, h4, h5⟩
    rcases hrow q' q hq' hq with rfl | h6 | h6
    · linarith
    · have h7 : (q'.x2 : ℚ) + 1 ≤ q.x1 := by exact_mod_cast h6
      linarith
    · have h7 : (q.x2 : ℚ) < q'.x1 := by exact_mod_cast h6
      linarith
  · exact Or.inl h

/-- Two boxes of a banded region with the same bottom are the same box or lie apart. -/
theorem banded_bottom_apart {boxes : List MetaBox} (hb : banded boxes) {p q : MetaBox}
    (hp : p ∈ boxes) (hq : q ∈ boxes) (hy : p.y2 = q.y2) :
    p = q ∨ p.x2 < q.x1 ∨ q.x2 < p.x1 := by
  have hvp := banded_valid hb hp
  have hvq := banded_valid hb hq
  apply banded_row_apart hb hp hq
  rcases banded_rows hb hp hq with ⟨e, _⟩ | e | e <;> omega

/-- Where the region lies on exactly one side of a line, the point of the line is on
the boundary of the region. -/
theorem one_sided_on_boundary {boxes : List MetaBox} (hb : banded boxes) (x y : ℚ)
    (h : one_sided boxes x y) : on_boundary boxes x y := by
  rcases h with ⟨⟨p, hp, hpy, hpx1, hpx2⟩, hno⟩ | ⟨hno, ⟨p, hp, hpy, hpx1, hpx2⟩⟩
  · -- the region lies above the line
    have hvp := banded_valid hb hp
    refine ⟨⟨p, hp, hpx1, hpx2.le, ?_, by rw [hpy]⟩, ?_⟩
    · rw [← hpy]; exact_mod_cast hvp.2.le
    intro ε hε
    obtain ⟨δ, hδ0, hδε, hδ4⟩ := exists_small ε hε
    have hrow : ∀ a b, (a ∈ boxes ∧ a.y1 = p.y2) → (b ∈ boxes ∧ b.y1 = p.y2) →
        a = b ∨ a.x2 < b.x1 ∨ b.x2 < a.x1 :=
      fun a b ha hb' => banded_row_apart hb ha.1 hb'.1 (ha.2.trans hb'.2.symm)
    have hno' : ¬ ∃ q, (q ∈ boxes ∧ q.y1 = p.y2) ∧ (q.x1 : ℚ) ≤ x ∧ x < q.x2 := by
      rintro ⟨q, ⟨hq, hqy⟩, h1, h2⟩
      exact hno ⟨q, hq, by rw [← hpy]; exact_mod_cast hqy, h1, h2⟩
    have hin : ∀ x', in_union boxes x' (y + δ) →
        ∃ q, (q ∈ boxes ∧ q.y1 = p.y2) ∧ (q.x1 : ℚ) ≤ x' ∧ x' ≤ q.x2 := by
      rintro x' ⟨q, hq, h1, h2, h3, h4⟩
      refine ⟨q, ⟨hq, ?_⟩, h1, h2⟩
      have hvq := banded_valid hb hq
      rw [← hpy] at h3 h4
      have h5 : (q.y1 : ℚ) < p.y2 + 1 := by linarith
      have h6 : (p.y2 : ℚ) < q.y2 := by linarith
      have h5' : q.y1 < p.y2 + 1 := by exact_mod_cast h5
      have h6' : p.y2 < q.y2 := by exact_mod_cast h6
      rcases banded_rows hb hp hq with ⟨_, e⟩ | e | e <;> omega
    rcases row_escape _ hrow x δ hδ0 (by linarith) hno' with h1 | h1
    · exact ⟨x, y + δ, by simpa using hε, by
        rw [add_sub_cancel_left, abs_of_pos hδ0]; exact hδε, fun hu => h1 (hin x hu)⟩
    · exact ⟨x + δ, y + δ, by
        rw [add_sub_cancel_left, abs_of_pos hδ0]; exact hδε, by
        rw [add_sub_cancel_left, abs_of_pos hδ0]; exact hδε, fun hu => h1 (hin _ hu)⟩
  · -- the region lies below the line
    have hvp := banded_valid hb hp
    refine ⟨⟨p, hp, hpx1, hpx2.le, by rw [hpy], ?_⟩, ?_⟩
    · rw [← hpy]; exact_mod_cast hvp.2.le
    intro ε hε
    obtain ⟨δ, hδ0, hδε, hδ4⟩ := exists_small ε hε
    have hrow : ∀ a b, (a ∈ boxes ∧ a.y2 = p.y1) → (b ∈ boxes ∧ b.y2 = p.y1) →
        a = b ∨ a.x2 < b.x1 ∨ b.x2 < a.x1 :=
      fun a b ha hb' => banded_bottom_apart hb ha.1 hb'.1 (ha.2.trans hb'.2.symm)
    have hno' : ¬ ∃ q, (q ∈ boxes ∧ q.y2 = p.y1) ∧ (q.x1 : ℚ) ≤ x ∧ x < q.x2 := by
      rintro ⟨q, ⟨hq, hqy⟩, h1, h2⟩
      exact hno ⟨q, hq, by rw [← hpy]; exact_mod_cast hqy, h1, h2⟩
    have hin : ∀ x', in_union boxes x' (y - δ) →
        ∃ q, (q ∈ boxes ∧ q.y2 = p.y1) ∧ (q.x1 : ℚ) ≤ x' ∧ x' ≤ q.x2 := by
      rintro x' ⟨q, hq, h1, h2, h3, h4⟩
      refine ⟨q, ⟨hq, ?_⟩, h1, h2⟩
      have hvq := banded_valid hb hq
      rw [← hpy] at h3 h4
      have h5 : (q.y1 : ℚ) < p.y1 := by linarith
      have h6 : (p.y1 : ℚ) - 1 < q.y2 := by linarith
      have h5' : q.y1 < p.y1 := by exact_mod_cast h5
      have h6' : p.y1 - 1 < q.y2 := by exact_mod_cast h6
      rcases banded_rows hb hp hq with ⟨e, _⟩ | e | e <;> omega
    have hy' : |y - δ - y| < ε := by
      have : y - δ - y = -δ := by ring
      rw [this, abs_neg, abs_of_pos hδ0]; exact hδε
    rcases row_escape _ hrow x δ hδ0 (by linarith) hno' with h1 | h1
    · exact ⟨x, y - δ, by simpa using hε, hy', fun hu => h1 (hin x hu)⟩
    · exact ⟨x + δ, y - δ, by
        rw [add_sub_cancel_left, abs_of_pos hδ0]; exact hδε, hy', fun hu => h1 (hin _ hu)⟩

/-- Left and right of a box of a banded region, at a height strictly inside the box, the
points at a distance below one are outside the region. -/
theorem beside_box_outside {boxes : List MetaBox} (hb : banded boxes) {b : MetaBox}
    (hbm : b ∈ boxes) (y δ : ℚ) (h0 : 0 < δ) (h1 : δ < 1) (hy1 : (b.y1 : ℚ) < y)
    (hy2 : y < b.y2) :
    ¬ in_union boxes (b.x1 - δ) y ∧ ¬ in_union boxes (b.x2 + δ) y := by
  have hv := banded_valid hb hbm
  have hx : ((b.x1 : ℤ) : ℚ) < b.x2 := by exact_mod_cast hv.1
  have key : ∀ q ∈ boxes, (q.y1 : ℚ) ≤ y → y ≤ q.y2 →
      q = b ∨ b.x2 < q.x1 ∨ q.x2 < b.x1 := by
    intro q hq h3 h4
    have hvq := banded_valid hb hq
    have h5 : (b.y1 : ℚ) < q.y2 := by linarith
    have h6 : (q.y1 : ℚ) < b.y2 := by linarith
    have h5' : b.y1 < q.y2 := by exact_mod_cast h5
    have h6' : q.y1 < b.y2 := by exact_mod_cast h6
    have hy : b.y1 = q.y1 := by
      rcases banded_rows hb hbm hq with ⟨e, _⟩ | e | e <;> omega
    rcases banded_row_apart hb hbm hq hy with e | e | e
    · exact Or.inl e.symm
    · exact Or.inr (Or.inl e)
    · exact Or.inr (Or.inr e)
  constructor
  · rintro ⟨q, hq, h2, h3, h4, h5⟩
    rcases key q hq h4 h5 with rfl | e | e
    · linarith
    · have : (b.x2 : ℚ) < q.x1 := by exact_mod_cast e
      linarith
    · have : (q.x2 : ℚ) + 1 ≤ b.x1 := by exact_mod_cast e
      linarith
  · rintro ⟨q, hq, h2, h3, h4, h5⟩
    rcases key q hq h4 h5 with rfl | e | e
    · linarith
    · have : (b.x2 : ℚ) + 1 ≤ q.x1 := by exact_mod_cast e
      linarith
    · have : (q.x2 : ℚ) < b.x1 := by exact_mod_cast e
      linarith

/-- Near every height of a box there is a height strictly inside the box. -/
theorem exists_inside_height (b : MetaBox) (hv : b.y1 < b.y2) (y δ : ℚ) (h0 : 0 < δ)
    (h1 : δ ≤ 1 / 4) (hy1 : (b.y1 : ℚ) ≤ y) (hy2 : y ≤ b.y2) :
    ∃ y', |y' - y| = δ ∧ (b.y1 : ℚ) < y' ∧ y' < b.y2 := by
  have hh : (b.y1 : ℚ) + 1 ≤ b.y2 := by exact_mod_cast hv
  by_cases h : y + δ < b.y2
  · exact ⟨y + δ, by rw [add_sub_cancel_left, abs_of_pos h0], by linarith, h⟩
  · refine ⟨y - δ, ?_, by linarith, by linarith⟩
    have : y - δ - y = -δ := by ring
    rw [this, abs_neg, abs_of_pos h0]

/-- The points of the left and of the right edge of a box of a banded region are on the
boundary of the region. -/
theorem vertical_edge_on_boundary {boxes : List MetaBox} (hb : banded boxes) {b : MetaBox}
    (hbm : b ∈ boxes) (y : ℚ) (hy1 : (b.y1 : ℚ) ≤ y) (hy2 : y ≤ b.y2) :
    on_boundary boxes b.x1 y ∧ on_boundary boxes b.x2 y := by
  have hv := banded_valid hb hbm
  have hx : ((b.x1 : ℤ) : ℚ) ≤ b.x2 := by exact_mod_cast hv.1.le
  constructor
  · refine ⟨⟨b, hbm, le_rfl, hx, hy1, hy2⟩, ?_⟩
    intro ε hε
    obtain ⟨δ, hδ0, hδε, hδ4⟩ := exists_small ε hε
    obtain ⟨y', e, h1, h2⟩ := exists_inside_height b hv.2 y δ hδ0 hδ4 hy1 hy2
    refine ⟨b.x1 - δ, y', ?_, by rw [e]; exact hδε,
      (beside_box_outside hb hbm y' δ hδ0 (by linarith) h1 h2).1⟩
    have : (b.x1 : ℚ) - δ - b.x1 = -δ := by ring
    rw [this, abs_neg, abs_of_pos hδ0]; exact hδε
  · refine ⟨⟨b, hbm, hx, le_rfl, hy1, hy2⟩, ?_⟩
    intro ε hε
    obtain ⟨δ, hδ0, hδε, hδ4⟩ := exists_small ε hε
    obtain ⟨y', e, h1, h2⟩ := exists_inside_height b hv.2 y δ hδ0 hδ4 hy1 hy2
    refine ⟨b.x2 + δ, y', ?_, by rw [e]; exact hδε,
      (beside_box_outside hb hbm y' δ hδ0 (by linarith) h1 h2).2⟩
    rw [add_sub_cancel_left, abs_of_pos hδ0]; exact hδε

/-- Every point of a maximal run, its right end included, is on the boundary of the
region. -/
theorem run_on_boundary {boxes : List MetaBox} (hb : banded boxes) (y lo hi x : ℚ)
    (h : horizontal_run boxes y lo hi) (hx1 : lo ≤ x) (hx2 : x ≤ hi) :
    on_boundary boxes x y := by
  obtain ⟨⟨n, hn⟩, ⟨m, hm⟩, hlt, hin, _, _⟩ := h
  rcases lt_or_eq_of_le hx2 with hx | hx
  · exact one_sided_on_boundary hb x y (hin x hx1 hx)
  subst hx
  have hnm : n < m := by
    rw [hn, hm] at hlt
    exact_mod_cast hlt
  have hnm' : (n : ℚ) + 1 ≤ m := by exact_mod_cast hnm
  have hnear : ∀ δ : ℚ, 0 < δ → δ ≤ 1 → on_boundary boxes (x - δ) y := by
    intro δ h0 h1
    apply one_sided_on_boundary hb
    apply hin
    · rw [hn, hm]; linarith
    · linarith
  constructor
  · obtain ⟨⟨p, hp, h1, h2, h3, h4⟩, _⟩ := hnear (1 / 2) (by norm_num) (by norm_num)
    refine ⟨p, hp, by linarith, ?_, h3, h4⟩
    rw [hm] at h2 ⊢
    have h5 : (m : ℚ) - 1 < p.x2 := by linarith
    have h6 : m - 1 < p.x2 := by exact_mod_cast h5
    have h7 : m ≤ p.x2 := by omega
    exact_mod_cast h7
  · intro ε hε
    obtain ⟨δ, hδ0, hδε, hδ4⟩ := exists_small (ε / 2) (by linarith)
    obtain ⟨x', y', h1, h2, h3⟩ := (hnear δ hδ0 (by linarith)).2 (ε / 2) (by linarith)
    refine ⟨x', y', ?_, by linarith, h3⟩
    have h4 : x' - x = (x' - (x - δ)) + (-δ) := by ring
    rw [h4]
    calc |x' - (x - δ) + -δ| ≤ |x' - (x - δ)| + |(-δ)| := abs_add _ _
      _ = |x' - (x - δ)| + δ := by rw [abs_neg, abs_of_pos hδ0]
      _ < ε := by linarith

/-- A point strictly inside a box is not on the boundary of the region. -/
theorem inside_box_not_on_boundary {boxes : List MetaBox} {b : MetaBox} (hbm : b ∈ boxes)
    (x y : ℚ) (hx1 : (b.x1 : ℚ) < x) (hx2 : x < b.x2) (hy1 : (b.y1 : ℚ) < y)
    (hy2 : y < b.y2) : ¬ on_boundary boxes x y := by
  rintro ⟨_, h⟩
  obtain ⟨x', y', h1, h2, h3⟩ := h (min (min (x - b.x1) (b.x2 - x)) (min (y - b.y1) (b.y2 - y)))
    (lt_min (lt_min (by linarith) (by linarith)) (lt_min (by linarith) (by linarith)))
  rw [abs_lt] at h1 h2
  have e1 := lt_of_lt_of_le h1.2 (le_trans (min_le_left _ _) (min_le_right _ _))
  have e2 := lt_of_lt_of_le h2.2 (le_trans (min_le_right _ _) (min_le_right _ _))
  have e3 : -(x - b.x1) < x' - x :=
    lt_of_le_of_lt (neg_le_neg (le_trans (min_le_left _ _) (min_le_left _ _))) h1.1
  have e4 : -(y - b.y1) < y' - y :=
    lt_of_le_of_lt (neg_le_neg (le_trans (min_le_right _ _) (min_le_left _ _))) h2.1
  exact h3 ⟨b, hbm, by linarith, by linarith, by linarith, by linarith⟩

/-- A point of the common line of two boxes, one on the other, strictly inside the span
of both, is not on the boundary of the region. -/
theorem between_boxes_not_on_boundary {boxes : List MetaBox} {p q : MetaBox}
    (hp : p ∈ boxes) (hq : q ∈ boxes) (hvp : p.y1 < p.y2) (hvq : q.y1 < q.y2)
    (hpq : p.y2 = q.y1) (x : ℚ) (hp1 : (p.x1 : ℚ) < x) (hp2 : x < p.x2)
    (hq1 : (q.x1 : ℚ) < x) (hq2 : x < q.x2) : ¬ on_boundary boxes x p.y2 := by
  rintro ⟨_, h⟩
  obtain ⟨x', y', h1, h2, h3⟩ :=
    h (min (min (min (x - p.x1) (p.x2 - x)) (min (x - q.x1) (q.x2 - x))) 1)
      (lt_min (lt_min (lt_min (by linarith) (by linarith))
        (lt_min (by linarith) (by linarith))) (by norm_num))
  rw [abs_lt] at h1 h2
  have m1 : min (min (min (x - p.x1) (p.x2 - x)) (min (x - q.x1) (q.x2 - x))) 1 ≤ x - p.x1 :=
    le_trans (min_le_left _ _) (le_trans (min_le_left _ _) (min_le_left _ _))
  have m2 : min (min (min (x - p.x1) (p.x2 - x)) (min (x - q.x1) (q.x2 - x))) 1 ≤ p.x2 - x :=
    le_trans (min_le_left _ _) (le_trans (min_le_left _ _) (min_le_right _ _))
  have m3 : min (min (min (x - p.x1) (p.x2 - x)) (min (x - q.x1) (q.x2 - x))) 1 ≤ x - q.x1 :=
    le_trans (min_le_left _ _) (le_trans (min_le_right _ _) (min_le_left _ _))
  have m4 : min (min (min (x - p.x1) (p.x2 - x)) (min (x - q.x1) (q.x2 - x))) 1 ≤ q.x2 - x :=
    le_trans (min_le_left _ _) (le_trans (min_le_right _ _) (min_le_right _ _))
  have m5 : min (min (min (x - p.x1) (p.x2 - x)) (min (x - q.x1) (q.x2 - x))) 1 ≤ 1 :=
    min_le_right _ _
  have hpy : (p.y1 : ℚ) + 1 ≤ p.y2 := by exact_mod_cast hvp
  have hqy : (q.y1 : ℚ) + 1 ≤ q.y2 := by exact_mod_cast hvq
  have hpq' : (p.y2 : ℚ) = q.y1 := by exact_mod_cast hpq
  by_cases hy : y' ≤ p.y2
  · exact h3 ⟨p, hp, by linarith, by linarith, by linarith, hy⟩
  · exact h3 ⟨q, hq, by linarith, by linarith, by linarith, by linarith⟩

/-- A point of the boundary of a banded region lies on the left or right edge of a box,
or on a line at an abscissa where the region lies on exactly one side of the line. -/
theorem on_boundary_cases {boxes : List MetaBox} (hb : banded boxes) (x y : ℚ)
    (h : on_boundary boxes x y) :
    (∃ b ∈ boxes, (x = b.x1 ∨ x = b.x2) ∧ (b.y1 : ℚ) ≤ y ∧ y ≤ b.y2) ∨
      one_sided boxes x y := by
  obtain ⟨b, hbm, h1, h2, h3, h4⟩ := h.1
  have hv := banded_valid hb hbm
  by_cases hx1 : x = b.x1
  · exact Or.inl ⟨b, hbm, Or.inl hx1, h3, h4⟩
  by_cases hx2 : x = b.x2
  · exact Or.inl ⟨b, hbm, Or.inr hx2, h3, h4⟩
  have h1' : (b.x1 : ℚ) < x := lt_of_le_of_ne h1 (Ne.symm hx1)
  have h2' : x < b.x2 := lt_of_le_of_ne h2 hx2
  rcases eq_or_lt_of_le h4 with hy2 | hy2
  · -- on the bottom line of the box
    by_cases hs : starts_below boxes x y
    · obtain ⟨q, hq, hqy, hq1, hq2⟩ := hs
      have hvq := banded_valid hb hq
      by_cases hxq : x = q.x1
      · refine Or.inl ⟨q, hq, Or.inl hxq, by rw [hqy], ?_⟩
        rw [← hqy]; exact_mod_cast hvq.2.le
      · exfalso
        have hpq : b.y2 = q.y1 := by
          have : (b.y2 : ℚ) = q.y1 := by rw [← hy2, hqy]
          exact_mod_cast this
        have := between_boxes_not_on_boundary hbm hq hv.2 hvq.2 hpq x h1' h2'
          (lt_of_le_of_ne hq1 (Ne.symm hxq)) hq2
        rw [← hy2] at this
        exact this h
    · exact Or.inr (Or.inl ⟨⟨b, hbm, hy2.symm, h1, h2'⟩, hs⟩)
  rcases eq_or_lt_of_le h3 with hy1 | hy1
  · -- on the top line of the box
    by_cases he : ends_above boxes x y
    · obtain ⟨p, hp, hpy, hp1, hp2⟩ := he
      have hvp := banded_valid hb hp
      by_cases hxp : x = p.x1
      · refine Or.inl ⟨p, hp, Or.inl hxp, ?_, by rw [hpy]⟩
        rw [← hpy]; exact_mod_cast hvp.2.le
      · exfalso
        have hpq : p.y2 = b.y1 := by
          have : (p.y2 : ℚ) = b.y1 := by rw [hpy, hy1]
          exact_mod_cast this
        have := between_boxes_not_on_boundary hp hbm hvp.2 hv.2 hpq x
          (lt_of_le_of_ne hp1 (Ne.symm hxp)) hp2 h1' h2'
        rw [hpy] at this
        exact this h
    · exact Or.inr (Or.inr ⟨he, ⟨b, hbm, hy1, h1, h2'⟩⟩)
  · exact absurd h (inside_box_not_on_boundary hbm x y h1' h2' hy1 hy2)

/-- The outline of a banded region covers exactly the boundary of the region. -/
theorem outline_of_boxes_covers_boundary {boxes : List MetaBox} (hb : banded boxes)
    (outline : List MetaBorder) (h : outline_of_boxes boxes [] = some outline) (x y : ℚ) :
    covered_by outline x y ↔ on_boundary boxes x y := by
  obtain ⟨hV1, hV2, hM, hH⟩ := outline_lines_final hb outline h
  constructor
  · rintro ⟨c, hc, hseg⟩
    by_cases hh : c.line.a.y = c.line.b.y
    · have hrun := hM c hc hh
      have hne : c.line.a.x ≠ c.line.b.x := by
        intro e
        have := hrun.2.2.1
        unfold x_low x_high at this
        rw [e, min_self, max_self] at this
        exact lt_irrefl _ this
      rw [on_segment_horizontal c hh hne] at hseg
      rw [hseg.1]
      exact run_on_boundary hb _ _ _ x hrun hseg.2.1 hseg.2.2
    · obtain ⟨b, hbm, e | e⟩ := hV1 c hc hh
      · subst e
        rw [on_segment_left_edge b (banded_valid hb hbm).2] at hseg
        rw [hseg.1]
        exact (vertical_edge_on_boundary hb hbm y hseg.2.1 hseg.2.2).1
      · subst e
        rw [on_segment_right_edge b (banded_valid hb hbm).2] at hseg
        rw [hseg.1]
        exact (vertical_edge_on_boundary hb hbm y hseg.2.1 hseg.2.2).2
  · intro hbd
    rcases on_boundary_cases hb x y hbd with ⟨b, hbm, e | e, h1, h2⟩ | hs
    · exact ⟨left_edge b, (hV2 b hbm).1,
        (on_segment_left_edge b (banded_valid hb hbm).2 x y).mpr ⟨e, h1, h2⟩⟩
    · exact ⟨right_edge b, (hV2 b hbm).2,
        (on_segment_right_edge b (banded_valid hb hbm).2 x y).mpr ⟨e, h1, h2⟩⟩
    · obtain ⟨c, hc, hh, hy, hx⟩ := hH x y hs
      have hrun := hM c hc hh
      have hne : c.line.a.x ≠ c.line.b.x := by
        intro e
        have := hrun.2.2.1
        unfold x_low x_high at this
        rw [e, min_self, max_self] at this
        exact lt_irrefl _ this
      refine ⟨c, hc, (on_segment_horizontal c hh hne x y).mpr ⟨hy.symm, ?_⟩⟩
      simp only [x_covered, decide_eq_true_eq] at hx
      exact ⟨hx.1, hx.2.le⟩

/-- The points of an axis-aligned border of positive length are the points of its
bounding box. -/
theorem on_segment_iff_bounding_box (c : MetaBorder) (h : axis_aligned c) (x y : ℚ) :
    on_segment c x y ↔ in_bounding_box c x y := by
  unfold in_bounding_box
  rcases h with ⟨h1, h2⟩ | ⟨h1, h2⟩
  · rw [on_segment_horizontal c h1 h2, ← h1, min_self, max_self]
    constructor
    · rintro ⟨e, e1, e2⟩
      exact ⟨e1, e2, e.ge, e.le⟩
    · rintro ⟨e1, e2, e3, e4⟩
      exact ⟨le_antisymm e4 e3, e1, e2⟩
  · rw [on_segment_vertical c h1 h2]
    unfold x_low x_high
    rw [← h1, min_self, max_self]
    constructor
    · rintro ⟨e, e1, e2⟩
      exact ⟨e.ge, e.le, e1, e2⟩
    · rintro ⟨e1, e2, e3, e4⟩
      exact ⟨le_antisymm e2 e1, e3, e4⟩

/-- A point is covered by an outline of axis-aligned borders when it lies in the
bounding box of one of them. -/
theorem covered_by_iff (outline : List MetaBorder) (h : ∀ c ∈ outline, axis_aligned c)
    (x y : ℚ) : covered_by outline x y ↔ ∃ c ∈ outline, in_bounding_box c x y := by
  unfold covered_by
  constructor
  · rintro ⟨c, hc, hs⟩
    exact ⟨c, hc, (on_segment_iff_bounding_box c (h c hc) x y).mp hs⟩
  · rintro ⟨c, hc, hs⟩
    exact ⟨c, hc, (on_segment_iff_bounding_box c (h c hc) x y).mpr hs⟩

/-- Two maximal runs of one line have the same ends or lie apart. -/
theorem runs_apart (boxes : List MetaBox) (y l₁ h₁ l₂ h₂ : ℚ)
    (r₁ : horizontal_run boxes y l₁ h₁) (r₂ : horizontal_run boxes y l₂ h₂) :
    (l₁ = l₂ ∧ h₁ = h₂) ∨ h₁ < l₂ ∨ h₂ < l₁ := by
  obtain ⟨⟨n₁, e₁⟩, ⟨m₁, f₁⟩, lt₁, in₁, hi₁, lo₁⟩ := r₁
  obtain ⟨⟨n₂, e₂⟩, ⟨m₂, f₂⟩, lt₂, in₂, hi₂, lo₂⟩ := r₂
  by_cases c1 : h₁ < l₂
  · exact Or.inr (Or.inl c1)
  by_cases c2 : h₂ < l₁
  · exact Or.inr (Or.inr c2)
  left
  push_neg at c1 c2
  have hl : l₁ = l₂ := by
    rcases lt_trichotomy l₁ l₂ with h | h | h
    · exfalso
      apply lo₂
      apply in₁
      · rw [e₁, e₂] at h ⊢
        have h' : n₁ < n₂ := by exact_mod_cast h
        have h'' : n₁ ≤ n₂ - 1 := by omega
        exact_mod_cast h''
      · linarith
    · exact h
    · exfalso
      apply lo₁
      apply in₂
      · rw [e₁, e₂] at h ⊢
        have h' : n₂ < n₁ := by exact_mod_cast h
        have h'' : n₂ ≤ n₁ - 1 := by omega
        exact_mod_cast h''
      · linarith
  refine ⟨hl, ?_⟩
  rcases lt_trichotomy h₁ h₂ with h | h | h
  · exfalso
    exact hi₁ (in₂ h₁ (by rw [← hl]; exact lt₁.le) h)
  · exact h
  · exfalso
    exact hi₂ (in₁ h₂ (by rw [hl]; exact lt₂.le) h)

/-- Along the run in which every write through `prev_border` reaches the array and no
coordinate is rounded: for a region in banded form, every horizontal border of the
outline spans one maximal run of its line on which the region lies on exactly one side;
every abscissa of such a run is held by a horizontal border; two horizontal borders on
one line have the same ends or are separated by an empty space; and the vertical
borders are the left and the right edge of every rectangle. -/
theorem outline_of_banded_horizontal_runs (region : List MtkRectangle)
    (outline : List MetaBorder) (hb : banded (region.map box_of_rectangle))
    (h : region_to_outline region [] = some outline) :
    (∀ c ∈ outline, c.line.a.y = c.line.b.y →
        horizontal_run (region.map box_of_rectangle) c.line.a.y (x_low c) (x_high c)) ∧
      (∀ x y, one_sided (region.map box_of_rectangle) x y → horizontal_cover outline x y) ∧
      (∀ c ∈ outline, ∀ d ∈ outline, c.line.a.y = c.line.b.y → d.line.a.y = d.line.b.y →
        c.line.a.y = d.line.a.y →
        (x_low c = x_low d ∧ x_high c = x_high d) ∨ x_high c < x_low d ∨
          x_high d < x_low c) ∧
      (∀ b ∈ region.map box_of_rectangle, left_edge b ∈ outline ∧ right_edge b ∈ outline) ∧
      ∀ c ∈ outline, c.line.a.y ≠ c.line.b.y →
        ∃ b ∈ region.map box_of_rectangle, c = left_edge b ∨ c = right_edge b := by
  obtain ⟨hV1, hV2, hM, hH⟩ := outline_lines_final hb outline h
  refine ⟨hM, hH, ?_, hV2, hV1⟩
  intro c hc d hd hch hdh hcd
  have r1 := hM c hc hch
  have r2 := hM d hd hdh
  rw [← hcd] at r2
  exact runs_apart _ _ _ _ _ _ r1 r2

/-! ## Direction set and clamp frame -/

/-- C29: for every motion, `get_motion_directions` returns the set that holds `+X`
exactly when `a.x < b.x`, `-X` exactly when `a.x > b.x`, `+Y` exactly when `a.y < b.y`
and `-Y` exactly when `a.y > b.y`. A component with equal ends gives no bit, and the
two bits of one axis are never both set. -/
theorem get_motion_directions_spec (motion : MetaLine2) :
    ((get_motion_directions motion).positive_x = true ↔ motion.a.x < motion.b.x) ∧
      ((get_motion_directions motion).negative_x = true ↔ motion.a.x > motion.b.x) ∧
      ((get_motion_directions motion).positive_y = true ↔ motion.a.y < motion.b.y) ∧
      ((get_motion_directions motion).negative_y = true ↔ motion.a.y > motion.b.y) ∧
      (motion.a.x = motion.b.x → (get_motion_directions motion).positive_x = false ∧
        (get_motion_directions motion).negative_x = false) ∧
      (motion.a.y = motion.b.y → (get_motion_directions motion).positive_y = false ∧
        (get_motion_directions motion).negative_y = false) ∧
      ¬ ((get_motion_directions motion).positive_x = true ∧
        (get_motion_directions motion).negative_x = true) ∧
      ¬ ((get_motion_directions motion).positive_y = true ∧
        (get_motion_directions motion).negative_y = true) := by
  obtain ⟨⟨ax, ay⟩, ⟨bx, byy⟩⟩ := motion
  have hx : (ax < bx ∧ ¬ bx < ax ∧ ax ≠ bx) ∨ (¬ ax < bx ∧ bx < ax ∧ ax ≠ bx) ∨
      (¬ ax < bx ∧ ¬ bx < ax ∧ ax = bx) := by
    rcases lt_trichotomy ax bx with h | h | h
    · exact Or.inl ⟨h, not_lt_of_gt h, h.ne⟩
    · exact Or.inr (Or.inr ⟨h ▸ lt_irrefl _, h ▸ lt_irrefl _, h⟩)
    · exact Or.inr (Or.inl ⟨not_lt_of_gt h, h, h.ne'⟩)
  have hy : (ay < byy ∧ ¬ byy < ay ∧ ay ≠ byy) ∨ (¬ ay < byy ∧ byy < ay ∧ ay ≠ byy) ∨
      (¬ ay < byy ∧ ¬ byy < ay ∧ ay = byy) := by
    rcases lt_trichotomy ay byy with h | h | h
    · exact Or.inl ⟨h, not_lt_of_gt h, h.ne⟩
    · exact Or.inr (Or.inr ⟨h ▸ lt_irrefl _, h ▸ lt_irrefl _, h⟩)
    · exact Or.inr (Or.inl ⟨not_lt_of_gt h, h, h.ne'⟩)
  rcases hx with ⟨h1, h2, h3⟩ | ⟨h1, h2, h3⟩ | ⟨h1, h2, h3⟩ <;>
    rcases hy with ⟨k1, k2, k3⟩ | ⟨k1, k2, k3⟩ | ⟨k1, k2, k3⟩ <;>
    simp [get_motion_directions, Directions.or, Directions.none,
      META_BORDER_MOTION_DIRECTION_POSITIVE_X, META_BORDER_MOTION_DIRECTION_NEGATIVE_X,
      META_BORDER_MOTION_DIRECTION_POSITIVE_Y, META_BORDER_MOTION_DIRECTION_NEGATIVE_Y,
      h1, h2, h3, k1, k2, k3]

/-- On a horizontal border `clamp_to_border` moves the end of the motion in `y` only
and clears the two `Y` bits. -/
theorem clamp_to_border_of_horizontal (border : MetaBorder) (motion : MetaLine2)
    (motion_dir : Directions) (min_edge_distance : ℚ)
    (hh : meta_border_is_horizontal border = true) :
    clamp_to_border border motion motion_dir min_edge_distance =
      (⟨motion.a, ⟨motion.b.x,
          if motion_dir.positive_y = true then border.line.a.y - min_edge_distance
          else border.line.a.y⟩⟩,
        ⟨motion_dir.positive_x, false, motion_dir.negative_x, false⟩) := by
  cases hy : motion_dir.positive_y <;>
  simp [clamp_to_border, hh, hy, Directions.and,
    Directions.nonzero, Directions.clear, Directions.or,
    META_BORDER_MOTION_DIRECTION_POSITIVE_Y, META_BORDER_MOTION_DIRECTION_NEGATIVE_Y]

/-- On a border that is not horizontal `clamp_to_border` moves the end of the motion in
`x` only and clears the two `X` bits. -/
theorem clamp_to_border_of_vertical (border : MetaBorder) (motion : MetaLine2)
    (motion_dir : Directions) (min_edge_distance : ℚ)
    (hh : meta_border_is_horizontal border = false) :
    clamp_to_border border motion motion_dir min_edge_distance =
      (⟨motion.a, ⟨if motion_dir.positive_x = true then
            border.line.a.x - min_edge_distance
          else border.line.a.x, motion.b.y⟩⟩,
        ⟨false, motion_dir.positive_y, false, motion_dir.negative_y⟩) := by
  cases hx : motion_dir.positive_x <;>
  simp [clamp_to_border, hh, hx, Directions.and,
    Directions.nonzero, Directions.clear, Directions.or,
    META_BORDER_MOTION_DIRECTION_POSITIVE_X, META_BORDER_MOTION_DIRECTION_NEGATIVE_X]

/-- C30: `clamp_to_border` keeps the start of the motion. On a horizontal border it
keeps the `x` of the end and the two `X` bits, takes the `y` of the end from the
border (the border's `y`, less the margin when the motion goes in `+Y`) and clears both
`+Y` and `-Y`. On any other border it keeps the `y` of the end and the two `Y` bits,
takes the `x` of the end from the border (the border's `x`, less the margin when the
motion goes in `+X`) and clears both `+X` and `-X`. -/
theorem clamp_to_border_frame (border : MetaBorder) (motion : MetaLine2)
    (motion_dir : Directions) (min_edge_distance : ℚ) :
    (clamp_to_border border motion motion_dir min_edge_distance).1.a = motion.a ∧
      if meta_border_is_horizontal border = true then
        (clamp_to_border border motion motion_dir min_edge_distance).1.b.x = motion.b.x ∧
        (clamp_to_border border motion motion_dir min_edge_distance).1.b.y =
          (if motion_dir.positive_y = true then border.line.a.y - min_edge_distance
           else border.line.a.y) ∧
        (clamp_to_border border motion motion_dir min_edge_distance).2.positive_y = false ∧
        (clamp_to_border border motion motion_dir min_edge_distance).2.negative_y = false ∧
        (clamp_to_border border motion motion_dir min_edge_distance).2.positive_x =
          motion_dir.positive_x ∧
        (clamp_to_border border motion motion_dir min_edge_distance).2.negative_x =
          motion_dir.negative_x
      else
        (clamp_to_border border motion motion_dir min_edge_distance).1.b.y = motion.b.y ∧
        (clamp_to_border border motion motion_dir min_edge_distance).1.b.x =
          (if motion_dir.positive_x = true then border.line.a.x - min_edge_distance
           else border.line.a.x) ∧
        (clamp_to_border border motion motion_dir min_edge_distance).2.positive_x = false ∧
        (clamp_to_border border motion motion_dir min_edge_distance).2.negative_x = false ∧
        (clamp_to_border border motion motion_dir min_edge_distance).2.positive_y =
          motion_dir.positive_y ∧
        (clamp_to_border border motion motion_dir min_edge_distance).2.negative_y =
          motion_dir.negative_y := by
  by_cases hh : meta_border_is_horizontal border = true
  · rw [clamp_to_border_of_horizontal border motion motion_dir min_edge_distance hh]
    simp [hh]
  · have hf : meta_border_is_horizontal border = false := by simpa using hh
    rw [clamp_to_border_of_vertical border motion motion_dir min_edge_distance hf]
    simp [hf]

/-! ## Outline of one rectangle -/

/-- C21 at the failing inputs. The region of the rectangles `(0,0)-(10,10)`,
`(20,0)-(30,10)` and `(0,10)-(10,20)` is in banded form and meets the input constraint.
For its last box `region_to_outline` merges the row of the first two boxes with the
row of the third; the bottom edge of the first box and the top edge of the third have
both ends equal, so the sweep stops in the assertion that no two consecutive edges
have both ends equal, and no outline is returned. The region of the rectangles
`(0,0)-(10,10)`, `(0,20)-(10,30)` and `(0,40)-(10,50)` is banded too; for its third box
the bottom edge of the first box (on `y = 10`) is merged with the top edge of the
second (on `y = 20`), and the sweep stops in the assertion that all merged edges share
one `y`. -/
theorem band_merge_assertions_fail_on_banded_regions :
    banded ([⟨0, 0, 10, 10⟩, ⟨20, 0, 10, 10⟩, ⟨0, 10, 10, 10⟩].map box_of_rectangle) ∧
      meets_input_constraint
        ([⟨0, 0, 10, 10⟩, ⟨20, 0, 10, 10⟩, ⟨0, 10, 10, 10⟩].map box_of_rectangle) ∧
      (bottom_edge ⟨0, 0, 10, 10⟩).line = (top_edge ⟨0, 10, 10, 20⟩).line ∧
      merge_step ([bottom_edge ⟨0, 0, 10, 10⟩], some 0) (top_edge ⟨0, 10, 10, 20⟩) = none ∧
      add_non_overlapping_edges [⟨0, 0, 10, 10⟩, ⟨20, 0, 30, 10⟩, ⟨0, 10, 10, 20⟩] 0 2 3
        [top_edge ⟨0, 0, 10, 10⟩, left_edge ⟨0, 0, 10, 10⟩, right_edge ⟨0, 0, 10, 10⟩,
          top_edge ⟨20, 0, 30, 10⟩, left_edge ⟨20, 0, 30, 10⟩,
          right_edge ⟨20, 0, 30, 10⟩] = none ∧
      region_to_outline [⟨0, 0, 10, 10⟩, ⟨20, 0, 10, 10⟩, ⟨0, 10, 10, 10⟩] [] = none ∧
      banded ([⟨0, 0, 10, 10⟩, ⟨0, 20, 10, 10⟩, ⟨0, 40, 10, 10⟩].map box_of_rectangle) ∧
      meets_input_constraint
        ([⟨0, 0, 10, 10⟩, ⟨0, 20, 10, 10⟩, ⟨0, 40, 10, 10⟩].map box_of_rectangle) ∧
      (bottom_edge ⟨0, 0, 10, 10⟩).line.a.y ≠ (top_edge ⟨0, 20, 10, 30⟩).line.a.y ∧
      merge_step ([bottom_edge ⟨0, 0, 10, 10⟩], some 0) (top_edge ⟨0, 20, 10, 30⟩) = none ∧
      add_non_overlapping_edges [⟨0, 0, 10, 10⟩, ⟨0, 20, 10, 30⟩, ⟨0, 40, 10, 50⟩] 0 1 2
        [] = none ∧
      region_to_outline [⟨0, 0, 10, 10⟩, ⟨0, 20, 10, 10⟩, ⟨0, 40, 10, 10⟩] [] = none := by
  refine ⟨by decide, by decide, by decide!, by decide!, by decide!, by decide!, by decide,
    by decide, by decide!, by decide!, by decide!, by decide!⟩

/-- C22 at the failing inputs. The two rectangles `(0,0)-(10,10)` and `(0,20)-(10,30)`
form two rows with an empty space between them. Their outline has nine borders and not
the eight edges of the two rectangles: the top edge of the first rectangle stands in it
twice. With the third row `(0,40)-(10,50)`, again after an empty space, no outline is
returned. -/
theorem outline_of_separated_rows_is_not_four_edges_each :
    vertically_separated ([⟨0, 0, 10, 10⟩, ⟨0, 20, 10, 10⟩].map box_of_rectangle) ∧
      (∃ outline, region_to_outline [⟨0, 0, 10, 10⟩, ⟨0, 20, 10, 10⟩] [] = some outline ∧
        outline.length = 9 ∧
        (four_edges ([⟨0, 0, 10, 10⟩, ⟨0, 20, 10, 10⟩].map box_of_rectangle)).length = 8 ∧
        outline.count (top_edge ⟨0, 0, 10, 10⟩) = 2 ∧
        ¬ outline.Perm
          (four_edges ([⟨0, 0, 10, 10⟩, ⟨0, 20, 10, 10⟩].map box_of_rectangle))) ∧
      vertically_separated
        ([⟨0, 0, 10, 10⟩, ⟨0, 20, 10, 10⟩, ⟨0, 40, 10, 10⟩].map box_of_rectangle) ∧
      region_to_outline [⟨0, 0, 10, 10⟩, ⟨0, 20, 10, 10⟩, ⟨0, 40, 10, 10⟩] [] = none := by
  refine ⟨by decide, ⟨_, region_to_outline_separated_rows, rfl, rfl, by decide, ?_⟩,
    by decide, by decide!⟩
  intro h
  exact absurd h.length_eq (by decide)

/-- The outline that `region_to_outline` builds for the two rows `(0,0)-(2,1)` and
`(1,1)-(3,2)`. -/
theorem region_to_outline_overlapping_rows :
    region_to_outline [⟨0, 0, 2, 1⟩, ⟨1, 1, 2, 1⟩] [] = some overlapping_rows_outline := by
  decide!

/-- C27 at the failing input: the region of the rectangles `(0,0)-(2,1)` and
`(1,1)-(3,2)` is in banded form and meets the input constraint. Its outline holds the
border from `(3,1)` to `(2,1)`, whose `a.x = 3` is above its `b.x = 2`. The point
`(5/2, 1)` lies on that border, yet `point_to_border_distance_2` takes it to be left of
the start and gives the squared distance `1/4`. -/
theorem outline_border_with_reversed_ends :
    banded ([⟨0, 0, 2, 1⟩, ⟨1, 1, 2, 1⟩].map box_of_rectangle) ∧
      meets_input_constraint ([⟨0, 0, 2, 1⟩, ⟨1, 1, 2, 1⟩].map box_of_rectangle) ∧
      ∃ outline border, region_to_outline [⟨0, 0, 2, 1⟩, ⟨1, 1, 2, 1⟩] [] = some outline ∧
        border ∈ outline ∧
        border = ⟨⟨⟨3, 1⟩, ⟨2, 1⟩⟩, META_BORDER_MOTION_DIRECTION_POSITIVE_Y⟩ ∧
        ¬ border.line.a.x ≤ border.line.b.x ∧
        point_to_border_distance_2 border (5 / 2) 1 = 1 / 4 := by
  refine ⟨by decide, by decide, _, _, region_to_outline_overlapping_rows, ?_, rfl,
    by decide!, by decide!⟩
  decide

/-! ## Order of the sweep -/

/-- One step of the sweep over an edge with `a.x < b.x` puts, in the place of the last
border, borders in non-decreasing order of `a.x` that do not start left of it. -/
theorem merge_view_order (prev_border border : MetaBorder) (r : List MetaBorder)
    (h : merge_view prev_border border = some r)
    (hab : border.line.a.x < border.line.b.x) :
    (r.Pairwise fun c d => c.line.a.x ≤ d.line.a.x) ∧
      ∀ c ∈ r, prev_border.line.a.x ≤ c.line.a.x := by
  obtain ⟨_, _, _, hc⟩ := merge_view_cases prev_border border r h
  rcases hc with ⟨h1, h2, rfl⟩ | ⟨h1, h2, rfl⟩ | ⟨h1, h2, h3, rfl⟩ | ⟨h1, h2, h3, rfl⟩ |
    ⟨h1, h2, rfl⟩
  · refine ⟨by simp, ?_⟩
    intro c hc
    simp only [List.mem_singleton] at hc
    subst hc
    simp only [set_a_x]
    rw [h1]
    exact hab.le
  · refine ⟨by simp, ?_⟩
    intro c hc
    simp only [List.mem_singleton] at hc
    subst hc
    exact le_rfl
  · refine ⟨by simp, ?_⟩
    intro c hc
    simp only [List.mem_singleton] at hc
    subst hc
    exact le_rfl
  · refine ⟨?_, ?_⟩
    · simp only [List.pairwise_cons, List.mem_singleton, forall_eq, List.not_mem_nil,
        false_implies, implies_true, List.Pairwise.nil, and_true, set_b_x]
      exact (lt_trans h1 hab).le
    · intro c hc
      simp only [List.mem_cons, List.mem_singleton, List.not_mem_nil, or_false] at hc
      rcases hc with rfl | rfl
      · exact le_rfl
      · exact (lt_trans h1 hab).le
  · refine ⟨?_, ?_⟩
    · simp only [List.pairwise_cons, List.mem_singleton, forall_eq, List.not_mem_nil,
        false_implies, implies_true, List.Pairwise.nil, and_true]
      exact h1.le
    · intro c hc
      simp only [List.mem_cons, List.mem_singleton, List.not_mem_nil, or_false] at hc
      rcases hc with rfl | rfl
      · exact le_rfl
      · exact h1.le

/-- A pass of the sweep loop never removes a border and appends at most one. -/
theorem merge_step_length (st st' : List MetaBorder × Option ℕ) (border : MetaBorder)
    (h : merge_step st border = some st') :
    st.1.length ≤ st'.1.length ∧ st'.1.length ≤ st.1.length + 1 := by
  obtain ⟨borders, prev⟩ := st
  unfold merge_step at h
  simp only at h
  by_cases h1 : border.line.a.y ≠ border.line.b.y
  · rw [if_pos h1] at h; cases h
  rw [if_neg h1] at h
  cases prev with
  | none =>
    simp only [Option.some.injEq] at h
    subst h
    simp
  | some p =>
    simp only at h
    cases hp : borders[p]? with
    | none => rw [hp] at h; cases h
    | some prev_border =>
      rw [hp] at h
      simp only at h
      by_cases h2 : prev_border.line.a.y ≠ border.line.a.y
      · rw [if_pos h2] at h; cases h
      rw [if_neg h2] at h
      by_cases h3 : prev_border.line.a.x = border.line.a.x ∧
          prev_border.line.b.x = border.line.b.x
      · rw [if_pos h3] at h; cases h
      rw [if_neg h3] at h
      by_cases h4 : ¬ prev_border.line.a.x ≤ border.line.a.x
      · rw [if_pos h4] at h; cases h
      rw [if_neg h4] at h
      by_cases h5 : prev_border.line.a.x = border.line.a.x
      · rw [if_pos h5, Option.some.injEq] at h
        subst h
        simp
      rw [if_neg h5] at h
      by_cases h6 : prev_border.line.b.x = border.line.b.x
      · rw [if_pos h6, Option.some.injEq] at h
        subst h
        simp
      rw [if_neg h6] at h
      by_cases h7 : prev_border.line.b.x = border.line.a.x
      · rw [if_pos h7, Option.some.injEq] at h
        subst h
        simp
      rw [if_neg h7] at h
      by_cases h8 : prev_border.line.b.x ≥ border.line.a.x
      · rw [if_pos h8, Option.some.injEq] at h
        subst h
        simp
      rw [if_neg h8] at h
      by_cases h9 : ¬ prev_border.line.b.x < border.line.a.x
      · rw [if_pos h9] at h; cases h
      rw [if_neg h9, Option.some.injEq] at h
      subst h
      simp

/-- C26: within one call of `add_non_overlapping_edges` on two bands of boxes with
`x1 < x2`, the borders that the call has appended to the outline stand in
non-decreasing order of their `a.x`, and every pass of the sweep loop appends at most
one border (and removes none). -/
theorem sweep_appends_in_order (boxes : List MetaBox) (s0 s1 s2 : ℕ)
    (borders out : List MetaBorder)
    (h : add_non_overlapping_edges boxes s0 s1 s2 borders = some out)
    (hva : ∀ p ∈ box_range boxes s0 s1, p.x1 < p.x2)
    (hvb : ∀ p ∈ box_range boxes s1 s2, p.x1 < p.x2) :
    (∃ app, out = borders ++ app ∧ app.Pairwise fun c d => c.line.a.x ≤ d.line.a.x) ∧
      ∀ (st st' : List MetaBorder × Option ℕ) (border : MetaBorder),
        merge_step st border = some st' →
        st.1.length ≤ st'.1.length ∧ st'.1.length ≤ st.1.length + 1 := by
  refine ⟨?_, fun st st' border hs => merge_step_length st st' border hs⟩
  unfold add_non_overlapping_edges at h
  simp only [Option.map_eq_some'] at h
  obtain ⟨st, hst, rfl⟩ := h
  set band_merge := (box_range boxes s0 s1).map bottom_edge ++
    (box_range boxes s1 s2).map top_edge with hbm
  have hperm : (g_array_sort band_merge compare_lines_x).Perm band_merge :=
    List.perm_insertionSort _ _
  have hedges : ∀ e ∈ g_array_sort band_merge compare_lines_x,
      e.line.a.x < e.line.b.x := by
    intro e he
    have he' : e ∈ band_merge := hperm.mem_iff.mp he
    rcases List.mem_append.mp he' with he' | he'
    · obtain ⟨p, hp, rfl⟩ := List.mem_map.mp he'
      simp only [bottom_edge]
      exact_mod_cast hva p hp
    · obtain ⟨p, hp, rfl⟩ := List.mem_map.mp he'
      simp only [top_edge]
      exact_mod_cast hvb p hp
  by_cases hnil : g_array_sort band_merge compare_lines_x = []
  · rw [hnil] at hst
    simp only [List.foldlM_nil, Option.pure_def, Option.some.injEq] at hst
    subst hst
    exact ⟨[], by simp, List.Pairwise.nil⟩
  · refine sweep_generic (fun _ app => app.Pairwise fun c d => c.line.a.x ≤ d.line.a.x)
      _ borders ?_ ?_ st hnil hst
    · intro e rest _ _
      simp
    · intro processed e rest init prev r he hI hv
      have hE := hedges e (by rw [he]; simp)
      obtain ⟨hro, hrl⟩ := merge_view_order prev e r hv hE
      rw [List.pairwise_append] at hI ⊢
      refine ⟨hI.1, hro, ?_⟩
      intro c hc d hd
      exact le_trans (hI.2.2 c hc prev (by simp)) (hrl d hd)

/-- C26 at the bands `(0,0)-(2,1)` and `(1,1)-(3,2)`: the call appends the borders
`(0,1)-(1,1)` and `(3,1)-(2,1)`, whose `a.x` are 0 and 3. -/
theorem sweep_appends_in_order_witness :
    add_non_overlapping_edges [⟨0, 0, 2, 1⟩, ⟨1, 1, 3, 2⟩] 0 1 2 [] =
        some [⟨⟨⟨0, 1⟩, ⟨1, 1⟩⟩, META_BORDER_MOTION_DIRECTION_POSITIVE_Y⟩,
          ⟨⟨⟨3, 1⟩, ⟨2, 1⟩⟩, META_BORDER_MOTION_DIRECTION_POSITIVE_Y⟩] ∧
      ∃ app : List MetaBorder,
        ([⟨⟨⟨0, 1⟩, ⟨1, 1⟩⟩, META_BORDER_MOTION_DIRECTION_POSITIVE_Y⟩,
          ⟨⟨⟨3, 1⟩, ⟨2, 1⟩⟩, META_BORDER_MOTION_DIRECTION_POSITIVE_Y⟩] :
            List MetaBorder) = [] ++ app ∧
        app.Pairwise fun c d => c.line.a.x ≤ d.line.a.x :=
  ⟨by decide!,
    (sweep_appends_in_order [⟨0, 0, 2, 1⟩, ⟨1, 1, 3, 2⟩] 0 1 2 []
      [⟨⟨⟨0, 1⟩, ⟨1, 1⟩⟩, META_BORDER_MOTION_DIRECTION_POSITIVE_Y⟩,
        ⟨⟨⟨3, 1⟩, ⟨2, 1⟩⟩, META_BORDER_MOTION_DIRECTION_POSITIVE_Y⟩] (by decide!)
      (by decide) (by decide)).1⟩

/-! ## What one pass of the main loop appends -/

/-- What a band merge appends is horizontal, whatever the boxes are. -/
theorem add_non_overlapping_edges_horizontal (boxes : List MetaBox) (s0 s1 s2 : ℕ)
    (borders out : List MetaBorder)
    (h : add_non_overlapping_edges boxes s0 s1 s2 borders = some out) :
    ∃ app, out = borders ++ app ∧ ∀ c ∈ app, meta_border_is_horizontal c = true := by
  unfold add_non_overlapping_edges at h
  simp only [Option.map_eq_some'] at h
  obtain ⟨st, hst, rfl⟩ := h
  set edges := g_array_sort ((box_range boxes s0 s1).map bottom_edge ++
    (box_range boxes s1 s2).map top_edge) compare_lines_x with hedges
  by_cases hnil : edges = []
  · rw [hnil] at hst
    simp only [List.foldlM_nil, Option.pure_def, Option.some.injEq] at hst
    subst hst
    exact ⟨[], by simp, by simp⟩
  · refine sweep_generic (fun _ app => ∀ c ∈ app, meta_border_is_horizontal c = true)
      edges borders ?_ ?_ st hnil hst
    · intro e rest _ hy c hc
      simp only [List.mem_singleton] at hc
      subst hc
      simpa [meta_border_is_horizontal] using hy
    · intro processed e rest init prev r _ hI hv c hc
      have hp : prev.line.a.y = prev.line.b.y := by
        simpa [meta_border_is_horizontal] using hI prev (by simp)
      obtain ⟨he, hpe, _, hcase⟩ := merge_view_cases prev e r hv
      rcases List.mem_append.mp hc with hc | hc
      · exact hI c (List.mem_append_left _ hc)
      · rcases hcase with ⟨_, _, rfl⟩ | ⟨_, _, rfl⟩ | ⟨_, _, _, rfl⟩ | ⟨_, _, _, rfl⟩ |
          ⟨_, _, rfl⟩ <;>
          simp only [List.mem_cons, List.mem_singleton, List.not_mem_nil, or_false] at hc
        · subst hc; simpa [meta_border_is_horizontal, set_a_x] using hp
        · subst hc; simpa [meta_border_is_horizontal, set_b_x] using hp
        · subst hc; simpa [meta_border_is_horizontal, set_b_x] using hp
        · rcases hc with rfl | rfl
          · simpa [meta_border_is_horizontal, set_b_x] using hp
          · simp only [meta_border_is_horizontal, decide_eq_true_eq]
            rw [← he, ← hpe, hp]
        · rcases hc with rfl | rfl
          · simpa [meta_border_is_horizontal] using hp
          · simpa [meta_border_is_horizontal] using he

/-- Every border of an outline has `a.y ≤ b.y`, when no rectangle has a negative
height. -/
theorem outline_ends_ordered_in_y (region : List MtkRectangle) (outline : List MetaBorder)
    (hv : ∀ r ∈ region, 0 ≤ r.height)
    (h : region_to_outline region [] = some outline) :
    ∀ c ∈ outline, c.line.a.y ≤ c.line.b.y := by
  refine outline_forall (fun c => c.line.a.y ≤ c.line.b.y) (region.map box_of_rectangle)
    ?_ ?_ outline h
  · intro b hb
    obtain ⟨r, hr, rfl⟩ := List.mem_map.mp hb
    have hy : (((box_of_rectangle r).y1 : ℤ) : ℚ) ≤ (((box_of_rectangle r).y2 : ℤ) : ℚ) := by
      have := hv r hr
      simp only [box_of_rectangle]
      exact_mod_cast (by omega : r.y ≤ r.y + r.height)
    exact ⟨le_rfl, le_rfl, hy, hy⟩
  · intro s0 s1 s2 borders out hout c hc
    obtain ⟨app, rfl, happ⟩ := add_non_overlapping_edges_horizontal _ s0 s1 s2 borders out
      hout
    rcases List.mem_append.mp hc with hc | hc
    · exact Or.inl hc
    · right
      have := happ c hc
      simp only [meta_border_is_horizontal, decide_eq_true_eq] at this
      exact this.le

/-! ## The search for the nearest border -/

/-- The body of the search loop of the ensure-constrained operation keeps the nearest
border by `point_to_border_distance_2`. -/
theorem nearest_border_step_eq (rel_x rel_y : ℚ) :
    nearest_border_step rel_x rel_y =
      keep_nearest fun b => some (point_to_border_distance_2 b rel_x rel_y) := by
  funext acc border
  rfl

/-- What a search loop leaves behind after the borders of the list `l`: nothing, when no
border has a distance; otherwise the first border of the list whose distance is the
least, with that distance. -/
theorem keep_nearest_fold (key : MetaBorder → Option ℚ) (l : List MetaBorder) :
    ((l.foldl (keep_nearest key) (none, none)).1 = none →
        (l.foldl (keep_nearest key) (none, none)).2 = none ∧ ∀ b ∈ l, key b = none) ∧
      ∀ b, (l.foldl (keep_nearest key) (none, none)).1 = some b →
        ∃ (i : ℕ) (d : ℚ), l[i]? = some b ∧ key b = some d ∧
          (l.foldl (keep_nearest key) (none, none)).2 = some d ∧
          ∀ (j : ℕ) (c : MetaBorder) (dc : ℚ), l[j]? = some c → key c = some dc →
            d ≤ dc ∧ (j < i → d < dc) := by
  induction l using List.reverseRecOn with
  | nil =>
    refine ⟨fun _ => ⟨rfl, fun b hb => absurd hb (List.not_mem_nil b)⟩, ?_⟩
    intro b hb
    cases hb
  | append_singleton l x ih =>
    rw [List.foldl_append]
    simp only [List.foldl_cons, List.foldl_nil]
    generalize l.foldl (keep_nearest key) (none, none) = acc at ih
    obtain ⟨ih1, ih2⟩ := ih
    have hidx : ∀ j c, (l ++ [x])[j]? = some c →
        (j < l.length ∧ l[j]? = some c) ∨ (j = l.length ∧ c = x) := by
      intro j c hj
      rcases Nat.lt_trichotomy j l.length with h | h | h
      · rw [List.getElem?_append_left h] at hj
        exact Or.inl ⟨h, hj⟩
      · subst h
        rw [List.getElem?_append_right (le_refl _)] at hj
        simp only [Nat.sub_self, List.getElem?_cons_zero, Option.some.injEq] at hj
        exact Or.inr ⟨rfl, hj.symm⟩
      · rw [List.getElem?_eq_none (by simp; omega)] at hj
        cases hj
    have hlt : ∀ i b, l[i]? = some b → i < l.length := by
      intro i b hi
      by_contra hge
      rw [List.getElem?_eq_none (by omega)] at hi
      cases hi
    cases hk : key x with
    | none =>
      have hs : keep_nearest key acc x = acc := by
        unfold keep_nearest
        rw [hk]
      rw [hs]
      refine ⟨?_, ?_⟩
      · intro h1
        refine ⟨(ih1 h1).1, ?_⟩
        intro b hb
        rcases List.mem_append.mp hb with hb | hb
        · exact (ih1 h1).2 b hb
        · simp only [List.mem_singleton] at hb
          rw [hb, hk]
      · intro b hb
        obtain ⟨i, d, hi, hd, h2, hmin⟩ := ih2 b hb
        refine ⟨i, d, ?_, hd, h2, ?_⟩
        · rw [List.getElem?_append_left (hlt i b hi)]
          exact hi
        · intro j c dc hj hc
          rcases hidx j c hj with ⟨_, hj'⟩ | ⟨_, rfl⟩
          · exact hmin j c dc hj' hc
          · rw [hk] at hc
            cases hc
    | some dx =>
      cases h1 : acc.1 with
      | none =>
        obtain ⟨h2, hnone⟩ := ih1 h1
        have hs : keep_nearest key acc x = (some x, some dx) := by
          unfold keep_nearest
          rw [hk]
          simp only [h2, below_closest, if_true]
        rw [hs]
        refine ⟨fun h => absurd h (by simp), ?_⟩
        intro b hb
        simp only [Option.some.injEq] at hb
        subst hb
        refine ⟨l.length, dx, by simp, hk, rfl, ?_⟩
        intro j c dc hj hc
        rcases hidx j c hj with ⟨_, hj'⟩ | ⟨hjl, rfl⟩
        · rw [hnone c (List.getElem?_mem hj')] at hc
          cases hc
        · rw [hk] at hc
          simp only [Option.some.injEq] at hc
          subst hc
          exact ⟨le_rfl, fun h => absurd h (by omega)⟩
      | some b0 =>
        obtain ⟨i0, d0, hi0, hd0, h2, hmin⟩ := ih2 b0 h1
        by_cases hlt0 : dx < d0
        · have hs : keep_nearest key acc x = (some x, some dx) := by
            unfold keep_nearest
            rw [hk]
            simp only [h2, below_closest, decide_eq_true_eq, if_pos hlt0]
          rw [hs]
          refine ⟨fun h => absurd h (by simp), ?_⟩
          intro b hb
          simp only [Option.some.injEq] at hb
          subst hb
          refine ⟨l.length, dx, by simp, hk, rfl, ?_⟩
          intro j c dc hj hc
          rcases hidx j c hj with ⟨_, hj'⟩ | ⟨hjl, rfl⟩
          · have := (hmin j c dc hj' hc).1
            exact ⟨by linarith, fun _ => by linarith⟩
          · rw [hk] at hc
            simp only [Option.some.injEq] at hc
            subst hc
            exact ⟨le_rfl, fun h => absurd h (by omega)⟩
        · have hs : keep_nearest key acc x = acc := by
            unfold keep_nearest
            rw [hk]
            simp only [h2, below_closest, decide_eq_true_eq, if_neg hlt0]
          rw [hs]
          refine ⟨fun h => absurd (h1.symm.trans h) (by simp), ?_⟩
          intro b hb
          rw [h1] at hb
          simp only [Option.some.injEq] at hb
          subst hb
          refine ⟨i0, d0, ?_, hd0, h2, ?_⟩
          · rw [List.getElem?_append_left (hlt i0 b0 hi0)]
            exact hi0
          · intro j c dc hj hc
            rcases hidx j c hj with ⟨_, hj'⟩ | ⟨hjl, rfl⟩
            · exact hmin j c dc hj' hc
            · rw [hk] at hc
              simp only [Option.some.injEq] at hc
              subst hc
              have := hlt i0 b0 hi0
              exact ⟨not_lt.mp hlt0, fun h => absurd h (by omega)⟩

/-- C36: for all borders `a` and `b`, `compare_lines_x a b` is positive exactly when `a`
comes strictly after `b` in the order by `a.x` ascending, then `b.x` descending (of two
edges with the same start the wider one first); in every other case it is 0. It is
never negative: its only values are 0 and 1. -/
theorem compare_lines_x_spec (border_a border_b : MetaBorder) :
    (0 < compare_lines_x border_a border_b ↔ sorts_after border_a border_b) ∧
      (¬ sorts_after border_a border_b → compare_lines_x border_a border_b = 0) ∧
      0 ≤ compare_lines_x border_a border_b ∧
      (compare_lines_x border_a border_b = 0 ∨ compare_lines_x border_a border_b = 1) := by
  unfold compare_lines_x sorts_after
  by_cases h1 : border_a.line.a.x = border_b.line.a.x
  · rw [if_pos h1]
    by_cases h2 : border_a.line.b.x < border_b.line.b.x
    · rw [if_pos h2]
      exact ⟨⟨fun _ => Or.inr ⟨h1, h2⟩, fun _ => one_pos⟩,
        fun h => absurd (Or.inr ⟨h1, h2⟩) h, zero_le_one, Or.inr rfl⟩
    · rw [if_neg h2]
      refine ⟨⟨fun h => absurd h (lt_irrefl _), ?_⟩, fun _ => rfl, le_rfl, Or.inl rfl⟩
      rintro (h | ⟨_, h⟩)
      · exact absurd h (by rw [h1]; exact lt_irrefl _)
      · exact absurd h h2
  · rw [if_neg h1]
    by_cases h2 : border_a.line.a.x > border_b.line.a.x
    · rw [if_pos h2]
      exact ⟨⟨fun _ => Or.inl h2, fun _ => one_pos⟩,
        fun h => absurd (Or.inl h2) h, zero_le_one, Or.inr rfl⟩
    · rw [if_neg h2]
      refine ⟨⟨fun h => absurd h (lt_irrefl _), ?_⟩, fun _ => rfl, le_rfl, Or.inl rfl⟩
      rintro (h | ⟨h, _⟩)
      · exact absurd h h2
      · exact absurd h h1

/-- With `compare_lines_x` the sort of the band merge leaves no border in front of one
that it comes strictly after. -/
theorem g_array_sort_sorted (array : List MetaBorder) :
    (g_array_sort array compare_lines_x).Pairwise fun a b => ¬ sorts_after a b := by
  have hiff : ∀ a b : MetaBorder, compare_lines_x a b ≤ 0 ↔ ¬ sorts_after a b := by
    intro a b
    have h := (compare_lines_x_spec a b).1
    constructor
    · intro hle hs
      have := h.mpr hs
      omega
    · intro hs
      by_contra hc
      exact hs (h.mp (by omega))
  haveI : IsTotal MetaBorder fun a b => compare_lines_x a b ≤ 0 := by
    constructor
    intro a b
    rw [hiff, hiff]
    unfold sorts_after
    by_contra hc
    push_neg at hc
    obtain ⟨h1, h2⟩ := hc
    rcases h1 with h1 | ⟨h1, h1'⟩ <;> rcases h2 with h2 | ⟨h2, h2'⟩ <;> linarith
  haveI : IsTrans MetaBorder fun a b => compare_lines_x a b ≤ 0 := by
    constructor
    intro a b c
    rw [hiff, hiff, hiff]
    unfold sorts_after
    intro hab hbc hac
    push_neg at hab hbc
    obtain ⟨hab1, hab2⟩ := hab
    obtain ⟨hbc1, hbc2⟩ := hbc
    rcases hac with h | ⟨h1, h2⟩
    · linarith
    · have e1 : a.line.a.x = b.line.a.x := le_antisymm hab1 (by rw [h1]; exact hbc1)
      have e2 : b.line.a.x = c.line.a.x := by rw [← e1, h1]
      have := hab2 e1
      have := hbc2 e2
      linarith
  have hs := List.sorted_insertionSort (fun a b : MetaBorder => compare_lines_x a b ≤ 0)
    array
  unfold g_array_sort
  refine List.Pairwise.imp ?_ hs
  intro a b hab
  exact (hiff a b).mp hab

/-! ## The point behind a border -/

/-- C35: for every region, origin `o`, margin, previous point `p`, candidate `c` and
fuel, the constrain operation with origin `o` applied to `p + o` and `c + o` gives what
the constrain operation with origin `(0, 0)` gives when applied to `p` and `c`, shifted
by `o`, after the same number of entries of the loop body; in exact arithmetic. When
the rectangles have positive width and height and the outline of the region is built,
both operations return, for every fuel of at least two. -/
theorem constrain_origin_translation (fuel : ℕ) (region : List MtkRectangle)
    (origin : MetaVector2) (min_edge_distance px py cx cy : ℚ) :
    meta_pointer_constraint_impl_native_constrain fuel ⟨region, origin, min_edge_distance⟩
        (px + origin.x) (py + origin.y) (cx + origin.x) (cy + origin.y) =
      (meta_pointer_constraint_impl_native_constrain fuel
        ⟨region, ⟨0, 0⟩, min_edge_distance⟩ px py cx cy).map
        (fun r => ⟨r.x + origin.x, r.y + origin.y, r.iterations⟩) ∧
    ((∀ r ∈ region, 0 < r.width ∧ 0 < r.height) →
      (region_to_outline region []).isSome = true → 2 ≤ fuel →
      ∃ r : ConstrainResult,
        meta_pointer_constraint_impl_native_constrain fuel
          ⟨region, ⟨0, 0⟩, min_edge_distance⟩ px py cx cy = some r ∧
        meta_pointer_constraint_impl_native_constrain fuel
          ⟨region, origin, min_edge_distance⟩
          (px + origin.x) (py + origin.y) (cx + origin.x) (cy + origin.y) =
          some ⟨r.x + origin.x, r.y + origin.y, r.iterations⟩) := by
  have hmain : meta_pointer_constraint_impl_native_constrain fuel
        ⟨region, origin, min_edge_distance⟩
        (px + origin.x) (py + origin.y) (cx + origin.x) (cy + origin.y) =
      (meta_pointer_constraint_impl_native_constrain fuel
        ⟨region, ⟨0, 0⟩, min_edge_distance⟩ px py cx cy).map
        (fun r => ⟨r.x + origin.x, r.y + origin.y, r.iterations⟩) := by
    unfold meta_pointer_constraint_impl_native_constrain
    by_cases he : mtk_region_is_empty region = true
    · simp only [he, if_true, Option.map_some', zero_add]
    · simp only [he, Bool.false_eq_true, if_false]
      cases hout : region_to_outline region [] with
      | none => rfl
      | some borders =>
        simp only
        have hx : (if cx + origin.x > px + origin.x then cx + origin.x + wl_fixed_unit
            else cx + origin.x) - origin.x =
            (if cx > px then cx + wl_fixed_unit else cx) - 0 := by
          by_cases h : cx > px
          · rw [if_pos h, if_pos (by linarith)]; ring
          · rw [if_neg h, if_neg (by linarith)]; ring
        have hy : (if cy + origin.y > py + origin.y then cy + origin.y + wl_fixed_unit
            else cy + origin.y) - origin.y =
            (if cy > py then cy + wl_fixed_unit else cy) - 0 := by
          by_cases h : cy > py
          · rw [if_pos h, if_pos (by linarith)]; ring
          · rw [if_neg h, if_neg (by linarith)]; ring
        have hpx : px + origin.x - origin.x = px - 0 := by ring
        have hpy : py + origin.y - origin.y = py - 0 := by ring
        rw [hx, hy, hpx, hpy, Option.map_map]
        congr 1
        funext r
        simp only [Function.comp, add_zero]
  refine ⟨hmain, ?_⟩
  intro hv hsome hfuel
  obtain ⟨borders, hout⟩ := Option.isSome_iff_exists.mp hsome
  obtain ⟨r, _, hr⟩ := constrain_returns_of_outline ⟨region, ⟨0, 0⟩, min_edge_distance⟩
    borders px py cx cy hv hout
  refine ⟨r, hr fuel hfuel, ?_⟩
  rw [hmain, hr fuel hfuel]
  rfl

/-! ## The border that the recovery selects -/

/-- Clamping `x` into `[a, b]` gives the point of `[a, b]` nearest to `x`. -/
theorem clamp_nearest (a b x q : ℚ) (hab : a ≤ b) (hq1 : a ≤ q) (hq2 : q ≤ b) :
    ((if x < a then a else if x > b then b else x) - x) *
        ((if x < a then a else if x > b then b else x) - x) ≤ (q - x) * (q - x) ∧
      a ≤ (if x < a then a else if x > b then b else x) ∧
      (if x < a then a else if x > b then b else x) ≤ b := by
  by_cases h1 : x < a
  · rw [if_pos h1]
    exact ⟨by nlinarith, le_rfl, hab⟩
  · by_cases h2 : x > b
    · rw [if_neg h1, if_pos h2]
      exact ⟨by nlinarith, hab, le_rfl⟩
    · rw [if_neg h1, if_neg h2]
      push_neg at h1 h2
      exact ⟨by nlinarith [mul_self_nonneg (q - x)], h1, h2⟩

/-- A value between `a` and `b` is reached on the way from `a` to `b`. -/
theorem between_param (a b v : ℚ) (h1 : a ≤ v) (h2 : v ≤ b) :
    ∃ t : ℚ, 0 ≤ t ∧ t ≤ 1 ∧ v = a + t * (b - a) := by
  by_cases hab : a = b
  · exact ⟨0, le_rfl, zero_le_one, by rw [zero_mul, add_zero]; linarith⟩
  · exact (between_iff a b v hab).mpr
      ⟨by rw [min_eq_left (by linarith)]; exact h1,
        by rw [max_eq_right (by linarith)]; exact h2⟩

/-- For a border with its ends in order, `point_to_border_distance_2` is the squared
Euclidean distance from the point to the closest point of the segment. -/
theorem point_to_border_distance_2_of_ordered (border : MetaBorder) (x y : ℚ)
    (h : ends_ordered border) :
    segment_distance_2 border x y (point_to_border_distance_2 border x y) := by
  obtain ⟨⟨⟨ax, ay⟩, ⟨bx, byy⟩⟩, dirs⟩ := border
  unfold ends_ordered at h
  simp only at h
  unfold segment_distance_2 on_segment squared_distance point_to_border_distance_2
    meta_border_is_horizontal
  simp only [abs_mul_abs_self]
  rcases h with ⟨hy, hx⟩ | ⟨hx, hy⟩
  · subst hy
    simp only [decide_True, if_true]
    refine ⟨?_, ?_⟩
    · obtain ⟨_, c1, c2⟩ := clamp_nearest ax bx x ax hx le_rfl hx
      obtain ⟨t, t0, t1, ht⟩ := between_param ax bx _ c1 c2
      refine ⟨_, ay, ⟨t, t0, t1, ht, by ring⟩, ?_⟩
      ring
    · rintro qx qy ⟨t, t0, t1, hqx, hqy⟩
      have hq1 : ax ≤ qx := by
        rw [hqx]; nlinarith [mul_nonneg t0 (sub_nonneg.mpr hx)]
      have hq2 : qx ≤ bx := by
        rw [hqx]; nlinarith [mul_nonneg (sub_nonneg.mpr t1) (sub_nonneg.mpr hx)]
      have hqy' : qy = ay := by rw [hqy]; ring
      obtain ⟨c0, _, _⟩ := clamp_nearest ax bx x qx hx hq1 hq2
      rw [hqy']
      nlinarith
  · subst hx
    have hne : ¬ ay = byy := ne_of_lt hy
    simp only [hne, decide_False, Bool.false_eq_true, if_false]
    refine ⟨?_, ?_⟩
    · obtain ⟨_, c1, c2⟩ := clamp_nearest ay byy y ay hy.le le_rfl hy.le
      obtain ⟨t, t0, t1, ht⟩ := between_param ay byy _ c1 c2
      refine ⟨ax, _, ⟨t, t0, t1, by ring, ht⟩, ?_⟩
      ring
    · rintro qx qy ⟨t, t0, t1, hqx, hqy⟩
      have hq1 : ay ≤ qy := by
        rw [hqy]; nlinarith [mul_nonneg t0 (sub_nonneg.mpr hy.le)]
      have hq2 : qy ≤ byy := by
        rw [hqy]; nlinarith [mul_nonneg (sub_nonneg.mpr t1) (sub_nonneg.mpr hy.le)]
      have hqx' : qx = ax := by rw [hqx]; ring
      obtain ⟨c0, _, _⟩ := clamp_nearest ay byy y qy hy.le hq1 hq2
      rw [hqx']
      nlinarith

/-- The squared distance to the closest point of a segment is one number. -/
theorem segment_distance_2_unique (border : MetaBorder) (x y d e : ℚ)
    (hd : segment_distance_2 border x y d) (he : segment_distance_2 border x y e) :
    d = e := by
  obtain ⟨⟨qx, qy, hq, hqd⟩, hdmin⟩ := hd
  obtain ⟨⟨rx, ry, hr, hre⟩, hemin⟩ := he
  have h1 := hdmin rx ry hr
  have h2 := hemin qx qy hq
  linarith

/-- On an array of borders that all have their ends in order, the search loop of the
ensure-constrained operation ends on the first of the borders that are nearest to the
point in the Euclidean distance to the closest point of the segment. -/
theorem nearest_border_of_ordered (borders : List MetaBorder) (rel_x rel_y : ℚ)
    (hord : ∀ c ∈ borders, ends_ordered c) (hne : borders ≠ []) :
    ∃ (b : MetaBorder) (i : ℕ) (d : ℚ),
      (borders.foldl (nearest_border_step rel_x rel_y) (none, none)).1 = some b ∧
      borders[i]? = some b ∧ segment_distance_2 b rel_x rel_y d ∧
      ∀ (j : ℕ) (c : MetaBorder) (dc : ℚ), borders[j]? = some c →
        segment_distance_2 c rel_x rel_y dc → d ≤ dc ∧ (j < i → d < dc) := by
  obtain ⟨h1, h2⟩ := keep_nearest_fold
    (fun b => some (point_to_border_distance_2 b rel_x rel_y)) borders
  rw [← nearest_border_step_eq] at h1 h2
  cases hr : (borders.foldl (nearest_border_step rel_x rel_y) (none, none)).1 with
  | none =>
    exfalso
    obtain ⟨c, l, hcl⟩ := List.exists_cons_of_ne_nil hne
    have := (h1 hr).2 c (by rw [hcl]; exact List.mem_cons_self c l)
    cases this
  | some b =>
    obtain ⟨i, d, hi, hd, _, hmin⟩ := h2 b hr
    simp only [Option.some.injEq] at hd
    refine ⟨b, i, d, rfl, hi, ?_, ?_⟩
    · rw [← hd]
      exact point_to_border_distance_2_of_ordered b rel_x rel_y
        (hord b (List.getElem?_mem hi))
    · intro j c dc hj hc
      have hpc := point_to_border_distance_2_of_ordered c rel_x rel_y
        (hord c (List.getElem?_mem hj))
      have := segment_distance_2_unique c rel_x rel_y _ _ hpc hc
      exact hmin j c dc hj (by rw [this])

/-- C32 at the failing input: the region of the rectangles `(0,0)-(2,1)` and
`(1,1)-(3,2)` is in banded form and meets the input constraint, and the point
`(5/2, 9/10)` lies outside it. Its outline holds the border from `(3,1)` to `(2,1)`,
whose ends are not in order; the point `(5/2, 1)` of that border lies at the squared
distance `1/100` from the point, yet `point_to_border_distance_2` gives `13/50` for
it. The search ends on the right edge `(2,0)-(2,1)` of the first rectangle, every point
of which lies at a squared distance of at least `1/4`, and the pointer is warped to
`(2 - 1/256, 9/10)`. -/
theorem recovery_selects_border_that_is_not_nearest :
    banded ([⟨0, 0, 2, 1⟩, ⟨1, 1, 2, 1⟩].map box_of_rectangle) ∧
      meets_input_constraint ([⟨0, 0, 2, 1⟩, ⟨1, 1, 2, 1⟩].map box_of_rectangle) ∧
      ¬ inside_region [⟨0, 0, 2, 1⟩, ⟨1, 1, 2, 1⟩] (5 / 2) (9 / 10) ∧
      region_to_outline [⟨0, 0, 2, 1⟩, ⟨1, 1, 2, 1⟩] [] = some overlapping_rows_outline ∧
      (overlapping_rows_outline.foldl (nearest_border_step (5 / 2) (9 / 10))
        (none, none)).1 = some (right_edge ⟨0, 0, 2, 1⟩) ∧
      meta_pointer_constraint_impl_native_ensure_constrained
        ⟨[⟨0, 0, 2, 1⟩, ⟨1, 1, 2, 1⟩], ⟨0, 0⟩, 0⟩ ⟨5 / 2, 9 / 10⟩ =
        some (some ⟨2 - 1 / 256, 9 / 10⟩) ∧
      (⟨⟨⟨3, 1⟩, ⟨2, 1⟩⟩, META_BORDER_MOTION_DIRECTION_POSITIVE_Y⟩ : MetaBorder) ∈
        overlapping_rows_outline ∧
      ¬ ends_ordered ⟨⟨⟨3, 1⟩, ⟨2, 1⟩⟩, META_BORDER_MOTION_DIRECTION_POSITIVE_Y⟩ ∧
      on_segment ⟨⟨⟨3, 1⟩, ⟨2, 1⟩⟩, META_BORDER_MOTION_DIRECTION_POSITIVE_Y⟩ (5 / 2) 1 ∧
      squared_distance (5 / 2) (9 / 10) (5 / 2) 1 = 1 / 100 ∧
      point_to_border_distance_2
        ⟨⟨⟨3, 1⟩, ⟨2, 1⟩⟩, META_BORDER_MOTION_DIRECTION_POSITIVE_Y⟩ (5 / 2) (9 / 10) =
        13 / 50 ∧
      ∀ qx qy, on_segment (right_edge ⟨0, 0, 2, 1⟩) qx qy →
        1 / 4 ≤ squared_distance (5 / 2) (9 / 10) qx qy := by
  refine ⟨by decide, by decide, by decide!, region_to_outline_overlapping_rows, by decide!,
    by decide!, by decide, by decide!, ⟨1 / 2, by norm_num, by norm_num, by norm_num,
      by norm_num⟩, by decide!, by decide!, ?_⟩
  rintro qx qy ⟨t, _, _, hx, _⟩
  simp only [right_edge] at hx
  have hq : qx = 2 := by rw [hx]; push_cast; ring
  unfold squared_distance
  rw [hq]
  nlinarith [mul_self_nonneg (9 / 10 - qy)]

/-! ## Rounding to a binary floating-point format -/

theorem bit_length_below_spec (fuel n : ℕ) (hle : n ≤ fuel) (hn : n ≠ 0) :
    2 ^ bit_length_below fuel n ≤ n ∧ n < 2 ^ (bit_length_below fuel n + 1) := by
  induction fuel generalizing n with
  | zero => omega
  | succ fuel ih =>
    unfold bit_length_below
    by_cases h2 : n < 2
    · rw [if_pos h2]
      constructor
      · simp; omega
      · simpa using h2
    · rw [if_neg h2]
      have h3 := ih (n / 2) (by omega) (by omega)
      constructor
      · rw [pow_succ]; omega
      · rw [pow_succ]; omega

/-- The exponent that `floor_log2` finds encloses the magnitude of the number. -/
theorem floor_log2_spec (v : ℚ) (hv : v ≠ 0) :
    (2 : ℚ) ^ floor_log2 v ≤ |v| ∧ |v| < (2 : ℚ) ^ (floor_log2 v + 1) := by
  have hnum : v.num.natAbs ≠ 0 := by
    simpa using Rat.num_ne_zero.mpr hv
  have hden : v.den ≠ 0 := v.den_nz
  obtain ⟨n1, n2⟩ := bit_length_below_spec v.num.natAbs v.num.natAbs (le_refl _) hnum
  obtain ⟨d1, d2⟩ := bit_length_below_spec v.den v.den (le_refl _) hden
  have habs : |v| = (v.num.natAbs : ℚ) / (v.den : ℚ) := by
    conv_lhs => rw [← Rat.num_div_den v]
    rw [abs_div, Nat.abs_cast, Nat.cast_natAbs, Int.cast_abs]
  have hdpos : (0 : ℚ) < v.den := by exact_mod_cast Nat.pos_of_ne_zero hden
  have n1q : (2 : ℚ) ^ bit_length_below v.num.natAbs v.num.natAbs ≤ (v.num.natAbs : ℚ) := by
    exact_mod_cast n1
  have n2q : (v.num.natAbs : ℚ) < (2 : ℚ) ^ (bit_length_below v.num.natAbs v.num.natAbs + 1) := by
    exact_mod_cast n2
  have d1q : (2 : ℚ) ^ bit_length_below v.den v.den ≤ (v.den : ℚ) := by
    exact_mod_cast d1
  have d2q : (v.den : ℚ) < (2 : ℚ) ^ (bit_length_below v.den v.den + 1) := by
    exact_mod_cast d2
  have h2 : (0 : ℚ) < 2 := by norm_num
  have hupper : |v| < (2 : ℚ) ^ ((bit_length_below v.num.natAbs v.num.natAbs : ℤ) -
      (bit_length_below v.den v.den : ℤ) + 1) := by
    rw [habs, div_lt_iff₀ hdpos]
    have e : (2 : ℚ) ^ ((bit_length_below v.num.natAbs v.num.natAbs : ℤ) -
        (bit_length_below v.den v.den : ℤ) + 1) =
        (2 : ℚ) ^ (bit_length_below v.num.natAbs v.num.natAbs + 1) /
          (2 : ℚ) ^ bit_length_below v.den v.den := by
      rw [show ((bit_length_below v.num.natAbs v.num.natAbs : ℤ) -
          (bit_length_below v.den v.den : ℤ) + 1) =
          ((bit_length_below v.num.natAbs v.num.natAbs + 1 : ℕ) : ℤ) -
            ((bit_length_below v.den v.den : ℕ) : ℤ) by push_cast; ring]
      rw [zpow_sub₀ (by norm_num), zpow_natCast, zpow_natCast]
    rw [e, div_mul_eq_mul_div, lt_div_iff₀ (by positivity)]
    calc (v.num.natAbs : ℚ) * 2 ^ bit_length_below v.den v.den
        ≤ (v.num.natAbs : ℚ) * v.den := by
          apply mul_le_mul_of_nonneg_left d1q (by positivity)
      _ < 2 ^ (bit_length_below v.num.natAbs v.num.natAbs + 1) * v.den := by
          apply mul_lt_mul_of_pos_right n2q hdpos
  have hlower : (2 : ℚ) ^ ((bit_length_below v.num.natAbs v.num.natAbs : ℤ) -
      (bit_length_below v.den v.den : ℤ) - 1) ≤ |v| := by
    rw [habs, le_div_iff₀ hdpos]
    have e : (2 : ℚ) ^ ((bit_length_below v.num.natAbs v.num.natAbs : ℤ) -
        (bit_length_below v.den v.den : ℤ) - 1) =
        (2 : ℚ) ^ bit_length_below v.num.natAbs v.num.natAbs /
          (2 : ℚ) ^ (bit_length_below v.den v.den + 1) := by
      rw [show ((bit_length_below v.num.natAbs v.num.natAbs : ℤ) -
          (bit_length_below v.den v.den : ℤ) - 1) =
          ((bit_length_below v.num.natAbs v.num.natAbs : ℕ) : ℤ) -
            ((bit_length_below v.den v.den + 1 : ℕ) : ℤ) by push_cast; ring]
      rw [zpow_sub₀ (by norm_num), zpow_natCast, zpow_natCast]
    rw [e, div_mul_eq_mul_div, div_le_iff₀ (by positivity)]
    calc (2 : ℚ) ^ bit_length_below v.num.natAbs v.num.natAbs * v.den
        ≤ (v.num.natAbs : ℚ) * v.den := by
          apply mul_le_mul_of_nonneg_right n1q (by positivity)
      _ ≤ (v.num.natAbs : ℚ) * 2 ^ (bit_length_below v.den v.den + 1) := by
          apply mul_le_mul_of_nonneg_left d2q.le (by positivity)
  unfold floor_log2
  by_cases h : (2 : ℚ) ^ ((bit_length_below v.num.natAbs v.num.natAbs : ℤ) -
      (bit_length_below v.den v.den : ℤ)) ≤ |v|
  · rw [if_pos h]
    exact ⟨h, hupper⟩
  · rw [if_neg h]
    refine ⟨hlower, ?_⟩
    rw [sub_add_cancel]
    exact not_le.mp h

/-- The nearest integer is the integer part or the one above it. -/
theorem round_half_even_cases (s : ℚ) :
    round_half_even s = ⌊s⌋ ∨ (round_half_even s = ⌊s⌋ + 1 ∧ (⌊s⌋ : ℚ) < s) := by
  unfold round_half_even
  by_cases h1 : s - ⌊s⌋ < 1 / 2
  · rw [if_pos h1]; exact Or.inl rfl
  rw [if_neg h1]
  have hpos : (⌊s⌋ : ℚ) < s := by linarith
  by_cases h2 : 1 / 2 < s - ⌊s⌋
  · rw [if_pos h2]; exact Or.inr ⟨rfl, hpos⟩
  rw [if_neg h2]
  by_cases h3 : ⌊s⌋ % 2 = 0
  · rw [if_pos h3]; exact Or.inl rfl
  · rw [if_neg h3]; exact Or.inr ⟨rfl, hpos⟩

theorem round_half_even_ge (s : ℚ) (z : ℤ) (h : (z : ℚ) ≤ s) : z ≤ round_half_even s := by
  have hz : z ≤ ⌊s⌋ := Int.le_floor.mpr h
  rcases round_half_even_cases s with e | ⟨e, _⟩ <;> rw [e] <;> omega

theorem round_half_even_le (s : ℚ) (z : ℤ) (h : s ≤ (z : ℚ)) : round_half_even s ≤ z := by
  rcases round_half_even_cases s with e | ⟨e, hlt⟩
  · rw [e]
    have : (⌊s⌋ : ℚ) ≤ z := le_trans (Int.floor_le s) h
    exact_mod_cast this
  · rw [e]
    have : (⌊s⌋ : ℚ) < z := lt_of_lt_of_le hlt h
    have : ⌊s⌋ < z := by exact_mod_cast this
    omega

theorem round_half_even_int (z : ℤ) : round_half_even (z : ℚ) = z :=
  le_antisymm (round_half_even_le _ z (le_refl _)) (round_half_even_ge _ z (le_refl _))

/-- Rounding a number other than `0`: the nearest integer multiple of the unit in the
last place of its binade. -/
theorem round_to_format_of_ne_zero (precision : ℕ) (emin : ℤ) (v : ℚ) (hv : v ≠ 0) :
    round_to_format precision emin v =
      round_half_even (v / 2 ^ max (floor_log2 v - (precision - 1)) emin) *
        2 ^ max (floor_log2 v - (precision - 1)) emin := by
  unfold round_to_format
  rw [if_neg hv]

/-- An integer multiple `k * 2 ^ q` of a power of two is an integer multiple of every
smaller power of two. -/
theorem multiple_of_smaller_power (k : ℤ) (q r : ℤ) (h : r ≤ q) :
    (k : ℚ) * 2 ^ q / 2 ^ r = ((k * 2 ^ (q - r).toNat : ℤ) : ℚ) := by
  have h2 : (2 : ℚ) ≠ 0 := by norm_num
  have e : (2 : ℚ) ^ q = 2 ^ (q - r).toNat * 2 ^ r := by
    rw [← zpow_natCast, ← zpow_add₀ h2]
    congr 1
    rw [Int.toNat_of_nonneg (by omega)]
    ring
  rw [e]
  push_cast
  field_simp
  ring

/-- A value of the format is left as it is: an integer multiple `k * 2 ^ q` with
`|k| < 2 ^ precision` and `emin ≤ q` rounds to itself. -/
theorem round_to_format_of_value (precision : ℕ) (emin : ℤ) (k q : ℤ)
    (hk : |k| < 2 ^ precision) (hq : emin ≤ q) :
    round_to_format precision emin ((k : ℚ) * 2 ^ q) = (k : ℚ) * 2 ^ q := by
  have h2 : (2 : ℚ) ≠ 0 := by norm_num
  have hpow : (0 : ℚ) < 2 ^ q := by positivity
  by_cases hk0 : k = 0
  · subst hk0
    simp [round_to_format]
  have hv : (k : ℚ) * 2 ^ q ≠ 0 := by
    apply mul_ne_zero
    · exact_mod_cast hk0
    · exact ne_of_gt hpow
  rw [round_to_format_of_ne_zero precision emin _ hv]
  obtain ⟨hlow, _⟩ := floor_log2_spec _ hv
  have habs : |(k : ℚ) * 2 ^ q| < 2 ^ ((precision : ℤ) + q) := by
    rw [abs_mul, abs_of_pos hpow, zpow_add₀ h2, zpow_natCast]
    apply mul_lt_mul_of_pos_right _ hpow
    have : ((|k| : ℤ) : ℚ) < ((2 ^ precision : ℤ) : ℚ) := by exact_mod_cast hk
    simpa using this
  have hexp : floor_log2 ((k : ℚ) * 2 ^ q) < (precision : ℤ) + q := by
    have := lt_of_le_of_lt hlow habs
    exact (zpow_lt_zpow_iff_right₀ (by norm_num : (1 : ℚ) < 2)).mp this
  have hle : max (floor_log2 ((k : ℚ) * 2 ^ q) - ((precision : ℤ) - 1)) emin ≤ q := by
    apply max_le
    · omega
    · exact hq
  rw [multiple_of_smaller_power k q _ hle, round_half_even_int,
    ← multiple_of_smaller_power k q _ hle]
  field_simp

/-- What a number other than `0` that rounding leaves as it is looks like: an integer
multiple of the unit in the last place of its binade. -/
theorem round_to_format_fixed (precision : ℕ) (emin : ℤ) (a : ℚ) (ha0 : a ≠ 0)
    (ha : round_to_format precision emin a = a) :
    ∃ R : ℤ, a = (R : ℚ) * 2 ^ max (floor_log2 a - (precision - 1)) emin :=
  ⟨round_half_even (a / 2 ^ max (floor_log2 a - (precision - 1)) emin), by
    conv_lhs => rw [← ha, round_to_format_of_ne_zero precision emin a ha0]⟩

/-- A value of the format that is on the grid of the binade of `v`, or smaller in
magnitude than the lower end of that binade. -/
theorem value_on_grid_or_below (precision : ℕ) (emin : ℤ) (a v : ℚ)
    (ha : round_to_format precision emin a = a) :
    (∃ z : ℤ, a = (z : ℚ) * 2 ^ max (floor_log2 v - (precision - 1)) emin) ∨
      (|a| < 2 ^ floor_log2 v ∧
        max (floor_log2 v - ((precision : ℤ) - 1)) emin =
          floor_log2 v - ((precision : ℤ) - 1)) := by
  have h2 : (2 : ℚ) ≠ 0 := by norm_num
  by_cases ha0 : a = 0
  · exact Or.inl ⟨0, by simp [ha0]⟩
  obtain ⟨R, hR⟩ := round_to_format_fixed precision emin a ha0 ha
  by_cases hq : max (floor_log2 v - ((precision : ℤ) - 1)) emin ≤
      max (floor_log2 a - ((precision : ℤ) - 1)) emin
  · left
    refine ⟨R * 2 ^ (max (floor_log2 a - ((precision : ℤ) - 1)) emin -
      max (floor_log2 v - ((precision : ℤ) - 1)) emin).toNat, ?_⟩
    rw [← multiple_of_smaller_power R _ _ hq, ← hR]
    field_simp
  · right
    have hlt : floor_log2 a < floor_log2 v := by
      rcases le_total (floor_log2 v - ((precision : ℤ) - 1)) emin with h | h
      · rw [max_eq_right h] at hq
        exact absurd (le_max_right _ _) hq
      · rw [max_eq_left h] at hq
        have := le_max_left (floor_log2 a - ((precision : ℤ) - 1)) emin
        omega
    constructor
    · obtain ⟨_, hup⟩ := floor_log2_spec a ha0
      refine lt_of_lt_of_le hup ?_
      exact (zpow_le_zpow_iff_right₀ (by norm_num : (1 : ℚ) < 2)).mpr (by omega)
    · rcases le_total (floor_log2 v - ((precision : ℤ) - 1)) emin with h | h
      · rw [max_eq_right h] at hq
        exact absurd (le_max_right _ _) hq
      · exact max_eq_left h

/-- Rounding does not pass a value of the format from above: a value `a ≤ v` stays at
most the rounded `v`. -/
theorem round_to_format_ge (precision : ℕ) (emin : ℤ) (a v : ℚ) (hp : 1 ≤ precision)
    (ha : round_to_format precision emin a = a) (h : a ≤ v) :
    a ≤ round_to_format precision emin v := by
  have h2 : (2 : ℚ) ≠ 0 := by norm_num
  by_cases hv : v = 0
  · subst hv
    simpa [round_to_format] using h
  rw [round_to_format_of_ne_zero precision emin v hv]
  have hpow : (0 : ℚ) < 2 ^ max (floor_log2 v - ((precision : ℤ) - 1)) emin := by
    positivity
  rcases value_on_grid_or_below precision emin a v ha with ⟨z, hz⟩ | ⟨hlt, hmax⟩
  · rw [hz]
    apply mul_le_mul_of_nonneg_right _ hpow.le
    have : (z : ℚ) ≤ v / 2 ^ max (floor_log2 v - ((precision : ℤ) - 1)) emin := by
      rw [le_div_iff₀ hpow, ← hz]; exact h
    exact_mod_cast round_half_even_ge _ z this
  · obtain ⟨hlow, _⟩ := floor_log2_spec v hv
    rcases lt_or_gt_of_ne hv with hneg | hpos
    · exfalso
      have h1 : |v| = -v := abs_of_neg hneg
      have h3 : |a| = -a := abs_of_neg (lt_of_le_of_lt h hneg)
      linarith
    · have h1 : |v| = v := abs_of_pos hpos
      rw [h1] at hlow
      rw [hmax]
      have hgrid : ((2 ^ (precision - 1) : ℤ) : ℚ) ≤
          v / 2 ^ (floor_log2 v - ((precision : ℤ) - 1)) := by
        rw [le_div_iff₀ (by positivity)]
        push_cast
        rw [← zpow_natCast, ← zpow_add₀ h2]
        have : ((precision - 1 : ℕ) : ℤ) + (floor_log2 v - ((precision : ℤ) - 1)) =
            floor_log2 v := by
          rw [Nat.cast_sub hp]; push_cast; ring
        rw [this]
        exact hlow
      have hR := round_half_even_ge _ _ hgrid
      have hRq : ((2 ^ (precision - 1) : ℤ) : ℚ) ≤
          (round_half_even (v / 2 ^ (floor_log2 v - ((precision : ℤ) - 1))) : ℚ) := by
        exact_mod_cast hR
      have hprod : (2 : ℚ) ^ floor_log2 v ≤
          (round_half_even (v / 2 ^ (floor_log2 v - ((precision : ℤ) - 1))) : ℚ) *
            2 ^ (floor_log2 v - ((precision : ℤ) - 1)) := by
        have e : (2 : ℚ) ^ floor_log2 v = ((2 ^ (precision - 1) : ℤ) : ℚ) *
            2 ^ (floor_log2 v - ((precision : ℤ) - 1)) := by
          push_cast
          rw [← zpow_natCast, ← zpow_add₀ h2]
          congr 1
          rw [Nat.cast_sub hp]; push_cast; ring
        rw [e]
        exact mul_le_mul_of_nonneg_right hRq (by positivity)
      have := le_abs_self a
      linarith

/-- Rounding does not pass a value of the format from below: a value `a ≥ v` stays at
least the rounded `v`. -/
theorem round_to_format_le (precision : ℕ) (emin : ℤ) (a v : ℚ) (hp : 1 ≤ precision)
    (ha : round_to_format precision emin a = a) (h : v ≤ a) :
    round_to_format precision emin v ≤ a := by
  have h2 : (2 : ℚ) ≠ 0 := by norm_num
  by_cases hv : v = 0
  · subst hv
    simpa [round_to_format] using h
  rw [round_to_format_of_ne_zero precision emin v hv]
  have hpow : (0 : ℚ) < 2 ^ max (floor_log2 v - ((precision : ℤ) - 1)) emin := by
    positivity
  rcases value_on_grid_or_below precision emin a v ha with ⟨z, hz⟩ | ⟨hlt, hmax⟩
  · rw [hz]
    apply mul_le_mul_of_nonneg_right _ hpow.le
    have : v / 2 ^ max (floor_log2 v - ((precision : ℤ) - 1)) emin ≤ (z : ℚ) := by
      rw [div_le_iff₀ hpow, ← hz]; exact h
    exact_mod_cast round_half_even_le _ z this
  · obtain ⟨hlow, _⟩ := floor_log2_spec v hv
    rcases lt_or_gt_of_ne hv with hneg | hpos
    · have h1 : |v| = -v := abs_of_neg hneg
      rw [h1] at hlow
      rw [hmax]
      have hgrid : v / 2 ^ (floor_log2 v - ((precision : ℤ) - 1)) ≤
          ((-(2 ^ (precision - 1)) : ℤ) : ℚ) := by
        rw [div_le_iff₀ (by positivity)]
        push_cast
        rw [neg_mul, ← zpow_natCast, ← zpow_add₀ h2]
        have : ((precision - 1 : ℕ) : ℤ) + (floor_log2 v - ((precision : ℤ) - 1)) =
            floor_log2 v := by
          rw [Nat.cast_sub hp]; push_cast; ring
        rw [this]
        linarith
      have hR := round_half_even_le _ _ hgrid
      have hRq : (round_half_even (v / 2 ^ (floor_log2 v - ((precision : ℤ) - 1))) : ℚ) ≤
          ((-(2 ^ (precision - 1)) : ℤ) : ℚ) := by
        exact_mod_cast hR
      have hprod : (round_half_even (v / 2 ^ (floor_log2 v - ((precision : ℤ) - 1))) : ℚ) *
            2 ^ (floor_log2 v - ((precision : ℤ) - 1)) ≤ -(2 : ℚ) ^ floor_log2 v := by
        have e : -(2 : ℚ) ^ floor_log2 v = ((-(2 ^ (precision - 1)) : ℤ) : ℚ) *
            2 ^ (floor_log2 v - ((precision : ℤ) - 1)) := by
          push_cast
          rw [neg_mul, ← zpow_natCast, ← zpow_add₀ h2]
          congr 2
          rw [Nat.cast_sub hp]; push_cast; ring
        rw [e]
        exact mul_le_mul_of_nonneg_right hRq (by positivity)
      have := neg_abs_le a
      linarith
    · exfalso
      have h1 : |v| = v := abs_of_pos hpos
      have h3 : |a| = a := abs_of_pos (lt_of_lt_of_le hpos h)
      linarith

/-- The result of rounding is a value of the format: an integer multiple `k * 2 ^ q`
with `|k| < 2 ^ precision` and `emin ≤ q`. -/
theorem round_to_format_value (precision : ℕ) (emin : ℤ) (v : ℚ) (hp : 1 ≤ precision) :
    ∃ k q : ℤ, round_to_format precision emin v = (k : ℚ) * 2 ^ q ∧ |k| < 2 ^ precision ∧
      emin ≤ q := by
  have h2 : (2 : ℚ) ≠ 0 := by norm_num
  have hone : |(1 : ℤ)| < 2 ^ precision := by
    rw [abs_one]
    exact one_lt_pow₀ (by norm_num) (by omega)
  have hmone : |(-1 : ℤ)| < 2 ^ precision := by
    rw [abs_neg]; exact hone
  by_cases hv : v = 0
  · subst hv
    exact ⟨0, emin, by simp [round_to_format], by positivity, le_refl _⟩
  rw [round_to_format_of_ne_zero precision emin v hv]
  obtain ⟨_, hup⟩ := floor_log2_spec v hv
  have hpow : (0 : ℚ) < 2 ^ max (floor_log2 v - ((precision : ℤ) - 1)) emin := by
    positivity
  have hs : |v / 2 ^ max (floor_log2 v - ((precision : ℤ) - 1)) emin| ≤
      ((2 ^ precision : ℤ) : ℚ) := by
    rw [abs_div, abs_of_pos hpow, div_le_iff₀ hpow]
    refine le_trans hup.le ?_
    push_cast
    rw [← zpow_natCast, ← zpow_add₀ h2]
    apply (zpow_le_zpow_iff_right₀ (by norm_num : (1 : ℚ) < 2)).mpr
    have := le_max_left (floor_log2 v - ((precision : ℤ) - 1)) emin
    omega
  have hR1 : round_half_even (v / 2 ^ max (floor_log2 v - ((precision : ℤ) - 1)) emin) ≤
      2 ^ precision :=
    round_half_even_le _ _ (le_trans (le_abs_self _) hs)
  have hR2 : -(2 ^ precision) ≤
      round_half_even (v / 2 ^ max (floor_log2 v - ((precision : ℤ) - 1)) emin) := by
    apply round_half_even_ge
    push_cast
    have := neg_abs_le (v / 2 ^ max (floor_log2 v - ((precision : ℤ) - 1)) emin)
    push_cast at hs
    linarith
  generalize round_half_even (v / 2 ^ max (floor_log2 v - ((precision : ℤ) - 1)) emin) = R
    at hR1 hR2
  have hemin : emin ≤ max (floor_log2 v - ((precision : ℤ) - 1)) emin := le_max_right _ _
  generalize max (floor_log2 v - ((precision : ℤ) - 1)) emin = q at hemin
  rcases eq_or_lt_of_le hR1 with e1 | l1
  · refine ⟨1, q + precision, ?_, hone, by omega⟩
    rw [e1, zpow_add₀ h2, zpow_natCast]; push_cast; ring
  rcases eq_or_lt_of_le hR2 with e2 | l2
  · refine ⟨-1, q + precision, ?_, hmone, by omega⟩
    rw [← e2, zpow_add₀ h2, zpow_natCast]; push_cast; ring
  · exact ⟨R, q, rfl, abs_lt.mpr ⟨l2, l1⟩, hemin⟩

/-- Rounding a rounded value again changes nothing. -/
theorem round_to_format_idem (precision : ℕ) (emin : ℤ) (v : ℚ) (hp : 1 ≤ precision) :
    round_to_format precision emin (round_to_format precision emin v) =
      round_to_format precision emin v := by
  obtain ⟨k, q, e, hk, hq⟩ := round_to_format_value precision emin v hp
  rw [e]
  exact round_to_format_of_value precision emin k q hk hq

/-! ## Facts about `float` and `double` values -/

theorem float_round_idem (v : ℚ) : float_round (float_round v) = float_round v :=
  round_to_format_idem 24 (-149) v (by norm_num)

/-- A `float` at most `v` is at most the rounded `v`. -/
theorem float_round_ge (a v : ℚ) (ha : float_round a = a) (h : a ≤ v) :
    a ≤ float_round v :=
  round_to_format_ge 24 (-149) a v (by norm_num) ha h

/-- A `float` at least `v` is at least the rounded `v`. -/
theorem float_round_le (a v : ℚ) (ha : float_round a = a) (h : v ≤ a) :
    float_round v ≤ a :=
  round_to_format_le 24 (-149) a v (by norm_num) ha h

/-- Multiples of `1 / 256` of magnitude below `65536` are `float` values. -/
theorem float_round_fixed_point (k : ℤ) (hk : |k| < 2 ^ 24) :
    float_round ((k : ℚ) / 256) = (k : ℚ) / 256 := by
  have e : (k : ℚ) / 256 = (k : ℚ) * 2 ^ (-8 : ℤ) := by
    rw [zpow_neg]; norm_num; ring
  rw [e]
  exact round_to_format_of_value 24 (-149) k (-8) hk (by norm_num)

/-- Multiples of `1 / 256` with a numerator below `2 ^ 53` are `double` values. -/
theorem double_round_fixed_point (k : ℤ) (hk : |k| < 2 ^ 53) :
    double_round ((k : ℚ) / 256) = (k : ℚ) / 256 := by
  have e : (k : ℚ) / 256 = (k : ℚ) * 2 ^ (-8 : ℤ) := by
    rw [zpow_neg]; norm_num; ring
  rw [e]
  exact round_to_format_of_value 53 (-1074) k (-8) hk (by norm_num)

/-- Integers of magnitude at most `2 ^ 24` are `float` values: the conversion of such
an `int` is exact. -/
theorem int_to_float_exact (n : ℤ) (h : |n| ≤ 2 ^ 24) : int_to_float n = (n : ℚ) := by
  unfold int_to_float float_round
  rcases eq_or_lt_of_le h with e | l
  · rcases abs_eq (by norm_num : (0 : ℤ) ≤ 2 ^ 24) |>.mp e with e1 | e1
    · have : (n : ℚ) = ((1 : ℤ) : ℚ) * 2 ^ (24 : ℤ) := by rw [e1]; norm_num
      rw [this]
      exact round_to_format_of_value 24 (-149) 1 24 (by norm_num) (by norm_num)
    · have : (n : ℚ) = ((-1 : ℤ) : ℚ) * 2 ^ (24 : ℤ) := by rw [e1]; norm_num
      rw [this]
      exact round_to_format_of_value 24 (-149) (-1) 24 (by norm_num) (by norm_num)
  · have : (n : ℚ) = (n : ℚ) * 2 ^ (0 : ℤ) := by simp
    rw [this]
    exact round_to_format_of_value 24 (-149) n 0 l (by norm_num)

/-- A sum that is a multiple of `1 / 256` of magnitude below `65536` is stored in a
`float` as it is. -/
theorem float_store_sum_exact (a b : ℚ) (k : ℤ) (hk : |k| < 2 ^ 24)
    (h : a + b = (k : ℚ) / 256) : float_store_sum a b = a + b := by
  unfold float_store_sum
  rw [h, double_round_fixed_point k (lt_trans hk (by norm_num)), float_round_fixed_point k hk]

/-- A `float` is a `double`: the conversion is exact. -/
theorem double_round_of_float (a : ℚ) (ha : float_round a = a) : double_round a = a := by
  obtain ⟨k, q, e, hk, hq⟩ := round_to_format_value 24 (-149) a (by norm_num)
  have e2 : a = (k : ℚ) * 2 ^ q := by
    rw [← e]; exact ha.symm
  rw [e2]
  exact round_to_format_of_value 53 (-1074) k q (lt_trans hk (by norm_num)) (by omega)

/-- A sum that is a `float` is stored in a `float` as it is. -/
theorem float_store_sum_of_float (a b : ℚ) (h : float_round (a + b) = a + b) :
    float_store_sum a b = a + b := by
  unfold float_store_sum
  rw [double_round_of_float _ h, h]

theorem float_store_sum_idem (a b : ℚ) :
    float_round (float_store_sum a b) = float_store_sum a b :=
  float_round_idem _

theorem float_round_zero : float_round 0 = 0 := by
  simp [float_round, round_to_format]

theorem float_round_nonneg (v : ℚ) (h : 0 ≤ v) : 0 ≤ float_round v :=
  float_round_ge 0 v float_round_zero h

/-! ## The point behind a border, in `float` -/

/-- C34 as stated does not hold of the stored coordinate: for the border from
`(100000, 0)` to `(100000, 10)` that blocks `+X` and the point `(100005, 5)`,
`closest_point_behind_border` leaves `sx` at `100000`, on the border itself: the
difference `100000 - 1/256` is not a `float`, and the nearest `float` is `100000`. -/
theorem closest_point_behind_border_c_rounds_onto_border :
    closest_point_behind_border_c
        ⟨⟨⟨100000, 0⟩, ⟨100000, 10⟩⟩, META_BORDER_MOTION_DIRECTION_POSITIVE_X⟩ 100005 5 =
        (100000, 5) ∧
      (100000 : ℚ) ≠ 100000 - 1 / 256 := by
  constructor
  · decide!
  · norm_num

/-- C34, amended: for every border with a single blocking direction whose coordinates
at the end `a` are multiples of `1/256` of magnitude below `65535`, as are all integers
of that magnitude, so that the offset is a `float`, `closest_point_behind_border` sets the coordinate across the border
to exactly one minimal unit, `1/256`, on the allowed side: `border.x - 1/256` for `+X`,
`border.x + 1/256` for `-X`, `border.y - 1/256` for `+Y` and `border.y + 1/256` for
`-Y`, whatever the point was. -/
theorem closest_point_behind_border_c_offset (border : MetaBorder) (sx sy : ℚ)
    (kx ky : ℤ) (hkx : |kx| + 1 < 2 ^ 24) (hky : |ky| + 1 < 2 ^ 24)
    (hx : border.line.a.x = (kx : ℚ) / 256) (hy : border.line.a.y = (ky : ℚ) / 256) :
    (border.blocking_directions = META_BORDER_MOTION_DIRECTION_POSITIVE_X →
        (closest_point_behind_border_c border sx sy).1 = border.line.a.x - 1 / 256) ∧
      (border.blocking_directions = META_BORDER_MOTION_DIRECTION_NEGATIVE_X →
        (closest_point_behind_border_c border sx sy).1 = border.line.a.x + 1 / 256) ∧
      (border.blocking_directions = META_BORDER_MOTION_DIRECTION_POSITIVE_Y →
        (closest_point_behind_border_c border sx sy).2 = border.line.a.y - 1 / 256) ∧
      (border.blocking_directions = META_BORDER_MOTION_DIRECTION_NEGATIVE_Y →
        (closest_point_behind_border_c border sx sy).2 = border.line.a.y + 1 / 256) := by
  have n1 : META_BORDER_MOTION_DIRECTION_NEGATIVE_X ≠
      META_BORDER_MOTION_DIRECTION_POSITIVE_X := by decide
  have n2 : META_BORDER_MOTION_DIRECTION_POSITIVE_Y ≠
      META_BORDER_MOTION_DIRECTION_POSITIVE_X := by decide
  have n3 : META_BORDER_MOTION_DIRECTION_POSITIVE_Y ≠
      META_BORDER_MOTION_DIRECTION_NEGATIVE_X := by decide
  have n4 : META_BORDER_MOTION_DIRECTION_NEGATIVE_Y ≠
      META_BORDER_MOTION_DIRECTION_POSITIVE_X := by decide
  have n5 : META_BORDER_MOTION_DIRECTION_NEGATIVE_Y ≠
      META_BORDER_MOTION_DIRECTION_NEGATIVE_X := by decide
  have n6 : META_BORDER_MOTION_DIRECTION_NEGATIVE_Y ≠
      META_BORDER_MOTION_DIRECTION_POSITIVE_Y := by decide
  have bx := abs_lt.mp (show |kx| < 2 ^ 24 - 1 by omega)
  have bky := abs_lt.mp (show |ky| < 2 ^ 24 - 1 by omega)
  have ex1 : float_store_sum border.line.a.x (-wl_fixed_unit) = border.line.a.x - 1 / 256 := by
    rw [float_store_sum_exact _ _ (kx - 1) (abs_lt.mpr ⟨by omega, by omega⟩)
      (by rw [hx, wl_fixed_unit]; push_cast; ring)]
    rw [wl_fixed_unit]; ring
  have ex2 : float_store_sum border.line.a.x wl_fixed_unit = border.line.a.x + 1 / 256 := by
    rw [float_store_sum_exact _ _ (kx + 1) (abs_lt.mpr ⟨by omega, by omega⟩)
      (by rw [hx, wl_fixed_unit]; push_cast; ring)]
    rw [wl_fixed_unit]
  have ey1 : float_store_sum border.line.a.y (-wl_fixed_unit) = border.line.a.y - 1 / 256 := by
    rw [float_store_sum_exact _ _ (ky - 1) (abs_lt.mpr ⟨by omega, by omega⟩)
      (by rw [hy, wl_fixed_unit]; push_cast; ring)]
    rw [wl_fixed_unit]; ring
  have ey2 : float_store_sum border.line.a.y wl_fixed_unit = border.line.a.y + 1 / 256 := by
    rw [float_store_sum_exact _ _ (ky + 1) (abs_lt.mpr ⟨by omega, by omega⟩)
      (by rw [hy, wl_fixed_unit]; push_cast; ring)]
    rw [wl_fixed_unit]
  refine ⟨?_, ?_, ?_, ?_⟩ <;> intro h <;> unfold closest_point_behind_border_c <;> rw [h]
  · simp only [true_or, if_true, ex1]
  · simp only [or_true, if_true, if_neg n1, ex2]
  · simp only [n2, n3, or_self, if_false, true_or, if_true, ey1]
  · simp only [n4, n5, or_self, if_false, or_true, if_true, if_neg n6, ey2]

/-- C34 at the right border `(10,0)-(10,10)` of the rectangle `(0,0)-(10,10)` and the
point `(15, 5)`: the abscissa becomes `10 - 1/256`. -/
theorem closest_point_behind_border_c_offset_witness :
    (closest_point_behind_border_c
        ⟨⟨⟨10, 0⟩, ⟨10, 10⟩⟩, META_BORDER_MOTION_DIRECTION_POSITIVE_X⟩ 15 5).1 =
      10 - 1 / 256 :=
  (closest_point_behind_border_c_offset
    ⟨⟨⟨10, 0⟩, ⟨10, 10⟩⟩, META_BORDER_MOTION_DIRECTION_POSITIVE_X⟩ 15 5 2560 0
    (by decide) (by decide) (by norm_num) (by norm_num)).1 rfl

/-! ## One rectangle, in `float` -/

/-- The outline that the program builds for one box: its four edges, converted. -/
theorem outline_of_single_box_c (box : MetaBox) :
    outline_of_boxes_c [box] [] =
      some [top_edge_c box, bottom_edge_c box, left_edge_c box, right_edge_c box] := by
  simp [outline_of_boxes_c, outline_step_c, gap_stage_c, last_band_stage_c,
    passed_band_stage_c, edges_stage_c, add_border, top_edge_c, bottom_edge_c, left_edge_c,
    right_edge_c, List.range_succ]

/-- The edges of a box whose coordinates have magnitude at most `2 ^ 24` are converted
to `float` without change. -/
theorem edges_c_exact (box : MetaBox) (h1 : |box.x1| ≤ 2 ^ 24) (h2 : |box.y1| ≤ 2 ^ 24)
    (h3 : |box.x2| ≤ 2 ^ 24) (h4 : |box.y2| ≤ 2 ^ 24) :
    top_edge_c box = top_edge box ∧ bottom_edge_c box = bottom_edge box ∧
      left_edge_c box = left_edge box ∧ right_edge_c box = right_edge box := by
  simp only [top_edge_c, bottom_edge_c, left_edge_c, right_edge_c, top_edge, bottom_edge,
    left_edge, right_edge, int_to_float_exact _ h1, int_to_float_exact _ h2,
    int_to_float_exact _ h3, int_to_float_exact _ h4, and_self]

/-- A horizontal motion that starts left of the right edge of a box, at a height that
the box spans, and ends right of it meets that edge at its own height. -/
theorem right_edge_meets_horizontal_motion (x1 y1 x2 y2 : ℤ) (px py ex : ℚ)
    (hy : y1 < y2) (hpx2 : px ≤ x2) (hpy1 : (y1 : ℚ) ≤ py) (hpy2 : py ≤ y2)
    (hex : (x2 : ℚ) < ex) :
    meta_line2_intersects_with (right_edge ⟨x1, y1, x2, y2⟩).line ⟨⟨px, py⟩, ⟨ex, py⟩⟩ =
      some ⟨x2, py⟩ := by
  have hyq : (y1 : ℚ) < y2 := by exact_mod_cast hy
  have h1 : ((y2 : ℚ) - y1) ≠ 0 := by linarith
  have h2 : (ex - px) ≠ 0 := by linarith
  have h3 : (0:ℚ) < (y2 - y1) * (ex - px) := by
    apply mul_pos <;> linarith
  simp only [meta_line2_intersects_with, right_edge, meta_vector2_subtract, cross_product]
  have hrxs : ((x2:ℚ) - x2) * (py - py) - ((y2:ℚ) - y1) * (ex - px) ≠ 0 := by
    have : ((x2:ℚ) - x2) * (py - py) - ((y2:ℚ) - y1) * (ex - px) =
        -((y2 - y1) * (ex - px)) := by ring
    rw [this]; linarith
  rw [if_neg hrxs]
  have ht : ((px - (x2:ℚ)) * (py - py) - (py - y1) * (ex - px)) /
      (((x2:ℚ) - x2) * (py - py) - ((y2:ℚ) - y1) * (ex - px)) = (py - y1) / (y2 - y1) := by
    field_simp
    ring
  have hu' : ((px - (x2:ℚ)) * ((y2:ℚ) - y1) - (py - y1) * ((x2:ℚ) - x2)) /
      (((x2:ℚ) - x2) * (py - py) - ((y2:ℚ) - y1) * (ex - px)) = (x2 - px) / (ex - px) := by
    field_simp
    ring
  rw [ht, hu']
  have c1 : 0 ≤ (py - y1) / ((y2:ℚ) - y1) := div_nonneg (by linarith) (by linarith)
  have c2 : (py - y1) / ((y2:ℚ) - y1) ≤ 1 := by
    rw [div_le_one (by linarith)]; linarith
  have c3 : 0 ≤ ((x2:ℚ) - px) / (ex - px) := div_nonneg (by linarith) (by linarith)
  have c4 : ((x2:ℚ) - px) / (ex - px) ≤ 1 := by
    rw [div_le_one (by linarith)]; linarith
  rw [if_pos ⟨c1, c2, c3, c4⟩]
  have e1 : (x2:ℚ) + (py - y1) / ((y2:ℚ) - y1) * ((x2:ℚ) - x2) = x2 := by ring
  have e2 : (y1:ℚ) + (py - y1) / ((y2:ℚ) - y1) * ((y2:ℚ) - y1) = py := by
    rw [div_mul_cancel₀ _ h1]; ring
  rw [e1, e2]

/-- The `float` expression `dx*dx + dy*dy` is finite, and at most `bound * bound`, for
components whose squares are at most a `float` `bound * bound` below half of
`FLT_MAX`. -/
theorem float_sum_of_squares_finite (dx dy bound : ℚ) (hb : float_round bound = bound)
    (hb2 : float_round (bound + bound) = bound + bound) (hmax : bound + bound ≤ FLT_MAX)
    (hx : dx * dx ≤ bound) (hy : dy * dy ≤ bound) :
    ∃ d, float_sum_of_squares dx dy = some d ∧ d ≤ bound + bound := by
  have h1 : float_round (dx * dx) ≤ bound := float_round_le _ _ hb hx
  have h2 : float_round (dy * dy) ≤ bound := float_round_le _ _ hb hy
  have h3 : float_round (float_round (dx * dx) + float_round (dy * dy)) ≤ bound + bound :=
    float_round_le _ _ hb2 (by linarith)
  have hb0 : 0 ≤ bound := le_trans (mul_self_nonneg dx) hx
  refine ⟨float_round (float_round (dx * dx) + float_round (dy * dy)), ?_, h3⟩
  unfold float_sum_of_squares
  rw [if_neg]
  push_neg
  exact ⟨by linarith, by linarith, by linarith⟩

/-- The constrain operation of the program on a non-empty region whose outline is
built: the clamping loop runs on the motion that the program holds. -/
theorem constrain_c_of_outline (fuel : ℕ) (impl : MetaPointerConstraintImplNative)
    (borders : List MetaBorder) (prev_x prev_y x y : ℚ)
    (hne : impl.region ≠ []) (hout : region_to_outline_c impl.region [] = some borders) :
    meta_pointer_constraint_impl_native_constrain_c fuel impl prev_x prev_y x y =
      (clamp_loop_c borders impl.min_edge_distance fuel
        (tested_motion_c impl.origin prev_x prev_y x y)
        (get_motion_directions (tested_motion_c impl.origin prev_x prev_y x y))).map
        fun r => ⟨float_round (r.1.b.x + impl.origin.x),
          float_round (r.1.b.y + impl.origin.y), r.2⟩ := by
  have he : mtk_region_is_empty impl.region = false := by
    cases h : impl.region with
    | nil => exact absurd h hne
    | cons a l => rfl
  unfold meta_pointer_constraint_impl_native_constrain_c
  simp only [he, Bool.false_eq_true, if_false, hout]
  rfl

/-! ## The constrain operation at one rectangle, in `float` -/

/-- With origin `(0, 0)` the motion that the program tests runs from the previous point
to the nudged candidate itself. -/
theorem tested_motion_c_origin_zero (prev_x prev_y x y : ℚ) (hpx : is_float prev_x)
    (hpy : is_float prev_y) (hx : is_float x) (hy : is_float y) :
    tested_motion_c ⟨0, 0⟩ prev_x prev_y x y =
      ⟨⟨prev_x, prev_y⟩, ⟨nudged prev_x x, nudged prev_y y⟩⟩ := by
  have nx : float_round (nudged prev_x x) = nudged prev_x x := by
    unfold nudged
    split_ifs
    · exact float_round_idem _
    · exact hx.1
  have ny : float_round (nudged prev_y y) = nudged prev_y y := by
    unfold nudged
    split_ifs
    · exact float_round_idem _
    · exact hy.1
  simp only [tested_motion_c, sub_zero, hpx.1, hpy.1, nx, ny]

theorem float_round_two_pow_50 : float_round (2 ^ 50) = 2 ^ 50 := by
  have e : (2 : ℚ) ^ 50 = ((1 : ℤ) : ℚ) * 2 ^ (50 : ℤ) := by norm_num
  rw [e]
  exact round_to_format_of_value 24 (-149) 1 50 (by norm_num) (by norm_num)

theorem float_round_two_pow_51 : float_round (2 ^ 50 + 2 ^ 50) = 2 ^ 50 + 2 ^ 50 := by
  have e : (2 : ℚ) ^ 50 + 2 ^ 50 = ((1 : ℤ) : ℚ) * 2 ^ (51 : ℤ) := by norm_num
  rw [e]
  exact round_to_format_of_value 24 (-149) 1 51 (by norm_num) (by norm_num)

theorem float_round_two_pow_25 : float_round (2 ^ 25) = 2 ^ 25 := by
  have e : (2 : ℚ) ^ 25 = ((1 : ℤ) : ℚ) * 2 ^ (25 : ℤ) := by norm_num
  rw [e]
  exact round_to_format_of_value 24 (-149) 1 25 (by norm_num) (by norm_num)

/-- The `float` difference of two numbers of magnitude at most `2 ^ 24` has magnitude
at most `2 ^ 25`, and its square is at most `2 ^ 50`. -/
theorem float_difference_square (a b : ℚ) (ha : |a| ≤ 2 ^ 24) (hb : |b| ≤ 2 ^ 24) :
    float_round (a - b) * float_round (a - b) ≤ 2 ^ 50 := by
  have h1 := abs_le.mp ha
  have h2 := abs_le.mp hb
  have up : float_round (a - b) ≤ 2 ^ 25 :=
    float_round_le _ _ float_round_two_pow_25 (by linarith)
  have hneg : float_round (-(2 ^ 25)) = -(2 ^ 25) := by
    have e : -(2 : ℚ) ^ 25 = ((-1 : ℤ) : ℚ) * 2 ^ (25 : ℤ) := by norm_num
    rw [e]
    exact round_to_format_of_value 24 (-149) (-1) 25 (by norm_num) (by norm_num)
  have low : -(2 ^ 25) ≤ float_round (a - b) :=
    float_round_ge _ _ hneg (by linarith)
  nlinarith

/-- C2 as stated does not hold of the stored abscissa: for the rectangle
`(0,0)-(100000,10)`, origin `(0,0)`, margin `1/256` and the horizontal motion from
`(5,5)` to `(200000,5)`, the constrain operation returns `x = 100000`, the border
itself: `100000 - 1/256` is not a `float`, and the nearest `float` is `100000`. -/
theorem constrain_c_rounds_onto_border :
    meta_pointer_constraint_impl_native_constrain_c 2
        ⟨[⟨0, 0, 100000, 10⟩], ⟨0, 0⟩, 1 / 256⟩ 5 5 200000 5 = some ⟨100000, 5, 1⟩ ∧
      (100000 : ℚ) ≠ 100000 - 1 / 256 := by
  constructor
  · decide!
  · norm_num

/-- C2, amended: for a region of one rectangle `(x1, y1)-(x2, y2)` with `y1 < y2` and
coordinates of magnitude at most `2 ^ 24`, origin `(0, 0)` and a margin `m` for which
`x2 - m` is a finite `float`, a horizontal motion from a `float` point `(px, py)` of the closed
rectangle to a `float` candidate `(cx, py)` with `cx > x2` is clamped to exactly
`(x2 - m, py)` after one entry of the loop body, whenever the fuel allows one entry.
The assumption `0 ≤ m` of the claim is not needed. -/
theorem constrain_c_single_rectangle_horizontal (x1 y1 x2 y2 : ℤ) (m px py cx : ℚ)
    (fuel : ℕ) (hy : y1 < y2) (hfuel : 1 ≤ fuel)
    (hb1 : |x1| ≤ 2 ^ 24) (hb2 : |y1| ≤ 2 ^ 24) (hb3 : |x2| ≤ 2 ^ 24) (hb4 : |y2| ≤ 2 ^ 24)
    (hfpx : is_float px) (hfpy : is_float py) (hfcx : is_float cx)
    (hpx1 : (x1 : ℚ) ≤ px) (hpx2 : px ≤ x2) (hpy1 : (y1 : ℚ) ≤ py) (hpy2 : py ≤ y2)
    (hcx : (x2 : ℚ) < cx) (hm : is_float ((x2 : ℚ) - m)) :
    meta_pointer_constraint_impl_native_constrain_c fuel
        ⟨[⟨x1, y1, x2 - x1, y2 - y1⟩], ⟨0, 0⟩, m⟩ px py cx py =
      some ⟨x2 - m, py, 1⟩ := by
  obtain ⟨f, rfl⟩ : ∃ f, fuel = f + 1 := ⟨fuel - 1, by omega⟩
  have hu : (0 : ℚ) < wl_fixed_unit := by norm_num [wl_fixed_unit]
  have hcp : cx > px := lt_of_le_of_lt hpx2 hcx
  have hex : (x2 : ℚ) < float_round (cx + wl_fixed_unit) :=
    lt_of_lt_of_le hcx (float_round_ge _ _ hfcx.1 (by linarith))
  have hmotion : tested_motion_c ⟨0, 0⟩ px py cx py =
      ⟨⟨px, py⟩, ⟨float_round (cx + wl_fixed_unit), py⟩⟩ := by
    rw [tested_motion_c_origin_zero px py cx py hfpx hfpy hfcx hfpy]
    simp only [nudged, if_pos hcp, gt_iff_lt, lt_irrefl, if_false]
  have hd : px < float_round (cx + wl_fixed_unit) := lt_of_le_of_lt hpx2 hex
  have hdirs : get_motion_directions ⟨⟨px, py⟩, ⟨float_round (cx + wl_fixed_unit), py⟩⟩ =
      META_BORDER_MOTION_DIRECTION_POSITIVE_X := by
    simp [get_motion_directions, hd, Directions.or, Directions.none,
      META_BORDER_MOTION_DIRECTION_POSITIVE_X]
  have hedges := edges_c_exact ⟨x1, y1, x2, y2⟩ hb1 hb2 hb3 hb4
  have hint := right_edge_meets_horizontal_motion x1 y1 x2 y2 px py
    (float_round (cx + wl_fixed_unit)) hy hpx2 hpy1 hpy2 hex
  have hfx2 : float_round (x2 : ℚ) = x2 := int_to_float_exact x2 hb3
  have habs_x2 : |(x2 : ℚ)| ≤ 2 ^ 24 := by
    have : ((|x2| : ℤ) : ℚ) ≤ ((2 ^ 24 : ℤ) : ℚ) := by exact_mod_cast hb3
    simpa using this
  have habs_px : |px| ≤ 2 ^ 24 := by
    have h1 : ((|x1| : ℤ) : ℚ) ≤ ((2 ^ 24 : ℤ) : ℚ) := by exact_mod_cast hb1
    have h1' : |(x1 : ℚ)| ≤ 2 ^ 24 := by simpa using h1
    have a1 := abs_le.mp h1'
    have a2 := abs_le.mp habs_x2
    exact abs_le.mpr ⟨by linarith, by linarith⟩
  obtain ⟨d, hd2, _⟩ := float_sum_of_squares_finite (float_round ((x2 : ℚ) - px)) 0 (2 ^ 50)
    float_round_two_pow_50 float_round_two_pow_51 (by norm_num [FLT_MAX])
    (float_difference_square _ _ habs_x2 habs_px) (by norm_num)
  have hg : get_closest_border_c
      [top_edge ⟨x1, y1, x2, y2⟩, bottom_edge ⟨x1, y1, x2, y2⟩, left_edge ⟨x1, y1, x2, y2⟩,
        right_edge ⟨x1, y1, x2, y2⟩]
      ⟨⟨px, py⟩, ⟨float_round (cx + wl_fixed_unit), py⟩⟩
      META_BORDER_MOTION_DIRECTION_POSITIVE_X = some (right_edge ⟨x1, y1, x2, y2⟩) := by
    simp only [get_closest_border_c, List.foldl, closest_border_step_c]
    rw [hint]
    simp only [hfx2, hfpy.1, sub_self, float_round_zero, hd2]
    simp [meta_border_is_blocking_directions, top_edge, bottom_edge, left_edge, right_edge,
      Directions.and, Directions.nonzero, META_BORDER_MOTION_DIRECTION_POSITIVE_X,
      META_BORDER_MOTION_DIRECTION_NEGATIVE_X, META_BORDER_MOTION_DIRECTION_POSITIVE_Y,
      META_BORDER_MOTION_DIRECTION_NEGATIVE_Y, float_below]
  have hstore : float_store_sum (x2 : ℚ) (-m) = x2 - m := by
    rw [float_store_sum_of_float _ _ (by rw [← sub_eq_add_neg]; exact hm.1)]
    ring
  have hne : (y1 = y2) = False := by
    simp; exact ne_of_lt hy
  have hout : region_to_outline_c [⟨x1, y1, x2 - x1, y2 - y1⟩] [] =
      some [top_edge ⟨x1, y1, x2, y2⟩, bottom_edge ⟨x1, y1, x2, y2⟩,
        left_edge ⟨x1, y1, x2, y2⟩, right_edge ⟨x1, y1, x2, y2⟩] := by
    simp only [region_to_outline_c, List.map, box_of_corner_rectangle,
      outline_of_single_box_c, hedges.1, hedges.2.1, hedges.2.2.1, hedges.2.2.2]
  rw [constrain_c_of_outline (f + 1) ⟨[⟨x1, y1, x2 - x1, y2 - y1⟩], ⟨0, 0⟩, m⟩ _ px py cx py
    (by simp) hout]
  simp only [hmotion, hdirs]
  simp only [clamp_loop_c]
  rw [hg]
  cases f <;>
  simp [clamp_to_border_c, meta_border_is_horizontal, right_edge, hne, clamp_loop_c,
    Directions.and, Directions.nonzero, Directions.clear, Directions.or,
    META_BORDER_MOTION_DIRECTION_POSITIVE_X,
    META_BORDER_MOTION_DIRECTION_NEGATIVE_X, hstore, hm.1, hfpy.1]

/-- C2 at the spec example: rectangle `(0,0)-(10,10)`, margin `1/2`, motion from `(5, 5)`
to `(20, 5)`; the result is `(10 - 1/2, 5)`. -/
theorem constrain_c_single_rectangle_horizontal_witness :
    meta_pointer_constraint_impl_native_constrain_c 1
        ⟨[⟨0, 0, 10 - 0, 10 - 0⟩], ⟨0, 0⟩, 1 / 2⟩ 5 5 20 5 =
      some ⟨((10 : ℤ) : ℚ) - 1 / 2, 5, 1⟩ :=
  constrain_c_single_rectangle_horizontal 0 0 10 10 (1 / 2) 5 5 20 1 (by decide)
    (le_refl 1) (by decide) (by decide) (by decide) (by decide) (by decide!) (by decide!)
    (by decide!) (by norm_num) (by norm_num) (by norm_num) (by norm_num) (by norm_num)
    (by decide!)

/-! ## The ensure-constrained operation at one rectangle, in `float` -/

/-- Rounding to `float` keeps a magnitude within a power of two. -/
theorem float_round_abs_le_two_pow (v : ℚ) (n : ℕ) (h : |v| ≤ 2 ^ n) :
    |float_round v| ≤ 2 ^ n := by
  have h1 := abs_le.mp h
  have hpos : float_round (2 ^ n) = (2 : ℚ) ^ n := by
    have e : (2 : ℚ) ^ n = ((1 : ℤ) : ℚ) * 2 ^ (n : ℤ) := by
      rw [zpow_natCast]; norm_num
    rw [e]
    exact round_to_format_of_value 24 (-149) 1 n (by norm_num) (by omega)
  have hneg : float_round (-(2 ^ n)) = -(2 : ℚ) ^ n := by
    have e : -(2 : ℚ) ^ n = ((-1 : ℤ) : ℚ) * 2 ^ (n : ℤ) := by
      rw [zpow_natCast]; norm_num
    rw [e]
    exact round_to_format_of_value 24 (-149) (-1) n (by norm_num) (by omega)
  exact abs_le.mpr ⟨float_round_ge _ _ hneg h1.1, float_round_le _ _ hpos h1.2⟩

/-- The search for the nearest border by `float` distances ends on the last border of
the array when its distance is below `FLT_MAX` and below that of every earlier
border. -/
theorem nearest_border_fold_last_c (rel_x rel_y : ℚ) (l : List MetaBorder) (b : MetaBorder)
    (h0 : float_below (point_to_border_distance_2_c b rel_x rel_y) (some FLT_MAX) = true)
    (h : ∀ c ∈ l, float_below (point_to_border_distance_2_c b rel_x rel_y)
      (point_to_border_distance_2_c c rel_x rel_y) = true) :
    ((l ++ [b]).foldl (nearest_border_step_c rel_x rel_y) (none, some FLT_MAX)).1 =
      some b := by
  have key : ∀ (l : List MetaBorder) (acc : Option MetaBorder × Option ℚ),
      (∀ c ∈ l, float_below (point_to_border_distance_2_c b rel_x rel_y)
        (point_to_border_distance_2_c c rel_x rel_y) = true) →
      float_below (point_to_border_distance_2_c b rel_x rel_y) acc.2 = true →
      float_below (point_to_border_distance_2_c b rel_x rel_y)
        (l.foldl (nearest_border_step_c rel_x rel_y) acc).2 = true := by
    intro l
    induction l with
    | nil => intro acc _ hacc; simpa using hacc
    | cons c l ih =>
      intro acc hl hacc
      simp only [List.foldl_cons]
      apply ih
      · intro c' hc'; exact hl c' (List.mem_cons_of_mem _ hc')
      · simp only [nearest_border_step_c]
        split_ifs
        · exact hl c (List.mem_cons_self _ _)
        · exact hacc
  rw [List.foldl_append]
  simp only [List.foldl_cons, List.foldl_nil]
  have hk := key l (none, some FLT_MAX) h h0
  generalize l.foldl (nearest_border_step_c rel_x rel_y) (none, some FLT_MAX) = acc at hk
  simp only [nearest_border_step_c, hk, if_true]

/-- The integer part of a `float` below `2 ^ 31` that lies above an integer of magnitude
at most `2 ^ 24` is an `int`. -/
theorem float_to_int_c_of_bounds (k : ℤ) (v : ℚ) (hk : |k| ≤ 2 ^ 24) (h1 : (k : ℚ) < v)
    (h2 : v < 2 ^ 31) : float_to_int_c v = some (float_to_int v) := by
  have hlow : k ≤ float_to_int v := lt_float_to_int k v h1
  have hup : float_to_int v < 2 ^ 31 := by
    rw [float_to_int_eq]
    split_ifs with h0
    · have : (⌊v⌋ : ℚ) < ((2 ^ 31 : ℤ) : ℚ) := by
        push_cast
        exact lt_of_le_of_lt (Int.floor_le v) h2
      exact_mod_cast this
    · have : ⌈v⌉ ≤ 0 := Int.ceil_le.mpr (by push_cast; linarith)
      omega
  have hk' := abs_le.mp hk
  unfold float_to_int_c
  rw [if_pos ⟨by omega, hup⟩]

/-- C9 as stated does not hold of the program. For the rectangle `(0,0)-(10,10)` and
the pointer at `(15, y)` with `y` the `float` nearest to `0.0001`, the top border and
the right border both have the `float` distance `25`, the top border comes first and is
kept, and the warp goes to `(10 - 1/256, 1/256)`: the ordinate is changed. For the
rectangle `(0,0)-(100000,10)` and the pointer at `(100005, 5)` the warp goes to
`(100000, 5)`, on the right border itself. -/
theorem ensure_constrained_c_misses_right_border :
    meta_pointer_constraint_impl_native_ensure_constrained_c
        ⟨[⟨0, 0, 10, 10⟩], ⟨0, 0⟩, 0⟩ ⟨15, 13743895 / 137438953472⟩ =
        some (some ⟨10 - 1 / 256, 1 / 256⟩) ∧
      is_float (13743895 / 137438953472) ∧
      point_to_border_distance_2_c (top_edge ⟨0, 0, 10, 10⟩) 15
        (13743895 / 137438953472) = some 25 ∧
      point_to_border_distance_2_c (right_edge ⟨0, 0, 10, 10⟩) 15
        (13743895 / 137438953472) = some 25 ∧
      meta_pointer_constraint_impl_native_ensure_constrained_c
        ⟨[⟨0, 0, 100000, 10⟩], ⟨0, 0⟩, 0⟩ ⟨100005, 5⟩ = some (some ⟨100000, 5⟩) := by
  refine ⟨?_, ?_, ?_, ?_, ?_⟩ <;> decide!

/-- C9, amended: for a region of one rectangle `(x1, y1)-(x2, y2)` with coordinates of
magnitude at most `2 ^ 24` and `|x2| < 65536`, origin `(0, 0)` and a pointer reported at
the `float` point `(px, py)` with `x2 < px < 2 ^ 31` and `y1 < py < y2`, for which the
`float` distance to the right border is below the `float` distances to the top, bottom
and left border, the ensure-constrained operation warps to exactly `(x2 - 1/256, py)`:
one unit inside the right border, `y` unchanged. -/
theorem ensure_constrained_c_right_of_single_rectangle (x1 y1 x2 y2 : ℤ) (m px py : ℚ)
    (hb1 : |x1| ≤ 2 ^ 24) (hb2 : |y1| ≤ 2 ^ 24) (hb3 : |x2| < 65536) (hb4 : |y2| ≤ 2 ^ 24)
    (hfpx : is_float px) (hfpy : is_float py) (hint : px < 2 ^ 31)
    (hpx : (x2 : ℚ) < px) (hpy1 : (y1 : ℚ) < py) (hpy2 : py < y2)
    (hnear : ∀ c ∈ [top_edge ⟨x1, y1, x2, y2⟩, bottom_edge ⟨x1, y1, x2, y2⟩,
        left_edge ⟨x1, y1, x2, y2⟩],
      float_below (point_to_border_distance_2_c (right_edge ⟨x1, y1, x2, y2⟩) px py)
        (point_to_border_distance_2_c c px py) = true) :
    meta_pointer_constraint_impl_native_ensure_constrained_c
        ⟨[⟨x1, y1, x2 - x1, y2 - y1⟩], ⟨0, 0⟩, m⟩ ⟨px, py⟩ =
      some (some ⟨x2 - 1 / 256, py⟩) := by
  have hyq : (y1 : ℚ) < y2 := by linarith
  have hyne : ¬ ((y1 : ℚ) = y2) := ne_of_lt hyq
  have hx2 : |x2| ≤ 2 ^ 24 := le_trans hb3.le (by norm_num)
  have hx2' := abs_lt.mp hb3
  have hcx : float_to_int_c px = some (float_to_int px) :=
    float_to_int_c_of_bounds x2 px hx2 hpx hint
  have hy2q : ((y2 : ℤ) : ℚ) ≤ 2 ^ 24 := by
    have := (abs_le.mp hb4).2
    exact_mod_cast this
  have hcy : float_to_int_c py = some (float_to_int py) :=
    float_to_int_c_of_bounds y1 py hb2 hpy1 (by linarith)
  have htr : x2 ≤ float_to_int px := lt_float_to_int x2 px hpx
  have hnc : mtk_region_contains_point [⟨x1, y1, x2 - x1, y2 - y1⟩]
      (float_to_int px) (float_to_int py) = false := by
    simp only [mtk_region_contains_point, List.any_cons, List.any_nil, Bool.or_false,
      decide_eq_false_iff_not]
    intro hc
    omega
  have hedges := edges_c_exact ⟨x1, y1, x2, y2⟩ hb1 hb2 hx2 hb4
  have hx2q : |(x2 : ℚ)| ≤ 2 ^ 24 := by
    have : ((|x2| : ℤ) : ℚ) ≤ ((2 ^ 24 : ℤ) : ℚ) := by exact_mod_cast hx2
    simpa using this
  have hdiff : |(x2 : ℚ) - px| ≤ 2 ^ 32 := by
    have a := abs_le.mp hx2q
    exact abs_le.mpr ⟨by linarith, by linarith⟩
  have hdx := float_round_abs_le_two_pow _ 32 hdiff
  have hsq : |float_round ((x2 : ℚ) - px)| * |float_round ((x2 : ℚ) - px)| ≤ 2 ^ 64 := by
    have h0 := abs_nonneg (float_round ((x2 : ℚ) - px))
    nlinarith
  have hp64 : float_round (2 ^ 64) = (2 : ℚ) ^ 64 := by
    have e : (2 : ℚ) ^ 64 = ((1 : ℤ) : ℚ) * 2 ^ (64 : ℤ) := by norm_num
    rw [e]
    exact round_to_format_of_value 24 (-149) 1 64 (by norm_num) (by norm_num)
  have hp65 : float_round (2 ^ 64 + 2 ^ 64) = (2 : ℚ) ^ 64 + 2 ^ 64 := by
    have e : (2 : ℚ) ^ 64 + 2 ^ 64 = ((1 : ℤ) : ℚ) * 2 ^ (65 : ℤ) := by norm_num
    rw [e]
    exact round_to_format_of_value 24 (-149) 1 65 (by norm_num) (by norm_num)
  obtain ⟨d, hd, hdle⟩ := float_sum_of_squares_finite |float_round ((x2 : ℚ) - px)| |0|
    (2 ^ 64) hp64 hp65 (by norm_num [FLT_MAX]) hsq (by norm_num)
  have hdr : point_to_border_distance_2_c (right_edge ⟨x1, y1, x2, y2⟩) px py = some d := by
    simp only [point_to_border_distance_2_c, meta_border_is_horizontal, right_edge, hyne,
      decide_False, Bool.false_eq_true, if_false, not_lt.mpr hpy1.le, gt_iff_lt,
      not_lt.mpr hpy2.le, sub_self, float_round_zero]
    exact hd
  have h0 : float_below (point_to_border_distance_2_c (right_edge ⟨x1, y1, x2, y2⟩) px py)
      (some FLT_MAX) = true := by
    rw [hdr]
    simp only [float_below, decide_eq_true_eq]
    refine lt_of_le_of_lt hdle ?_
    norm_num [FLT_MAX]
  have hfold := nearest_border_fold_last_c px py _ _ h0 hnear
  have hstore : float_store_sum (x2 : ℚ) (-wl_fixed_unit) = x2 - 1 / 256 := by
    rw [float_store_sum_exact _ _ (256 * x2 - 1) (abs_lt.mpr ⟨by omega, by omega⟩)
      (by rw [wl_fixed_unit]; push_cast; ring)]
    rw [wl_fixed_unit]; ring
  have hfin : float_round ((x2 : ℚ) - 1 / 256) = x2 - 1 / 256 := by
    have e : (x2 : ℚ) - 1 / 256 = ((256 * x2 - 1 : ℤ) : ℚ) / 256 := by push_cast; ring
    rw [e]
    exact float_round_fixed_point _ (abs_lt.mpr ⟨by omega, by omega⟩)
  simp only [meta_pointer_constraint_impl_native_ensure_constrained_c, mtk_region_is_empty,
    List.isEmpty_cons, Bool.false_eq_true, if_false, sub_zero, hfpx.1, hfpy.1, hcx, hcy, hnc,
    Bool.not_false, if_true, region_to_outline_c, List.map, box_of_corner_rectangle,
    outline_of_single_box_c, hedges.1, hedges.2.1, hedges.2.2.1, hedges.2.2.2]
  have hfold' : ([top_edge ⟨x1, y1, x2, y2⟩, bottom_edge ⟨x1, y1, x2, y2⟩,
      left_edge ⟨x1, y1, x2, y2⟩, right_edge ⟨x1, y1, x2, y2⟩].foldl
      (nearest_border_step_c px py) (none, some FLT_MAX)).1 =
      some (right_edge ⟨x1, y1, x2, y2⟩) := hfold
  rw [hfold']
  have hfin' : float_round ((x2 : ℚ) - 256⁻¹) = x2 - 256⁻¹ := by
    rw [show (256 : ℚ)⁻¹ = 1 / 256 by norm_num]; exact hfin
  simp [closest_point_behind_border_c, right_edge, META_BORDER_MOTION_DIRECTION_POSITIVE_X,
    not_lt.mpr hpy1.le, not_lt.mpr hpy2.le, hstore, hfin', hfpy.1]

/-- C9 at the rectangle `(0,0)-(10,10)` and the pointer at `(15, 5)`: the warp goes to
`(10 - 1/256, 5)`. -/
theorem ensure_constrained_c_right_of_single_rectangle_witness :
    meta_pointer_constraint_impl_native_ensure_constrained_c
        ⟨[⟨0, 0, 10 - 0, 10 - 0⟩], ⟨0, 0⟩, 0⟩ ⟨15, 5⟩ =
      some (some ⟨((10 : ℤ) : ℚ) - 1 / 256, 5⟩) :=
  ensure_constrained_c_right_of_single_rectangle 0 0 10 10 0 15 5 (by decide) (by decide)
    (by decide) (by decide) (by decide!) (by decide!) (by norm_num) (by norm_num)
    (by norm_num) (by norm_num) (by decide!)

/-! ## The sweep of the band merge, in the program -/

theorem merge_step_c_view (l : List MetaBorder) (prev_border border : MetaBorder) :
    merge_step_c (l ++ [prev_border], some l.length) border =
      (merge_view_c (l.length + 1) prev_border border).map
        fun r => (l ++ r, some (l.length + r.length - 1)) := by
  have hget : (l ++ [prev_border])[l.length]? = some prev_border := by
    simp
  have hset : ∀ v, (l ++ [prev_border]).set l.length v = l ++ [v] := by
    intro v; simp
  have hset2 : ∀ v w, (l ++ [prev_border] ++ [w]).set l.length v = l ++ [v, w] := by
    intro v w; simp
  unfold merge_step_c merge_view_c
  simp only [hget, hset, hset2, List.length_append, List.length_singleton]
  by_cases h1 : border.line.a.y ≠ border.line.b.y
  · simp only [if_pos h1, Option.map_none']
  simp only [if_neg h1]
  by_cases h2 : prev_border.line.a.y ≠ border.line.a.y
  · simp only [if_pos h2, Option.map_none']
  simp only [if_neg h2]
  by_cases h3 : prev_border.line.a.x = border.line.a.x ∧
      prev_border.line.b.x = border.line.b.x
  · simp only [if_pos h3, Option.map_none']
  simp only [if_neg h3]
  by_cases h4 : ¬ prev_border.line.a.x ≤ border.line.a.x
  · simp only [if_pos h4, Option.map_none']
  simp only [if_neg h4]
  by_cases h5 : prev_border.line.a.x = border.line.a.x
  · simp only [if_pos h5, Option.map_some', List.length_singleton]
    rfl
  simp only [if_neg h5]
  by_cases h6 : prev_border.line.b.x = border.line.b.x
  · simp only [if_pos h6, Option.map_some', List.length_singleton]
    rfl
  simp only [if_neg h6]
  by_cases h7 : prev_border.line.b.x = border.line.a.x
  · simp only [if_pos h7, Option.map_some', List.length_singleton]
    rfl
  simp only [if_neg h7]
  by_cases h8 : prev_border.line.b.x ≥ border.line.a.x
  · simp only [if_pos h8, Option.map_some', List.length_cons, List.length_singleton,
      List.length_nil]
    by_cases hm : g_array_append_moves (l.length + 1) = true
    · simp only [if_pos hm, List.append_assoc, List.singleton_append]
      rfl
    · simp only [if_neg hm]
      rfl
  simp only [if_neg h8]
  by_cases h9 : ¬ prev_border.line.b.x < border.line.a.x
  · simp only [if_pos h9, Option.map_none']
  simp only [if_neg h9, Option.map_some', List.length_cons, List.length_singleton,
      List.length_nil, List.append_assoc, List.singleton_append]
  rfl

/-- The ways in which a step of the sweep goes on in the program, with the tests that
lead there; the split either shortens the border it splits or leaves it as it is. -/
theorem merge_view_c_cases (len : ℕ) (prev_border border : MetaBorder)
    (r : List MetaBorder) (h : merge_view_c len prev_border border = some r) :
    border.line.a.y = border.line.b.y ∧ prev_border.line.a.y = border.line.a.y ∧
      prev_border.line.a.x ≤ border.line.a.x ∧
      ((prev_border.line.a.x = border.line.a.x ∧
          prev_border.line.b.x ≠ border.line.b.x ∧
          r = [set_a_x prev_border border.line.b.x]) ∨
        (prev_border.line.a.x < border.line.a.x ∧
          prev_border.line.b.x = border.line.b.x ∧
          r = [set_b_x prev_border border.line.a.x]) ∨
        (prev_border.line.a.x < border.line.a.x ∧
          prev_border.line.b.x ≠ border.line.b.x ∧
          prev_border.line.b.x = border.line.a.x ∧
          r = [set_b_x prev_border border.line.b.x]) ∨
        (prev_border.line.a.x < border.line.a.x ∧
          prev_border.line.b.x ≠ border.line.b.x ∧
          border.line.a.x < prev_border.line.b.x ∧
          (r = [set_b_x prev_border border.line.a.x,
            ⟨⟨⟨border.line.b.x, border.line.b.y⟩,
              ⟨prev_border.line.b.x, prev_border.line.b.y⟩⟩,
             prev_border.blocking_directions⟩] ∨
           r = [prev_border,
            ⟨⟨⟨border.line.b.x, border.line.b.y⟩,
              ⟨prev_border.line.b.x, prev_border.line.b.y⟩⟩,
             prev_border.blocking_directions⟩])) ∨
        (prev_border.line.a.x < border.line.a.x ∧
          prev_border.line.b.x < border.line.a.x ∧ r = [prev_border, border])) := by
  unfold merge_view_c at h
  by_cases h1 : border.line.a.y ≠ border.line.b.y
  · simp only [if_pos h1] at h; cases h
  simp only [if_neg h1] at h
  by_cases h2 : prev_border.line.a.y ≠ border.line.a.y
  · simp only [if_pos h2] at h; cases h
  simp only [if_neg h2] at h
  by_cases h3 : prev_border.line.a.x = border.line.a.x ∧
      prev_border.line.b.x = border.line.b.x
  · simp only [if_pos h3] at h; cases h
  simp only [if_neg h3] at h
  by_cases h4 : ¬ prev_border.line.a.x ≤ border.line.a.x
  · simp only [if_pos h4] at h; cases h
  simp only [if_neg h4] at h
  push_neg at h1 h2 h4
  refine ⟨h1, h2, h4, ?_⟩
  by_cases h5 : prev_border.line.a.x = border.line.a.x
  · simp only [if_pos h5, Option.some.injEq] at h
    exact Or.inl ⟨h5, fun hb => h3 ⟨h5, hb⟩, h.symm⟩
  simp only [if_neg h5] at h
  have hlt : prev_border.line.a.x < border.line.a.x := lt_of_le_of_ne h4 h5
  by_cases h6 : prev_border.line.b.x = border.line.b.x
  · simp only [if_pos h6, Option.some.injEq] at h
    exact Or.inr (Or.inl ⟨hlt, h6, h.symm⟩)
  simp only [if_neg h6] at h
  by_cases h7 : prev_border.line.b.x = border.line.a.x
  · simp only [if_pos h7, Option.some.injEq] at h
    exact Or.inr (Or.inr (Or.inl ⟨hlt, h6, h7, h.symm⟩))
  simp only [if_neg h7] at h
  by_cases h8 : prev_border.line.b.x ≥ border.line.a.x
  · simp only [if_pos h8, Option.some.injEq] at h
    refine Or.inr (Or.inr (Or.inr (Or.inl
      ⟨hlt, h6, lt_of_le_of_ne h8 (Ne.symm h7), ?_⟩)))
    by_cases hm : g_array_append_moves len = true
    · rw [if_pos hm] at h; exact Or.inr h.symm
    · rw [if_neg hm] at h; exact Or.inl h.symm
  simp only [if_neg h8] at h
  by_cases h9 : ¬ prev_border.line.b.x < border.line.a.x
  · simp only [if_pos h9] at h; cases h
  simp only [if_neg h9, Option.some.injEq] at h
  push_neg at h9
  exact Or.inr (Or.inr (Or.inr (Or.inr ⟨hlt, h9, h.symm⟩)))

/-- A property of the merged edges swept so far and of the borders appended so far that
holds after the first edge and is kept by every step of the program's sweep holds at
the end of the sweep. -/
theorem sweep_generic_c (I : List MetaBorder → List MetaBorder → Prop)
    (edges borders0 : List MetaBorder)
    (hstart : ∀ e rest, edges = e :: rest → e.line.a.y = e.line.b.y → I [e] [e])
    (hstep : ∀ processed e rest init prev_border r len, edges = processed ++ e :: rest →
      I processed (init ++ [prev_border]) → merge_view_c len prev_border e = some r →
      I (processed ++ [e]) (init ++ r))
    (st : List MetaBorder × Option ℕ) (hne : edges ≠ [])
    (h : edges.foldlM merge_step_c (borders0, none) = some st) :
    ∃ app, st.1 = borders0 ++ app ∧ I edges app := by
  have key : ∀ (rest processed app : List MetaBorder) (st : List MetaBorder × Option ℕ),
      edges = processed ++ rest → app ≠ [] → I processed app →
      rest.foldlM merge_step_c (borders0 ++ app, some (borders0.length + app.length - 1)) =
        some st →
      ∃ app', st.1 = borders0 ++ app' ∧ I edges app' := by
    intro rest
    induction rest with
    | nil =>
      intro processed app st he _ hI h
      simp only [List.foldlM_nil, Option.pure_def, Option.some.injEq] at h
      subst h
      rw [List.append_nil] at he
      subst he
      exact ⟨app, rfl, hI⟩
    | cons e rest ih =>
      intro processed app st he hne hI h
      obtain ⟨init, prev, happ⟩ := (List.eq_nil_or_concat app).resolve_left hne
      rw [List.concat_eq_append] at happ
      subst happ
      have hidx : borders0.length + (init ++ [prev]).length - 1 =
          (borders0 ++ init).length := by
        simp
      rw [List.foldlM_cons, hidx, ← List.append_assoc, merge_step_c_view] at h
      cases hv : merge_view_c ((borders0 ++ init).length + 1) prev e with
      | none => rw [hv] at h; simp at h
      | some r =>
        rw [hv] at h
        simp only [Option.map_some', Option.bind_eq_bind, Option.some_bind] at h
        have hr : r ≠ [] := by
          obtain ⟨_, _, _, hc⟩ := merge_view_c_cases _ prev e r hv
          rcases hc with ⟨_, _, rfl⟩ | ⟨_, _, rfl⟩ | ⟨_, _, _, rfl⟩ |
            ⟨_, _, _, rfl | rfl⟩ | ⟨_, _, rfl⟩ <;> simp
        have hidx2 : (borders0 ++ init).length + r.length - 1 =
            borders0.length + (init ++ r).length - 1 := by
          simp [Nat.add_assoc]
        rw [hidx2, List.append_assoc] at h
        exact ih (processed ++ [e]) (init ++ r) st (by simp [he]) (by simp [hr])
          (hstep processed e rest init prev r _ he hI hv) h
  cases hedges : edges with
  | nil => exact absurd hedges hne
  | cons e rest =>
    rw [hedges, List.foldlM_cons] at h
    have hs : merge_step_c (borders0, none) e =
        if e.line.a.y ≠ e.line.b.y then none
        else some (borders0 ++ [e], some borders0.length) := rfl
    rw [hs] at h
    by_cases hy : e.line.a.y ≠ e.line.b.y
    · simp [hy] at h
    · rw [if_neg hy] at h
      simp only [Option.bind_eq_bind, Option.some_bind] at h
      push_neg at hy
      have hidx : borders0.length = borders0.length + [e].length - 1 := by simp
      rw [hidx] at h
      rw [← hedges]
      exact key rest [e] [e] st (by simp [hedges]) (by simp) (hstart e rest hedges hy) h

/-- The program's sweep over horizontal edges that run from left to right and block
`+Y` or `-Y` appends horizontal borders of positive length that block `+Y` or `-Y`,
also when a write through `prev_border` is lost. -/
theorem sweep_c_horizontal_blockers (edges borders0 : List MetaBorder)
    (hedges : ∀ e ∈ edges, horizontal_blocker e ∧ e.line.a.x < e.line.b.x)
    (st : List MetaBorder × Option ℕ)
    (h : edges.foldlM merge_step_c (borders0, none) = some st) :
    ∀ c ∈ st.1, c ∈ borders0 ∨ horizontal_blocker c := by
  by_cases hne : edges = []
  · subst hne
    simp only [List.foldlM_nil, Option.pure_def, Option.some.injEq] at h
    subst h
    intro c hc
    exact Or.inl hc
  obtain ⟨app, happ, hI⟩ := sweep_generic_c
    (fun _ app => ∀ c ∈ app, horizontal_blocker c) edges borders0
    (fun e rest he _ c hc => by
      rw [List.mem_singleton] at hc
      subst hc
      exact (hedges c (by rw [he]; exact List.mem_cons_self _ _)).1)
    (fun processed e rest init prev r len he hI hv => by
      have hE := hedges e (by rw [he]; simp)
      have hprev : horizontal_blocker prev := hI prev (by simp)
      obtain ⟨hey, hpy, _, hc⟩ := merge_view_c_cases len prev e r hv
      intro c hc'
      rcases List.mem_append.mp hc' with hc' | hc'
      · exact hI c (List.mem_append_left _ hc')
      rcases hc with ⟨_, h2, rfl⟩ | ⟨h1, _, rfl⟩ | ⟨h1, _, h3, rfl⟩ |
        ⟨h1, h2, _, rfl | rfl⟩ | ⟨_, _, rfl⟩
      · rw [List.mem_singleton] at hc'
        subst hc'
        exact ⟨hprev.1, fun hx => h2 hx.symm, hprev.2.2⟩
      · rw [List.mem_singleton] at hc'
        subst hc'
        exact ⟨hprev.1, fun hx => (ne_of_lt h1) hx, hprev.2.2⟩
      · rw [List.mem_singleton] at hc'
        subst hc'
        refine ⟨hprev.1, fun hx => ?_, hprev.2.2⟩
        have : prev.line.a.x = e.line.b.x := hx
        have := hE.2
        linarith
      · simp only [List.mem_cons, List.mem_singleton, List.not_mem_nil, or_false] at hc'
        rcases hc' with rfl | rfl
        · exact ⟨hprev.1, fun hx => (ne_of_lt h1) hx, hprev.2.2⟩
        · refine ⟨?_, fun hx => h2 hx.symm, hprev.2.2⟩
          show e.line.b.y = prev.line.b.y
          rw [← hey, ← hpy, hprev.1]
      · simp only [List.mem_cons, List.mem_singleton, List.not_mem_nil, or_false] at hc'
        rcases hc' with rfl | rfl
        · exact hprev
        · refine ⟨?_, fun hx => h2 hx.symm, hprev.2.2⟩
          show e.line.b.y = prev.line.b.y
          rw [← hey, ← hpy, hprev.1]
      · simp only [List.mem_cons, List.mem_singleton, List.not_mem_nil, or_false] at hc'
        rcases hc' with rfl | rfl
        · exact hprev
        · exact hE.1) st hne h
  intro c hc
  rw [happ] at hc
  rcases List.mem_append.mp hc with hc | hc
  · exact Or.inl hc
  · exact Or.inr (hI c hc)

/-! ## Properties of every border of the program's outline -/

theorem gap_stage_c_cases (boxes : List MetaBox) (st st1 : OutlineState) (i : ℕ)
    (box : MetaBox) (h : gap_stage_c boxes st i box = some st1) :
    st1 = st ∨ ∃ above, 0 < i ∧ boxes[i - 1]? = some above ∧ box.y1 ≠ st.prev_top ∧
      box.y1 ≠ above.y2 ∧
      st1 = { st with
        current_roof := box.y1
        borders := add_band_bottom_edges_c boxes st.band_start i st.borders } := by
  unfold gap_stage_c at h
  split_ifs at h with h0
  · split at h
    · cases h
    · rename_i above habove
      split_ifs at h with hc
      · right
        exact ⟨above, h0, habove, hc.1, hc.2, (Option.some.inj h).symm⟩
      · left; exact (Option.some.inj h).symm
  · left; exact (Option.some.inj h).symm

theorem last_band_stage_c_cases (boxes : List MetaBox) (st st2 : OutlineState) (i : ℕ)
    (box : MetaBox) (h : last_band_stage_c boxes st i box = some st2) :
    st2 = st ∨ (box.y1 ≠ st.current_roof ∧ i = boxes.length - 1 ∧
      ∃ out, st2 = { st with borders := out } ∧
        ((box.y1 ≠ st.prev_top ∧
          add_non_overlapping_edges_c boxes st.band_start i (i + 1) st.borders = some out) ∨
         (box.y1 = st.prev_top ∧
          add_non_overlapping_edges_c boxes st.prev_band_start st.band_start (i + 1)
            st.borders = some out))) := by
  unfold last_band_stage_c at h
  split_ifs at h with h0 h1
  · right
    simp only [Option.map_eq_some'] at h
    obtain ⟨out, hout, rfl⟩ := h
    exact ⟨h0.1, h0.2, out, rfl, Or.inl ⟨h1, hout⟩⟩
  · right
    simp only [Option.map_eq_some'] at h
    obtain ⟨out, hout, rfl⟩ := h
    exact ⟨h0.1, h0.2, out, rfl, Or.inr ⟨not_not.mp h1, hout⟩⟩
  · left; exact (Option.some.inj h).symm

theorem passed_band_stage_c_cases (boxes : List MetaBox) (top_most : ℤ)
    (st st3 : OutlineState) (i : ℕ) (box : MetaBox)
    (h : passed_band_stage_c boxes top_most st i box = some st3) :
    (¬ (box.y1 ≠ top_most ∧ box.y1 ≠ st.prev_top) ∧ st3 = st) ∨
      (box.y1 ≠ top_most ∧ box.y1 ≠ st.prev_top ∧
        ∃ out, st3 = { st with
            borders := out, prev_band_start := st.band_start, band_start := i } ∧
          (add_non_overlapping_edges_c boxes st.prev_band_start st.band_start i st.borders =
            some out ∨ out = st.borders)) := by
  unfold passed_band_stage_c at h
  split_ifs at h with h0 h1
  · right
    simp only [Option.map_eq_some'] at h
    obtain ⟨out, hout, rfl⟩ := h
    exact ⟨h0.1, h0.2, out, rfl, Or.inl hout⟩
  · right
    simp only [Option.map_some', Option.some.injEq] at h
    exact ⟨h0.1, h0.2, st.borders, h.symm, Or.inr rfl⟩
  · left; exact ⟨h0, (Option.some.inj h).symm⟩

/-- The body of the main loop adds, in the program, the four converted edges of boxes
and what band merges append, nothing else: a property that these borders have is
kept. -/
theorem outline_step_c_forall (P : MetaBorder → Prop) {boxes : List MetaBox}
    (hedge : ∀ b ∈ boxes, P (top_edge_c b) ∧ P (bottom_edge_c b) ∧ P (left_edge_c b) ∧
      P (right_edge_c b))
    (hmerge : ∀ (s0 s1 s2 : ℕ) (borders out : List MetaBorder),
      add_non_overlapping_edges_c boxes s0 s1 s2 borders = some out →
      ∀ c ∈ out, c ∈ borders ∨ P c)
    (top_most bottom_most : ℤ) (i : ℕ) (st st' : OutlineState)
    (hinv : ∀ c ∈ st.borders, P c)
    (hstep : outline_step_c boxes top_most bottom_most st i = some st') :
    ∀ c ∈ st'.borders, P c := by
  unfold outline_step_c at hstep
  cases hbox : boxes[i]? with
  | none => rw [hbox] at hstep; cases hstep
  | some box =>
  rw [hbox] at hstep
  simp only [Option.bind_eq_some] at hstep
  obtain ⟨st1, hgap, st2, hlast, st3, hpassed, hedges⟩ := hstep
  simp only [Option.some.injEq] at hedges
  have hboxe := hedge box (List.getElem?_mem hbox)
  have hm : ∀ (s0 s1 s2 : ℕ) (borders out : List MetaBorder),
      (∀ c ∈ borders, P c) →
      add_non_overlapping_edges_c boxes s0 s1 s2 borders = some out →
      ∀ c ∈ out, P c := by
    intro s0 s1 s2 borders out hb hout c hc
    rcases hmerge s0 s1 s2 borders out hout c hc with h | h
    · exact hb c h
    · exact h
  have h1 : ∀ c ∈ st1.borders, P c := by
    rcases gap_stage_c_cases boxes st st1 i box hgap with h | ⟨_, _, _, _, _, h⟩
    · subst h; exact hinv
    · subst h
      intro c hc
      simp only [add_band_bottom_edges_c, List.mem_append, List.mem_map] at hc
      rcases hc with hc | ⟨p, hp, rfl⟩
      · exact hinv c hc
      · exact (hedge p (box_range_subset _ _ _ p hp)).2.1
  have h2 : ∀ c ∈ st2.borders, P c := by
    rcases last_band_stage_c_cases boxes st1 st2 i box hlast with h |
      ⟨_, _, out, h, ⟨_, hout⟩ | ⟨_, hout⟩⟩
    · subst h; exact h1
    · subst h; exact hm _ _ _ _ _ h1 hout
    · subst h; exact hm _ _ _ _ _ h1 hout
  have h3 : ∀ c ∈ st3.borders, P c := by
    rcases passed_band_stage_c_cases boxes top_most st2 st3 i box hpassed with
      ⟨_, h⟩ | ⟨_, _, out, h, hout | hout⟩
    · subst h; exact h2
    · subst h; exact hm _ _ _ _ _ h2 hout
    · subst h
      show ∀ c ∈ out, P c
      rw [hout]; exact h2
  subst hedges
  intro c hc
  unfold edges_stage_c add_border at hc
  simp only [List.mem_append, List.mem_singleton] at hc
  rcases hc with (hc | rfl) | rfl
  · by_cases c1 : box.y1 = st3.current_roof <;> by_cases c2 : box.y2 = bottom_most
    · simp only [if_pos c1, if_pos c2, List.mem_append, List.mem_singleton] at hc
      rcases hc with (hc | rfl) | rfl
      · exact h3 c hc
      · exact hboxe.1
      · exact hboxe.2.1
    · simp only [if_pos c1, if_neg c2, List.mem_append, List.mem_singleton] at hc
      rcases hc with hc | rfl
      · exact h3 c hc
      · exact hboxe.1
    · simp only [if_neg c1, if_pos c2, List.mem_append, List.mem_singleton] at hc
      rcases hc with hc | rfl
      · exact h3 c hc
      · exact hboxe.2.1
    · simp only [if_neg c1, if_neg c2] at hc
      exact h3 c hc
  · exact hboxe.2.2.1
  · exact hboxe.2.2.2

/-- A property that the four converted edges of every box have, and that every border
appended by a band merge has, is a property of every border of the program's
outline. -/
theorem outline_c_forall (P : MetaBorder → Prop) (boxes : List MetaBox)
    (hedge : ∀ b ∈ boxes, P (top_edge_c b) ∧ P (bottom_edge_c b) ∧ P (left_edge_c b) ∧
      P (right_edge_c b))
    (hmerge : ∀ (s0 s1 s2 : ℕ) (borders out : List MetaBorder),
      add_non_overlapping_edges_c boxes s0 s1 s2 borders = some out →
      ∀ c ∈ out, c ∈ borders ∨ P c)
    (outline : List MetaBorder) (h : outline_of_boxes_c boxes [] = some outline) :
    ∀ c ∈ outline, P c := by
  unfold outline_of_boxes_c at h
  split at h
  · rename_i first final _ _
    simp only [Option.map_eq_some'] at h
    obtain ⟨st, hst, rfl⟩ := h
    have key : ∀ k st, (List.range k).foldlM (outline_step_c boxes first.y1 final.y2)
        ⟨0, first.y1, 0, 0, []⟩ = some st → ∀ c ∈ st.borders, P c := by
      intro k
      induction k with
      | zero =>
        intro st h
        simp only [List.range_zero, List.foldlM_nil, Option.pure_def,
          Option.some.injEq] at h
        subst h
        simp
      | succ k ih =>
        intro st h
        rw [List.range_succ, List.foldlM_append] at h
        simp only [List.foldlM_cons, List.foldlM_nil, Option.bind_eq_bind,
          Option.bind_eq_some] at h
        obtain ⟨st0, h0, st1, h1, h2⟩ := h
        simp only [Option.pure_def, Option.some.injEq] at h2
        subst h2
        exact outline_step_c_forall P hedge hmerge first.y1 final.y2 k st0 st1 (ih st0 h0) h1
    exact key _ st hst
  · cases h

/-! ## Shape of the borders of the program's outline -/

/-- The coordinates of the box of a rectangle within the `float` integers are converted
to `float` without change. -/
theorem box_of_rectangle_exact (rect : MtkRectangle) (h : within_float_integers rect) :
    top_edge_c (box_of_rectangle rect) = top_edge (box_of_rectangle rect) ∧
      bottom_edge_c (box_of_rectangle rect) = bottom_edge (box_of_rectangle rect) ∧
      left_edge_c (box_of_rectangle rect) = left_edge (box_of_rectangle rect) ∧
      right_edge_c (box_of_rectangle rect) = right_edge (box_of_rectangle rect) :=
  edges_c_exact (box_of_rectangle rect) h.1 h.2.1 h.2.2.1 h.2.2.2

/-- For a region of rectangles of positive width and height with coordinates within the
`float` integers, every border of the outline that the program builds is a horizontal
segment of positive length that blocks `+Y` or `-Y`, or a vertical segment of positive
length that blocks `+X` or `-X`; a write lost in the band merge does not change
that. -/
theorem outline_c_blockers (region : List MtkRectangle) (outline : List MetaBorder)
    (hv : ∀ r ∈ region, 0 < r.width ∧ 0 < r.height)
    (hf : ∀ r ∈ region, within_float_integers r)
    (h : region_to_outline_c region [] = some outline) :
    ∀ c ∈ outline, horizontal_blocker c ∨ vertical_blocker c := by
  have hbox : ∀ b ∈ region.map box_of_rectangle,
      (b.x1 < b.x2 ∧ b.y1 < b.y2) ∧ top_edge_c b = top_edge b ∧
        bottom_edge_c b = bottom_edge b ∧ left_edge_c b = left_edge b ∧
        right_edge_c b = right_edge b := by
    intro b hb
    obtain ⟨r, hr, rfl⟩ := List.mem_map.mp hb
    refine ⟨?_, box_of_rectangle_exact r (hf r hr)⟩
    have := hv r hr
    simp only [box_of_rectangle]
    omega
  have htop : ∀ b ∈ region.map box_of_rectangle,
      horizontal_blocker (top_edge_c b) ∧ (top_edge_c b).line.a.x < (top_edge_c b).line.b.x := by
    intro b hb
    obtain ⟨⟨hx, _⟩, e, _, _, _⟩ := hbox b hb
    rw [e]
    have hxq : ((b.x1 : ℤ) : ℚ) < ((b.x2 : ℤ) : ℚ) := by exact_mod_cast hx
    exact ⟨⟨rfl, ne_of_lt hxq, Or.inr rfl⟩, hxq⟩
  have hbottom : ∀ b ∈ region.map box_of_rectangle,
      horizontal_blocker (bottom_edge_c b) ∧
        (bottom_edge_c b).line.a.x < (bottom_edge_c b).line.b.x := by
    intro b hb
    obtain ⟨⟨hx, _⟩, _, e, _, _⟩ := hbox b hb
    rw [e]
    have hxq : ((b.x1 : ℤ) : ℚ) < ((b.x2 : ℤ) : ℚ) := by exact_mod_cast hx
    exact ⟨⟨rfl, ne_of_lt hxq, Or.inl rfl⟩, hxq⟩
  refine outline_c_forall (fun c => horizontal_blocker c ∨ vertical_blocker c)
    (region.map box_of_rectangle) ?_ ?_ outline h
  · intro b hb
    obtain ⟨⟨_, hy⟩, _, _, e3, e4⟩ := hbox b hb
    have hyq : ((b.y1 : ℤ) : ℚ) ≠ ((b.y2 : ℤ) : ℚ) := by exact_mod_cast ne_of_lt hy
    refine ⟨Or.inl (htop b hb).1, Or.inl (hbottom b hb).1, Or.inr ?_, Or.inr ?_⟩
    · rw [e3]; exact ⟨rfl, hyq, Or.inr rfl⟩
    · rw [e4]; exact ⟨rfl, hyq, Or.inl rfl⟩
  · intro s0 s1 s2 borders out hout c hc
    unfold add_non_overlapping_edges_c at hout
    simp only [Option.map_eq_some'] at hout
    obtain ⟨st, hst, rfl⟩ := hout
    have hedges : ∀ e ∈ g_array_sort
        ((box_range (region.map box_of_rectangle) s0 s1).map bottom_edge_c ++
          (box_range (region.map box_of_rectangle) s1 s2).map top_edge_c) compare_lines_x,
        horizontal_blocker e ∧ e.line.a.x < e.line.b.x := by
      intro e he
      have he' := (List.perm_insertionSort _ _).mem_iff.mp he
      rcases List.mem_append.mp he' with he' | he'
      · obtain ⟨p, hp, rfl⟩ := List.mem_map.mp he'
        exact hbottom p (box_range_subset _ _ _ p hp)
      · obtain ⟨p, hp, rfl⟩ := List.mem_map.mp he'
        exact htop p (box_range_subset _ _ _ p hp)
    rcases sweep_c_horizontal_blockers _ borders hedges st hst c hc with h1 | h1
    · exact Or.inl h1
    · exact Or.inr (Or.inl h1)

/-- The outline that the program builds for the L-shaped region of the rectangles
`(0,0)-(10,10)` and `(10,0)-(20,5)`: no coordinate is rounded and no write is lost. -/
theorem region_to_outline_c_l_shape :
    region_to_outline_c [⟨0, 0, 10, 10⟩, ⟨10, 0, 10, 5⟩] [] = some l_shape_outline := by
  decide!

/-- C17 as stated does not hold of the program: the region of the one rectangle at
`(16777216, 0)` with width and height `1` meets the input constraint, and the program
converts both `16777216` and `16777217` to the `float` `16777216`, so that the top edge
and the bottom edge of the outline have zero length. -/
theorem outline_c_of_wide_coordinates_has_point_borders :
    region_to_outline_c [⟨16777216, 0, 1, 1⟩] [] =
        some [⟨⟨⟨16777216, 0⟩, ⟨16777216, 0⟩⟩, META_BORDER_MOTION_DIRECTION_NEGATIVE_Y⟩,
          ⟨⟨⟨16777216, 1⟩, ⟨16777216, 1⟩⟩, META_BORDER_MOTION_DIRECTION_POSITIVE_Y⟩,
          ⟨⟨⟨16777216, 0⟩, ⟨16777216, 1⟩⟩, META_BORDER_MOTION_DIRECTION_NEGATIVE_X⟩,
          ⟨⟨⟨16777216, 0⟩, ⟨16777216, 1⟩⟩, META_BORDER_MOTION_DIRECTION_POSITIVE_X⟩] ∧
      meets_input_constraint [box_of_rectangle ⟨16777216, 0, 1, 1⟩] ∧
      ¬ axis_aligned
        ⟨⟨⟨16777216, 0⟩, ⟨16777216, 0⟩⟩, META_BORDER_MOTION_DIRECTION_NEGATIVE_Y⟩ := by
  refine ⟨?_, ?_, ?_⟩
  · decide!
  · decide
  · decide!

/-- C17, amended: for every region whose rectangles have positive width and height, so
for every region meeting the input constraint, and coordinates of magnitude at most
`2 ^ 24`, every border of the outline that the program builds is either horizontal
with two different abscissas or vertical with two different ordinates; no border has
zero length, and none is both horizontal and vertical. -/
theorem outline_c_borders_axis_aligned (region : List MtkRectangle)
    (outline : List MetaBorder) (hv : ∀ r ∈ region, 0 < r.width ∧ 0 < r.height)
    (hf : ∀ r ∈ region, within_float_integers r)
    (h : region_to_outline_c region [] = some outline) :
    ∀ c ∈ outline, axis_aligned c ∧
      ¬ (c.line.a.x = c.line.b.x ∧ c.line.a.y = c.line.b.y) := by
  intro c hc
  rcases outline_c_blockers region outline hv hf h c hc with ⟨h1, h2, _⟩ | ⟨h1, h2, _⟩
  · exact ⟨Or.inl ⟨h1, h2⟩, fun hb => h2 hb.1⟩
  · exact ⟨Or.inr ⟨h1, h2⟩, fun hb => h2 hb.2⟩

/-- C17 at the L-shaped region of the rectangles `(0,0)-(10,10)` and `(10,0)-(20,5)`:
the right edge `(10,0)-(10,10)` of the first rectangle is a border of the outline; it
is vertical with two different ordinates. -/
theorem outline_c_borders_axis_aligned_witness :
    axis_aligned (right_edge ⟨0, 0, 10, 10⟩) ∧
      ¬ ((right_edge ⟨0, 0, 10, 10⟩).line.a.x = (right_edge ⟨0, 0, 10, 10⟩).line.b.x ∧
        (right_edge ⟨0, 0, 10, 10⟩).line.a.y = (right_edge ⟨0, 0, 10, 10⟩).line.b.y) :=
  outline_c_borders_axis_aligned [⟨0, 0, 10, 10⟩, ⟨10, 0, 10, 5⟩] l_shape_outline
    (by decide) (by decide) region_to_outline_c_l_shape (right_edge ⟨0, 0, 10, 10⟩)
    (by decide)

/-! ## The clamping loop of the program -/

/-- When no border both blocks one of the directions and meets the motion, the search
of the program finds none. -/
theorem get_closest_border_c_none (borders : List MetaBorder) (motion : MetaLine2)
    (directions : Directions)
    (h : ∀ b ∈ borders, ¬ (meta_border_is_blocking_directions b directions = true ∧
      (meta_line2_intersects_with b.line motion).isSome = true)) :
    get_closest_border_c borders motion directions = none := by
  have key : ∀ (l : List MetaBorder) (acc : Option MetaBorder × Option ℚ),
      (∀ b ∈ l, ¬ (meta_border_is_blocking_directions b directions = true ∧
        (meta_line2_intersects_with b.line motion).isSome = true)) →
      l.foldl (closest_border_step_c motion directions) acc = acc := by
    intro l
    induction l with
    | nil => intro acc _; rfl
    | cons b t ih =>
      intro acc hl
      have hb := hl b (List.mem_cons_self _ _)
      have hstep : closest_border_step_c motion directions acc b = acc := by
        unfold closest_border_step_c
        by_cases hbl : meta_border_is_blocking_directions b directions = true
        · have hi : meta_line2_intersects_with b.line motion = none := by
            cases hc : meta_line2_intersects_with b.line motion with
            | none => rfl
            | some v => exact absurd ⟨hbl, by rw [hc]; rfl⟩ hb
          simp [hbl, hi]
        · simp [hbl]
      rw [List.foldl_cons, hstep]
      exact ih acc fun c hc => hl c (List.mem_cons_of_mem _ hc)
  unfold get_closest_border_c
  rw [key borders (none, none) h]

/-- With origin `(0, 0)`, a previous component and a candidate component that are
multiples of `1/256` of magnitude below `65535`, as every integer of that magnitude is,
the candidate component comes back as the claimed value. -/
theorem stored_exactly_of_fixed_point (prev v : ℚ) (j k : ℤ) (hj : |j| < 2 ^ 24)
    (hk : |k| + 1 < 2 ^ 24) (hp : prev = (j : ℚ) / 256) (hv : v = (k : ℚ) / 256) :
    stored_exactly 0 prev v := by
  have hk' := abs_lt.mp (show |k| < 2 ^ 24 - 1 by omega)
  have hj' := abs_lt.mp hj
  have small : ∀ n : ℤ, |n| < 2 ^ 24 → |(n : ℚ) / 256| ≤ FLT_MAX := by
    intro n hn
    have h1 : ((|n| : ℤ) : ℚ) < ((2 ^ 24 : ℤ) : ℚ) := by exact_mod_cast hn
    have h2 : |(n : ℚ)| < 2 ^ 24 := by simpa using h1
    rw [abs_div, abs_of_pos (by norm_num : (0 : ℚ) < 256), div_le_iff₀ (by norm_num)]
    refine le_trans h2.le ?_
    norm_num [FLT_MAX]
  have e0 : v + wl_fixed_unit = ((k + 1 : ℤ) : ℚ) / 256 := by
    rw [hv, wl_fixed_unit]; push_cast; ring
  have hk1 : |k + 1| < 2 ^ 24 := abs_lt.mpr ⟨by omega, by omega⟩
  have hk0 : |k| < 2 ^ 24 := abs_lt.mpr ⟨by omega, by omega⟩
  have e1 : float_round (v + wl_fixed_unit) = v + wl_fixed_unit := by
    rw [e0]
    exact float_round_fixed_point _ hk1
  have e2 : float_round v = v := by
    rw [hv]
    exact float_round_fixed_point _ hk0
  have e3 : float_round prev = prev := by
    rw [hp]
    exact float_round_fixed_point _ hj
  have b1 : |v + wl_fixed_unit| ≤ FLT_MAX := by rw [e0]; exact small _ hk1
  have b2 : |v| ≤ FLT_MAX := by rw [hv]; exact small _ hk0
  have b3 : |prev| ≤ FLT_MAX := by rw [hp]; exact small _ hj
  have z : is_float 0 := ⟨float_round_zero, by norm_num [FLT_MAX]⟩
  unfold stored_exactly nudged
  refine ⟨z, ⟨e3, b3⟩, ⟨e2, b2⟩, ?_, ?_, ?_⟩
  · rw [sub_zero, e3]; exact b3
  · by_cases h : v > prev
    · rw [if_pos h, sub_zero, float_round_idem, e1]; exact b1
    · rw [if_neg h, sub_zero, e2]; exact b2
  · by_cases h : v > prev
    · simp only [if_pos h, sub_zero, add_zero, float_round_idem, e1]
    · simp only [if_neg h, sub_zero, add_zero, e2]

/-- C19 as stated does not hold of the program. For the rectangle `(0,0)-(10,10)`,
origin `(0,0)` and margin `0`, the segment from `(5, 5)` to the candidate
`(10 - 1/512, 5)` meets no border of the outline, yet the candidate is nudged to
`10 + 1/512`, the nudged motion meets the right border and the result is `(10, 5)`,
not `(10 - 1/512 + 1/256, 5)`. And for the rectangle `(0,0)-(200000,10)` the motion
from `(5, 5)` to `(100000, 5)` meets no border and is left unclamped, but `100000 +
1/256` is not a `float`: the result is `(100000, 5)`, the abscissa not larger than the
candidate's. -/
theorem constrain_c_clamps_after_nudge :
    region_to_outline_c [⟨0, 0, 10, 10⟩] [] =
        some [top_edge ⟨0, 0, 10, 10⟩, bottom_edge ⟨0, 0, 10, 10⟩,
          left_edge ⟨0, 0, 10, 10⟩, right_edge ⟨0, 0, 10, 10⟩] ∧
      (∀ b ∈ [top_edge ⟨0, 0, 10, 10⟩, bottom_edge ⟨0, 0, 10, 10⟩,
          left_edge ⟨0, 0, 10, 10⟩, right_edge ⟨0, 0, 10, 10⟩],
        meta_line2_intersects_with b.line ⟨⟨5, 5⟩, ⟨10 - 1 / 512, 5⟩⟩ = none) ∧
      is_float (10 - 1 / 512) ∧
      meta_pointer_constraint_impl_native_constrain_c 2 ⟨[⟨0, 0, 10, 10⟩], ⟨0, 0⟩, 0⟩
        5 5 (10 - 1 / 512) 5 = some ⟨10, 5, 1⟩ ∧
      (10 : ℚ) ≠ 10 - 1 / 512 + 1 / 256 ∧
      meta_pointer_constraint_impl_native_constrain_c 2 ⟨[⟨0, 0, 200000, 10⟩], ⟨0, 0⟩, 0⟩
        5 5 100000 5 = some ⟨100000, 5, 1⟩ := by
  refine ⟨?_, ?_, ?_, ?_, ?_, ?_⟩
  · decide!
  · decide!
  · decide!
  · decide!
  · norm_num
  · decide!

/-- C19, amended: on a non-empty region whose outline the program builds, when no
border of that outline both blocks a direction of, and meets, the motion that the
program tests (from the previous point to the nudged candidate, relative to the
origin, in `float`), the constrain operation leaves both axes unclamped, after at most
one entry of the loop body: it returns the candidate in which each strictly increased
component is larger by exactly `1/256` and every other component is the candidate's
own, for `float` components that the nudge and the translation by the origin store
exactly, with no overflow on the way. -/
theorem constrain_c_unconstrained_motion (fuel : ℕ) (impl : MetaPointerConstraintImplNative)
    (borders : List MetaBorder) (prev_x prev_y x y : ℚ) (hne : impl.region ≠ [])
    (hout : region_to_outline_c impl.region [] = some borders) (hfuel : 1 ≤ fuel)
    (hno : ∀ b ∈ borders,
      ¬ (meta_border_is_blocking_directions b
          (get_motion_directions (tested_motion_c impl.origin prev_x prev_y x y)) = true ∧
        (meta_line2_intersects_with b.line
          (tested_motion_c impl.origin prev_x prev_y x y)).isSome = true))
    (hxe : stored_exactly impl.origin.x prev_x x)
    (hye : stored_exactly impl.origin.y prev_y y) :
    ∃ n, n ≤ 1 ∧
      meta_pointer_constraint_impl_native_constrain_c fuel impl prev_x prev_y x y =
        some ⟨if x > prev_x then x + 1 / 256 else x,
          if y > prev_y then y + 1 / 256 else y, n⟩ := by
  obtain ⟨f, rfl⟩ : ∃ f, fuel = f + 1 := ⟨fuel - 1, by omega⟩
  rw [constrain_c_of_outline (f + 1) impl borders prev_x prev_y x y hne hout]
  have hg := get_closest_border_c_none borders _ _ hno
  obtain ⟨_, _, _, _, _, hxe⟩ := hxe
  obtain ⟨_, _, _, _, _, hye⟩ := hye
  rw [wl_fixed_unit] at hxe hye
  by_cases hd : (get_motion_directions
      (tested_motion_c impl.origin prev_x prev_y x y)).nonzero = true
  · refine ⟨1, le_refl 1, ?_⟩
    simp only [clamp_loop_c, hd, if_true, hg, Option.map_some']
    simp only [tested_motion_c, hxe, hye]
  · refine ⟨0, Nat.zero_le 1, ?_⟩
    simp only [clamp_loop_c, hd, Bool.false_eq_true, if_false, Option.map_some']
    simp only [tested_motion_c, hxe, hye]

/-- C19 at the rectangle `(0,0)-(10,10)` and the motion from `(2,2)` to `(5,5)`, which
stays inside: the result is `(5 + 1/256, 5 + 1/256)`. -/
theorem constrain_c_unconstrained_motion_witness :
    ∃ n, n ≤ 1 ∧
      meta_pointer_constraint_impl_native_constrain_c 1 ⟨[⟨0, 0, 10, 10⟩], ⟨0, 0⟩, 0⟩
          2 2 5 5 =
        some ⟨if (5 : ℚ) > 2 then 5 + 1 / 256 else 5,
          if (5 : ℚ) > 2 then 5 + 1 / 256 else 5, n⟩ :=
  constrain_c_unconstrained_motion 1 ⟨[⟨0, 0, 10, 10⟩], ⟨0, 0⟩, 0⟩
    [top_edge ⟨0, 0, 10, 10⟩, bottom_edge ⟨0, 0, 10, 10⟩, left_edge ⟨0, 0, 10, 10⟩,
      right_edge ⟨0, 0, 10, 10⟩] 2 2 5 5 (by simp) (by decide!) (le_refl 1) (by decide!)
    (by decide!) (by decide!)

/-! ## The program's outline of regions in banded form -/

/-- The outline that the program builds for the row `(0,0)-(10,5)` on the row
`(0,5)-(20,10)`: no coordinate is rounded and no write is lost. -/
theorem region_to_outline_c_stacked_rows :
    region_to_outline_c [⟨0, 0, 10, 5⟩, ⟨0, 5, 20, 5⟩] [] = some stacked_rows_outline := by
  decide!

/-- The outline that the program builds for the rows `(0,0)-(10,1)`, `(2,1)-(8,2)` and
`(3,2)-(5,3)`: the write that shortens the border `(2,2)-(8,2)` is lost. With every
write reaching the array that border is `(2,2)-(3,2)`. -/
theorem region_to_outline_c_lost_write :
    region_to_outline_c lost_write_region [] = some lost_write_outline ∧
      region_to_outline lost_write_region [] =
        some (lost_write_outline.set 5
          ⟨⟨⟨2, 2⟩, ⟨3, 2⟩⟩, META_BORDER_MOTION_DIRECTION_POSITIVE_Y⟩) := by
  constructor <;> decide!

/-- C10 as stated does not hold. The L-shaped region of the rectangles `(0,0)-(10,10)`
and `(10,0)-(20,5)` meets the input constraint as the spec words it, the two rectangles
are adjacent along `x = 10`, `0 < y < 5`, and the outline holds the right edge
`(10,0)-(10,10)` of the first rectangle, which covers that segment. And the region of
the rows `(0,0)-(10,1)`, `(2,1)-(8,2)` and `(3,2)-(5,3)` is in banded form; the second
and the third row are adjacent along `y = 2`, `3 < x < 5`, and the program's outline
holds the border `(2,2)-(8,2)`, which covers that segment, because the write that
shortens it was lost. -/
theorem outline_c_covers_shared_edges :
    meets_input_constraint ([⟨0, 0, 10, 10⟩, ⟨10, 0, 10, 5⟩].map box_of_rectangle) ∧
      region_to_outline_c [⟨0, 0, 10, 10⟩, ⟨10, 0, 10, 5⟩] [] = some l_shape_outline ∧
      right_edge ⟨0, 0, 10, 10⟩ ∈ l_shape_outline ∧
      covers_shared_edge ([⟨0, 0, 10, 10⟩, ⟨10, 0, 10, 5⟩].map box_of_rectangle)
        (right_edge ⟨0, 0, 10, 10⟩) ∧
      banded (lost_write_region.map box_of_rectangle) ∧
      meets_input_constraint (lost_write_region.map box_of_rectangle) ∧
      region_to_outline_c lost_write_region [] = some lost_write_outline ∧
      (⟨⟨⟨2, 2⟩, ⟨8, 2⟩⟩, META_BORDER_MOTION_DIRECTION_POSITIVE_Y⟩ : MetaBorder) ∈
        lost_write_outline ∧
      covers_shared_edge (lost_write_region.map box_of_rectangle)
        ⟨⟨⟨2, 2⟩, ⟨8, 2⟩⟩, META_BORDER_MOTION_DIRECTION_POSITIVE_Y⟩ := by
  refine ⟨by decide, region_to_outline_c_l_shape, by decide, ?_, by decide, by decide,
    region_to_outline_c_lost_write.1, by decide, ?_⟩
  · refine ⟨⟨0, 0, 10, 10⟩, by decide, ⟨10, 0, 20, 5⟩, by decide, Or.inl ?_⟩
    refine ⟨rfl, by norm_num [right_edge], by norm_num, 2, ?_⟩
    norm_num [strictly_between, right_edge]
  · refine ⟨⟨2, 1, 8, 2⟩, by decide, ⟨3, 2, 5, 3⟩, by decide, Or.inr ?_⟩
    refine ⟨rfl, by norm_num, by norm_num, 4, ?_⟩
    norm_num [strictly_between]

/-- C10, amended: for a region in the banded form that the code assumes (rows of
rectangles of one height that neither touch nor overlap within a row, rows from top to
bottom without overlap) on which the program builds the outline that it would build
with every write through `prev_border` reaching the array and every coordinate
converted exactly, no border of the outline covers a segment along which two
rectangles of the region are adjacent. -/
theorem outline_c_covers_no_shared_edge (region : List MtkRectangle)
    (outline : List MetaBorder) (hb : banded (region.map box_of_rectangle))
    (h : region_to_outline_c region [] = some outline)
    (hw : region_to_outline region [] = region_to_outline_c region []) :
    ∀ b ∈ outline, ¬ covers_shared_edge (region.map box_of_rectangle) b :=
  outline_of_banded_no_shared_edge region outline hb (hw.trans h)

/-- C10, amended, at the L-shaped region in banded form: the rectangles `(0,0)-(20,5)`
and `(0,5)-(10,10)` are adjacent along `y = 5`, `0 < x < 10`; the only border of the
outline on the line `y = 5` is `(10,5)-(20,5)`, and it covers no part of that segment. -/
theorem outline_c_covers_no_shared_edge_witness :
    region_to_outline_c [⟨0, 0, 20, 5⟩, ⟨0, 5, 10, 5⟩] [] =
        some [top_edge ⟨0, 0, 20, 5⟩, left_edge ⟨0, 0, 20, 5⟩, right_edge ⟨0, 0, 20, 5⟩,
          ⟨⟨⟨10, 5⟩, ⟨20, 5⟩⟩, META_BORDER_MOTION_DIRECTION_POSITIVE_Y⟩,
          bottom_edge ⟨0, 5, 10, 10⟩, left_edge ⟨0, 5, 10, 10⟩, right_edge ⟨0, 5, 10, 10⟩] ∧
      ¬ covers_shared_edge ([⟨0, 0, 20, 5⟩, ⟨0, 5, 10, 5⟩].map box_of_rectangle)
        ⟨⟨⟨10, 5⟩, ⟨20, 5⟩⟩, META_BORDER_MOTION_DIRECTION_POSITIVE_Y⟩ :=
  ⟨by decide!,
    outline_c_covers_no_shared_edge [⟨0, 0, 20, 5⟩, ⟨0, 5, 10, 5⟩]
      [top_edge ⟨0, 0, 20, 5⟩, left_edge ⟨0, 0, 20, 5⟩, right_edge ⟨0, 0, 20, 5⟩,
        ⟨⟨⟨10, 5⟩, ⟨20, 5⟩⟩, META_BORDER_MOTION_DIRECTION_POSITIVE_Y⟩,
        bottom_edge ⟨0, 5, 10, 10⟩, left_edge ⟨0, 5, 10, 10⟩, right_edge ⟨0, 5, 10, 10⟩]
      (by decide) (by decide!) (by decide!) _ (by simp)⟩

/-- C13 as stated does not hold. The L-shaped region given as the rectangles
`(0,0)-(10,10)` and `(10,0)-(20,5)` meets the input constraint; its outline covers the
point `(10, 2)`, which is not on the boundary of the union (the square of side 2 around
it lies in the union), and does not cover the point `(5, 10)`, which is on the
boundary. And for the region of the rows `(0,0)-(10,1)`, `(2,1)-(8,2)` and
`(3,2)-(5,3)`, in banded form, the program's outline covers the point `(4, 2)`, on the
border `(2,2)-(8,2)` that a lost write left too long; the point is not on the boundary
(the square of side 1 around it lies in the union). -/
theorem outline_c_is_not_the_boundary :
    meets_input_constraint ([⟨0, 0, 10, 10⟩, ⟨10, 0, 10, 5⟩].map box_of_rectangle) ∧
      region_to_outline_c [⟨0, 0, 10, 10⟩, ⟨10, 0, 10, 5⟩] [] = some l_shape_outline ∧
      covered_by l_shape_outline 10 2 ∧
      ¬ on_boundary ([⟨0, 0, 10, 10⟩, ⟨10, 0, 10, 5⟩].map box_of_rectangle) 10 2 ∧
      on_boundary ([⟨0, 0, 10, 10⟩, ⟨10, 0, 10, 5⟩].map box_of_rectangle) 5 10 ∧
      ¬ covered_by l_shape_outline 5 10 ∧
      banded (lost_write_region.map box_of_rectangle) ∧
      region_to_outline_c lost_write_region [] = some lost_write_outline ∧
      covered_by lost_write_outline 4 2 ∧
      ¬ on_boundary (lost_write_region.map box_of_rectangle) 4 2 := by
  have hax : ∀ c ∈ l_shape_outline, axis_aligned c := by decide!
  have hax2 : ∀ c ∈ lost_write_outline, axis_aligned c := by decide!
  refine ⟨by decide, region_to_outline_c_l_shape, ?_, ?_, ?_, ?_, by decide,
    region_to_outline_c_lost_write.1, ?_, ?_⟩
  · rw [covered_by_iff _ hax]
    decide!
  · rintro ⟨_, h⟩
    obtain ⟨x', y', h1, h2, h3⟩ := h 1 (by norm_num)
    rw [abs_lt] at h1 h2
    apply h3
    by_cases hx : x' ≤ 10
    · exact ⟨⟨0, 0, 10, 10⟩, by decide, by norm_num; linarith, by norm_num; linarith,
        by norm_num; linarith, by norm_num; linarith⟩
    · exact ⟨⟨10, 0, 20, 5⟩, by decide, by norm_num; linarith, by norm_num; linarith,
        by norm_num; linarith, by norm_num; linarith⟩
  · refine ⟨by decide!, ?_⟩
    intro ε hε
    refine ⟨5, 10 + ε / 2, by simpa using hε, ?_, ?_⟩
    · rw [add_sub_cancel_left, abs_of_pos (by linarith)]; linarith
    · rintro ⟨b, hb, _, _, _, h4⟩
      simp only [List.map, box_of_rectangle, List.mem_cons, List.mem_singleton,
        List.not_mem_nil, or_false] at hb
      rcases hb with rfl | rfl
      · norm_num at h4; linarith
      · norm_num at h4; linarith
  · rw [covered_by_iff _ hax]
    decide!
  · rw [covered_by_iff _ hax2]
    decide!
  · rintro ⟨_, h⟩
    obtain ⟨x', y', h1, h2, h3⟩ := h (1 / 2) (by norm_num)
    rw [abs_lt] at h1 h2
    apply h3
    by_cases hy : y' ≤ 2
    · exact ⟨⟨2, 1, 8, 2⟩, by decide, by norm_num; linarith, by norm_num; linarith,
        by norm_num; linarith, by norm_num; linarith⟩
    · exact ⟨⟨3, 2, 5, 3⟩, by decide, by norm_num; linarith, by norm_num; linarith,
        by norm_num; linarith, by norm_num; linarith⟩

/-- C13, amended: for a region in the banded form that the code assumes (rows of
rectangles of one height that neither touch nor overlap within a row, rows from top to
bottom without overlap) on which the program builds the outline that it would build
with every write through `prev_border` reaching the array and every coordinate
converted exactly, the points covered by the segments of the outline are exactly the
points of the topological boundary of the union of the rectangles. -/
theorem outline_c_covers_exactly_the_boundary (region : List MtkRectangle)
    (outline : List MetaBorder) (hb : banded (region.map box_of_rectangle))
    (h : region_to_outline_c region [] = some outline)
    (hw : region_to_outline region [] = region_to_outline_c region []) (x y : ℚ) :
    covered_by outline x y ↔ on_boundary (region.map box_of_rectangle) x y :=
  outline_of_boxes_covers_boundary hb outline (hw.trans h) x y

/-- C13, amended, at the L-shaped region in banded form, the rows `(0,0)-(10,5)` and
`(0,5)-(20,10)`: the point `(15, 5)` is covered by the outline, on the border
`(10,5)-(20,5)`, so it is on the boundary of the region. -/
theorem outline_c_covers_exactly_the_boundary_witness :
    covered_by stacked_rows_outline 15 5 ∧
      on_boundary ([⟨0, 0, 10, 5⟩, ⟨0, 5, 20, 5⟩].map box_of_rectangle) 15 5 :=
  have hc : covered_by stacked_rows_outline 15 5 :=
    (covered_by_iff _ (by decide!) 15 5).mpr (by decide!)
  ⟨hc, (outline_c_covers_exactly_the_boundary [⟨0, 0, 10, 5⟩, ⟨0, 5, 20, 5⟩]
    stacked_rows_outline (by decide) region_to_outline_c_stacked_rows (by decide!)
    15 5).mp hc⟩

/-- C14 as stated does not hold. The region of the rows `(0,0)-(10,5)` and
`(0,5)-(20,10)` is in banded form and meets the input constraint; the points `(0, y)`
with `0 ≤ y ≤ 10` form a straight run of its boundary; the outline holds the left edges
`(0,0)-(0,5)` and `(0,5)-(0,10)` of the two rectangles, which touch end to end in
`(0, 5)`, and no border of the outline covers both ends of the run. And for the region
of the rows `(0,0)-(10,1)`, `(2,1)-(8,2)` and `(3,2)-(5,3)`, in banded form, the
program's outline holds the borders `(2,2)-(8,2)` and `(5,2)-(8,2)` on one line, which
overlap in part: the first was left too long by a lost write. -/
theorem outline_c_splits_runs :
    banded ([⟨0, 0, 10, 5⟩, ⟨0, 5, 20, 5⟩].map box_of_rectangle) ∧
      meets_input_constraint ([⟨0, 0, 10, 5⟩, ⟨0, 5, 20, 5⟩].map box_of_rectangle) ∧
      region_to_outline_c [⟨0, 0, 10, 5⟩, ⟨0, 5, 20, 5⟩] [] = some stacked_rows_outline ∧
      vertical_run ([⟨0, 0, 10, 5⟩, ⟨0, 5, 20, 5⟩].map box_of_rectangle) 0 0 10 ∧
      left_edge ⟨0, 0, 10, 5⟩ ∈ stacked_rows_outline ∧
      left_edge ⟨0, 5, 20, 10⟩ ∈ stacked_rows_outline ∧
      (left_edge ⟨0, 0, 10, 5⟩).line.b = (left_edge ⟨0, 5, 20, 10⟩).line.a ∧
      (¬ ∃ c ∈ stacked_rows_outline, in_bounding_box c 0 0 ∧ in_bounding_box c 0 10) ∧
      banded (lost_write_region.map box_of_rectangle) ∧
      region_to_outline_c lost_write_region [] = some lost_write_outline ∧
      ∃ c ∈ lost_write_outline, ∃ d ∈ lost_write_outline,
        c.line.a.y = c.line.b.y ∧ d.line.a.y = d.line.b.y ∧ c.line.a.y = d.line.a.y ∧
          ¬ ((x_low c = x_low d ∧ x_high c = x_high d) ∨ x_high c < x_low d ∨
            x_high d < x_low c) := by
  have hb : banded ([⟨0, 0, 10, 5⟩, ⟨0, 5, 20, 5⟩].map box_of_rectangle) := by decide
  refine ⟨hb, by decide, region_to_outline_c_stacked_rows, ?_, by decide, by decide,
    by decide!, by decide!, by decide, region_to_outline_c_lost_write.1,
    ⟨⟨⟨2, 2⟩, ⟨8, 2⟩⟩, META_BORDER_MOTION_DIRECTION_POSITIVE_Y⟩, by decide,
    ⟨⟨⟨5, 2⟩, ⟨8, 2⟩⟩, META_BORDER_MOTION_DIRECTION_POSITIVE_Y⟩, by decide,
    rfl, rfl, rfl, by decide!⟩
  intro y h1 h2
  by_cases hy : y ≤ 5
  · have := (vertical_edge_on_boundary hb (b := ⟨0, 0, 10, 5⟩) (by decide) y
      (by norm_num; exact h1) (by norm_num; exact hy)).1
    simpa using this
  · have := (vertical_edge_on_boundary hb (b := ⟨0, 5, 20, 10⟩) (by decide) y
      (by norm_num; linarith) (by norm_num; exact h2)).1
    simpa using this

/-- C14, amended: for a region in banded form on which the program builds the outline
that it would build with every write through `prev_border` reaching the array and every
coordinate converted exactly, every horizontal border of the outline spans one maximal
run of its line on which the region lies on exactly one side; every abscissa of such a
run is held by a horizontal border; two horizontal borders on one line have the same
ends or are separated by an empty space, so no horizontal run is split into borders
that touch end to end or overlap in part. Vertical runs are not joined: the vertical
borders are the left and the right edge of every rectangle. -/
theorem outline_c_horizontal_borders_span_maximal_runs (region : List MtkRectangle)
    (outline : List MetaBorder) (hb : banded (region.map box_of_rectangle))
    (h : region_to_outline_c region [] = some outline)
    (hw : region_to_outline region [] = region_to_outline_c region []) :
    (∀ c ∈ outline, c.line.a.y = c.line.b.y →
        horizontal_run (region.map box_of_rectangle) c.line.a.y (x_low c) (x_high c)) ∧
      (∀ x y, one_sided (region.map box_of_rectangle) x y → horizontal_cover outline x y) ∧
      (∀ c ∈ outline, ∀ d ∈ outline, c.line.a.y = c.line.b.y → d.line.a.y = d.line.b.y →
        c.line.a.y = d.line.a.y →
        (x_low c = x_low d ∧ x_high c = x_high d) ∨ x_high c < x_low d ∨
          x_high d < x_low c) ∧
      (∀ b ∈ region.map box_of_rectangle, left_edge b ∈ outline ∧ right_edge b ∈ outline) ∧
      ∀ c ∈ outline, c.line.a.y ≠ c.line.b.y →
        ∃ b ∈ region.map box_of_rectangle, c = left_edge b ∨ c = right_edge b :=
  outline_of_banded_horizontal_runs region outline hb (hw.trans h)

/-- C14, amended, at the two rows `(0,0)-(10,10)` and `(10,10)-(20,20)` that touch in
one corner: the border `(0,10)-(20,10)` of the outline spans the maximal run from `0`
to `20` of the line `y = 10`. -/
theorem outline_c_horizontal_borders_span_maximal_runs_witness :
    horizontal_run ([⟨0, 0, 10, 10⟩, ⟨10, 10, 10, 10⟩].map box_of_rectangle) 10
      (x_low ⟨⟨⟨0, 10⟩, ⟨20, 10⟩⟩, META_BORDER_MOTION_DIRECTION_POSITIVE_Y⟩)
      (x_high ⟨⟨⟨0, 10⟩, ⟨20, 10⟩⟩, META_BORDER_MOTION_DIRECTION_POSITIVE_Y⟩) :=
  (outline_c_horizontal_borders_span_maximal_runs [⟨0, 0, 10, 10⟩, ⟨10, 10, 10, 10⟩]
    corner_touching_outline (by decide) (by decide!) (by decide!)).1
    ⟨⟨⟨0, 10⟩, ⟨20, 10⟩⟩, META_BORDER_MOTION_DIRECTION_POSITIVE_Y⟩ (by decide) rfl

/-! ## The clamping loop with any blocking test -/

/-- A border that blocks along its normal and whose blocking directions meet the
directions lies across an axis on which the directions have a bit. -/
theorem moves_across_of_normal (border : MetaBorder) (directions : Directions)
    (hn : blocks_along_normal border)
    (hb : meta_border_is_blocking_directions border directions = true) :
    moves_across border directions = true := by
  obtain ⟨line, ⟨bpx, bpy, bnx, bny⟩⟩ := border
  obtain ⟨dpx, dpy, dnx, dny⟩ := directions
  unfold blocks_along_normal at hn
  unfold moves_across
  by_cases hh : meta_border_is_horizontal ⟨line, ⟨bpx, bpy, bnx, bny⟩⟩ = true
  · simp only [hh, if_true] at hn ⊢
    obtain ⟨h1, h2⟩ := hn
    subst h1 h2
    cases dpx <;> cases dpy <;> cases dnx <;> cases dny <;> cases bpy <;> cases bny <;>
      simp_all [meta_border_is_blocking_directions, Directions.and, Directions.nonzero]
  · simp only [hh, if_false, Bool.false_eq_true] at hn ⊢
    obtain ⟨h1, h2⟩ := hn
    subst h1 h2
    cases dpx <;> cases dpy <;> cases dnx <;> cases dny <;> cases bpx <;> cases bnx <;>
      simp_all [meta_border_is_blocking_directions, Directions.and, Directions.nonzero]

/-- With the blocking test as the spec words it, the loop with a parameter is the loop
of the program. -/
theorem clamp_loop_with_spec (borders : List MetaBorder) (m : ℚ) (fuel : ℕ)
    (motion : MetaLine2) (directions : Directions) :
    clamp_loop_with meta_border_is_blocking_directions borders m fuel motion directions =
      clamp_loop_c borders m fuel motion directions := by
  induction fuel generalizing motion directions with
  | zero => rfl
  | succ fuel ih =>
    rw [clamp_loop_with, clamp_loop_c]
    have hg : get_closest_border_with meta_border_is_blocking_directions borders motion
        directions = get_closest_border_c borders motion directions := rfl
    rw [hg]
    by_cases hd : directions.nonzero = true
    · simp only [hd, if_true]
      cases get_closest_border_c borders motion directions with
      | none => rfl
      | some b => simp only [ih]
    · simp only [hd, if_false, Bool.false_eq_true]

/-! ## The bound of the clamping loop -/

end PointerConstraint
